import Mathlib

/-!
Storage kernel of rucbase: replacer, buffer pool, slotted record store, record scan

A shallow embedding of `lru_replacer.cpp`, `buffer_pool_manager.cpp`,
`rm_file_handle.cpp` and `rm_scan.cpp`.

Conventions of the embedding
* A `Page*` is the index of its frame in `pages_`.
* `std::unordered_map` is its lookup function; only `find`, `erase` and
  `operator[]` are used by the code, never iteration.
* `std::list<frame_id_t>` is a `List Nat` whose head is `front()`.
* The result `none` of a pool or replacer operation, and the result `error` of
  an operation of the record store, stand for undefined behaviour of the C++
  code at that point (`front()` of an empty list, a null page pointer that is
  dereferenced) or for behaviour that depends on the memory layout of a page
  (an access outside the bitmap or the slot array).
* The mutexes are not modelled: every operation runs under the single lock of
  its object, so operations are atomic steps.
-/

namespace Rucbase

/-! ## Identifiers and constants -/

/-- Modelled from the spec: the constant `INVALID_PAGE_ID` (declared in a header
that is not part of the sources), the page number that denotes no page. -/
def INVALID_PAGE_ID : Int := -1

/-- Modelled from the spec: the constant `INVALID_FRAME_ID` (declared in a header
that is not part of the sources); the code uses it as a page number. -/
def INVALID_FRAME_ID : Int := -1

/-- Modelled from the spec: the free-page-list sentinel `RM_NO_PAGE` (declared in
a header that is not part of the sources), meaning "no next/first free page". -/
def RM_NO_PAGE : Int := -1

/-- Modelled from the spec: the constant `RM_FIRST_RECORD_PAGE` (declared in a
header that is not part of the sources). Page 0 is reserved for the file header
and data records begin at this fixed first data page. -/
def RM_FIRST_RECORD_PAGE : Int := 1

/-- The pair (file descriptor, page number). -/
structure PageId where
  fd : Int
  page_no : Int
deriving DecidableEq, Repr

/-! ## LRU replacer (`lru_replacer.cpp`) -/

/-- State of `LRUReplacer`. `LRUlist_` has `front()` at its head. `LRUhash_` is
the key set of the hash map; the iterator stored under a key designates the
front-most list node that holds this key. -/
structure LRUReplacer where
  LRUlist_ : List Nat
  LRUhash_ : List Nat
  max_size_ : Nat
deriving DecidableEq, Repr

namespace LRUReplacer

/-- The constructor `LRUReplacer(num_pages)`. -/
def mk_empty (num_pages : Nat) : LRUReplacer :=
  { LRUlist_ := [], LRUhash_ := [], max_size_ := num_pages }

/-- The map operation `LRUhash_.erase(key)`. -/
def hash_erase (h : List Nat) (k : Nat) : List Nat :=
  h.filter (fun x => x != k)

/-- The map operation `LRUhash_[key] = it`: the key set gains the key. -/
def hash_insert (h : List Nat) (k : Nat) : List Nat :=
  if k ∈ h then h else k :: h

/-- The method `Size()`. -/
def Size (r : LRUReplacer) : Nat := r.LRUlist_.length

/-- The method `victim`: `none` is the result `false`; otherwise the frame
written to `*frame_id`. -/
def victim (r : LRUReplacer) : Option Nat × LRUReplacer :=
  match r.LRUlist_.getLast? with
  | none => (none, r)
  | some victim_id =>
    (some victim_id,
      { r with LRUlist_ := r.LRUlist_.dropLast,
               LRUhash_ := hash_erase r.LRUhash_ victim_id })

/-- The method `pin`. -/
def pin (r : LRUReplacer) (frame_id : Nat) : LRUReplacer :=
  if frame_id ∈ r.LRUhash_ then
    { r with LRUlist_ := r.LRUlist_.erase frame_id,
             LRUhash_ := hash_erase r.LRUhash_ frame_id }
  else r

/-- The loop `while (Size() >= max_size_)` of `unpin`, which pops the front of
the list. `front()` of an empty list is undefined: `none`. -/
def unpin_loop (max_size : Nat) : List Nat → List Nat → Option (List Nat × List Nat)
  | [], h => if 0 ≥ max_size then none else some ([], h)
  | need_del :: rest, h =>
    if (need_del :: rest).length ≥ max_size then
      unpin_loop max_size rest (hash_erase h need_del)
    else some (need_del :: rest, h)

/-- The method `unpin`. -/
def unpin (r : LRUReplacer) (frame_id : Nat) : Option LRUReplacer :=
  if frame_id ∈ r.LRUhash_ then some r
  else
    match unpin_loop r.max_size_ r.LRUlist_ r.LRUhash_ with
    | none => none
    | some (l, h) =>
      some { r with LRUlist_ := frame_id :: l, LRUhash_ := hash_insert h frame_id }

end LRUReplacer

/-! ## Disk manager (collaborator) -/

/-- Modelled from the spec: the Disk Manager, whose code is not part of the
sources. `pages` is the disk image, a map from PageId to page bytes, and
`fd2pageno` gives for every file the next page number to hand out. -/
structure DiskManager (D : Type) where
  pages : PageId → D
  fd2pageno : Int → Int

namespace DiskManager

variable {D : Type}

/-- Modelled from the spec: `write_page(fd, page_no, buf, size)`, a fixed-size
block transfer to disk. -/
def write_page (d : DiskManager D) (id : PageId) (buf : D) : DiskManager D :=
  { d with pages := fun p => if p = id then buf else d.pages p }

/-- Modelled from the spec: `read_page(fd, page_no, buf, size)`, a fixed-size
block transfer from disk. -/
def read_page (d : DiskManager D) (id : PageId) : D := d.pages id

/-- Modelled from the spec: `allocate_page(fd) -> page_no` reserves a new page
number of the file. -/
def allocate_page (d : DiskManager D) (fd : Int) : Int × DiskManager D :=
  (d.fd2pageno fd,
    { d with fd2pageno := fun x => if x = fd then d.fd2pageno fd + 1 else d.fd2pageno x })

/-- Modelled from the spec: `deallocate_page(page_no)` releases a page number.
The interface names no file, and the disk image is not touched. -/
def deallocate_page (d : DiskManager D) (_page_no : Int) : DiskManager D := d

end DiskManager

/-! ## Buffer pool manager (`buffer_pool_manager.cpp`) -/

/-- One frame of the pool: the class `Page`. -/
structure Page (D : Type) where
  id_ : PageId
  data_ : D
  is_dirty_ : Bool
  pin_count_ : Int

/-- State of `BufferPoolManager`, together with the disk manager and the
replacer it points to. The type `D` is the content of a page buffer, and
`default : D` is the zero-filled buffer left by `reset_memory()`. -/
structure BufferPoolManager (D : Type) where
  pool_size_ : Nat
  pages_ : Nat → Page D
  page_table_ : PageId → Option Nat
  free_list_ : List Nat
  replacer_ : LRUReplacer
  disk_manager_ : DiskManager D

namespace BufferPoolManager

variable {D : Type}

/-- Assignment to the frame `pages_[f]`. -/
def set_page (s : BufferPoolManager D) (f : Nat) (p : Page D) : BufferPoolManager D :=
  { s with pages_ := fun g => if g = f then p else s.pages_ g }

/-- The map operation `page_table_.erase(key)`. -/
def table_erase (t : PageId → Option Nat) (k : PageId) : PageId → Option Nat :=
  fun p => if p = k then none else t p

/-- The map operation `page_table_[key] = frame`. -/
def table_insert (t : PageId → Option Nat) (k : PageId) (f : Nat) : PageId → Option Nat :=
  fun p => if p = k then some f else t p

/-- Modelled from the spec: the constructor of the pool (defined in a header that
is not part of the sources). All frames are in the Free Frame List, hold no
valid page, the page table is empty and the replacer has the capacity of the
pool. -/
def init [Inhabited D] (pool_size : Nat) (disk : DiskManager D) : BufferPoolManager D :=
  { pool_size_ := pool_size
    pages_ := fun _ =>
      { id_ := ⟨-1, INVALID_PAGE_ID⟩, data_ := default, is_dirty_ := false, pin_count_ := 0 }
    page_table_ := fun _ => none
    free_list_ := List.range pool_size
    replacer_ := LRUReplacer.mk_empty pool_size
    disk_manager_ := disk }

/-- The method `find_victim_page`: `none` is the result `false`. -/
def find_victim_page (s : BufferPoolManager D) : Option Nat × BufferPoolManager D :=
  match s.free_list_ with
  | frame_id :: rest => (some frame_id, { s with free_list_ := rest })
  | [] =>
    let r := s.replacer_.victim
    (r.1, { s with replacer_ := r.2 })

/-- The method `update_page(page, new_page_id, new_frame_id)`, where `page` is
the frame index behind the pointer. -/
def update_page [Inhabited D] (s : BufferPoolManager D) (page : Nat) (new_page_id : PageId)
    (new_frame_id : Nat) : BufferPoolManager D :=
  let p0 := s.pages_ page
  -- a dirty page is written back and its flag cleared
  let disk1 := if p0.is_dirty_ then s.disk_manager_.write_page p0.id_ p0.data_
               else s.disk_manager_
  let p1 : Page D := { p0 with is_dirty_ := if p0.is_dirty_ then false else p0.is_dirty_ }
  -- reset_memory()
  let p2 : Page D := { p1 with data_ := default }
  -- the entry of the old identity is erased, the new one is entered
  let t1 := table_erase s.page_table_ p2.id_
  let p3 : Page D := { p2 with id_ := new_page_id }
  let t2 := table_insert t1 new_page_id new_frame_id
  let p4 : Page D :=
    if p3.id_.page_no ≠ INVALID_FRAME_ID then { p3 with data_ := disk1.read_page p3.id_ }
    else p3
  { s with pages_ := fun g => if g = page then p4 else s.pages_ g
           page_table_ := t2
           disk_manager_ := disk1 }

/-- The method `fetch_page`: `none` is the null pointer. -/
def fetch_page [Inhabited D] (s : BufferPoolManager D) (page_id : PageId) :
    Option Nat × BufferPoolManager D :=
  let r : Option (Nat × BufferPoolManager D) :=
    match s.page_table_ page_id with
    | some frame_id => some (frame_id, s)
    | none =>
      match find_victim_page s with
      | (none, _) => none
      | (some frame_id, s1) => some (frame_id, update_page s1 frame_id page_id frame_id)
  match r with
  | none => (none, s)
  | some (frame_id, s2) =>
    let s3 := { s2 with replacer_ := s2.replacer_.pin frame_id }
    let p := s3.pages_ frame_id
    (some frame_id, s3.set_page frame_id { p with pin_count_ := p.pin_count_ + 1 })

/-- The method `unpin_page`. The result `none` arises only from the undefined
`front()` inside `LRUReplacer::unpin`. -/
def unpin_page (s : BufferPoolManager D) (page_id : PageId) (is_dirty : Bool) :
    Option (Bool × BufferPoolManager D) :=
  match s.page_table_ page_id with
  | none => some (false, s)
  | some frame_id =>
    let page := s.pages_ frame_id
    if page.pin_count_ ≤ 0 then some (false, s)
    else
      match (if page.pin_count_ > 0 then s.replacer_.unpin frame_id else some s.replacer_) with
      | none => none
      | some rep =>
        let s1 := { s with replacer_ := rep }
        let s2 := s1.set_page frame_id { page with pin_count_ := page.pin_count_ - 1 }
        let q := s2.pages_ frame_id
        some (true, s2.set_page frame_id { q with is_dirty_ := q.is_dirty_ || is_dirty })

/-- The method `flush_page`. -/
def flush_page (s : BufferPoolManager D) (page_id : PageId) : Bool × BufferPoolManager D :=
  match s.page_table_ page_id with
  | none => (false, s)
  | some frame_id =>
    let page := s.pages_ frame_id
    let s1 := { s with disk_manager_ := s.disk_manager_.write_page page_id page.data_ }
    (true, s1.set_page frame_id { page with is_dirty_ := false })

/-- The method `new_page(page_id)`: the result is the returned pointer (`none` is
null), the value left in `*page_id`, and the new state. -/
def new_page [Inhabited D] (s : BufferPoolManager D) (page_id : PageId) :
    Option Nat × PageId × BufferPoolManager D :=
  match find_victim_page s with
  | (none, _) => (none, page_id, s)
  | (some frame_id, s1) =>
    let a := s1.disk_manager_.allocate_page page_id.fd
    let page_id1 : PageId := { page_id with page_no := a.1 }
    let s2 := update_page { s1 with disk_manager_ := a.2 } frame_id page_id1 frame_id
    let s3 := { s2 with replacer_ := s2.replacer_.pin frame_id }
    let p := s3.pages_ frame_id
    (some frame_id, page_id1, s3.set_page frame_id { p with pin_count_ := 1 })

/-- The method `delete_page`. -/
def delete_page [Inhabited D] (s : BufferPoolManager D) (page_id : PageId) :
    Bool × BufferPoolManager D :=
  match s.page_table_ page_id with
  | none => (true, s)
  | some frame_id =>
    let page := s.pages_ frame_id
    if page.pin_count_ > 0 then (false, s)
    else
      let s1 := { s with disk_manager_ := s.disk_manager_.deallocate_page page_id.page_no }
      let page_id1 : PageId := { page_id with page_no := INVALID_PAGE_ID }
      let s2 := update_page s1 frame_id page_id1 frame_id
      (true, { s2 with free_list_ := s2.free_list_ ++ [frame_id] })

/-- The body of the loop of `flush_all_pages` for the frame `i`. -/
def flush_all_pages_step (fd : Int) (s : BufferPoolManager D) (i : Nat) :
    BufferPoolManager D :=
  let page := s.pages_ i
  if page.id_.fd = fd ∧ page.id_.page_no ≠ INVALID_PAGE_ID then
    let s1 := { s with disk_manager_ := s.disk_manager_.write_page page.id_ page.data_ }
    s1.set_page i { page with is_dirty_ := false }
  else s

/-- The method `flush_all_pages`: the loop over `i = 0 .. pool_size_ - 1`. -/
def flush_all_pages (s : BufferPoolManager D) (fd : Int) : BufferPoolManager D :=
  (List.range s.pool_size_).foldl (flush_all_pages_step fd) s

/-- A call of one of the six public methods of the pool. -/
inductive Op where
  | fetch_page (page_id : PageId)
  | new_page (page_id : PageId)
  | unpin_page (page_id : PageId) (is_dirty : Bool)
  | flush_page (page_id : PageId)
  | delete_page (page_id : PageId)
  | flush_all_pages (fd : Int)

/-- The state after one call (`none`: the call is undefined). -/
def step [Inhabited D] (s : BufferPoolManager D) : Op → Option (BufferPoolManager D)
  | .fetch_page page_id => some (fetch_page s page_id).2
  | .new_page page_id => some (new_page s page_id).2.2
  | .unpin_page page_id is_dirty => (unpin_page s page_id is_dirty).map Prod.snd
  | .flush_page page_id => some (flush_page s page_id).2
  | .delete_page page_id => some (delete_page s page_id).2
  | .flush_all_pages fd => some (flush_all_pages s fd)

/-- The state after a sequence of calls. -/
def run [Inhabited D] (s : BufferPoolManager D) : List Op → Option (BufferPoolManager D)
  | [] => some s
  | op :: ops =>
    match step s op with
    | none => none
    | some s1 => run s1 ops

/-- The pool states reachable from a freshly constructed pool. -/
inductive Reachable [Inhabited D] : BufferPoolManager D → Prop
  | init (pool_size : Nat) (disk : DiskManager D) : Reachable (init pool_size disk)
  | step (s s1 : BufferPoolManager D) (op : Op) :
      Reachable s → step s op = some s1 → Reachable s1

end BufferPoolManager

/-- A disk of numbered blocks, all zero, every file empty. -/
def demoDisk : DiskManager Nat :=
  { pages := fun _ => 0, fd2pageno := fun _ => 0 }

/-- The bookkeeping invariant of the pool: every page-table entry points at the
frame that carries its identity, pin counts are not negative, every frame index
held by the page table, the Free Frame List or the replacer is a frame of the
pool, and the replacer has the capacity of the pool. -/
structure BufferPoolManager.Inv {D : Type} (s : BufferPoolManager D) : Prop where
  table_id : ∀ pid f, s.page_table_ pid = some f → (s.pages_ f).id_ = pid
  pin_nonneg : ∀ f, 0 ≤ (s.pages_ f).pin_count_
  table_lt : ∀ pid f, s.page_table_ pid = some f → f < s.pool_size_
  free_lt : ∀ f ∈ s.free_list_, f < s.pool_size_
  lru_lt : ∀ f ∈ s.replacer_.LRUlist_, f < s.pool_size_
  max_size : s.replacer_.max_size_ = s.pool_size_

/-- Every page-table entry points at a frame whose stored identity is the key of
the entry. -/
def BufferPoolManager.TableIdentity {D : Type} (s : BufferPoolManager D) : Prop :=
  ∀ pid f, s.page_table_ pid = some f → (s.pages_ f).id_ = pid

/-- No two distinct PageIds are mapped to the same frame. -/
def BufferPoolManager.TableInjective {D : Type} (s : BufferPoolManager D) : Prop :=
  ∀ p q f, s.page_table_ p = some f → s.page_table_ q = some f → p = q

/-- A pool of two frames over `demoDisk` after `fetch_page` of page 0 of file 3. -/
def demoPool : BufferPoolManager Nat :=
  (BufferPoolManager.fetch_page (BufferPoolManager.init 2 demoDisk) ⟨3, 0⟩).2

/-! ## Call sequences of the replacer and the replacer of the specification -/

/-- A call of one of the three methods of the replacer. -/
inductive ROp where
  | victim
  | pin (frame_id : Nat)
  | unpin (frame_id : Nat)
deriving DecidableEq, Repr

namespace LRUReplacer

/-- One call: the value produced by a `victim` call (`some none` is the result
`false`), nothing for `pin` and `unpin`, and the new state. -/
def call (r : LRUReplacer) : ROp → Option (Option (Option Nat) × LRUReplacer)
  | .victim => some (some r.victim.1, r.victim.2)
  | .pin f => some (none, r.pin f)
  | .unpin f => (r.unpin f).map (fun r1 => (none, r1))

/-- A sequence of calls: the results of the `victim` calls in order and the
final state. -/
def run (r : LRUReplacer) : List ROp → Option (List (Option Nat) × LRUReplacer)
  | [] => some ([], r)
  | op :: ops =>
    match r.call op with
    | none => none
    | some (out, r1) =>
      match run r1 ops with
      | none => none
      | some (outs, r2) => some (out.toList ++ outs, r2)

/-- Along the sequence of calls, every `unpin` call finds fewer than
`max_size_` tracked frames (the tracked set has not reached capacity). -/
def below_capacity (r : LRUReplacer) : List ROp → Bool
  | [] => true
  | op :: ops =>
    (match op with
      | .unpin _ => decide (r.Size < r.max_size_)
      | _ => true) &&
    (match r.call op with
      | none => false
      | some (_, r1) => below_capacity r1 ops)

end LRUReplacer

/-- The Replacer as the specification words it, not as the code has it: the
eviction-eligible frames in the order in which `unpin` inserted them, the least
recently unpinned frame first. -/
abbrev SpecReplacer := List Nat

namespace SpecReplacer

/-- Spec: "removes and returns the least-recently-unpinned frame, or reports
none available if the eviction-eligible set is empty". -/
def victim : SpecReplacer → Option Nat × SpecReplacer
  | [] => (none, [])
  | f :: q => (some f, q)

/-- Spec: "removes `frame` from the eviction-eligible set if present (no-op
otherwise)"; the order of the other frames is kept. -/
def pin (q : SpecReplacer) (frame : Nat) : SpecReplacer :=
  q.filter (fun x => x != frame)

/-- Spec: "inserts `frame` at the most-recent position if not already tracked
(no-op if already tracked)". -/
def unpin (q : SpecReplacer) (frame : Nat) : SpecReplacer :=
  if frame ∈ q then q else q ++ [frame]

/-- One call on the replacer of the specification. -/
def call (q : SpecReplacer) : ROp → Option (Option Nat) × SpecReplacer
  | .victim => (some (victim q).1, (victim q).2)
  | .pin f => (none, pin q f)
  | .unpin f => (none, unpin q f)

/-- A sequence of calls on the replacer of the specification. -/
def run (q : SpecReplacer) : List ROp → List (Option Nat) × SpecReplacer
  | [] => ([], q)
  | op :: ops =>
    ((call q op).1.toList ++ (run (call q op).2 ops).1, (run (call q op).2 ops).2)

end SpecReplacer

/-- The code state `r` represents the queue `q` of the specification. -/
structure LRUReplacer.Represents (r : LRUReplacer) (q : SpecReplacer) : Prop where
  list_eq : r.LRUlist_ = q.reverse
  hash_iff : ∀ x, x ∈ r.LRUhash_ ↔ x ∈ q
  nodup : q.Nodup

/-- The condition `LRUReplacer.below_capacity` read on the replacer of the
specification with capacity `m`. -/
def SpecReplacer.below_capacity (m : Nat) (q : SpecReplacer) : List ROp → Bool
  | [] => true
  | op :: ops =>
    (match op with
      | .unpin _ => decide (q.length < m)
      | _ => true) &&
    SpecReplacer.below_capacity m (SpecReplacer.call q op).2 ops

/-- The results of `k` successive calls `unpin_page(page_id, is_dirty)`. -/
def BufferPoolManager.unpin_results {D : Type} (s : BufferPoolManager D) (page_id : PageId)
    (is_dirty : Bool) : Nat → List (Option Bool)
  | 0 => []
  | k + 1 =>
    match s.unpin_page page_id is_dirty with
    | none => [none]
    | some (b, s1) => some b :: unpin_results s1 page_id is_dirty k

/-- The state after `fetch_page` of each page of the list in turn. -/
def BufferPoolManager.fetch_all {D : Type} [Inhabited D] (s : BufferPoolManager D)
    (page_ids : List PageId) : BufferPoolManager D :=
  page_ids.foldl (fun s1 p => (s1.fetch_page p).2) s

/-- The pool of `n` frames over `disk` after the pages of `done` have each been
fetched once, one after the other, into the fresh pool: frame `i` holds the
`i`-th page with pin count 1, the other frames are still free and untouched. -/
structure BufferPoolManager.FetchedOnce {D : Type} (disk : DiskManager D) (n : Nat)
    (done : List PageId) (s : BufferPoolManager D) : Prop where
  pool_size : s.pool_size_ = n
  free : s.free_list_ = (List.range n).drop done.length
  rep : s.replacer_ = LRUReplacer.mk_empty n
  disk_eq : s.disk_manager_ = disk
  table : ∀ q f, s.page_table_ q = some f ↔ done[f]? = some q
  valid : ∀ p ∈ done, p.page_no ≠ INVALID_PAGE_ID
  used : ∀ f, f < done.length →
    (s.pages_ f).pin_count_ = 1 ∧ (s.pages_ f).is_dirty_ = false ∧
      done[f]? = some (s.pages_ f).id_
  unused : ∀ f, done.length ≤ f →
    (s.pages_ f).pin_count_ = 0 ∧ (s.pages_ f).is_dirty_ = false ∧
      (s.pages_ f).id_ = ⟨-1, INVALID_PAGE_ID⟩

/-- A disk of zero blocks on which every file already has two pages. -/
def demoDisk2 : DiskManager Nat :=
  { pages := fun _ => 0, fd2pageno := fun _ => 2 }

/-! ## Clients of the pool: calls and writes through page pointers -/

/-- What a client of the pool does: it calls a method, or it writes through a
page pointer it holds, replacing the buffer of a frame. -/
inductive ClientOp (D : Type) where
  | call (op : BufferPoolManager.Op)
  | write (frame_id : Nat) (data : D)

namespace BufferPoolManager

variable {D : Type}

/-- A write through the page pointer of frame `frame_id`. -/
def write_data (s : BufferPoolManager D) (frame_id : Nat) (data : D) : BufferPoolManager D :=
  s.set_page frame_id { s.pages_ frame_id with data_ := data }

/-- The state after one action of a client. -/
def client_step [Inhabited D] (s : BufferPoolManager D) : ClientOp D → Option (BufferPoolManager D)
  | .call op => step s op
  | .write frame_id data => some (write_data s frame_id data)

/-- The action neither deletes page `P` nor writes into the buffer of `P`. -/
def keeps (P : PageId) (s : BufferPoolManager D) : ClientOp D → Bool
  | .call (.delete_page q) => decide (q ≠ P)
  | .call _ => true
  | .write frame_id _ => decide (s.page_table_ P ≠ some frame_id)

/-- The state after a sequence of actions none of which deletes `P` or modifies
the buffer of `P` (`none` also when an action is not of this kind). -/
def run_keeping [Inhabited D] (P : PageId) (s : BufferPoolManager D) :
    List (ClientOp D) → Option (BufferPoolManager D)
  | [] => some s
  | op :: ops =>
    if keeps P s op then
      match client_step s op with
      | none => none
      | some s1 => run_keeping P s1 ops
    else none

/-- The page `P` has the content `d`: if it is resident its buffer is `d` and
either its dirty flag is set or the disk holds `d` already; if it is not
resident the disk holds `d`. Moreover the bookkeeping around `P` is sound: the
page table respects identities, the only frame that carries the identity `P` is
the one the page table names, and the number of `P` is below the next page
number of its file. -/
structure Holds (P : PageId) (d : D) (s : BufferPoolManager D) : Prop where
  table_id : TableIdentity s
  single : ∀ g, (s.pages_ g).id_ = P → s.page_table_ P = some g
  allocated : P.page_no < s.disk_manager_.fd2pageno P.fd
  resident : ∀ g, s.page_table_ P = some g →
    (s.pages_ g).data_ = d ∧ ((s.pages_ g).is_dirty_ = true ∨ s.disk_manager_.pages P = d)
  on_disk : s.page_table_ P = none → s.disk_manager_.pages P = d

end BufferPoolManager

/-- A pool of one frame over `demoDisk2` in which page 0 of file 3 was fetched
and its buffer overwritten with 42 through the page pointer. -/
def demoWritten : BufferPoolManager Nat :=
  BufferPoolManager.write_data
    (BufferPoolManager.fetch_page (BufferPoolManager.init 1 demoDisk2) ⟨3, 0⟩).2 0 42

/-- The state `demoWritten` after `unpin_page` of page 0 of file 3 with the dirty
flag. -/
def demoReleased : BufferPoolManager Nat :=
  match BufferPoolManager.unpin_page demoWritten ⟨3, 0⟩ true with
  | some (_, s) => s
  | none => demoWritten

/-- The state `demoReleased` after page 1 of file 3 was fetched (which evicts
page 0) and unpinned again. -/
def demoEvicted : BufferPoolManager Nat :=
  match BufferPoolManager.run_keeping ⟨3, 0⟩ demoReleased
      [.call (.fetch_page ⟨3, 1⟩), .call (.unpin_page ⟨3, 1⟩ false)] with
  | some s => s
  | none => demoReleased

/-! ## Bitmap (collaborator) -/

namespace Bitmap

/-- Modelled from the spec: the bit-vector utility, whose code is not part of the
sources. A bitmap is the function from bit positions to bits of the memory that
starts at the bitmap pointer. `init(buf, size_bytes)` zero-fills. -/
def init (bm : Int → Bool) (size : Int) : Int → Bool :=
  fun i => if 0 ≤ i ∧ i < 8 * size then false else bm i

/-- Modelled from the spec: `set(buf, i)`. -/
def set (bm : Int → Bool) (pos : Int) : Int → Bool :=
  fun i => if i = pos then true else bm i

/-- Modelled from the spec: `reset(buf, i)`. -/
def reset (bm : Int → Bool) (pos : Int) : Int → Bool :=
  fun i => if i = pos then false else bm i

/-- Modelled from the spec: `is_set(buf, i) -> bool`. -/
def is_set (bm : Int → Bool) (pos : Int) : Bool := bm pos

/-- Modelled from the spec: `next_bit(value, buf, capacity, after)` finds the
first bit equal to `value` strictly after `after`; a return equal to `capacity`
means "not found". -/
def next_bit (bit : Bool) (bm : Int → Bool) (max_n : Int) (curr : Int) : Int :=
  match (List.range (max_n - (curr + 1)).toNat).find?
      (fun (k : Nat) => is_set bm (curr + 1 + (k : Int)) == bit) with
  | some k => curr + 1 + (k : Int)
  | none => max_n

/-- Modelled from the spec: `first_bit(value, buf, capacity)` finds the first bit
equal to `value`; a return equal to `capacity` means "not found". -/
def first_bit (bit : Bool) (bm : Int → Bool) (max_n : Int) : Int :=
  next_bit bit bm max_n (-1)

end Bitmap

/-! ## Slotted record store (`rm_file_handle.cpp`) -/

/-- A record identifier (page number, slot number). -/
structure Rid where
  page_no : Int
  slot_no : Int
deriving DecidableEq, Repr

/-- The file header `RmFileHdr`. -/
structure RmFileHdr where
  record_size : Int
  num_pages : Int
  num_records_per_page : Int
  first_free_page_no : Int
  bitmap_size : Int
deriving DecidableEq, Repr

/-- The buffer of a page read as a data page: the two fields of the page header
`RmPageHdr`, the bits of the slot bitmap, and the bytes of the slots (`slots i j`
is byte `j` of slot `i`). The three parts are taken as separate; an access that
in the code would leave its part is outside the embedding (result `none`). -/
structure RmPageData where
  num_records : Int
  next_free_page_no : Int
  bitmap : Int → Bool
  slots : Int → Nat → Nat

/-- The zero-filled buffer left by `reset_memory()`. -/
instance : Inhabited RmPageData :=
  ⟨{ num_records := 0, next_free_page_no := 0, bitmap := fun _ => false,
     slots := fun _ _ => 0 }⟩

/-- A record returned to the caller: the class `RmRecord`. -/
structure RmRecord where
  data : List Nat
  size : Int
deriving DecidableEq, Repr

/-- What takes a call of the record store outside the defined behaviour of the
code: a null page pointer is dereferenced, an access leaves the bitmap or the
slot array, `front()` of the empty list inside the replacer; and, for the caller
of a scan, that the bound on its rounds is used up or that an exception leaves
`next()`. -/
inductive RmFault where
  | null_page
  | out_of_bounds
  | replacer_front
  | out_of_fuel
  | exception
deriving DecidableEq, Repr

/-- How a call of the record store ends when it is defined: with a value, or
with one of the two exceptions. -/
inductive RmResult (α : Type) where
  | ok (a : α)
  | RecordNotFoundError (page_no slot_no : Int)
  | PageNotExistError (page_no : Int)
deriving DecidableEq, Repr

/-- State of `RmFileHandle`, with the buffer pool it points to (which carries the
disk manager). -/
structure RmFileHandle where
  file_hdr_ : RmFileHdr
  fd_ : Int
  buffer_pool_manager_ : BufferPoolManager RmPageData

namespace RmFileHandle

/-- The bit position lies inside the `bitmap_size` bytes of the bitmap. -/
def bit_in_range (h : RmFileHdr) (pos : Int) : Bool :=
  decide (0 ≤ pos ∧ pos < 8 * h.bitmap_size)

/-- The slot index lies inside the slot array, `get_slot(slot_no)` is a slot. -/
def slot_in_range (h : RmFileHdr) (slot_no : Int) : Bool :=
  decide (0 ≤ slot_no ∧ slot_no < h.num_records_per_page)

/-- The positions `curr + 1 .. max_n - 1` searched by `next_bit` lie inside the
bitmap, or there is none. -/
def search_in_range (h : RmFileHdr) (max_n curr : Int) : Bool :=
  decide (max_n ≤ curr + 1 ∨ (0 ≤ curr + 1 ∧ max_n ≤ 8 * h.bitmap_size))

/-- The call `memcpy(get_slot(slot_no), buf, record_size)`. -/
def write_slot (slots : Int → Nat → Nat) (slot_no : Int) (buf : List Nat) (record_size : Int) :
    Int → Nat → Nat :=
  fun i j => if i = slot_no ∧ j < record_size.toNat then buf.getD j 0 else slots i j

/-- The bytes copied by `memcpy(record->data, get_slot(slot_no), record_size)`. -/
def read_slot (slots : Int → Nat → Nat) (slot_no : Int) (record_size : Int) : List Nat :=
  (List.range record_size.toNat).map (slots slot_no)

/-- The buffer of the page behind a page handle. -/
def page_data (fh : RmFileHandle) (page : Nat) : RmPageData :=
  (fh.buffer_pool_manager_.pages_ page).data_

/-- A write through a page handle: the buffer of frame `page` becomes `d`. -/
def set_page_data (fh : RmFileHandle) (page : Nat) (d : RmPageData) : RmFileHandle :=
  { fh with buffer_pool_manager_ := fh.buffer_pool_manager_.write_data page d }

/-- The method `fetch_page_handle`; the handle is the frame of the page. A null
page makes the constructor of the handle dereference a null pointer. -/
def fetch_page_handle (fh : RmFileHandle) (page_no : Int) :
    Except RmFault (RmResult Nat × RmFileHandle) :=
  if page_no ≥ fh.file_hdr_.num_pages then .ok (.PageNotExistError page_no, fh)
  else
    match fh.buffer_pool_manager_.fetch_page ⟨fh.fd_, page_no⟩ with
    | (none, _) => .error .null_page
    | (some page, s) => .ok (.ok page, { fh with buffer_pool_manager_ := s })

/-- The method `create_new_page_handle`. The handle is constructed before the
test `page != nullptr`, so a null page is dereferenced. -/
def create_new_page_handle (fh : RmFileHandle) : Except RmFault (Nat × RmFileHandle) :=
  match fh.buffer_pool_manager_.new_page ⟨fh.fd_, INVALID_FRAME_ID⟩ with
  | (none, _, _) => .error .null_page
  | (some page, pageid, s) =>
    let fh1 : RmFileHandle :=
      { fh with buffer_pool_manager_ := s
                file_hdr_ := { fh.file_hdr_ with num_pages := fh.file_hdr_.num_pages + 1
                                                 first_free_page_no := pageid.page_no } }
    let d := fh1.page_data page
    .ok (page, fh1.set_page_data page
      { d with next_free_page_no := RM_NO_PAGE
               num_records := 0
               bitmap := Bitmap.init d.bitmap fh1.file_hdr_.bitmap_size })

/-- The method `create_page_handle`. -/
def create_page_handle (fh : RmFileHandle) : Except RmFault (RmResult Nat × RmFileHandle) :=
  if fh.file_hdr_.first_free_page_no = RM_NO_PAGE then
    match create_new_page_handle fh with
    | .error e => .error e
    | .ok (page, fh1) => .ok (.ok page, fh1)
  else fetch_page_handle fh fh.file_hdr_.first_free_page_no

/-- The method `release_page_handle`. -/
def release_page_handle (fh : RmFileHandle) (page : Nat) : RmFileHandle :=
  let d := fh.page_data page
  let fh1 := fh.set_page_data page { d with next_free_page_no := fh.file_hdr_.first_free_page_no }
  { fh1 with file_hdr_ :=
      { fh1.file_hdr_ with
        first_free_page_no := (fh1.buffer_pool_manager_.pages_ page).id_.page_no } }

/-- The method `get_record`. -/
def get_record (fh : RmFileHandle) (rid : Rid) :
    Except RmFault (RmResult RmRecord × RmFileHandle) :=
  match fetch_page_handle fh rid.page_no with
  | .error e => .error e
  | .ok (.PageNotExistError p, fh1) => .ok (.PageNotExistError p, fh1)
  | .ok (.RecordNotFoundError p s, fh1) => .ok (.RecordNotFoundError p s, fh1)
  | .ok (.ok page, fh1) =>
    if ¬ bit_in_range fh1.file_hdr_ rid.slot_no then .error .out_of_bounds
    else if ¬ Bitmap.is_set (fh1.page_data page).bitmap rid.slot_no then
      .ok (.RecordNotFoundError rid.page_no rid.slot_no, fh1)
    else if ¬ slot_in_range fh1.file_hdr_ rid.slot_no then .error .out_of_bounds
    else
      .ok (.ok { size := fh1.file_hdr_.record_size
                 data := read_slot (fh1.page_data page).slots rid.slot_no
                   fh1.file_hdr_.record_size }, fh1)

/-- The method `insert_record(char* buf, Context*)`. -/
def insert_record (fh : RmFileHandle) (buf : List Nat) :
    Except RmFault (RmResult Rid × RmFileHandle) :=
  match create_page_handle fh with
  | .error e => .error e
  | .ok (.PageNotExistError p, fh1) => .ok (.PageNotExistError p, fh1)
  | .ok (.RecordNotFoundError p s, fh1) => .ok (.RecordNotFoundError p s, fh1)
  | .ok (.ok page, fh1) =>
    if ¬ search_in_range fh1.file_hdr_ fh1.file_hdr_.num_records_per_page (-1) then
      .error .out_of_bounds
    else
      let slot_no := Bitmap.first_bit false (fh1.page_data page).bitmap
        fh1.file_hdr_.num_records_per_page
      if ¬ slot_in_range fh1.file_hdr_ slot_no then .error .out_of_bounds
      else
        let d0 := fh1.page_data page
        let fh2 := fh1.set_page_data page
          { d0 with slots := write_slot d0.slots slot_no buf fh1.file_hdr_.record_size }
        if ¬ bit_in_range fh2.file_hdr_ slot_no then .error .out_of_bounds
        else
          let d1 := fh2.page_data page
          let fh3 := fh2.set_page_data page { d1 with bitmap := Bitmap.set d1.bitmap slot_no }
          let d2 := fh3.page_data page
          let fh4 := fh3.set_page_data page { d2 with num_records := d2.num_records + 1 }
          let fh5 : RmFileHandle :=
            if (fh4.page_data page).num_records = fh4.file_hdr_.num_records_per_page then
              { fh4 with file_hdr_ :=
                  { fh4.file_hdr_ with
                    first_free_page_no := (fh4.page_data page).next_free_page_no } }
            else fh4
          .ok (.ok { page_no := (fh5.buffer_pool_manager_.pages_ page).id_.page_no
                     slot_no := slot_no }, fh5)

/-- The first two statements of `insert_record(const Rid&, char*)`: a new page is
created when `rid.page_no < num_pages`, then the page of `rid` is fetched. -/
def insert_record_rid_fetch (fh : RmFileHandle) (rid : Rid) :
    Except RmFault (RmResult Nat × RmFileHandle) :=
  let r : Except RmFault RmFileHandle :=
    if rid.page_no < fh.file_hdr_.num_pages then
      match create_new_page_handle fh with
      | .error e => .error e
      | .ok (_, fh1) => .ok fh1
    else .ok fh
  match r with
  | .error e => .error e
  | .ok fh1 => fetch_page_handle fh1 rid.page_no

/-- The method `insert_record(const Rid& rid, char* buf)`, the placement form. -/
def insert_record_rid (fh : RmFileHandle) (rid : Rid) (buf : List Nat) :
    Except RmFault (RmResult Unit × RmFileHandle) :=
  match insert_record_rid_fetch fh rid with
  | .error e => .error e
  | .ok (.PageNotExistError p, fh1) => .ok (.PageNotExistError p, fh1)
  | .ok (.RecordNotFoundError p s, fh1) => .ok (.RecordNotFoundError p s, fh1)
  | .ok (.ok page, fh1) =>
    if ¬ bit_in_range fh1.file_hdr_ rid.slot_no then .error .out_of_bounds
    else
      let d0 := fh1.page_data page
      let fh2 := fh1.set_page_data page { d0 with bitmap := Bitmap.set d0.bitmap rid.slot_no }
      let d1 := fh2.page_data page
      let fh3 := fh2.set_page_data page { d1 with num_records := d1.num_records + 1 }
      let fh4 : RmFileHandle :=
        if (fh3.page_data page).num_records = fh3.file_hdr_.num_records_per_page then
          { fh3 with file_hdr_ :=
              { fh3.file_hdr_ with
                first_free_page_no := (fh3.page_data page).next_free_page_no } }
        else fh3
      if ¬ slot_in_range fh4.file_hdr_ rid.slot_no then .error .out_of_bounds
      else
        let d2 := fh4.page_data page
        let fh5 := fh4.set_page_data page
          { d2 with slots := write_slot d2.slots rid.slot_no buf fh4.file_hdr_.record_size }
        match fh5.buffer_pool_manager_.unpin_page
            (fh5.buffer_pool_manager_.pages_ page).id_ true with
        | none => .error .replacer_front
        | some (_, s) => .ok (.ok (), { fh5 with buffer_pool_manager_ := s })

/-- The method `delete_record`. -/
def delete_record (fh : RmFileHandle) (rid : Rid) :
    Except RmFault (RmResult Unit × RmFileHandle) :=
  match fetch_page_handle fh rid.page_no with
  | .error e => .error e
  | .ok (.PageNotExistError p, fh1) => .ok (.PageNotExistError p, fh1)
  | .ok (.RecordNotFoundError p s, fh1) => .ok (.RecordNotFoundError p s, fh1)
  | .ok (.ok page, fh1) =>
    if ¬ bit_in_range fh1.file_hdr_ rid.slot_no then .error .out_of_bounds
    else if ¬ Bitmap.is_set (fh1.page_data page).bitmap rid.slot_no then
      .ok (.RecordNotFoundError rid.page_no rid.slot_no, fh1)
    else
      let d0 := fh1.page_data page
      let fh2 := fh1.set_page_data page { d0 with bitmap := Bitmap.reset d0.bitmap rid.slot_no }
      let d1 := fh2.page_data page
      let fh3 := fh2.set_page_data page { d1 with num_records := d1.num_records - 1 }
      if d1.num_records = fh3.file_hdr_.num_records_per_page then
        .ok (.ok (), release_page_handle fh3 page)
      else .ok (.ok (), fh3)

/-- The method `update_record`. -/
def update_record (fh : RmFileHandle) (rid : Rid) (buf : List Nat) :
    Except RmFault (RmResult Unit × RmFileHandle) :=
  match fetch_page_handle fh rid.page_no with
  | .error e => .error e
  | .ok (.PageNotExistError p, fh1) => .ok (.PageNotExistError p, fh1)
  | .ok (.RecordNotFoundError p s, fh1) => .ok (.RecordNotFoundError p s, fh1)
  | .ok (.ok page, fh1) =>
    if ¬ bit_in_range fh1.file_hdr_ rid.slot_no then .error .out_of_bounds
    else if ¬ Bitmap.is_set (fh1.page_data page).bitmap rid.slot_no then
      .ok (.RecordNotFoundError rid.page_no rid.slot_no, fh1)
    else if ¬ slot_in_range fh1.file_hdr_ rid.slot_no then .error .out_of_bounds
    else
      let d0 := fh1.page_data page
      .ok (.ok (), fh1.set_page_data page
        { d0 with slots := write_slot d0.slots rid.slot_no buf fh1.file_hdr_.record_size })

end RmFileHandle

/-! ## Record scan (`rm_scan.cpp`) -/

/-- State of `RmScan`, with the file handle it points to. -/
structure RmScan where
  file_handle_ : RmFileHandle
  rid_ : Rid

namespace RmScan

/-- The loop of `next()`, run for at most `fuel` iterations. -/
def next_loop : Nat → RmFileHandle → Rid → Except RmFault (RmResult Rid × RmFileHandle)
  | fuel, fh, rid =>
    if rid.page_no < fh.file_hdr_.num_pages then
      match fuel with
      | 0 => .error .out_of_fuel
      | k + 1 =>
        match fh.fetch_page_handle rid.page_no with
        | .error e => .error e
        | .ok (.PageNotExistError p, fh1) => .ok (.PageNotExistError p, fh1)
        | .ok (.RecordNotFoundError p s, fh1) => .ok (.RecordNotFoundError p s, fh1)
        | .ok (.ok page, fh1) =>
          if ¬ RmFileHandle.search_in_range fh1.file_hdr_ fh1.file_hdr_.num_records_per_page
              rid.slot_no then .error .out_of_bounds
          else
            let slot_no := Bitmap.next_bit true (fh1.page_data page).bitmap
              fh1.file_hdr_.num_records_per_page rid.slot_no
            if slot_no < fh1.file_hdr_.num_records_per_page then
              .ok (.ok { rid with slot_no := slot_no }, fh1)
            else
              let rid1 : Rid := { page_no := rid.page_no + 1, slot_no := -1 }
              if rid1.page_no ≥ fh1.file_hdr_.num_pages then
                .ok (.ok { page_no := RM_NO_PAGE, slot_no := -1 }, fh1)
              else next_loop k fh1 rid1
    else .ok (.ok rid, fh)

/-- The method `next()`. Every iteration of the loop that does not leave it
raises `rid_.page_no` by one, so `num_pages - rid_.page_no` iterations are
enough. -/
def next (sc : RmScan) : Except RmFault (RmResult Unit × RmScan) :=
  match next_loop (sc.file_handle_.file_hdr_.num_pages - sc.rid_.page_no).toNat
      sc.file_handle_ sc.rid_ with
  | .error e => .error e
  | .ok (.PageNotExistError p, fh1) => .ok (.PageNotExistError p, { sc with file_handle_ := fh1 })
  | .ok (.RecordNotFoundError p s, fh1) =>
    .ok (.RecordNotFoundError p s, { sc with file_handle_ := fh1 })
  | .ok (.ok rid, fh1) => .ok (.ok (), { file_handle_ := fh1, rid_ := rid })

/-- The constructor `RmScan(file_handle)`. -/
def create (file_handle : RmFileHandle) : Except RmFault (RmResult Unit × RmScan) :=
  next { file_handle_ := file_handle, rid_ := { page_no := RM_FIRST_RECORD_PAGE, slot_no := -1 } }

/-- The method `is_end()`. -/
def is_end (sc : RmScan) : Bool := sc.rid_.page_no == RM_NO_PAGE

/-- The method `rid()`. -/
def rid (sc : RmScan) : Rid := sc.rid_

/-- A caller that reads `rid()` and calls `next()` until `is_end()`, for at most
`fuel` rounds: the Rids it has read. -/
def collect : Nat → RmScan → Except RmFault (List Rid)
  | 0, _ => .error .out_of_fuel
  | k + 1, sc =>
    if sc.is_end then .ok []
    else
      match sc.next with
      | .error e => .error e
      | .ok (.ok (), sc1) =>
        match collect k sc1 with
        | .error e => .error e
        | .ok rids => .ok (sc.rid :: rids)
      | .ok (_, _) => .error .exception

/-- Construction of a scan followed by `collect`. -/
def scan (fuel : Nat) (file_handle : RmFileHandle) : Except RmFault (List Rid) :=
  match create file_handle with
  | .error e => .error e
  | .ok (.ok (), sc) => collect fuel sc
  | .ok (_, _) => .error .exception

end RmScan

/-- An empty disk of data pages on which file 3 has its header page only. -/
def demoRmDisk : DiskManager RmPageData :=
  { pages := fun _ => default, fd2pageno := fun _ => 1 }

/-- A table file without data pages: records of 2 bytes, 4 records per page,
over a fresh pool of two frames. -/
def demoFile : RmFileHandle :=
  { file_hdr_ := { record_size := 2, num_pages := 1, num_records_per_page := 4,
                   first_free_page_no := RM_NO_PAGE, bitmap_size := 1 }
    fd_ := 3
    buffer_pool_manager_ := BufferPoolManager.init 2 demoRmDisk }

/-- The file `demoFile` after `insert_record` of the bytes 1, 2. -/
def demoFile1 : RmFileHandle :=
  match demoFile.insert_record [1, 2] with
  | .ok (_, fh) => fh
  | .error _ => demoFile

/-- The number of set bits among the positions `0 .. n - 1` of a bitmap. -/
def Bitmap.popcount (bm : Int → Bool) : Nat → Nat
  | 0 => 0
  | n + 1 => Bitmap.popcount bm n + (if bm (n : Int) then 1 else 0)

/-- Every buffer of a selected page, in a frame or on disk, satisfies `good`. -/
structure BufferPoolManager.ImagesGood {D : Type} (good : D → Prop) (sel : PageId → Prop)
    (s : BufferPoolManager D) : Prop where
  frames : ∀ f, sel (s.pages_ f).id_ → good (s.pages_ f).data_
  disk : ∀ pid, sel pid → good (s.disk_manager_.pages pid)

namespace RmFileHandle

/-- The number of set bits of the slot bitmap of the page equals the record
count in its page header. -/
def page_good (h : RmFileHdr) (d : RmPageData) : Prop :=
  (Bitmap.popcount d.bitmap (8 * h.bitmap_size).toNat : Int) = d.num_records

/-- The PageIds of the data pages of the file `fd`. -/
def is_data_page (fd : Int) (pid : PageId) : Prop :=
  pid.fd = fd ∧ RM_FIRST_RECORD_PAGE ≤ pid.page_no

/-- Every data page of the file, as buffered in a frame or as stored on disk,
has as many set bits in its bitmap as its header counts records. -/
def PagesGood (fh : RmFileHandle) : Prop :=
  BufferPoolManager.ImagesGood (page_good fh.file_hdr_) (is_data_page fh.fd_)
    fh.buffer_pool_manager_

/-- The same property of the buffers of a pool, for the header `h` and the
file `fd`. -/
abbrev Good (h : RmFileHdr) (fd : Int) (s : BufferPoolManager RmPageData) : Prop :=
  BufferPoolManager.ImagesGood (page_good h) (is_data_page fd) s

end RmFileHandle

/-- The file `demoFile1` after the placement form of `insert_record` at the
occupied Rid (1, 0). -/
def demoFile1Placed : RmFileHandle :=
  match demoFile1.insert_record_rid ⟨1, 0⟩ [9, 9] with
  | .ok (_, fh) => fh
  | .error _ => demoFile1

/-! ## What a scan has to produce -/

/-- The current buffer of a page: the buffer of its frame when the page is
resident, its disk image otherwise. -/
def BufferPoolManager.content {D : Type} (s : BufferPoolManager D) (pid : PageId) : D :=
  match s.page_table_ pid with
  | some f => (s.pages_ f).data_
  | none => s.disk_manager_.pages pid

/-- The page `P` has the content `d`, in a pool whose bookkeeping around `P` is
sound, and no fetch can lose it: the page table respects identities, the only
frame that carries the identity `P` is the one the page table names, and when `P`
is resident its buffer is `d` and either the dirty flag is set, or the disk holds
`d` already, or the frame is neither in the Free Frame List nor tracked by the
replacer; when `P` is not resident the disk holds `d`. -/
structure BufferPoolManager.Cached {D : Type} (P : PageId) (d : D) (s : BufferPoolManager D) :
    Prop where
  table_id : BufferPoolManager.TableIdentity s
  single : ∀ g, (s.pages_ g).id_ = P → s.page_table_ P = some g
  resident : ∀ g, s.page_table_ P = some g →
    (s.pages_ g).data_ = d ∧
      ((s.pages_ g).is_dirty_ = true ∨ s.disk_manager_.pages P = d ∨
        (g ∉ s.free_list_ ∧ g ∉ s.replacer_.LRUlist_))
  on_disk : s.page_table_ P = none → s.disk_manager_.pages P = d

namespace RmScan

/-- The bit positions `curr + 1, ..., cap - 1` in ascending order. -/
def positions_after (cap curr : Int) : List Int :=
  (List.range (cap - (curr + 1)).toNat).map (fun (k : Nat) => curr + 1 + (k : Int))

/-- The occupied slots of a page after slot `curr`, in ascending order. -/
def slots_after (bm : Int → Bool) (cap curr : Int) : List Int :=
  (positions_after cap curr).filter (fun i => bm i)

/-- The Rids of the occupied slots of the `k` pages `p, p + 1, ...` of the file,
page by page in ascending order. -/
def rids_from (fh : RmFileHandle) : Nat → Int → List Rid
  | 0, _ => []
  | k + 1, p =>
    (slots_after (fh.buffer_pool_manager_.content ⟨fh.fd_, p⟩).bitmap
        fh.file_hdr_.num_records_per_page (-1)).map (fun s => ({ page_no := p, slot_no := s } : Rid))
      ++ rids_from fh k (p + 1)

/-- The Rids of all occupied slots of the data pages
`RM_FIRST_RECORD_PAGE .. num_pages - 1` of the file. -/
def all_rids (fh : RmFileHandle) : List Rid :=
  rids_from fh (fh.file_hdr_.num_pages - RM_FIRST_RECORD_PAGE).toNat RM_FIRST_RECORD_PAGE

/-- The order on Rids: by page number, then by slot number. -/
def rid_lt (a b : Rid) : Prop :=
  a.page_no < b.page_no ∨ (a.page_no = b.page_no ∧ a.slot_no < b.slot_no)

/-- What is left to scan after the Rid `(p, curr)` when `k` pages follow page
`p`. -/
def rest (fh : RmFileHandle) (k : Nat) (p curr : Int) : List Rid :=
  (slots_after (fh.buffer_pool_manager_.content ⟨fh.fd_, p⟩).bitmap
      fh.file_hdr_.num_records_per_page curr).map (fun s => ({ page_no := p, slot_no := s } : Rid))
    ++ rids_from fh k (p + 1)

end RmScan

/-- During a scan of the file `fh0` the handle `fh` has the header and the file
descriptor of `fh0`, and its pool still holds, for every data page, the content
the page had in `fh0`. -/
structure RmScan.Sound (fh0 fh : RmFileHandle) : Prop where
  hdr : fh.file_hdr_ = fh0.file_hdr_
  fd : fh.fd_ = fh0.fd_
  cached : ∀ p, RM_FIRST_RECORD_PAGE ≤ p → p < fh0.file_hdr_.num_pages →
    BufferPoolManager.Cached ⟨fh0.fd_, p⟩ (fh0.buffer_pool_manager_.content ⟨fh0.fd_, p⟩)
      fh.buffer_pool_manager_

/-- The first Rid of a list, or the end-of-scan value `(RM_NO_PAGE, -1)`. -/
def RmScan.head_or_end : List Rid → Rid
  | [] => { page_no := RM_NO_PAGE, slot_no := -1 }
  | r :: _ => r

/-- A disk on which file 3 has the header page and one data page, page 1, that
holds records in the slots 0 and 2. -/
def demoScanDisk : DiskManager RmPageData :=
  { pages := fun pid =>
      if pid = ⟨3, 1⟩ then
        { num_records := 2, next_free_page_no := RM_NO_PAGE,
          bitmap := fun i => i == 0 || i == 2, slots := fun _ _ => 7 }
      else default
    fd2pageno := fun _ => 2 }

/-- The table file on `demoScanDisk`: one data page of capacity 4, opened over a
fresh pool of two frames. -/
def demoScanFile : RmFileHandle :=
  { file_hdr_ := { record_size := 2, num_pages := 2, num_records_per_page := 4,
                   first_free_page_no := 1, bitmap_size := 1 }
    fd_ := 3
    buffer_pool_manager_ := BufferPoolManager.init 2 demoScanDisk }

/-- A disk on which file 3 has the header page and two data pages; page 1 is
empty and page 2 holds a record in slot 0. -/
def demoBigDisk : DiskManager RmPageData :=
  { pages := fun pid =>
      if pid = ⟨3, 2⟩ then
        { num_records := 1, next_free_page_no := RM_NO_PAGE,
          bitmap := fun i => i == 0, slots := fun _ _ => 7 }
      else default
    fd2pageno := fun _ => 3 }

/-- The table file on `demoBigDisk`, opened over a fresh pool of one frame. -/
def demoBigFile : RmFileHandle :=
  { file_hdr_ := { record_size := 2, num_pages := 3, num_records_per_page := 4,
                   first_free_page_no := 1, bitmap_size := 1 }
    fd_ := 3
    buffer_pool_manager_ := BufferPoolManager.init 1 demoBigDisk }

/-! ## States for `delete_page` and for a replacer at capacity -/

/-- A disk on which every block holds 7 and every file has two pages. -/
def demoDisk7 : DiskManager Nat :=
  { pages := fun _ => 7, fd2pageno := fun _ => 2 }

/-- A pool of one frame over `demoDisk7` after `fetch_page` and `unpin_page` of
page 0 of file 3: the page is resident in frame 0 with pin count 0. -/
def demoIdle : BufferPoolManager Nat :=
  match BufferPoolManager.run (BufferPoolManager.init 1 demoDisk7)
      [.fetch_page ⟨3, 0⟩, .unpin_page ⟨3, 0⟩ false] with
  | some s => s
  | none => BufferPoolManager.init 1 demoDisk7

/-- The state `demoIdle` after `delete_page` of page 0 of file 3. -/
def demoDeleted : BufferPoolManager Nat :=
  (BufferPoolManager.delete_page demoIdle ⟨3, 0⟩).2

/-- A replacer of capacity 2 after `unpin(4)` and `unpin(7)`: it tracks two
frames, frame 4 being the least recently unpinned one. -/
def demoFullReplacer : LRUReplacer :=
  match (LRUReplacer.run (LRUReplacer.mk_empty 2) [.unpin 4, .unpin 7]) with
  | some (_, r) => r
  | none => LRUReplacer.mk_empty 2

/-! ## File states for `delete_record` and `update_record` -/

/-- The state `demoFile1` after `fetch_page_handle` of its data page 1. -/
def demoFile1Fetched : RmFileHandle :=
  match demoFile1.fetch_page_handle 1 with
  | .ok (_, fh) => fh
  | .error _ => demoFile1

/-- A table file without data pages whose pages hold a single record each,
over a fresh pool of two frames. -/
def demoTinyFile : RmFileHandle :=
  { file_hdr_ := { record_size := 2, num_pages := 1, num_records_per_page := 1,
                   first_free_page_no := RM_NO_PAGE, bitmap_size := 1 }
    fd_ := 3
    buffer_pool_manager_ := BufferPoolManager.init 2 demoRmDisk }

/-- The file `demoTinyFile` after `insert_record` of the bytes 1, 2: its data
page 1 is full and the free-page list is empty. -/
def demoTinyFile1 : RmFileHandle :=
  match demoTinyFile.insert_record [1, 2] with
  | .ok (_, fh) => fh
  | .error _ => demoTinyFile

/-- The state `demoTinyFile1` after `fetch_page_handle` of its data page 1. -/
def demoTinyFile1Fetched : RmFileHandle :=
  match demoTinyFile1.fetch_page_handle 1 with
  | .ok (_, fh) => fh
  | .error _ => demoTinyFile1

/-- A pool of one frame over `demoDisk` after `fetch_page`, `fetch_page` and
`unpin_page` of page 0 of file 3: the page is resident with pin count 1, and its
frame is tracked by the replacer. -/
def demoTracked : BufferPoolManager Nat :=
  match BufferPoolManager.run (BufferPoolManager.init 1 demoDisk)
      [.fetch_page ⟨3, 0⟩, .fetch_page ⟨3, 0⟩, .unpin_page ⟨3, 0⟩ false] with
  | some s => s
  | none => BufferPoolManager.init 1 demoDisk

/-! ## Sequences of `insert_record` -/

/-- The calls `insert_record(buf)` for the buffers of the list in turn: the Rids
they return and the final state. An exception ends the sequence. -/
def RmFileHandle.insert_all (fh : RmFileHandle) :
    List (List Nat) → Except RmFault (List Rid × RmFileHandle)
  | [] => .ok ([], fh)
  | buf :: bufs =>
    match fh.insert_record buf with
    | .error e => .error e
    | .ok (.ok rid, fh1) =>
      match RmFileHandle.insert_all fh1 bufs with
      | .error e => .error e
      | .ok (rids, fh2) => .ok (rid :: rids, fh2)
    | .ok (_, _) => .error .exception

/-- The state of a file that started as `fh0`, with an empty free-page list,
after `q * c + r` calls of `insert_record(buf)` where `r < c`: `q` pages were
created and filled, and when `r ≠ 0` one more page was created and holds `r`
records, in its slots `0 .. r - 1`; the page numbers continue the page count of
`fh0` and the frames came from the front of the Free Frame List of `fh0`. -/
structure RmFileHandle.Filling (fh0 : RmFileHandle) (c q r : Nat) (fh : RmFileHandle) :
    Prop where
  fd : fh.fd_ = fh0.fd_
  record_size : fh.file_hdr_.record_size = fh0.file_hdr_.record_size
  capacity : fh.file_hdr_.num_records_per_page = fh0.file_hdr_.num_records_per_page
  bitmap_size : fh.file_hdr_.bitmap_size = fh0.file_hdr_.bitmap_size
  num_pages : fh.file_hdr_.num_pages
    = fh0.file_hdr_.num_pages + ((q + (if r = 0 then 0 else 1) : Nat) : Int)
  first_free : fh.file_hdr_.first_free_page_no
    = if r = 0 then RM_NO_PAGE else fh0.file_hdr_.num_pages + (q : Int)
  disk : fh.buffer_pool_manager_.disk_manager_.fd2pageno fh0.fd_
    = fh0.file_hdr_.num_pages + ((q + (if r = 0 then 0 else 1) : Nat) : Int)
  free : fh.buffer_pool_manager_.free_list_
    = fh0.buffer_pool_manager_.free_list_.drop (q + (if r = 0 then 0 else 1))
  current : r ≠ 0 → ∃ f,
    fh.buffer_pool_manager_.page_table_ ⟨fh0.fd_, fh0.file_hdr_.num_pages + (q : Int)⟩ = some f ∧
    (fh.buffer_pool_manager_.pages_ f).id_ = ⟨fh0.fd_, fh0.file_hdr_.num_pages + (q : Int)⟩ ∧
    (fh.page_data f).num_records = (r : Int) ∧
    (fh.page_data f).next_free_page_no = RM_NO_PAGE ∧
    (∀ b : Int, 0 ≤ b → b < (r : Int) → (fh.page_data f).bitmap b = true) ∧
    (∀ b : Int, (r : Int) ≤ b → b < (c : Int) → (fh.page_data f).bitmap b = false)
  full : r = 0 → 0 < q → ∃ f,
    fh.buffer_pool_manager_.page_table_
      ⟨fh0.fd_, fh0.file_hdr_.num_pages + (q : Int) - 1⟩ = some f ∧
    (fh.page_data f).num_records = (c : Int)

/-- A table file without data pages whose pages hold two records each, over a
fresh pool of two frames. -/
def demoPairFile : RmFileHandle :=
  { file_hdr_ := { record_size := 2, num_pages := 1, num_records_per_page := 2,
                   first_free_page_no := RM_NO_PAGE, bitmap_size := 1 }
    fd_ := 3
    buffer_pool_manager_ := BufferPoolManager.init 2 demoRmDisk }

/-! ## Pin counts of the pages of a file -/

/-- The pin count of page `page_no` of the file, when the page is resident. -/
def RmFileHandle.pin_count_of (fh : RmFileHandle) (page_no : Int) : Option Int :=
  (fh.buffer_pool_manager_.page_table_ ⟨fh.fd_, page_no⟩).map
    (fun f => (fh.buffer_pool_manager_.pages_ f).pin_count_)

/-- The file state in which a call of the record store has ended, by a return or
by one of the two exceptions. -/
def RmFileHandle.state_after {α : Type} :
    Except RmFault (RmResult α × RmFileHandle) → Option RmFileHandle
  | .ok (_, fh) => some fh
  | .error _ => none

/-- The pin count of page `page_no` after a call of the record store. -/
def RmFileHandle.pin_count_after {α : Type} (r : Except RmFault (RmResult α × RmFileHandle))
    (page_no : Int) : Option Int :=
  (RmFileHandle.state_after r).bind (fun fh => fh.pin_count_of page_no)

/-- The pin count of page `page_no` of the scanned file after a call of the
scan. -/
def RmScan.pin_count_after (r : Except RmFault (RmResult Unit × RmScan)) (page_no : Int) :
    Option Int :=
  match r with
  | .ok (_, sc) => sc.file_handle_.pin_count_of page_no
  | .error _ => none

/-- The scan of `demoScanFile` right after its construction. -/
def demoScan : RmScan :=
  match RmScan.create demoScanFile with
  | .ok (_, sc) => sc
  | .error _ => { file_handle_ := demoScanFile, rid_ := ⟨RM_FIRST_RECORD_PAGE, -1⟩ }

/-! ## The replacer with list nodes and iterators made explicit -/

/-- State of `LRUReplacer` in which the nodes of `LRUlist_` have addresses, so
that the iterators stored in `LRUhash_` can be followed. `LRUlist_` holds the
pairs (node, frame id), `front()` at the head; `LRUhash_` holds the entries
(frame id, node) of the map; `next_node` is the node that the next `push_front`
allocates. -/
structure LRUReplacerNodes where
  LRUlist_ : List (Nat × Nat)
  LRUhash_ : List (Nat × Nat)
  next_node : Nat
  max_size_ : Nat
deriving DecidableEq, Repr

namespace LRUReplacerNodes

/-- The constructor `LRUReplacer(num_pages)`. -/
def mk_empty (num_pages : Nat) : LRUReplacerNodes :=
  { LRUlist_ := [], LRUhash_ := [], next_node := 0, max_size_ := num_pages }

/-- The map operation `LRUhash_.find(key)`: the iterator stored under the key. -/
def hash_find (h : List (Nat × Nat)) (k : Nat) : Option Nat :=
  (h.find? (fun e => e.1 == k)).map Prod.snd

/-- The map operation `LRUhash_.erase(key)`. -/
def hash_erase (h : List (Nat × Nat)) (k : Nat) : List (Nat × Nat) :=
  h.filter (fun e => e.1 != k)

/-- The map operation `LRUhash_[key] = it`. -/
def hash_set (h : List (Nat × Nat)) (k it : Nat) : List (Nat × Nat) :=
  (k, it) :: hash_erase h k

/-- The list operation `LRUlist_.erase(it)`; an iterator that designates no node
of the list makes it undefined (`none`). -/
def list_erase (l : List (Nat × Nat)) (it : Nat) : Option (List (Nat × Nat)) :=
  if l.any (fun e => e.1 == it) then some (l.filter (fun e => e.1 != it)) else none

/-- The method `Size()`. -/
def Size (r : LRUReplacerNodes) : Nat := r.LRUlist_.length

/-- The method `victim`: `none` is the result `false`. -/
def victim (r : LRUReplacerNodes) : Option Nat × LRUReplacerNodes :=
  match r.LRUlist_.getLast? with
  | none => (none, r)
  | some (_, victim_id) =>
    (some victim_id,
      { r with LRUlist_ := r.LRUlist_.dropLast,
               LRUhash_ := hash_erase r.LRUhash_ victim_id })

/-- The method `pin`. -/
def pin (r : LRUReplacerNodes) (frame_id : Nat) : Option LRUReplacerNodes :=
  match hash_find r.LRUhash_ frame_id with
  | none => some r
  | some it =>
    match list_erase r.LRUlist_ it with
    | none => none
    | some l => some { r with LRUlist_ := l, LRUhash_ := hash_erase r.LRUhash_ frame_id }

/-- The loop `while (Size() >= max_size_)` of `unpin`, one node popped from the
front per iteration. `front()` of an empty list is undefined: `none`. -/
def unpin_loop (max_size : Nat) :
    List (Nat × Nat) → List (Nat × Nat) → Option (List (Nat × Nat) × List (Nat × Nat))
  | [], h => if 0 ≥ max_size then none else some ([], h)
  | (node, need_del) :: rest, h =>
    if ((node, need_del) :: rest).length ≥ max_size then
      unpin_loop max_size rest (hash_erase h need_del)
    else some ((node, need_del) :: rest, h)

/-- The method `unpin`. -/
def unpin (r : LRUReplacerNodes) (frame_id : Nat) : Option LRUReplacerNodes :=
  match hash_find r.LRUhash_ frame_id with
  | some _ => some r
  | none =>
    match unpin_loop r.max_size_ r.LRUlist_ r.LRUhash_ with
    | none => none
    | some (l, h) =>
      some { r with LRUlist_ := (r.next_node, frame_id) :: l
                    LRUhash_ := hash_set h frame_id r.next_node
                    next_node := r.next_node + 1 }

/-- One call: the value produced by a `victim` call, and the new state; `none`
when the call is undefined. -/
def call (r : LRUReplacerNodes) : ROp → Option (Option (Option Nat) × LRUReplacerNodes)
  | .victim => some (some r.victim.1, r.victim.2)
  | .pin f => (r.pin f).map (fun r1 => (none, r1))
  | .unpin f => (r.unpin f).map (fun r1 => (none, r1))

/-- A sequence of calls: the results of the `victim` calls in order and the
final state. -/
def run (r : LRUReplacerNodes) : List ROp → Option (List (Option Nat) × LRUReplacerNodes)
  | [] => some ([], r)
  | op :: ops =>
    match r.call op with
    | none => none
    | some (out, r1) =>
      match run r1 ops with
      | none => none
      | some (outs, r2) => some (out.toList ++ outs, r2)

/-- The state without the node addresses: the list of tracked frames and the
key set of the map. -/
def forget (r : LRUReplacerNodes) : LRUReplacer :=
  { LRUlist_ := r.LRUlist_.map Prod.snd
    LRUhash_ := r.LRUhash_.map Prod.fst
    max_size_ := r.max_size_ }

/-- The list and the map of the replacer fit together: no node and no frame
occurs twice in the list, no key occurs twice in the map, and the map holds the
entry (frame, node) exactly when the node of the list with this address holds
this frame. -/
structure Linked (l h : List (Nat × Nat)) : Prop where
  nodes_nodup : (l.map Prod.fst).Nodup
  frames_nodup : (l.map Prod.snd).Nodup
  keys_nodup : (h.map Prod.fst).Nodup
  entries : ∀ k it, (k, it) ∈ h ↔ (it, k) ∈ l

/-- The invariant of the replacer: list and map fit together, the nodes of the
list were allocated before `next_node`, and the list is not longer than the
capacity. -/
structure Consistent (r : LRUReplacerNodes) : Prop where
  linked : Linked r.LRUlist_ r.LRUhash_
  fresh : ∀ e ∈ r.LRUlist_, e.1 < r.next_node
  size_le : r.LRUlist_.length ≤ r.max_size_

end LRUReplacerNodes

/-! ## The free-page list of a table file -/

namespace RmFileHandle

/-- The page `page_no` of the file as the record store finds it: the current
buffer of the page. -/
def page_of (fh : RmFileHandle) (page_no : Int) : RmPageData :=
  fh.buffer_pool_manager_.content ⟨fh.fd_, page_no⟩

/-- The pages reached from `page_no` by following `next_free_page_no` until
`RM_NO_PAGE`, visiting at most `fuel` pages; `none` when the walk has not ended
by then. -/
def free_pages (fh : RmFileHandle) : Nat → Int → Option (List Int)
  | 0, p => if p = RM_NO_PAGE then some [] else none
  | k + 1, p =>
    if p = RM_NO_PAGE then some []
    else (free_pages fh k (fh.page_of p).next_free_page_no).map (fun l => p :: l)

/-- A call of `insert_record(buf)`, `delete_record(rid)` or
`update_record(rid, buf)`. -/
inductive RecOp where
  | insert_record (buf : List Nat)
  | delete_record (rid : Rid)
  | update_record (rid : Rid) (buf : List Nat)

/-- The Rid names a bit of the bitmap of a data page: its page number is at least
`RM_FIRST_RECORD_PAGE` and its slot number lies within the `bitmap_size` bytes of
the bitmap. -/
def rid_in_range (h : RmFileHdr) (rid : Rid) : Prop :=
  RM_FIRST_RECORD_PAGE ≤ rid.page_no ∧ 0 ≤ rid.slot_no ∧ rid.slot_no < 8 * h.bitmap_size

/-- The Rid of the call, if it has one, names a bit of the bitmap of a data page
of a file with header `h`. -/
def RecOp.in_range (h : RmFileHdr) : RecOp → Prop
  | .insert_record _ => True
  | .delete_record rid => rid_in_range h rid
  | .update_record rid _ => rid_in_range h rid

/-- The file state in which a call ends, by a return or by one of the two
exceptions. -/
def rec_step (fh : RmFileHandle) : RecOp → Except RmFault RmFileHandle
  | .insert_record buf =>
    match fh.insert_record buf with
    | .ok (_, fh1) => .ok fh1
    | .error e => .error e
  | .delete_record rid =>
    match fh.delete_record rid with
    | .ok (_, fh1) => .ok fh1
    | .error e => .error e
  | .update_record rid buf =>
    match fh.update_record rid buf with
    | .ok (_, fh1) => .ok fh1
    | .error e => .error e

/-- The file states reached from `fh0` by calls of `insert_record(buf)`, and of
`delete_record(rid)` and `update_record(rid, buf)` whose Rid names a bit of the
bitmap of a data page, each call ending by a return or by one of the two
exceptions. -/
inductive RecReachable (fh0 : RmFileHandle) : RmFileHandle → Prop
  | start : RecReachable fh0 fh0
  | step (fh fh1 : RmFileHandle) (op : RecOp) :
      RecReachable fh0 fh → op.in_range fh.file_hdr_ → rec_step fh op = .ok fh1 →
      RecReachable fh0 fh1

/-- The list `l` is the chain of pages that starts at `head` and follows the
pointer `next` until `RM_NO_PAGE`. -/
def Chain (next : Int → Int) : Int → List Int → Prop
  | head, [] => head = RM_NO_PAGE
  | head, p :: l => head = p ∧ Chain next (next p) l

/-- The pool under a table file holds each data page of the file in a frame of
its own, and what `new_page` can take does not hold a data page of the file: the
replacer tracks nothing, the Free Frame List has no frame twice and none of its
frames carries the identity of a data page; the next page number of the file at
the disk manager is its page count. -/
structure PoolOK (fh : RmFileHandle) : Prop where
  first : RM_FIRST_RECORD_PAGE ≤ fh.file_hdr_.num_pages
  disk : fh.buffer_pool_manager_.disk_manager_.fd2pageno fh.fd_ = fh.file_hdr_.num_pages
  rep : fh.buffer_pool_manager_.replacer_.LRUlist_ = []
  free_nodup : fh.buffer_pool_manager_.free_list_.Nodup
  free_ids : ∀ f ∈ fh.buffer_pool_manager_.free_list_,
    ¬ is_data_page fh.fd_ (fh.buffer_pool_manager_.pages_ f).id_
  resident : ∀ p, RM_FIRST_RECORD_PAGE ≤ p → p < fh.file_hdr_.num_pages →
    ∃ g, fh.buffer_pool_manager_.page_table_ ⟨fh.fd_, p⟩ = some g ∧
      (fh.buffer_pool_manager_.pages_ g).id_ = ⟨fh.fd_, p⟩

/-- The data pages `pg` of a file with header `hdr` and capacity `c`: on every
data page the record count is the number of set bits among the slots
`0 .. c - 1` and the bits of the bitmap beyond the capacity are clear; the pages
chained from `first_free_page_no` by `next_free_page_no` form a list without
duplicates that holds exactly the data pages with a record count below `c`. -/
structure DataOK (c : Nat) (hdr : RmFileHdr) (pg : Int → RmPageData) : Prop where
  cap : hdr.num_records_per_page = (c : Int)
  cap_pos : 1 ≤ c
  layout : (c : Int) ≤ 8 * hdr.bitmap_size
  count : ∀ p, RM_FIRST_RECORD_PAGE ≤ p → p < hdr.num_pages →
    (Bitmap.popcount (pg p).bitmap c : Int) = (pg p).num_records
  padding : ∀ p, RM_FIRST_RECORD_PAGE ≤ p → p < hdr.num_pages →
    ∀ b : Int, (c : Int) ≤ b → b < 8 * hdr.bitmap_size → (pg p).bitmap b = false
  chain : ∃ l, Chain (fun p => (pg p).next_free_page_no) hdr.first_free_page_no l ∧ l.Nodup ∧
    ∀ p, p ∈ l ↔
      (RM_FIRST_RECORD_PAGE ≤ p ∧ p < hdr.num_pages ∧ (pg p).num_records < (c : Int))

/-- The invariant of a table file under `insert_record(buf)`, `delete_record` and
`update_record`. -/
structure FreeListInv (c : Nat) (fh : RmFileHandle) : Prop where
  pool : PoolOK fh
  data : DataOK c fh.file_hdr_ fh.page_of

end RmFileHandle

/-- The file `demoTinyFile1` after `delete_record` of the Rid (1, 0): its data
page 1 is empty again and heads the free-page list. -/
def demoTinyFile1Deleted : RmFileHandle :=
  match demoTinyFile1.delete_record ⟨1, 0⟩ with
  | .ok (_, fh) => fh
  | .error _ => demoTinyFile1

/-- A disk on which file 3 has its header page only, and on which the bytes of
that page, read as a data page, show a record count of 4 and a bitmap whose first
32 bits are set. -/
def demoHdrDisk : DiskManager RmPageData :=
  { pages := fun pid =>
      if pid = ⟨3, 0⟩ then
        { num_records := 4, next_free_page_no := 1,
          bitmap := fun i => decide (0 ≤ i ∧ i < 32), slots := fun _ _ => 0 }
      else default
    fd2pageno := fun _ => 1 }

/-- A table file without data pages on `demoHdrDisk`: records of 2 bytes, 4
records per page, over a fresh pool of two frames. -/
def demoHdrFile : RmFileHandle :=
  { file_hdr_ := { record_size := 2, num_pages := 1, num_records_per_page := 4,
                   first_free_page_no := RM_NO_PAGE, bitmap_size := 1 }
    fd_ := 3
    buffer_pool_manager_ := BufferPoolManager.init 2 demoHdrDisk }

/-- The file `demoHdrFile` after `delete_record` of the Rid (0, 0), which names
the header page. -/
def demoHdrFileDeleted : RmFileHandle :=
  match demoHdrFile.delete_record ⟨0, 0⟩ with
  | .ok (_, fh) => fh
  | .error _ => demoHdrFile

/-- The table file on `demoBigDisk`, opened over a fresh pool of two frames. -/
def demoBigFileTwoFrames : RmFileHandle :=
  { demoBigFile with buffer_pool_manager_ := BufferPoolManager.init 2 demoBigDisk }

/-- The state `demoBigFile` after `fetch_page_handle` of its data page 1, the
first fetch of a scan. -/
def demoBigFileFetched : RmFileHandle :=
  match demoBigFile.fetch_page_handle 1 with
  | .ok (_, fh) => fh
  | .error _ => demoBigFile

/-- The state `demoBigFileFetched` after `unpin_page` of page 1, the call that
the scan does not make. -/
def demoBigFileReleased : RmFileHandle :=
  match demoBigFileFetched.buffer_pool_manager_.unpin_page ⟨3, 1⟩ false with
  | some (_, s) => { demoBigFileFetched with buffer_pool_manager_ := s }
  | none => demoBigFileFetched

/-- During a scan positioned on page `p` the pool has a frame for every page the
scan still has to fetch: the Free Frame List holds a frame for each of the pages
`p .. num_pages - 1`, or page `p` is resident and the list holds a frame for
each later page. -/
def RmScan.Frames (fh : RmFileHandle) (p : Int) : Prop :=
  fh.file_hdr_.num_pages - p ≤ (fh.buffer_pool_manager_.free_list_.length : Int) ∨
    ((fh.buffer_pool_manager_.page_table_ ⟨fh.fd_, p⟩).isSome = true ∧
      fh.file_hdr_.num_pages - p - 1 ≤ (fh.buffer_pool_manager_.free_list_.length : Int))



/-! ## Basic facts about the replacer -/

namespace LRUReplacer

theorem mem_hash_erase {h : List Nat} {k x : Nat} :
    x ∈ hash_erase h k ↔ x ∈ h ∧ x ≠ k := by
  simp [hash_erase]

theorem mem_hash_insert {h : List Nat} {k x : Nat} :
    x ∈ hash_insert h k ↔ x = k ∨ x ∈ h := by
  unfold hash_insert
  split
  · constructor
    · intro hx; exact Or.inr hx
    · rintro (rfl | hx)
      · assumption
      · exact hx
  · simp

theorem unpin_loop_mem {m : Nat} :
    ∀ (l h l1 h1 : List Nat), unpin_loop m l h = some (l1, h1) → ∀ x ∈ l1, x ∈ l
  | [], h, l1, h1, hl, x, hx => by
    unfold unpin_loop at hl
    split at hl
    · cases hl
    · cases hl; exact hx
  | a :: rest, h, l1, h1, hl, x, hx => by
    unfold unpin_loop at hl
    split at hl
    · exact List.mem_cons_of_mem _ (unpin_loop_mem rest _ l1 h1 hl x hx)
    · cases hl; exact hx

theorem unpin_loop_isSome {m : Nat} (hm : 0 < m) :
    ∀ (l h : List Nat), (unpin_loop m l h).isSome
  | [], h => by
    unfold unpin_loop
    have : ¬ (0 ≥ m) := by omega
    simp [this]
  | a :: rest, h => by
    unfold unpin_loop
    split
    · exact unpin_loop_isSome hm rest _
    · rfl

theorem victim_max_size (r : LRUReplacer) : r.victim.2.max_size_ = r.max_size_ := by
  unfold victim; split <;> rfl

theorem victim_mem (r : LRUReplacer) : ∀ x ∈ r.victim.2.LRUlist_, x ∈ r.LRUlist_ := by
  intro x hx
  unfold victim at hx
  split at hx
  · exact hx
  · exact List.dropLast_subset _ hx

theorem victim_some_mem (r : LRUReplacer) (f : Nat) (h : r.victim.1 = some f) :
    f ∈ r.LRUlist_ := by
  unfold victim at h
  split at h
  · cases h
  · rename_i v hv
    simp only [Option.some.injEq] at h
    subst h
    exact List.mem_of_getLast?_eq_some hv

theorem pin_max_size (r : LRUReplacer) (f : Nat) : (r.pin f).max_size_ = r.max_size_ := by
  unfold pin; split <;> rfl

theorem pin_mem (r : LRUReplacer) (f : Nat) : ∀ x ∈ (r.pin f).LRUlist_, x ∈ r.LRUlist_ := by
  intro x hx
  unfold pin at hx
  split at hx
  · exact List.mem_of_mem_erase hx
  · exact hx

theorem unpin_max_size (r r1 : LRUReplacer) (f : Nat) (h : r.unpin f = some r1) :
    r1.max_size_ = r.max_size_ := by
  unfold unpin at h
  split at h
  · cases h; rfl
  · split at h
    · cases h
    · cases h; rfl

theorem unpin_mem (r r1 : LRUReplacer) (f : Nat) (h : r.unpin f = some r1) :
    ∀ x ∈ r1.LRUlist_, x = f ∨ x ∈ r.LRUlist_ := by
  intro x hx
  unfold unpin at h
  split at h
  · cases h; exact Or.inr hx
  · split at h
    · cases h
    · rename_i l hh heq
      cases h
      rcases List.mem_cons.1 hx with hx | hx
      · exact Or.inl hx
      · exact Or.inr (unpin_loop_mem _ _ _ _ heq x hx)

theorem unpin_isSome (r : LRUReplacer) (f : Nat) (hm : 0 < r.max_size_) :
    (r.unpin f).isSome := by
  unfold unpin
  split
  · rfl
  · have := unpin_loop_isSome hm r.LRUlist_ r.LRUhash_
    cases hq : unpin_loop r.max_size_ r.LRUlist_ r.LRUhash_ with
    | none => rw [hq] at this; cases this
    | some p => rfl

end LRUReplacer


/-! ## The bookkeeping invariant of the pool -/

namespace BufferPoolManager

variable {D : Type}

theorem inv_init [Inhabited D] (n : Nat) (disk : DiskManager D) : Inv (init n disk) where
  table_id := by intro pid f h; simp [init] at h
  pin_nonneg := by intro f; simp [init]
  table_lt := by intro pid f h; simp [init] at h
  free_lt := by intro f h; simpa [init] using h
  lru_lt := by intro f h; simp [init, LRUReplacer.mk_empty] at h
  max_size := rfl

theorem find_victim_page_lt (s : BufferPoolManager D) (hs : Inv s) (f : Nat)
    (h : (find_victim_page s).1 = some f) : f < s.pool_size_ := by
  unfold find_victim_page at h
  split at h
  · rename_i g rest hg
    simp only [Option.some.injEq] at h
    subst h
    exact hs.free_lt g (by rw [hg]; exact List.mem_cons_self _ _)
  · exact hs.lru_lt f (LRUReplacer.victim_some_mem _ _ h)

theorem inv_find_victim_page (s : BufferPoolManager D) (hs : Inv s) :
    Inv (find_victim_page s).2 := by
  unfold find_victim_page
  split
  · rename_i g rest hg
    exact { table_id := hs.table_id, pin_nonneg := hs.pin_nonneg, table_lt := hs.table_lt,
            free_lt := fun f hf => hs.free_lt f (by rw [hg]; exact List.mem_cons_of_mem _ hf),
            lru_lt := hs.lru_lt, max_size := hs.max_size }
  · exact { table_id := hs.table_id, pin_nonneg := hs.pin_nonneg, table_lt := hs.table_lt,
            free_lt := hs.free_lt,
            lru_lt := fun f hf => hs.lru_lt f (LRUReplacer.victim_mem _ f hf),
            max_size := by
              show s.replacer_.victim.2.max_size_ = s.pool_size_
              rw [LRUReplacer.victim_max_size]; exact hs.max_size }

theorem find_victim_page_pool_size (s : BufferPoolManager D) :
    (find_victim_page s).2.pool_size_ = s.pool_size_ := by
  unfold find_victim_page; split <;> rfl

theorem inv_update_page [Inhabited D] (s : BufferPoolManager D) (hs : Inv s) (f : Nat)
    (hf : f < s.pool_size_) (new_id : PageId) : Inv (update_page s f new_id f) where
  table_id := by
    intro pid g h
    simp only [update_page, table_insert, table_erase] at h ⊢
    by_cases hp : pid = new_id
    · simp only [hp, if_true, Option.some.injEq] at h
      subst h
      simp only [if_true]
      split <;> simp [hp]
    · simp only [hp, if_false] at h
      split at h
      · cases h
      · rename_i hne
        have hg := hs.table_id pid g h
        have : g ≠ f := by
          intro hgf; subst hgf; exact hne hg.symm
        simp only [this, if_false]
        exact hg
  pin_nonneg := by
    intro g
    simp only [update_page]
    by_cases hg : g = f
    · subst hg
      simp only [if_true]
      split <;> exact hs.pin_nonneg g
    · simp only [hg, if_false]
      exact hs.pin_nonneg g
  table_lt := by
    intro pid g h
    simp only [update_page, table_insert, table_erase] at h ⊢
    by_cases hp : pid = new_id
    · simp only [hp, if_true, Option.some.injEq] at h
      subst h; exact hf
    · simp only [hp, if_false] at h
      split at h
      · cases h
      · exact hs.table_lt pid g h
  free_lt := hs.free_lt
  lru_lt := hs.lru_lt
  max_size := hs.max_size

theorem inv_set_pin (s : BufferPoolManager D) (hs : Inv s) (f : Nat) (p : Page D)
    (hid : p.id_ = (s.pages_ f).id_) (hpin : 0 ≤ p.pin_count_) : Inv (s.set_page f p) where
  table_id := by
    intro pid g h
    simp only [set_page] at h ⊢
    by_cases hg : g = f
    · subst hg; simp only [if_true]; rw [hid]; exact hs.table_id pid g h
    · simp only [hg, if_false]; exact hs.table_id pid g h
  pin_nonneg := by
    intro g
    simp only [set_page]
    by_cases hg : g = f
    · simp only [hg, if_true]; exact hpin
    · simp only [hg, if_false]; exact hs.pin_nonneg g
  table_lt := hs.table_lt
  free_lt := hs.free_lt
  lru_lt := hs.lru_lt
  max_size := hs.max_size

theorem inv_replacer_pin (s : BufferPoolManager D) (hs : Inv s) (f : Nat) :
    Inv { s with replacer_ := s.replacer_.pin f } where
  table_id := hs.table_id
  pin_nonneg := hs.pin_nonneg
  table_lt := hs.table_lt
  free_lt := hs.free_lt
  lru_lt := fun g hg => hs.lru_lt g (LRUReplacer.pin_mem _ f g hg)
  max_size := by
    show (s.replacer_.pin f).max_size_ = s.pool_size_
    rw [LRUReplacer.pin_max_size]; exact hs.max_size

theorem inv_disk (s : BufferPoolManager D) (hs : Inv s) (d : DiskManager D) :
    Inv { s with disk_manager_ := d } where
  table_id := hs.table_id
  pin_nonneg := hs.pin_nonneg
  table_lt := hs.table_lt
  free_lt := hs.free_lt
  lru_lt := hs.lru_lt
  max_size := hs.max_size

theorem inv_fetch_page [Inhabited D] (s : BufferPoolManager D) (hs : Inv s) (pid : PageId) :
    Inv (fetch_page s pid).2 := by
  unfold fetch_page
  cases hpt : s.page_table_ pid with
  | some f =>
    simp only
    refine inv_set_pin _ (inv_replacer_pin s hs f) f _ rfl ?_
    have := hs.pin_nonneg f
    show 0 ≤ (s.pages_ f).pin_count_ + 1
    omega
  | none =>
    simp only
    cases hv : find_victim_page s with
    | mk r s1 =>
      cases r with
      | none => simpa using hs
      | some f =>
        simp only
        have hs1 : Inv s1 := by have := inv_find_victim_page s hs; rwa [hv] at this
        have hf : f < s1.pool_size_ := by
          have h1 := find_victim_page_lt s hs f (by rw [hv])
          have h2 : s1.pool_size_ = s.pool_size_ := by
            have := find_victim_page_pool_size s; rw [hv] at this; exact this
          rw [h2]; exact h1
        have hu := inv_update_page s1 hs1 f hf pid
        refine inv_set_pin _ (inv_replacer_pin _ hu f) f _ rfl ?_
        have := hu.pin_nonneg f
        show 0 ≤ ((update_page s1 f pid f).pages_ f).pin_count_ + 1
        omega

theorem inv_new_page [Inhabited D] (s : BufferPoolManager D) (hs : Inv s) (pid : PageId) :
    Inv (new_page s pid).2.2 := by
  unfold new_page
  cases hv : find_victim_page s with
  | mk r s1 =>
    cases r with
    | none => simpa using hs
    | some f =>
      simp only
      have hs1 : Inv s1 := by have := inv_find_victim_page s hs; rwa [hv] at this
      have hf : f < s1.pool_size_ := by
        have h1 := find_victim_page_lt s hs f (by rw [hv])
        have h2 : s1.pool_size_ = s.pool_size_ := by
          have := find_victim_page_pool_size s; rw [hv] at this; exact this
        rw [h2]; exact h1
      have hu := inv_update_page _ (inv_disk s1 hs1 (s1.disk_manager_.allocate_page pid.fd).2)
        f hf { pid with page_no := (s1.disk_manager_.allocate_page pid.fd).1 }
      exact inv_set_pin _ (inv_replacer_pin _ hu f) f _ rfl (by show (0 : Int) ≤ 1; decide)

theorem inv_unpin_page (s s1 : BufferPoolManager D) (hs : Inv s) (pid : PageId) (d b : Bool)
    (h : unpin_page s pid d = some (b, s1)) : Inv s1 := by
  unfold unpin_page at h
  cases hpt : s.page_table_ pid with
  | none => rw [hpt] at h; simp only [Option.some.injEq, Prod.mk.injEq] at h; rw [← h.2]; exact hs
  | some f =>
    rw [hpt] at h
    simp only at h
    split at h
    · simp only [Option.some.injEq, Prod.mk.injEq] at h; rw [← h.2]; exact hs
    · rename_i hpin
      have hpos : (s.pages_ f).pin_count_ > 0 := by omega
      simp only [hpos, if_true] at h
      cases hrep : s.replacer_.unpin f with
      | none => rw [hrep] at h; cases h
      | some rep =>
        rw [hrep] at h
        simp only [Option.some.injEq, Prod.mk.injEq] at h
        rw [← h.2]
        have h1 : Inv { s with replacer_ := rep } :=
          { table_id := hs.table_id, pin_nonneg := hs.pin_nonneg, table_lt := hs.table_lt,
            free_lt := hs.free_lt,
            lru_lt := by
              intro g hg
              rcases LRUReplacer.unpin_mem _ _ _ hrep g hg with hg | hg
              · subst hg; exact hs.table_lt pid g hpt
              · exact hs.lru_lt g hg
            max_size := by
              show rep.max_size_ = s.pool_size_
              rw [LRUReplacer.unpin_max_size _ _ _ hrep]; exact hs.max_size }
        have h2 := inv_set_pin _ h1 f { s.pages_ f with pin_count_ := (s.pages_ f).pin_count_ - 1 }
          rfl (by show 0 ≤ (s.pages_ f).pin_count_ - 1; omega)
        refine inv_set_pin _ h2 f _ ?_ ?_
        · simp [set_page]
        · simp only [set_page, if_true]; omega

theorem inv_flush_page (s : BufferPoolManager D) (hs : Inv s) (pid : PageId) :
    Inv (flush_page s pid).2 := by
  unfold flush_page
  cases hpt : s.page_table_ pid with
  | none => exact hs
  | some f =>
    exact inv_set_pin _ (inv_disk s hs _) f _ rfl (hs.pin_nonneg f)

theorem inv_delete_page [Inhabited D] (s : BufferPoolManager D) (hs : Inv s) (pid : PageId) :
    Inv (delete_page s pid).2 := by
  unfold delete_page
  cases hpt : s.page_table_ pid with
  | none => exact hs
  | some f =>
    simp only
    split
    · exact hs
    · have hf := hs.table_lt pid f hpt
      have hu := inv_update_page _ (inv_disk s hs (s.disk_manager_.deallocate_page pid.page_no))
        f hf { pid with page_no := INVALID_PAGE_ID }
      exact { table_id := hu.table_id, pin_nonneg := hu.pin_nonneg, table_lt := hu.table_lt,
              free_lt := by
                intro g hg
                rcases List.mem_append.1 hg with hg | hg
                · exact hu.free_lt g hg
                · simp only [List.mem_singleton] at hg; subst hg; exact hf
              lru_lt := hu.lru_lt, max_size := hu.max_size }

theorem inv_flush_all_pages_step (fd : Int) (s : BufferPoolManager D) (hs : Inv s) (i : Nat) :
    Inv (flush_all_pages_step fd s i) := by
  unfold flush_all_pages_step
  simp only
  split
  · exact inv_set_pin _ (inv_disk s hs _) i _ rfl (hs.pin_nonneg i)
  · exact hs

theorem inv_foldl_flush (fd : Int) (l : List Nat) :
    ∀ (s : BufferPoolManager D), Inv s → Inv (l.foldl (flush_all_pages_step fd) s) := by
  induction l with
  | nil => intro s hs; exact hs
  | cons a t ih => intro s hs; exact ih _ (inv_flush_all_pages_step fd s hs a)

theorem inv_flush_all_pages (s : BufferPoolManager D) (hs : Inv s) (fd : Int) :
    Inv (flush_all_pages s fd) :=
  inv_foldl_flush fd _ s hs

theorem inv_step [Inhabited D] (s s1 : BufferPoolManager D) (hs : Inv s) (op : Op)
    (h : step s op = some s1) : Inv s1 := by
  cases op with
  | fetch_page pid => simp only [step, Option.some.injEq] at h; rw [← h]; exact inv_fetch_page s hs pid
  | new_page pid => simp only [step, Option.some.injEq] at h; rw [← h]; exact inv_new_page s hs pid
  | unpin_page pid d =>
    simp only [step] at h
    cases hu : unpin_page s pid d with
    | none => rw [hu] at h; cases h
    | some r =>
      rw [hu] at h
      simp only [Option.map, Option.some.injEq] at h
      rw [← h]
      exact inv_unpin_page s r.2 hs pid d r.1 hu
  | flush_page pid => simp only [step, Option.some.injEq] at h; rw [← h]; exact inv_flush_page s hs pid
  | delete_page pid => simp only [step, Option.some.injEq] at h; rw [← h]; exact inv_delete_page s hs pid
  | flush_all_pages fd => simp only [step, Option.some.injEq] at h; rw [← h]; exact inv_flush_all_pages s hs fd

theorem reachable_inv [Inhabited D] (s : BufferPoolManager D) (h : Reachable s) : Inv s := by
  induction h with
  | init n disk => exact inv_init n disk
  | step s s1 op _ hstep ih => exact inv_step s s1 ih op hstep

end BufferPoolManager

/-! ## Reachable states -/

namespace BufferPoolManager

variable {D : Type}

theorem reachable_run [Inhabited D] (ops : List Op) :
    ∀ (s s1 : BufferPoolManager D), Reachable s → run s ops = some s1 → Reachable s1 := by
  induction ops with
  | nil => intro s s1 hs h; simp only [run, Option.some.injEq] at h; rw [← h]; exact hs
  | cons op rest ih =>
    intro s s1 hs h
    simp only [run] at h
    cases hstep : step s op with
    | none => rw [hstep] at h; cases h
    | some s2 =>
      rw [hstep] at h
      exact ih s2 s1 (Reachable.step s s2 op hs hstep) h

theorem tableInjective_of_identity (s : BufferPoolManager D) (h : TableIdentity s) :
    TableInjective s := by
  intro p q f hp hq
  rw [← h p f hp, ← h q f hq]

theorem tableIdentity_set_page (s : BufferPoolManager D) (hs : TableIdentity s) (f : Nat)
    (p : Page D) (hid : p.id_ = (s.pages_ f).id_) : TableIdentity (s.set_page f p) := by
  intro pid g h
  simp only [set_page] at h ⊢
  by_cases hg : g = f
  · subst hg; simp only [if_true]; rw [hid]; exact hs pid g h
  · simp only [hg, if_false]; exact hs pid g h

theorem tableIdentity_update_page [Inhabited D] (s : BufferPoolManager D)
    (hs : TableIdentity s) (f : Nat) (new_id : PageId) :
    TableIdentity (update_page s f new_id f) := by
  intro pid g h
  simp only [update_page, table_insert, table_erase] at h ⊢
  by_cases hp : pid = new_id
  · simp only [hp, if_true, Option.some.injEq] at h
    subst h
    simp only [if_true]
    split <;> simp [hp]
  · simp only [hp, if_false] at h
    split at h
    · cases h
    · rename_i hne
      have hg := hs pid g h
      have : g ≠ f := by
        intro hgf; subst hgf; exact hne hg.symm
      simp only [this, if_false]
      exact hg

theorem tableIdentity_find_victim_page (s : BufferPoolManager D) (hs : TableIdentity s) :
    TableIdentity (find_victim_page s).2 := by
  unfold find_victim_page
  split <;> exact hs

theorem tableIdentity_fetch_page [Inhabited D] (s : BufferPoolManager D)
    (hs : TableIdentity s) (pid : PageId) : TableIdentity (fetch_page s pid).2 := by
  unfold fetch_page
  cases hpt : s.page_table_ pid with
  | some f => exact tableIdentity_set_page _ hs f _ rfl
  | none =>
    simp only
    cases hv : find_victim_page s with
    | mk r s1 =>
      cases r with
      | none => exact hs
      | some f =>
        have hs1 : TableIdentity s1 := by
          have := tableIdentity_find_victim_page s hs; rwa [hv] at this
        have hu := tableIdentity_update_page s1 hs1 f pid
        exact tableIdentity_set_page _ hu f _ rfl

theorem tableIdentity_new_page [Inhabited D] (s : BufferPoolManager D)
    (hs : TableIdentity s) (pid : PageId) : TableIdentity (new_page s pid).2.2 := by
  unfold new_page
  cases hv : find_victim_page s with
  | mk r s1 =>
    cases r with
    | none => exact hs
    | some f =>
      have hs1 : TableIdentity s1 := by
        have := tableIdentity_find_victim_page s hs; rwa [hv] at this
      have hu := tableIdentity_update_page
        { s1 with disk_manager_ := (s1.disk_manager_.allocate_page pid.fd).2 } hs1 f
        { pid with page_no := (s1.disk_manager_.allocate_page pid.fd).1 }
      exact tableIdentity_set_page _ hu f _ rfl

theorem tableIdentity_unpin_page (s s1 : BufferPoolManager D) (hs : TableIdentity s)
    (pid : PageId) (d b : Bool) (h : unpin_page s pid d = some (b, s1)) :
    TableIdentity s1 := by
  unfold unpin_page at h
  cases hpt : s.page_table_ pid with
  | none => rw [hpt] at h; simp only [Option.some.injEq, Prod.mk.injEq] at h; rw [← h.2]; exact hs
  | some f =>
    rw [hpt] at h
    simp only at h
    split at h
    · simp only [Option.some.injEq, Prod.mk.injEq] at h; rw [← h.2]; exact hs
    · split at h
      · cases h
      · rename_i rep hrep
        simp only [Option.some.injEq, Prod.mk.injEq] at h
        rw [← h.2]
        have h1 : TableIdentity { s with replacer_ := rep } := hs
        have h2 := tableIdentity_set_page _ h1 f
          { s.pages_ f with pin_count_ := (s.pages_ f).pin_count_ - 1 } rfl
        refine tableIdentity_set_page _ h2 f _ ?_
        simp [set_page]

theorem tableIdentity_flush_page (s : BufferPoolManager D) (hs : TableIdentity s)
    (pid : PageId) : TableIdentity (flush_page s pid).2 := by
  unfold flush_page
  cases hpt : s.page_table_ pid with
  | none => exact hs
  | some f =>
    have h1 : TableIdentity
      { s with disk_manager_ := s.disk_manager_.write_page pid (s.pages_ f).data_ } := hs
    exact tableIdentity_set_page _ h1 f _ rfl

theorem tableIdentity_delete_page [Inhabited D] (s : BufferPoolManager D)
    (hs : TableIdentity s) (pid : PageId) : TableIdentity (delete_page s pid).2 := by
  unfold delete_page
  cases hpt : s.page_table_ pid with
  | none => exact hs
  | some f =>
    simp only
    split
    · exact hs
    · have h1 : TableIdentity
        { s with disk_manager_ := s.disk_manager_.deallocate_page pid.page_no } := hs
      exact tableIdentity_update_page _ h1 f { pid with page_no := INVALID_PAGE_ID }

theorem tableIdentity_foldl_flush (fd : Int) (l : List Nat) :
    ∀ (s : BufferPoolManager D), TableIdentity s →
      TableIdentity (l.foldl (flush_all_pages_step fd) s) := by
  induction l with
  | nil => intro s hs; exact hs
  | cons a t ih =>
    intro s hs
    refine ih _ ?_
    unfold flush_all_pages_step
    simp only
    split
    · have h1 : TableIdentity
        { s with disk_manager_ := s.disk_manager_.write_page (s.pages_ a).id_ (s.pages_ a).data_ } :=
        hs
      exact tableIdentity_set_page _ h1 a _ rfl
    · exact hs

theorem tableIdentity_step [Inhabited D] (s s1 : BufferPoolManager D) (hs : TableIdentity s)
    (op : Op) (h : step s op = some s1) : TableIdentity s1 := by
  cases op with
  | fetch_page pid =>
    simp only [step, Option.some.injEq] at h; rw [← h]; exact tableIdentity_fetch_page s hs pid
  | new_page pid =>
    simp only [step, Option.some.injEq] at h; rw [← h]; exact tableIdentity_new_page s hs pid
  | unpin_page pid d =>
    simp only [step] at h
    cases hu : unpin_page s pid d with
    | none => rw [hu] at h; cases h
    | some r =>
      rw [hu] at h
      simp only [Option.map, Option.some.injEq] at h
      rw [← h]
      exact tableIdentity_unpin_page s r.2 hs pid d r.1 hu
  | flush_page pid =>
    simp only [step, Option.some.injEq] at h; rw [← h]; exact tableIdentity_flush_page s hs pid
  | delete_page pid =>
    simp only [step, Option.some.injEq] at h; rw [← h]; exact tableIdentity_delete_page s hs pid
  | flush_all_pages fd =>
    simp only [step, Option.some.injEq] at h; rw [← h]
    exact tableIdentity_foldl_flush fd _ s hs

end BufferPoolManager

/-! ## Claims about the buffer pool -/

namespace BufferPoolManager

variable {D : Type}

/-- C1 (the code evaluated at the failing input): in a pool of one frame, after
`fetch_page(P)`, `fetch_page(P)`, `unpin_page(P, false)` the page `P` is still
resident in frame 0 with pin count 1, yet frame 0 is tracked by the replacer,
`find_victim_page` chooses it, and the following `fetch_page(Q)` of another page
reuses frame 0 and drops `P` from the page table. -/
theorem C1_pinned_frame_tracked_and_reused :
    ∃ s : BufferPoolManager Nat,
      run (init 1 demoDisk)
        [.fetch_page ⟨3, 0⟩, .fetch_page ⟨3, 0⟩, .unpin_page ⟨3, 0⟩ false] = some s ∧
      Reachable s ∧
      s.page_table_ ⟨3, 0⟩ = some 0 ∧
      (s.pages_ 0).pin_count_ = 1 ∧
      0 ∈ s.replacer_.LRUlist_ ∧
      (find_victim_page s).1 = some 0 ∧
      (fetch_page s ⟨3, 1⟩).1 = some 0 ∧
      (fetch_page s ⟨3, 1⟩).2.page_table_ ⟨3, 0⟩ = none := by
  have key : (run (init 1 demoDisk)
      [.fetch_page ⟨3, 0⟩, .fetch_page ⟨3, 0⟩, .unpin_page ⟨3, 0⟩ false]).map
      (fun s => (s.page_table_ ⟨3, 0⟩, (s.pages_ 0).pin_count_, s.replacer_.LRUlist_,
        (find_victim_page s).1, (fetch_page s ⟨3, 1⟩).1,
        (fetch_page s ⟨3, 1⟩).2.page_table_ ⟨3, 0⟩))
      = some (some 0, 1, [0], some 0, some 0, none) := by rfl
  cases h : run (init 1 demoDisk)
      [.fetch_page ⟨3, 0⟩, .fetch_page ⟨3, 0⟩, .unpin_page ⟨3, 0⟩ false] with
  | none => rw [h] at key; cases key
  | some s =>
    rw [h] at key
    simp only [Option.map, Option.some.injEq, Prod.mk.injEq] at key
    obtain ⟨k1, k2, k3, k4, k5, k6⟩ := key
    refine ⟨s, rfl, reachable_run _ _ _ (Reachable.init 1 demoDisk) h, k1, k2, ?_, k4, k5, k6⟩
    rw [k3]; exact List.mem_singleton.2 rfl

/-- C3: in every reachable pool state each page-table entry points at a frame
whose stored identity is the key of the entry, and consequently no two distinct
PageIds map to the same frame; and from any state with this property each of
`fetch_page`, `new_page`, `unpin_page`, `flush_page`, `delete_page` and
`flush_all_pages` leads to a state with this property. -/
theorem C3_page_table_identity [Inhabited D] (s : BufferPoolManager D) :
    (Reachable s → TableIdentity s ∧ TableInjective s) ∧
    (TableIdentity s → TableInjective s ∧
      ∀ op s1, step s op = some s1 → TableIdentity s1 ∧ TableInjective s1) := by
  constructor
  · intro h
    have := (reachable_inv s h).table_id
    exact ⟨this, tableInjective_of_identity s this⟩
  · intro h
    refine ⟨tableInjective_of_identity s h, ?_⟩
    intro op s1 hstep
    have := tableIdentity_step s s1 h op hstep
    exact ⟨this, tableInjective_of_identity s1 this⟩

theorem demoPool_reachable : Reachable demoPool :=
  Reachable.step (init 2 demoDisk) demoPool (.fetch_page ⟨3, 0⟩) (Reachable.init 2 demoDisk) rfl

/-- Witness for C3 at `demoPool` and the call `fetch_page` of a second page. -/
theorem C3_page_table_identity_witness :
    Reachable demoPool ∧ (TableIdentity demoPool ∧ TableInjective demoPool) ∧
      (TableIdentity (fetch_page demoPool ⟨3, 1⟩).2 ∧
        TableInjective (fetch_page demoPool ⟨3, 1⟩).2) :=
  ⟨demoPool_reachable,
   (C3_page_table_identity demoPool).1 demoPool_reachable,
   ((C3_page_table_identity demoPool).2
      ((C3_page_table_identity demoPool).1 demoPool_reachable).1).2
      (.fetch_page ⟨3, 1⟩) _ rfl⟩

end BufferPoolManager

/-! ## Claim about the replacer: least recently unpinned first -/

namespace LRUReplacer

theorem unpin_loop_of_lt {m : Nat} (l h : List Nat) (hl : l.length < m) :
    unpin_loop m l h = some (l, h) := by
  cases l with
  | nil =>
    unfold unpin_loop
    have : ¬ (0 ≥ m) := by simp at hl; omega
    simp [this]
  | cons a t =>
    unfold unpin_loop
    have : ¬ ((a :: t).length ≥ m) := by omega
    simp only [this, if_false]

theorem erase_reverse_of_nodup (q : List Nat) (hq : q.Nodup) (f : Nat) :
    q.reverse.erase f = (q.filter (fun x => x != f)).reverse := by
  rw [List.Nodup.erase_eq_filter (List.nodup_reverse.2 hq), List.filter_reverse]

theorem represents_empty (m : Nat) : Represents (mk_empty m) [] where
  list_eq := rfl
  hash_iff := by intro x; simp [mk_empty]
  nodup := List.nodup_nil

theorem represents_victim (r : LRUReplacer) (q : SpecReplacer) (h : Represents r q) :
    r.victim.1 = (SpecReplacer.victim q).1 ∧ Represents r.victim.2 (SpecReplacer.victim q).2 ∧
      r.victim.2.max_size_ = r.max_size_ := by
  cases q with
  | nil =>
    have hl : r.LRUlist_ = [] := by simpa using h.list_eq
    unfold victim
    simp only [hl, List.getLast?_nil, SpecReplacer.victim]
    exact ⟨trivial, h, trivial⟩
  | cons f t =>
    have hl : r.LRUlist_ = t.reverse ++ [f] := by simpa using h.list_eq
    unfold victim
    simp only [hl, List.getLast?_concat, SpecReplacer.victim, List.dropLast_concat]
    refine ⟨trivial, ?_, trivial⟩
    have hnd := List.nodup_cons.1 h.nodup
    exact { list_eq := rfl
            hash_iff := by
              intro x
              rw [mem_hash_erase, h.hash_iff x]
              constructor
              · rintro ⟨hx, hne⟩
                rcases List.mem_cons.1 hx with hx | hx
                · exact absurd hx hne
                · exact hx
              · intro hx
                refine ⟨List.mem_cons_of_mem _ hx, ?_⟩
                intro hxf; subst hxf; exact hnd.1 hx
            nodup := hnd.2 }

theorem represents_pin (r : LRUReplacer) (q : SpecReplacer) (h : Represents r q) (f : Nat) :
    Represents (r.pin f) (SpecReplacer.pin q f) ∧ (r.pin f).max_size_ = r.max_size_ := by
  refine ⟨?_, pin_max_size r f⟩
  unfold pin SpecReplacer.pin
  by_cases hf : f ∈ r.LRUhash_
  · simp only [hf, if_true]
    exact { list_eq := by
              show r.LRUlist_.erase f = _
              rw [h.list_eq]; exact erase_reverse_of_nodup q h.nodup f
            hash_iff := by
              intro x
              rw [mem_hash_erase, h.hash_iff x]
              simp [List.mem_filter]
            nodup := h.nodup.filter _ }
  · simp only [hf, if_false]
    have hq : f ∉ q := fun hfq => hf ((h.hash_iff f).2 hfq)
    have : q.filter (fun x => x != f) = q := by
      apply List.filter_eq_self.2
      intro a ha
      have : a ≠ f := by intro haf; subst haf; exact hq ha
      simpa using this
    rw [this]; exact h

theorem represents_unpin (r : LRUReplacer) (q : SpecReplacer) (h : Represents r q) (f : Nat)
    (hcap : f ∉ q → r.Size < r.max_size_) :
    ∃ r1, r.unpin f = some r1 ∧ Represents r1 (SpecReplacer.unpin q f) ∧
      r1.max_size_ = r.max_size_ := by
  unfold unpin SpecReplacer.unpin
  by_cases hf : f ∈ r.LRUhash_
  · have hq : f ∈ q := (h.hash_iff f).1 hf
    simp only [hf, hq, if_true]
    exact ⟨r, rfl, h, rfl⟩
  · have hq : f ∉ q := fun hfq => hf ((h.hash_iff f).2 hfq)
    simp only [hf, hq, if_false]
    rw [unpin_loop_of_lt _ _ (hcap hq)]
    refine ⟨_, rfl, ?_, rfl⟩
    exact { list_eq := by
              show f :: r.LRUlist_ = (q ++ [f]).reverse
              rw [h.list_eq]; simp
            hash_iff := by
              intro x
              show x ∈ hash_insert r.LRUhash_ f ↔ x ∈ q ++ [f]
              rw [mem_hash_insert, h.hash_iff x]
              simp [or_comm]
            nodup := by
              apply List.Nodup.append h.nodup (List.nodup_singleton f)
              intro a ha hb
              simp only [List.mem_singleton] at hb
              subst hb; exact hq ha }

theorem size_of_represents (r : LRUReplacer) (q : SpecReplacer) (h : Represents r q) :
    r.Size = q.length := by
  unfold Size; rw [h.list_eq, List.length_reverse]

theorem run_refines (ops : List ROp) :
    ∀ (r : LRUReplacer) (q : SpecReplacer), Represents r q → below_capacity r ops = true →
      ∃ r1, run r ops = some ((SpecReplacer.run q ops).1, r1) ∧
        Represents r1 (SpecReplacer.run q ops).2 ∧ r1.max_size_ = r.max_size_ := by
  induction ops with
  | nil => intro r q h _; exact ⟨r, rfl, h, rfl⟩
  | cons op rest ih =>
    intro r q h hb
    simp only [below_capacity, Bool.and_eq_true] at hb
    obtain ⟨hb1, hb2⟩ := hb
    cases op with
    | victim =>
      obtain ⟨hv1, hv2, hv3⟩ := represents_victim r q h
      simp only [call] at hb2
      obtain ⟨r1, hr1, hrep, hmax⟩ := ih _ _ hv2 hb2
      refine ⟨r1, ?_, hrep, by rw [hmax, hv3]⟩
      simp only [run, call, hr1, SpecReplacer.run, SpecReplacer.call, hv1]
    | pin f =>
      obtain ⟨hp1, hp2⟩ := represents_pin r q h f
      simp only [call] at hb2
      obtain ⟨r1, hr1, hrep, hmax⟩ := ih _ _ hp1 hb2
      refine ⟨r1, ?_, hrep, by rw [hmax, hp2]⟩
      simp only [run, call, hr1, SpecReplacer.run, SpecReplacer.call]
    | unpin f =>
      simp only [decide_eq_true_eq] at hb1
      obtain ⟨r0, hr0, hrep0, hmax0⟩ := represents_unpin r q h f (fun _ => hb1)
      simp only [call, hr0, Option.map] at hb2
      obtain ⟨r1, hr1, hrep, hmax⟩ := ih _ _ hrep0 hb2
      refine ⟨r1, ?_, hrep, by rw [hmax, hmax0]⟩
      simp only [run, call, hr0, Option.map, hr1, SpecReplacer.run, SpecReplacer.call]

end LRUReplacer

namespace LRUReplacer

theorem below_capacity_of_spec (ops : List ROp) :
    ∀ (r : LRUReplacer) (q : SpecReplacer), Represents r q →
      SpecReplacer.below_capacity r.max_size_ q ops = true → below_capacity r ops = true := by
  induction ops with
  | nil => intro r q _ _; rfl
  | cons op rest ih =>
    intro r q h hb
    simp only [SpecReplacer.below_capacity, Bool.and_eq_true] at hb
    obtain ⟨hb1, hb2⟩ := hb
    simp only [below_capacity, Bool.and_eq_true]
    cases op with
    | victim =>
      obtain ⟨_, hv2, hv3⟩ := represents_victim r q h
      refine ⟨rfl, ?_⟩
      simp only [call]
      exact ih _ _ hv2 (by rw [hv3]; exact hb2)
    | pin f =>
      obtain ⟨hp1, hp2⟩ := represents_pin r q h f
      refine ⟨rfl, ?_⟩
      simp only [call]
      exact ih _ _ hp1 (by rw [hp2]; exact hb2)
    | unpin f =>
      simp only [decide_eq_true_eq] at hb1
      have hsz : r.Size < r.max_size_ := by rw [size_of_represents r q h]; exact hb1
      obtain ⟨r0, hr0, hrep0, hmax0⟩ := represents_unpin r q h f (fun _ => hsz)
      refine ⟨by simpa using hsz, ?_⟩
      simp only [call, hr0, Option.map]
      exact ih _ _ hrep0 (by rw [hmax0]; exact hb2)

theorem spec_run_victims (q : SpecReplacer) :
    SpecReplacer.run q (List.replicate q.length ROp.victim) = (q.map some, []) := by
  induction q with
  | nil => rfl
  | cons f t ih =>
    simp only [List.length_cons, List.replicate_succ, SpecReplacer.run, SpecReplacer.call,
      SpecReplacer.victim, ih]
    rfl

theorem spec_below_victims (m : Nat) (n : Nat) :
    ∀ q : SpecReplacer, SpecReplacer.below_capacity m q (List.replicate n ROp.victim) = true := by
  induction n with
  | zero => intro q; rfl
  | succ k ih =>
    intro q
    simp only [List.replicate_succ, SpecReplacer.below_capacity, Bool.true_and]
    exact ih _

theorem spec_fifo (m : Nat) (fs : List Nat) :
    ∀ q : SpecReplacer, (q ++ fs).Nodup → (q ++ fs).length ≤ m →
      SpecReplacer.below_capacity m q
        (fs.map ROp.unpin ++ List.replicate (q ++ fs).length ROp.victim) = true ∧
      SpecReplacer.run q (fs.map ROp.unpin ++ List.replicate (q ++ fs).length ROp.victim)
        = ((q ++ fs).map some, []) := by
  induction fs with
  | nil =>
    intro q _ _
    simp only [List.append_nil, List.map_nil, List.nil_append]
    exact ⟨spec_below_victims m _ q, spec_run_victims q⟩
  | cons f t ih =>
    intro q hnd hlen
    have hfq : f ∉ q := by
      intro hf
      have := (List.nodup_append.1 hnd).2.2
      exact this hf (List.mem_cons_self _ _)
    have hstep : SpecReplacer.unpin q f = q ++ [f] := by
      simp [SpecReplacer.unpin, hfq]
    have heq : q ++ f :: t = (q ++ [f]) ++ t := by simp
    have hlt : q.length < m := by
      simp only [List.length_append, List.length_cons] at hlen; omega
    obtain ⟨h1, h2⟩ := ih (q ++ [f]) (by rw [← heq]; exact hnd) (by rw [← heq]; exact hlen)
    rw [← heq] at h1 h2
    constructor
    · simp only [List.map_cons, List.cons_append, SpecReplacer.below_capacity,
        SpecReplacer.call, hstep, Bool.and_eq_true, decide_eq_true_eq]
      exact ⟨hlt, h1⟩
    · show SpecReplacer.run q (ROp.unpin f ::
          (t.map ROp.unpin ++ List.replicate (q ++ f :: t).length ROp.victim)) = _
      simp only [SpecReplacer.run, SpecReplacer.call, hstep]
      rw [h2]
      rfl

/-- C5: for every sequence of `pin`/`unpin`/`victim` calls on a fresh replacer in
which each `unpin` call finds fewer than `max_size_` tracked frames, the code
produces exactly the results of the replacer of the specification (`victim`
fails on the empty set and otherwise removes and returns the frame whose
insertion by `unpin` is the oldest, `unpin` of a tracked frame changes nothing,
`pin` removes exactly its frame and keeps the order of the others), the final
list being the queue of the specification with the oldest frame at the back;
in particular `unpin` of distinct frames `fs` (at most `max_size_` of them)
followed by as many `victim` calls yields the frames of `fs` in their order and
leaves the replacer empty. -/
theorem C5_victim_least_recently_unpinned (m : Nat) :
    (∀ ops : List ROp, below_capacity (mk_empty m) ops = true →
      ∃ r1, run (mk_empty m) ops = some ((SpecReplacer.run [] ops).1, r1) ∧
        r1.LRUlist_ = (SpecReplacer.run [] ops).2.reverse ∧
        (∀ x, x ∈ r1.LRUhash_ ↔ x ∈ (SpecReplacer.run [] ops).2)) ∧
    (∀ fs : List Nat, fs.Nodup → fs.length ≤ m →
      run (mk_empty m) (fs.map ROp.unpin ++ List.replicate fs.length ROp.victim)
        = some (fs.map some, mk_empty m)) := by
  constructor
  · intro ops hb
    obtain ⟨r1, h1, h2, _⟩ := run_refines ops (mk_empty m) [] (represents_empty m) hb
    exact ⟨r1, h1, h2.list_eq, h2.hash_iff⟩
  · intro fs hnd hlen
    obtain ⟨hb, hrun⟩ := spec_fifo m fs [] (by simpa using hnd) (by simpa using hlen)
    simp only [List.nil_append] at hb hrun
    have hb2 := below_capacity_of_spec _ (mk_empty m) [] (represents_empty m) hb
    obtain ⟨r1, h1, h2, h3⟩ := run_refines _ (mk_empty m) [] (represents_empty m) hb2
    rw [hrun] at h1 h2
    rw [h1]
    have hl : r1.LRUlist_ = [] := by simpa using h2.list_eq
    have hh : r1.LRUhash_ = [] := by
      apply List.eq_nil_iff_forall_not_mem.2
      intro x hx
      have := (h2.hash_iff x).1 hx
      simp at this
    have hm : r1.max_size_ = m := h3
    cases r1
    simp only at hl hh hm
    subst hl hh hm
    rfl

/-- Witness for C5: capacity 3, the calls unpin 4, unpin 7, unpin 4, pin 4,
unpin 9, victim, victim, victim; and the frames 4, 7, 9 unpinned in this order
are evicted in this order. -/
theorem C5_victim_least_recently_unpinned_witness :
    below_capacity (mk_empty 3)
        [.unpin 4, .unpin 7, .unpin 4, .pin 4, .unpin 9, .victim, .victim, .victim] = true ∧
      (∃ r1, run (mk_empty 3)
          [.unpin 4, .unpin 7, .unpin 4, .pin 4, .unpin 9, .victim, .victim, .victim]
          = some ((SpecReplacer.run []
              [.unpin 4, .unpin 7, .unpin 4, .pin 4, .unpin 9, .victim, .victim, .victim]).1, r1) ∧
        r1.LRUlist_ = (SpecReplacer.run []
              [.unpin 4, .unpin 7, .unpin 4, .pin 4, .unpin 9, .victim, .victim, .victim]).2.reverse ∧
        (∀ x, x ∈ r1.LRUhash_ ↔ x ∈ (SpecReplacer.run []
              [.unpin 4, .unpin 7, .unpin 4, .pin 4, .unpin 9, .victim, .victim, .victim]).2)) ∧
      run (mk_empty 3) ([4, 7, 9].map ROp.unpin ++ List.replicate [4, 7, 9].length ROp.victim)
        = some ([4, 7, 9].map some, mk_empty 3) :=
  ⟨by decide,
   (C5_victim_least_recently_unpinned 3).1 _ (by decide),
   (C5_victim_least_recently_unpinned 3).2 [4, 7, 9] (by decide) (by decide)⟩

end LRUReplacer

/-! ## Claims about `unpin_page`, and the pool full of pinned pages -/

namespace BufferPoolManager

variable {D : Type}

theorem unpin_page_not_resident (s : BufferPoolManager D) (pid : PageId) (d : Bool)
    (h : s.page_table_ pid = none) : unpin_page s pid d = some (false, s) := by
  unfold unpin_page; rw [h]

theorem unpin_page_pin_zero (s : BufferPoolManager D) (pid : PageId) (d : Bool) (f : Nat)
    (h : s.page_table_ pid = some f) (hp : (s.pages_ f).pin_count_ ≤ 0) :
    unpin_page s pid d = some (false, s) := by
  unfold unpin_page; rw [h]; simp only [hp, if_true]

theorem unpin_page_false_unchanged (s s1 : BufferPoolManager D) (pid : PageId) (d : Bool)
    (h : unpin_page s pid d = some (false, s1)) : s1 = s := by
  unfold unpin_page at h
  cases hpt : s.page_table_ pid with
  | none => rw [hpt] at h; simp only [Option.some.injEq, Prod.mk.injEq] at h; exact h.2.symm
  | some f =>
    rw [hpt] at h
    simp only at h
    split at h
    · simp only [Option.some.injEq, Prod.mk.injEq] at h; exact h.2.symm
    · split at h
      · cases h
      · simp at h

theorem unpin_page_pinned (s : BufferPoolManager D) (pid : PageId) (d : Bool) (f : Nat)
    (h : s.page_table_ pid = some f) (hp : 0 < (s.pages_ f).pin_count_)
    (hm : 0 < s.replacer_.max_size_) :
    ∃ rep, s.replacer_.unpin f = some rep ∧
      unpin_page s pid d = some (true,
        { s with replacer_ := rep
                 pages_ := fun g => if g = f then
                   { s.pages_ f with pin_count_ := (s.pages_ f).pin_count_ - 1
                                     is_dirty_ := (s.pages_ f).is_dirty_ || d }
                   else s.pages_ g }) := by
  have hsome := LRUReplacer.unpin_isSome s.replacer_ f hm
  cases hrep : s.replacer_.unpin f with
  | none => rw [hrep] at hsome; cases hsome
  | some rep =>
    refine ⟨rep, rfl, ?_⟩
    unfold unpin_page
    rw [h]
    have h1 : ¬ (s.pages_ f).pin_count_ ≤ 0 := by omega
    simp only [h1, if_false, gt_iff_lt, hp, if_true, hrep, set_page]
    congr 3
    funext g
    by_cases hg : g = f <;> simp [hg]

end BufferPoolManager

namespace BufferPoolManager

variable {D : Type}

theorem fetchedOnce_init [Inhabited D] (disk : DiskManager D) (n : Nat) :
    FetchedOnce disk n [] (init n disk) where
  pool_size := rfl
  free := by simp [init]
  rep := rfl
  disk_eq := rfl
  table := by intro q f; simp [init]
  valid := by intro p hp; simp at hp
  used := by intro f hf; simp at hf
  unused := by intro f _; simp [init]

theorem replacer_pin_mk_empty (n f : Nat) :
    (LRUReplacer.mk_empty n).pin f = LRUReplacer.mk_empty n := by
  simp [LRUReplacer.pin, LRUReplacer.mk_empty]

theorem fetchedOnce_fetch [Inhabited D] (disk : DiskManager D) (n : Nat) (done : List PageId)
    (s : BufferPoolManager D) (hs : FetchedOnce disk n done s) (p : PageId)
    (hp : p ∉ done) (hvalid : p.page_no ≠ INVALID_PAGE_ID) (hlen : done.length < n) :
    (fetch_page s p).1 = some done.length ∧
      FetchedOnce disk n (done ++ [p]) (fetch_page s p).2 := by
  have hpt : s.page_table_ p = none := by
    cases h : s.page_table_ p with
    | none => rfl
    | some f =>
      have := (hs.table p f).1 h
      exact absurd (List.getElem?_mem this) hp
  have hfree : s.free_list_ = done.length :: (List.range n).drop (done.length + 1) := by
    rw [hs.free, List.drop_eq_getElem_cons (by simpa using hlen)]
    simp
  obtain ⟨hu1, hu2, hu3⟩ := hs.unused done.length (Nat.le_refl _)
  have hne : ¬ (p.page_no = INVALID_FRAME_ID) := hvalid
  have hnotold : p ≠ (⟨-1, INVALID_PAGE_ID⟩ : PageId) := by
    intro h; rw [h] at hvalid; exact hvalid rfl
  have hold : s.page_table_ ⟨-1, INVALID_PAGE_ID⟩ = none := by
    cases h : s.page_table_ ⟨-1, INVALID_PAGE_ID⟩ with
    | none => rfl
    | some f =>
      have h1 := (hs.table _ f).1 h
      exact absurd rfl (hs.valid _ (List.getElem?_mem h1))
  constructor
  · unfold fetch_page find_victim_page
    rw [hpt, hfree]
  · unfold fetch_page find_victim_page
    rw [hpt, hfree]
    simp only [update_page, set_page, hu2, hu3, hs.rep, replacer_pin_mk_empty,
      if_true, Bool.false_eq_true, if_false, ne_eq, hne, not_false_eq_true]
    exact
      { pool_size := hs.pool_size
        free := by simp
        rep := rfl
        disk_eq := hs.disk_eq
        table := by
          intro q f
          simp only [table_insert, table_erase]
          by_cases hq : q = p
          · subst hq
            simp only [if_true, Option.some.injEq]
            constructor
            · intro h; subst h; simp
            · intro h
              rcases Nat.lt_or_ge f done.length with hlt | hge
              · rw [List.getElem?_append_left hlt] at h
                exact absurd (List.getElem?_mem h) hp
              · rw [List.getElem?_append_right hge] at h
                have : f - done.length = 0 := by
                  rcases Nat.eq_zero_or_pos (f - done.length) with h0 | h0
                  · exact h0
                  · rw [List.getElem?_eq_none (by simp only [List.length_singleton]; omega)] at h; cases h
                omega
          · simp only [hq, if_false]
            have hq2 : q ≠ (⟨-1, INVALID_PAGE_ID⟩ : PageId) ∨ s.page_table_ q = none := by
              by_cases h : q = ⟨-1, INVALID_PAGE_ID⟩
              · right; rw [h]; exact hold
              · left; exact h
            have key : (if q = (⟨-1, INVALID_PAGE_ID⟩ : PageId) then none else s.page_table_ q)
                = s.page_table_ q := by
              rcases hq2 with h | h
              · simp [h]
              · rw [h]; simp
            rw [key, hs.table q f]
            rcases Nat.lt_or_ge f done.length with hlt | hge
            · rw [List.getElem?_append_left hlt]
            · rw [List.getElem?_eq_none hge, List.getElem?_append_right hge]
              constructor
              · intro h; cases h
              · intro h
                rcases Nat.eq_zero_or_pos (f - done.length) with h0 | h0
                · rw [h0] at h; simp at h; exact absurd h.symm hq
                · rw [List.getElem?_eq_none (by simp only [List.length_singleton]; omega)] at h; cases h
        valid := by
          intro q hq
          rcases List.mem_append.1 hq with hq | hq
          · exact hs.valid q hq
          · simp only [List.mem_singleton] at hq; subst hq; exact hvalid
        used := by
          intro f hf
          simp only [List.length_append, List.length_singleton] at hf
          by_cases hfe : f = done.length
          · subst hfe
            simp only [if_true, hu1]
            refine ⟨by norm_num, trivial, ?_⟩
            simp
          · have hlt : f < done.length := by omega
            simp only [hfe, if_false]
            obtain ⟨h1, h2, h3⟩ := hs.used f hlt
            exact ⟨h1, h2, by rw [List.getElem?_append_left hlt]; exact h3⟩
        unused := by
          intro f hf
          simp only [List.length_append, List.length_singleton] at hf
          have hfe : f ≠ done.length := by omega
          simp only [hfe, if_false]
          exact hs.unused f (by omega) }

theorem fetchedOnce_fetch_all [Inhabited D] (disk : DiskManager D) (n : Nat)
    (ps : List PageId) :
    ∀ (done : List PageId) (s : BufferPoolManager D), FetchedOnce disk n done s →
      (done ++ ps).Nodup → (∀ p ∈ ps, p.page_no ≠ INVALID_PAGE_ID) → (done ++ ps).length ≤ n →
      FetchedOnce disk n (done ++ ps) (fetch_all s ps) := by
  induction ps with
  | nil => intro done s hs _ _ _; simpa [fetch_all] using hs
  | cons p rest ih =>
    intro done s hs hnd hv hlen
    have hp : p ∉ done := by
      intro h
      exact (List.nodup_append.1 hnd).2.2 h (List.mem_cons_self _ _)
    have hl : done.length < n := by
      simp only [List.length_append, List.length_cons] at hlen; omega
    have h1 := (fetchedOnce_fetch disk n done s hs p hp (hv p (List.mem_cons_self _ _)) hl).2
    have heq : done ++ p :: rest = (done ++ [p]) ++ rest := by simp
    have := ih (done ++ [p]) _ h1 (by rw [← heq]; exact hnd)
      (fun q hq => hv q (List.mem_cons_of_mem _ hq)) (by rw [← heq]; exact hlen)
    rw [heq]
    exact this

end BufferPoolManager

namespace BufferPoolManager

variable {D : Type}

theorem find_victim_page_none (s : BufferPoolManager D) (h1 : s.free_list_ = [])
    (h2 : s.replacer_.LRUlist_ = []) : (find_victim_page s).1 = none := by
  unfold find_victim_page LRUReplacer.victim
  rw [h1]; simp only [h2, List.getLast?_nil]

theorem new_page_no_victim [Inhabited D] (s : BufferPoolManager D) (pid : PageId)
    (h : (find_victim_page s).1 = none) : new_page s pid = (none, pid, s) := by
  unfold new_page
  cases hv : find_victim_page s with
  | mk r s1 =>
    rw [hv] at h
    simp only at h
    subst h
    rfl

theorem fetch_page_no_victim [Inhabited D] (s : BufferPoolManager D) (pid : PageId)
    (hpt : s.page_table_ pid = none) (h : (find_victim_page s).1 = none) :
    fetch_page s pid = (none, s) := by
  unfold fetch_page
  rw [hpt]
  cases hv : find_victim_page s with
  | mk r s1 =>
    rw [hv] at h
    simp only at h
    subst h
    rfl

/-- C7: in a pool of `n` frames into which `n` distinct pages have each been
fetched once, every frame holds a page with pin count 1 and the Free Frame List
and the replacer are empty; `new_page` and `fetch_page` of a non-resident page
return null and leave the pool state, the disk and the page-id output as they
were; and after `unpin_page(A, d)` for one of the pages, `new_page` succeeds with
the page number handed out by the disk manager (a new one, hence not that of
`A`), reuses the frame of `A` with pin count 1, and `A` is no longer resident. -/
theorem C7_full_pool_then_unpin [Inhabited D] (disk : DiskManager D) (ps : List PageId)
    (hnd : ps.Nodup) (hvalid : ∀ p ∈ ps, p.page_no ≠ INVALID_PAGE_ID) :
    (((fetch_all (init ps.length disk) ps).free_list_ = [] ∧
      (fetch_all (init ps.length disk) ps).replacer_ = LRUReplacer.mk_empty ps.length ∧
      (fetch_all (init ps.length disk) ps).disk_manager_ = disk ∧
      ∀ f, f < ps.length →
        ((fetch_all (init ps.length disk) ps).pages_ f).pin_count_ = 1 ∧
        (fetch_all (init ps.length disk) ps).page_table_
          ((fetch_all (init ps.length disk) ps).pages_ f).id_ = some f) ∧
    (∀ pid, new_page (fetch_all (init ps.length disk) ps) pid
        = (none, pid, fetch_all (init ps.length disk) ps)) ∧
    (∀ q, q ∉ ps → fetch_page (fetch_all (init ps.length disk) ps) q
        = (none, fetch_all (init ps.length disk) ps)) ∧
    (∀ A, A ∈ ps → ∀ (d : Bool) (pid : PageId),
      (⟨pid.fd, disk.fd2pageno pid.fd⟩ : PageId) ≠ A →
      ∃ fA s1, (fetch_all (init ps.length disk) ps).page_table_ A = some fA ∧
        unpin_page (fetch_all (init ps.length disk) ps) A d = some (true, s1) ∧
        (new_page s1 pid).1 = some fA ∧
        (new_page s1 pid).2.1 = ⟨pid.fd, disk.fd2pageno pid.fd⟩ ∧
        ((new_page s1 pid).2.2.pages_ fA).pin_count_ = 1 ∧
        ((new_page s1 pid).2.2.pages_ fA).id_ = (new_page s1 pid).2.1 ∧
        (new_page s1 pid).2.2.page_table_ (new_page s1 pid).2.1 = some fA ∧
        (new_page s1 pid).2.2.page_table_ A = none)) := by
  have hs : FetchedOnce disk ps.length ps (fetch_all (init ps.length disk) ps) := by
    have := fetchedOnce_fetch_all disk ps.length ps [] _ (fetchedOnce_init disk ps.length)
      (by simpa using hnd) hvalid (by simp)
    simpa using this
  generalize fetch_all (init ps.length disk) ps = s at hs ⊢
  have hfree : s.free_list_ = [] := by rw [hs.free]; simp
  have hlru : s.replacer_.LRUlist_ = [] := by rw [hs.rep]; rfl
  have hvict := find_victim_page_none s hfree hlru
  refine ⟨⟨hfree, hs.rep, hs.disk_eq, ?_⟩, ?_, ?_, ?_⟩
  · intro f hf
    obtain ⟨h1, _, h3⟩ := hs.used f hf
    exact ⟨h1, (hs.table _ f).2 h3⟩
  · intro pid; exact new_page_no_victim s pid hvict
  · intro q hq
    refine fetch_page_no_victim s q ?_ hvict
    cases h : s.page_table_ q with
    | none => rfl
    | some f => exact absurd (List.getElem?_mem ((hs.table q f).1 h)) hq
  · intro A hA d pid hnew
    obtain ⟨fA, hfA⟩ := List.mem_iff_getElem?.1 hA
    have hlt : fA < ps.length := by
      rcases Nat.lt_or_ge fA ps.length with h | h
      · exact h
      · rw [List.getElem?_eq_none h] at hfA; cases hfA
    have hpt : s.page_table_ A = some fA := (hs.table A fA).2 hfA
    obtain ⟨hpin, hdirty, hid⟩ := hs.used fA hlt
    have hidA : (s.pages_ fA).id_ = A := by
      rw [hfA] at hid; simp only [Option.some.injEq] at hid; exact hid.symm
    have hmax : 0 < s.replacer_.max_size_ := by rw [hs.rep]; simp [LRUReplacer.mk_empty]; omega
    obtain ⟨rep, hrep, hun⟩ := unpin_page_pinned s A d fA hpt (by rw [hpin]; norm_num) hmax
    have hrep2 : rep = { LRUlist_ := [fA], LRUhash_ := [fA], max_size_ := ps.length } := by
      rw [hs.rep] at hrep
      have hl : ([] : List Nat).length < ps.length := by simp; omega
      simp only [LRUReplacer.unpin, LRUReplacer.mk_empty, List.not_mem_nil, if_false,
        LRUReplacer.unpin_loop_of_lt [] [] hl, Option.some.injEq] at hrep
      rw [← hrep]; simp [LRUReplacer.hash_insert]
    subst hrep2
    refine ⟨fA, _, hpt, hun, ?_⟩
    simp only [new_page, find_victim_page, hfree, LRUReplacer.victim, List.getLast?_singleton,
      DiskManager.allocate_page, hs.disk_eq, update_page, set_page, if_true, table_insert,
      table_erase, hidA, true_and]
    refine ⟨?_, ?_⟩
    · split <;> rfl
    · simp only [hnew.symm, if_false]

/-- Witness for C7: pages 0 and 1 of file 3 fetched into a pool of two frames
over a disk whose files have two pages; `new_page` for file 3 fails, and after
`unpin_page` of page 0 it succeeds in frame 0 with page number 2. -/
theorem C7_full_pool_then_unpin_witness :
    ([⟨3, 0⟩, ⟨3, 1⟩] : List PageId).Nodup ∧
      (∀ p ∈ ([⟨3, 0⟩, ⟨3, 1⟩] : List PageId), p.page_no ≠ INVALID_PAGE_ID) ∧
      (new_page (fetch_all (init 2 demoDisk2) [⟨3, 0⟩, ⟨3, 1⟩]) ⟨3, -1⟩).1 = none ∧
      (∃ fA s1, (fetch_all (init 2 demoDisk2) [⟨3, 0⟩, ⟨3, 1⟩]).page_table_ ⟨3, 0⟩ = some fA ∧
        unpin_page (fetch_all (init 2 demoDisk2) [⟨3, 0⟩, ⟨3, 1⟩]) ⟨3, 0⟩ false
          = some (true, s1) ∧
        (new_page s1 ⟨3, -1⟩).1 = some fA ∧
        (new_page s1 ⟨3, -1⟩).2.1 = ⟨3, 2⟩ ∧
        (new_page s1 ⟨3, -1⟩).2.2.page_table_ ⟨3, 0⟩ = none) := by
  have h := C7_full_pool_then_unpin demoDisk2 [⟨3, 0⟩, ⟨3, 1⟩] (by decide) (by decide)
  refine ⟨by decide, by decide, ?_, ?_⟩
  · have := h.2.1 ⟨3, -1⟩
    exact congrArg Prod.fst this
  · obtain ⟨fA, s1, h1, h2, h3, h4, _, _, _, h8⟩ :=
      h.2.2.2 ⟨3, 0⟩ (by decide) false ⟨3, -1⟩ (by decide)
    exact ⟨fA, s1, h1, h2, h3, h4, h8⟩

/-- C6 (the code evaluated at the failing input): in a pool of one frame, after
`fetch_page(P)`, `fetch_page(P)`, `unpin_page(P, false)` and one single
`fetch_page(Q)` of another page, the page `Q` sits in frame 0 with pin count 2,
and of three successive `unpin_page(Q, false)` calls the first two return true
and only the third returns false. -/
theorem C6_one_fetch_two_unpins :
    (run (init 1 demoDisk)
      [.fetch_page ⟨3, 0⟩, .fetch_page ⟨3, 0⟩, .unpin_page ⟨3, 0⟩ false,
        .fetch_page ⟨3, 1⟩]).map
      (fun s => (s.page_table_ ⟨3, 1⟩, (s.pages_ 0).pin_count_,
        unpin_results s ⟨3, 1⟩ false 3))
      = some (some 0, 2, [some true, some true, some false]) := by
  rfl

end BufferPoolManager

/-! ## Claim about write-back: a dirty page survives eviction -/

namespace BufferPoolManager

variable {D : Type}

/-- A state that differs only in pin counts, in the replacer, in the Free Frame
List, or by dirty flags that were raised, holds the same content. -/
theorem holds_of_same (P : PageId) (d : D) (s t : BufferPoolManager D) (hs : Holds P d s)
    (hid : ∀ g, (t.pages_ g).id_ = (s.pages_ g).id_)
    (hdata : ∀ g, (t.pages_ g).data_ = (s.pages_ g).data_)
    (hdirty : ∀ g, (s.pages_ g).is_dirty_ = true → (t.pages_ g).is_dirty_ = true)
    (htab : t.page_table_ = s.page_table_) (hdisk : t.disk_manager_ = s.disk_manager_) :
    Holds P d t where
  table_id := by
    intro pid g h
    rw [htab] at h; rw [hid]; exact hs.table_id pid g h
  single := by
    intro g h
    rw [hid] at h; rw [htab]; exact hs.single g h
  allocated := by rw [hdisk]; exact hs.allocated
  resident := by
    intro g h
    rw [htab] at h
    obtain ⟨h1, h2⟩ := hs.resident g h
    refine ⟨by rw [hdata]; exact h1, ?_⟩
    rcases h2 with h2 | h2
    · exact Or.inl (hdirty g h2)
    · exact Or.inr (by rw [hdisk]; exact h2)
  on_disk := by
    intro h
    rw [htab] at h; rw [hdisk]; exact hs.on_disk h

theorem holds_find_victim_page (P : PageId) (d : D) (s : BufferPoolManager D)
    (hs : Holds P d s) : Holds P d (find_victim_page s).2 := by
  unfold find_victim_page
  split
  · exact holds_of_same P d s _ hs (fun _ => rfl) (fun _ => rfl) (fun _ h => h) rfl rfl
  · exact holds_of_same P d s _ hs (fun _ => rfl) (fun _ => rfl) (fun _ h => h) rfl rfl

theorem find_victim_page_table (s : BufferPoolManager D) :
    (find_victim_page s).2.page_table_ = s.page_table_ := by
  unfold find_victim_page; split <;> rfl

theorem find_victim_page_disk (s : BufferPoolManager D) :
    (find_victim_page s).2.disk_manager_ = s.disk_manager_ := by
  unfold find_victim_page; split <;> rfl

theorem holds_update_page [Inhabited D] (P : PageId) (d : D) (s : BufferPoolManager D)
    (hs : Holds P d s) (hvalid : P.page_no ≠ INVALID_PAGE_ID) (f : Nat) (q : PageId)
    (hq : q = P → s.page_table_ P = none) : Holds P d (update_page s f q f) where
  table_id := tableIdentity_update_page s hs.table_id f q
  single := by
    intro g hg
    simp only [update_page, table_insert, table_erase] at hg ⊢
    by_cases hgf : g = f
    · subst hgf
      simp only [if_true] at hg
      have hqP : q = P := by
        split at hg <;> exact hg
      simp [hqP]
    · simp only [hgf, if_false] at hg
      have h1 := hs.single g hg
      by_cases hqP : q = P
      · rw [hq hqP] at h1; cases h1
      · have hPq : ¬ P = q := fun h => hqP h.symm
        simp only [hPq, if_false]
        by_cases hold : P = (s.pages_ f).id_
        · have h2 := hs.single f hold.symm
          rw [h1] at h2
          simp only [Option.some.injEq] at h2
          exact absurd h2 hgf
        · simp only [hold, if_false]; exact h1
  allocated := by
    simp only [update_page]
    split
    · exact hs.allocated
    · exact hs.allocated
  resident := by
    intro g hg
    simp only [update_page, table_insert, table_erase] at hg ⊢
    by_cases hPq : P = q
    · subst hPq
      simp only [if_true, Option.some.injEq] at hg
      subst hg
      have hnone := hq rfl
      have hdisk := hs.on_disk hnone
      have hne : ¬ P.page_no = INVALID_FRAME_ID := hvalid
      have hold : (s.pages_ f).id_ ≠ P := by
        intro h
        have := hs.single f h
        rw [hnone] at this; cases this
      simp only [if_true, ne_eq, hne, not_false_eq_true]
      have key : (if (s.pages_ f).is_dirty_ = true then
            s.disk_manager_.write_page (s.pages_ f).id_ (s.pages_ f).data_
          else s.disk_manager_).pages P = d := by
        split
        · simp only [DiskManager.write_page]
          have : ¬ P = (s.pages_ f).id_ := fun h => hold h.symm
          simp only [this, if_false]; exact hdisk
        · exact hdisk
      exact ⟨key, Or.inr key⟩
    · simp only [hPq, if_false] at hg
      split at hg
      · cases hg
      · rename_i hold
        have hgf : g ≠ f := by
          intro h; subst h
          exact hold (hs.table_id P g hg).symm
        simp only [hgf, if_false]
        obtain ⟨h1, h2⟩ := hs.resident g hg
        refine ⟨h1, ?_⟩
        rcases h2 with h2 | h2
        · exact Or.inl h2
        · right
          split
          · simp only [DiskManager.write_page, hold, if_false]; exact h2
          · exact h2
  on_disk := by
    intro hg
    simp only [update_page, table_insert, table_erase] at hg ⊢
    by_cases hPq : P = q
    · simp [hPq] at hg
    · simp only [hPq, if_false] at hg
      by_cases hold : P = (s.pages_ f).id_
      · have hpt := hs.single f hold.symm
        obtain ⟨h1, h2⟩ := hs.resident f hpt
        split
        · simp only [DiskManager.write_page, hold, if_true]; exact h1
        · rename_i hnd
          rcases h2 with h2 | h2
          · exact absurd h2 hnd
          · exact h2
      · simp only [hold, if_false] at hg
        have := hs.on_disk hg
        split
        · simp only [DiskManager.write_page, hold, if_false]; exact this
        · exact this

end BufferPoolManager

namespace BufferPoolManager

variable {D : Type}

theorem holds_fetch_page [Inhabited D] (P : PageId) (d : D) (s : BufferPoolManager D)
    (hs : Holds P d s) (hvalid : P.page_no ≠ INVALID_PAGE_ID) (q : PageId) :
    Holds P d (fetch_page s q).2 := by
  unfold fetch_page
  cases hpt : s.page_table_ q with
  | some f =>
    refine holds_of_same P d s _ hs ?_ ?_ ?_ rfl rfl
    · intro g; simp only [set_page]; split <;> simp_all
    · intro g; simp only [set_page]; split <;> simp_all
    · intro g hg; simp only [set_page]; split <;> simp_all
  | none =>
    simp only
    cases hv : find_victim_page s with
    | mk r s1 =>
      cases r with
      | none => exact hs
      | some f =>
        have hs1 : Holds P d s1 := by
          have := holds_find_victim_page P d s hs; rwa [hv] at this
        have ht1 : s1.page_table_ = s.page_table_ := by
          have := find_victim_page_table s; rwa [hv] at this
        have hu := holds_update_page P d s1 hs1 hvalid f q
          (by intro h; subst h; rw [ht1]; exact hpt)
        refine holds_of_same P d _ _ hu ?_ ?_ ?_ rfl rfl
        · intro g; simp only [set_page]; split <;> simp_all
        · intro g; simp only [set_page]; split <;> simp_all
        · intro g hg; simp only [set_page]; split <;> simp_all

theorem holds_new_page [Inhabited D] (P : PageId) (d : D) (s : BufferPoolManager D)
    (hs : Holds P d s) (hvalid : P.page_no ≠ INVALID_PAGE_ID) (pid : PageId) :
    Holds P d (new_page s pid).2.2 := by
  unfold new_page
  cases hv : find_victim_page s with
  | mk r s1 =>
    cases r with
    | none => exact hs
    | some f =>
      have hs1 : Holds P d s1 := by
        have := holds_find_victim_page P d s hs; rwa [hv] at this
      have hs2 : Holds P d { s1 with disk_manager_ := (s1.disk_manager_.allocate_page pid.fd).2 } :=
        { table_id := hs1.table_id
          single := hs1.single
          allocated := by
            have := hs1.allocated
            simp only [DiskManager.allocate_page]
            split
            · rename_i h; rw [h] at this; omega
            · exact this
          resident := hs1.resident
          on_disk := hs1.on_disk }
      have hne : (⟨pid.fd, (s1.disk_manager_.allocate_page pid.fd).1⟩ : PageId) ≠ P := by
        intro h
        have := hs1.allocated
        rw [← h] at this
        simp [DiskManager.allocate_page] at this
      have hu := holds_update_page P d _ hs2 hvalid f
        ⟨pid.fd, (s1.disk_manager_.allocate_page pid.fd).1⟩ (fun h => absurd h hne)
      refine holds_of_same P d _ _ hu ?_ ?_ ?_ rfl rfl
      · intro g; simp only [set_page]; split <;> simp_all
      · intro g; simp only [set_page]; split <;> simp_all
      · intro g hg; simp only [set_page]; split <;> simp_all

theorem holds_unpin_page (P : PageId) (d : D) (s s1 : BufferPoolManager D) (hs : Holds P d s)
    (q : PageId) (dirty b : Bool) (h : unpin_page s q dirty = some (b, s1)) : Holds P d s1 := by
  unfold unpin_page at h
  cases hpt : s.page_table_ q with
  | none => rw [hpt] at h; simp only [Option.some.injEq, Prod.mk.injEq] at h; rw [← h.2]; exact hs
  | some f =>
    rw [hpt] at h
    simp only at h
    split at h
    · simp only [Option.some.injEq, Prod.mk.injEq] at h; rw [← h.2]; exact hs
    · split at h
      · cases h
      · simp only [Option.some.injEq, Prod.mk.injEq] at h
        rw [← h.2]
        refine holds_of_same P d s _ hs ?_ ?_ ?_ rfl rfl
        · intro g; simp only [set_page]; split <;> simp_all
        · intro g; simp only [set_page]; split <;> simp_all
        · intro g hg; simp only [set_page]; split <;> simp_all

theorem holds_flush_frame (P : PageId) (d : D) (s : BufferPoolManager D) (hs : Holds P d s)
    (g : Nat) (hg : s.page_table_ P = some g ∨ (s.pages_ g).id_ ≠ P) :
    Holds P d
      ({ s with disk_manager_ :=
          s.disk_manager_.write_page (s.pages_ g).id_ (s.pages_ g).data_ }.set_page g
        { s.pages_ g with is_dirty_ := false }) where
  table_id := by
    intro pid k h
    simp only [set_page] at h ⊢
    split
    · rename_i hk; subst hk; exact hs.table_id pid k h
    · exact hs.table_id pid k h
  single := by
    intro k h
    simp only [set_page] at h ⊢
    split at h
    · rename_i hk; subst hk; exact hs.single k h
    · exact hs.single k h
  allocated := hs.allocated
  resident := by
    intro k hk
    simp only [set_page, DiskManager.write_page] at hk ⊢
    obtain ⟨h1, h2⟩ := hs.resident k hk
    by_cases hkg : k = g
    · subst hkg
      simp only [if_true]
      refine ⟨h1, Or.inr ?_⟩
      have := hs.table_id P k hk
      simp only [this, if_true]; exact h1
    · simp only [hkg, if_false]
      refine ⟨h1, ?_⟩
      rcases h2 with h2 | h2
      · exact Or.inl h2
      · right
        rcases hg with hg | hg
        · rw [hk] at hg; simp only [Option.some.injEq] at hg; exact absurd hg hkg
        · have : ¬ P = (s.pages_ g).id_ := fun h => hg h.symm
          simp only [this, if_false]; exact h2
  on_disk := by
    intro h
    simp only [set_page, DiskManager.write_page] at h ⊢
    have hne : ¬ P = (s.pages_ g).id_ := by
      intro he
      have := hs.single g he.symm
      rw [h] at this; cases this
    simp only [hne, if_false]
    exact hs.on_disk h

theorem holds_flush_page (P : PageId) (d : D) (s : BufferPoolManager D) (hs : Holds P d s)
    (q : PageId) : Holds P d (flush_page s q).2 := by
  unfold flush_page
  cases hpt : s.page_table_ q with
  | none => exact hs
  | some g =>
    have hid := hs.table_id q g hpt
    have := holds_flush_frame P d s hs g (by
      by_cases hq : q = P
      · left; rw [← hq]; exact hpt
      · right; rw [hid]; exact hq)
    rw [hid] at this
    exact this

theorem holds_flush_all_pages_step (P : PageId) (d : D) (fd : Int) (s : BufferPoolManager D)
    (hs : Holds P d s) (i : Nat) : Holds P d (flush_all_pages_step fd s i) := by
  unfold flush_all_pages_step
  simp only
  split
  · exact holds_flush_frame P d s hs i (by
      by_cases h : (s.pages_ i).id_ = P
      · left; exact hs.single i h
      · right; exact h)
  · exact hs

theorem holds_foldl_flush (P : PageId) (d : D) (fd : Int) (l : List Nat) :
    ∀ s : BufferPoolManager D, Holds P d s →
      Holds P d (l.foldl (flush_all_pages_step fd) s) := by
  induction l with
  | nil => intro s hs; exact hs
  | cons a t ih => intro s hs; exact ih _ (holds_flush_all_pages_step P d fd s hs a)

theorem holds_delete_page [Inhabited D] (P : PageId) (d : D) (s : BufferPoolManager D)
    (hs : Holds P d s) (hvalid : P.page_no ≠ INVALID_PAGE_ID) (q : PageId) (_hq : q ≠ P) :
    Holds P d (delete_page s q).2 := by
  unfold delete_page
  cases hpt : s.page_table_ q with
  | none => exact hs
  | some f =>
    simp only
    split
    · exact hs
    · have hs1 : Holds P d
        { s with disk_manager_ := s.disk_manager_.deallocate_page q.page_no } := hs
      have hne : ({ q with page_no := INVALID_PAGE_ID } : PageId) ≠ P := by
        intro h; rw [← h] at hvalid; exact hvalid rfl
      have hu := holds_update_page P d _ hs1 hvalid f { q with page_no := INVALID_PAGE_ID }
        (fun h => absurd h hne)
      exact holds_of_same P d _ _ hu (fun _ => rfl) (fun _ => rfl) (fun _ h => h) rfl rfl

theorem holds_write_data (P : PageId) (d : D) (s : BufferPoolManager D) (hs : Holds P d s)
    (g : Nat) (x : D) (hg : s.page_table_ P ≠ some g) : Holds P d (write_data s g x) where
  table_id := by
    intro pid k h
    simp only [write_data, set_page] at h ⊢
    split
    · rename_i hk; subst hk; exact hs.table_id pid k h
    · exact hs.table_id pid k h
  single := by
    intro k h
    simp only [write_data, set_page] at h ⊢
    split at h
    · rename_i hk; subst hk; exact hs.single k h
    · exact hs.single k h
  allocated := hs.allocated
  resident := by
    intro k hk
    simp only [write_data, set_page] at hk ⊢
    have hkg : k ≠ g := by intro h; subst h; exact hg hk
    simp only [hkg, if_false]
    exact hs.resident k hk
  on_disk := hs.on_disk

theorem holds_client_step [Inhabited D] (P : PageId) (d : D) (s s1 : BufferPoolManager D)
    (hs : Holds P d s) (hvalid : P.page_no ≠ INVALID_PAGE_ID) (op : ClientOp D)
    (hk : keeps P s op = true) (h : client_step s op = some s1) : Holds P d s1 := by
  cases op with
  | write g x =>
    simp only [client_step, Option.some.injEq] at h
    simp only [keeps, decide_eq_true_eq] at hk
    rw [← h]; exact holds_write_data P d s hs g x hk
  | call op =>
    cases op with
    | fetch_page q =>
      simp only [client_step, step, Option.some.injEq] at h
      rw [← h]; exact holds_fetch_page P d s hs hvalid q
    | new_page q =>
      simp only [client_step, step, Option.some.injEq] at h
      rw [← h]; exact holds_new_page P d s hs hvalid q
    | unpin_page q dirty =>
      simp only [client_step, step] at h
      cases hu : unpin_page s q dirty with
      | none => rw [hu] at h; cases h
      | some r =>
        rw [hu] at h
        simp only [Option.map, Option.some.injEq] at h
        rw [← h]
        exact holds_unpin_page P d s r.2 hs q dirty r.1 hu
    | flush_page q =>
      simp only [client_step, step, Option.some.injEq] at h
      rw [← h]; exact holds_flush_page P d s hs q
    | delete_page q =>
      simp only [client_step, step, Option.some.injEq] at h
      simp only [keeps, decide_eq_true_eq] at hk
      rw [← h]; exact holds_delete_page P d s hs hvalid q hk
    | flush_all_pages fd =>
      simp only [client_step, step, Option.some.injEq] at h
      rw [← h]; exact holds_foldl_flush P d fd _ s hs

theorem holds_run_keeping [Inhabited D] (P : PageId) (d : D)
    (hvalid : P.page_no ≠ INVALID_PAGE_ID) (ops : List (ClientOp D)) :
    ∀ s s1 : BufferPoolManager D, Holds P d s → run_keeping P s ops = some s1 →
      Holds P d s1 := by
  induction ops with
  | nil => intro s s1 hs h; simp only [run_keeping, Option.some.injEq] at h; rw [← h]; exact hs
  | cons op rest ih =>
    intro s s1 hs h
    simp only [run_keeping] at h
    split at h
    · rename_i hk
      cases hc : client_step s op with
      | none => rw [hc] at h; cases h
      | some s2 =>
        rw [hc] at h
        exact ih s2 s1 (holds_client_step P d s s2 hs hvalid op hk hc) h
    · cases h

theorem fetch_page_table [Inhabited D] (s s1 : BufferPoolManager D) (q : PageId) (f : Nat)
    (h : fetch_page s q = (some f, s1)) : s1.page_table_ q = some f := by
  unfold fetch_page at h
  cases hpt : s.page_table_ q with
  | some g =>
    rw [hpt] at h
    simp only [Prod.mk.injEq, Option.some.injEq] at h
    rw [← h.2, ← h.1]; exact hpt
  | none =>
    rw [hpt] at h
    simp only at h
    cases hv : find_victim_page s with
    | mk r s2 =>
      rw [hv] at h
      cases r with
      | none => simp at h
      | some g =>
        simp only [Prod.mk.injEq, Option.some.injEq] at h
        rw [← h.2, ← h.1]
        simp [set_page, update_page, table_insert]

end BufferPoolManager

namespace BufferPoolManager

variable {D : Type}

theorem holds_after_unpin_dirty (P : PageId) (s0 s1 : BufferPoolManager D) (f : Nat)
    (hid : TableIdentity s0) (hsingle : ∀ g, (s0.pages_ g).id_ = P → s0.page_table_ P = some g)
    (halloc : P.page_no < s0.disk_manager_.fd2pageno P.fd)
    (hres : s0.page_table_ P = some f)
    (hunpin : unpin_page s0 P true = some (true, s1)) :
    Holds P (s0.pages_ f).data_ s1 := by
  unfold unpin_page at hunpin
  rw [hres] at hunpin
  simp only at hunpin
  split at hunpin
  · simp at hunpin
  · split at hunpin
    · cases hunpin
    · simp only [Option.some.injEq, Prod.mk.injEq, true_and] at hunpin
      rw [← hunpin]
      exact
        { table_id := by
            intro pid g h
            simp only [set_page] at h ⊢
            split
            · rename_i hg; subst hg; exact hid pid g h
            · exact hid pid g h
          single := by
            intro g h
            simp only [set_page] at h ⊢
            split at h
            · rename_i hg; subst hg; exact hsingle g h
            · exact hsingle g h
          allocated := halloc
          resident := by
            intro g hg
            simp only [set_page] at hg ⊢
            rw [hres] at hg
            simp only [Option.some.injEq] at hg
            subst hg
            simp
          on_disk := by
            intro h
            simp only [set_page] at h
            rw [hres] at h; cases h }

/-- C8: let the pool respect identities, let `P` be a valid page whose number the
disk manager has already handed out, resident in frame `f` and carried by no
other frame, and let `unpin_page(P, true)` succeed while the buffer of `P`
holds `d`. Then after every later sequence of pool calls and client writes that
neither deletes `P` nor writes into the buffer of `P`: if `P` is resident its
buffer is still `d`; if `P` is not resident (its frame was evicted) the disk
holds `d` under `P`, and every successful `fetch_page(P)` returns a buffer
equal to `d`. -/
theorem C8_dirty_page_survives_eviction [Inhabited D] (s0 s1 s2 : BufferPoolManager D)
    (P : PageId) (f : Nat) (ops : List (ClientOp D))
    (hid : TableIdentity s0)
    (hsingle : ∀ g, (s0.pages_ g).id_ = P → s0.page_table_ P = some g)
    (hvalid : P.page_no ≠ INVALID_PAGE_ID)
    (halloc : P.page_no < s0.disk_manager_.fd2pageno P.fd)
    (hres : s0.page_table_ P = some f)
    (hunpin : unpin_page s0 P true = some (true, s1))
    (hrun : run_keeping P s1 ops = some s2) :
    (∀ g, s2.page_table_ P = some g → (s2.pages_ g).data_ = (s0.pages_ f).data_) ∧
    (s2.page_table_ P = none →
      s2.disk_manager_.pages P = (s0.pages_ f).data_ ∧
      ∀ f2 s3, fetch_page s2 P = (some f2, s3) →
        (s3.pages_ f2).data_ = (s0.pages_ f).data_) := by
  have h1 := holds_after_unpin_dirty P s0 s1 f hid hsingle halloc hres hunpin
  have h2 := holds_run_keeping P _ hvalid ops s1 s2 h1 hrun
  refine ⟨fun g hg => (h2.resident g hg).1, fun hnone => ⟨h2.on_disk hnone, ?_⟩⟩
  intro f2 s3 hf
  have h3 : Holds P (s0.pages_ f).data_ s3 := by
    have := holds_fetch_page P _ s2 h2 hvalid P
    rwa [hf] at this
  exact (h3.resident f2 (fetch_page_table s2 s3 P f2 hf)).1

theorem demoWritten_fetchedOnce :
    FetchedOnce demoDisk2 1 [⟨3, 0⟩] (fetch_page (init 1 demoDisk2) ⟨3, 0⟩).2 :=
  (fetchedOnce_fetch demoDisk2 1 [] (init 1 demoDisk2) (fetchedOnce_init demoDisk2 1) ⟨3, 0⟩
    (by simp) (by decide) (by decide)).2

theorem demoWritten_tableIdentity : TableIdentity demoWritten := by
  have h := tableIdentity_fetch_page (init 1 demoDisk2)
    (fun pid f hf => by simp [init] at hf) ⟨3, 0⟩
  exact tableIdentity_set_page _ h 0 _ rfl

theorem demoWritten_single :
    ∀ g, (demoWritten.pages_ g).id_ = ⟨3, 0⟩ → demoWritten.page_table_ ⟨3, 0⟩ = some g := by
  intro g h
  by_cases hg : g = 0
  · subst hg; rfl
  · have hu := (demoWritten_fetchedOnce.unused g (by simp; omega)).2.2
    have : (demoWritten.pages_ g).id_ = ⟨-1, INVALID_PAGE_ID⟩ := by
      simp only [demoWritten, write_data, set_page, hg, if_false]
      exact hu
    rw [this] at h
    exact absurd h (by decide)

/-- Witness for C8: page 0 of file 3 is written with 42, released dirty, evicted
by the fetch of page 1, and fetched again after page 1 was released: the buffer
returned holds 42. -/
theorem C8_dirty_page_survives_eviction_witness :
    demoEvicted.page_table_ ⟨3, 0⟩ = none ∧
      (fetch_page demoEvicted ⟨3, 0⟩).1 = some 0 ∧
      ((fetch_page demoEvicted ⟨3, 0⟩).2.pages_ 0).data_ = 42 := by
  have h := C8_dirty_page_survives_eviction demoWritten demoReleased demoEvicted ⟨3, 0⟩ 0
    [.call (.fetch_page ⟨3, 1⟩), .call (.unpin_page ⟨3, 1⟩ false)]
    demoWritten_tableIdentity demoWritten_single (by decide) (by decide) rfl rfl rfl
  refine ⟨rfl, rfl, ?_⟩
  exact (h.2 rfl).2 0 (fetch_page demoEvicted ⟨3, 0⟩).2 rfl

end BufferPoolManager

/-! ## Claims about the record store -/

namespace BufferPoolManager

variable {D : Type}

theorem fetch_page_resident [Inhabited D] (s : BufferPoolManager D) (q : PageId) (f : Nat)
    (h : s.page_table_ q = some f) :
    fetch_page s q = (some f,
      ({ s with replacer_ := s.replacer_.pin f } : BufferPoolManager D).set_page f
        { s.pages_ f with pin_count_ := (s.pages_ f).pin_count_ + 1 }) := by
  unfold fetch_page
  rw [h]

theorem fetch_page_id [Inhabited D] (s s1 : BufferPoolManager D) (hs : TableIdentity s)
    (q : PageId) (f : Nat) (h : fetch_page s q = (some f, s1)) :
    (s1.pages_ f).id_ = q := by
  have h1 := tableIdentity_fetch_page s hs q
  rw [h] at h1
  exact h1 q f (fetch_page_table s s1 q f h)

theorem new_page_result [Inhabited D] (s s1 : BufferPoolManager D) (pid pid1 : PageId)
    (f : Nat) (h : new_page s pid = (some f, pid1, s1)) :
    pid1 = ⟨pid.fd, s.disk_manager_.fd2pageno pid.fd⟩ ∧
      s1.page_table_ pid1 = some f ∧ (s1.pages_ f).id_ = pid1 := by
  unfold new_page at h
  cases hv : find_victim_page s with
  | mk r s2 =>
    rw [hv] at h
    cases r with
    | none => simp at h
    | some g =>
      have hd : s2.disk_manager_ = s.disk_manager_ := by
        have := find_victim_page_disk s; rwa [hv] at this
      simp only [Prod.mk.injEq, Option.some.injEq] at h
      obtain ⟨h1, h2, h3⟩ := h
      subst h1
      rw [← h3, ← h2]
      refine ⟨by simp [DiskManager.allocate_page, hd], ?_, ?_⟩
      · simp [set_page, update_page, table_insert]
      · simp only [set_page, update_page, if_true]
        split <;> rfl

end BufferPoolManager

namespace RmFileHandle

theorem fetch_page_handle_ok (fh fh1 : RmFileHandle) (page_no : Int) (page : Nat)
    (h : fetch_page_handle fh page_no = .ok (.ok page, fh1)) :
    page_no < fh.file_hdr_.num_pages ∧ fh1.file_hdr_ = fh.file_hdr_ ∧ fh1.fd_ = fh.fd_ ∧
      fh.buffer_pool_manager_.fetch_page ⟨fh.fd_, page_no⟩
        = (some page, fh1.buffer_pool_manager_) := by
  unfold fetch_page_handle at h
  split at h
  · simp at h
  · rename_i hlt
    split at h
    · cases h
    · rename_i pg s hf
      simp only [Except.ok.injEq, Prod.mk.injEq, RmResult.ok.injEq] at h
      obtain ⟨h1, h2⟩ := h
      subst h1
      rw [← h2]
      exact ⟨by omega, rfl, rfl, hf⟩

theorem create_new_page_handle_ok (fh fh1 : RmFileHandle) (page : Nat)
    (h : create_new_page_handle fh = .ok (page, fh1)) :
    fh1.fd_ = fh.fd_ ∧
      fh1.file_hdr_ = { fh.file_hdr_ with
        num_pages := fh.file_hdr_.num_pages + 1
        first_free_page_no := fh.buffer_pool_manager_.disk_manager_.fd2pageno fh.fd_ } ∧
      (fh1.buffer_pool_manager_.pages_ page).id_
        = ⟨fh.fd_, fh.buffer_pool_manager_.disk_manager_.fd2pageno fh.fd_⟩ ∧
      fh1.buffer_pool_manager_.page_table_
        ⟨fh.fd_, fh.buffer_pool_manager_.disk_manager_.fd2pageno fh.fd_⟩ = some page ∧
      (fh1.page_data page).num_records = 0 ∧
      (fh1.page_data page).next_free_page_no = RM_NO_PAGE ∧
      (∀ i, 0 ≤ i → i < 8 * fh.file_hdr_.bitmap_size → (fh1.page_data page).bitmap i = false) := by
  unfold create_new_page_handle at h
  split at h
  · cases h
  · rename_i pg pageid s hn
    obtain ⟨h1, h2, h3⟩ := BufferPoolManager.new_page_result _ _ _ _ _ hn
    simp only [Except.ok.injEq, Prod.mk.injEq] at h
    obtain ⟨hp, hfh⟩ := h
    subst hp
    rw [← hfh]
    simp only [h1] at h2 h3 ⊢
    refine ⟨rfl, rfl, ?_, ?_, ?_, ?_, ?_⟩
    · simp [set_page_data, BufferPoolManager.write_data, BufferPoolManager.set_page, h3]
    · simp [set_page_data, BufferPoolManager.write_data, BufferPoolManager.set_page, h2]
    · simp [set_page_data, page_data, BufferPoolManager.write_data, BufferPoolManager.set_page]
    · simp [set_page_data, page_data, BufferPoolManager.write_data, BufferPoolManager.set_page]
    · intro i hi1 hi2
      simp [set_page_data, page_data, BufferPoolManager.write_data, BufferPoolManager.set_page,
        Bitmap.init, hi1, hi2]

theorem create_page_handle_ok (fh fh1 : RmFileHandle) (page : Nat)
    (hid : BufferPoolManager.TableIdentity fh.buffer_pool_manager_)
    (halloc : fh.buffer_pool_manager_.disk_manager_.fd2pageno fh.fd_ ≤ fh.file_hdr_.num_pages)
    (h : create_page_handle fh = .ok (.ok page, fh1)) :
    fh1.fd_ = fh.fd_ ∧
      fh1.file_hdr_.record_size = fh.file_hdr_.record_size ∧
      (fh1.buffer_pool_manager_.pages_ page).id_.fd = fh.fd_ ∧
      (fh1.buffer_pool_manager_.pages_ page).id_.page_no < fh1.file_hdr_.num_pages ∧
      fh1.buffer_pool_manager_.page_table_ (fh1.buffer_pool_manager_.pages_ page).id_
        = some page := by
  unfold create_page_handle at h
  split at h
  · split at h
    · cases h
    · rename_i pg fh2 hc
      simp only [Except.ok.injEq, Prod.mk.injEq, RmResult.ok.injEq] at h
      obtain ⟨hp, hfh⟩ := h
      subst hp hfh
      obtain ⟨h1, h2, h3, h4, _⟩ := create_new_page_handle_ok fh fh2 pg hc
      rw [h3, h2]
      exact ⟨h1, rfl, rfl, by simp; omega, h4⟩
  · obtain ⟨h1, h2, h3, h4⟩ := fetch_page_handle_ok fh fh1 _ page h
    have h5 := BufferPoolManager.fetch_page_id _ _ hid _ _ h4
    rw [h5, h2]
    exact ⟨h3, rfl, rfl, h1, BufferPoolManager.fetch_page_table _ _ _ _ h4⟩

theorem read_write_slot (slots : Int → Nat → Nat) (slot_no : Int) (buf : List Nat)
    (record_size : Int) (hlen : buf.length = record_size.toNat) :
    read_slot (write_slot slots slot_no buf record_size) slot_no record_size = buf := by
  unfold read_slot write_slot
  apply List.ext_getElem
  · simp [hlen]
  · intro n h1 h2
    simp only [List.length_map, List.length_range] at h1
    simp only [List.getElem_map, List.getElem_range, true_and, h1, if_true,
      List.getD_eq_getElem?_getD, List.getElem?_eq_getElem h2, Option.getD_some]

end RmFileHandle

namespace RmFileHandle

@[simp] theorem set_page_data_file_hdr (fh : RmFileHandle) (p : Nat) (d : RmPageData) :
    (fh.set_page_data p d).file_hdr_ = fh.file_hdr_ := rfl

@[simp] theorem set_page_data_fd (fh : RmFileHandle) (p : Nat) (d : RmPageData) :
    (fh.set_page_data p d).fd_ = fh.fd_ := rfl

@[simp] theorem page_data_set_page_data (fh : RmFileHandle) (p : Nat) (d : RmPageData) :
    (fh.set_page_data p d).page_data p = d := by
  simp [set_page_data, page_data, BufferPoolManager.write_data, BufferPoolManager.set_page]

@[simp] theorem set_page_data_twice (fh : RmFileHandle) (p : Nat) (d1 d2 : RmPageData) :
    (fh.set_page_data p d1).set_page_data p d2 = fh.set_page_data p d2 := by
  simp only [set_page_data, BufferPoolManager.write_data, BufferPoolManager.set_page, if_true]
  congr 2
  funext g
  by_cases hg : g = p <;> simp [hg]

theorem set_page_data_pool (fh : RmFileHandle) (p : Nat) (d : RmPageData) :
    (fh.set_page_data p d).buffer_pool_manager_ = fh.buffer_pool_manager_.write_data p d := rfl

/-- What a successful `insert_record(buf)` has done: on the page `page` obtained
from `create_page_handle` it has taken the first clear slot, written the bytes
there, set the bit, raised the record count, and advanced the free-page pointer
of the file when the page became full. -/
theorem insert_record_ok (fh fh1 : RmFileHandle) (buf : List Nat) (rid : Rid)
    (h : insert_record fh buf = .ok (.ok rid, fh1)) :
    ∃ page fha, create_page_handle fh = .ok (.ok page, fha) ∧
      slot_in_range fha.file_hdr_ rid.slot_no = true ∧
      bit_in_range fha.file_hdr_ rid.slot_no = true ∧
      rid.slot_no = Bitmap.first_bit false (fha.page_data page).bitmap
        fha.file_hdr_.num_records_per_page ∧
      rid.page_no = (fha.buffer_pool_manager_.pages_ page).id_.page_no ∧
      fh1.fd_ = fha.fd_ ∧
      fh1.buffer_pool_manager_ = fha.buffer_pool_manager_.write_data page
        { num_records := (fha.page_data page).num_records + 1
          next_free_page_no := (fha.page_data page).next_free_page_no
          bitmap := Bitmap.set (fha.page_data page).bitmap rid.slot_no
          slots := write_slot (fha.page_data page).slots rid.slot_no buf
            fha.file_hdr_.record_size } ∧
      fh1.file_hdr_ = { fha.file_hdr_ with
        first_free_page_no :=
          if (fha.page_data page).num_records + 1 = fha.file_hdr_.num_records_per_page then
            (fha.page_data page).next_free_page_no
          else fha.file_hdr_.first_free_page_no } := by
  unfold insert_record at h
  cases hc : create_page_handle fh with
  | error e => rw [hc] at h; cases h
  | ok r =>
    obtain ⟨res, fha⟩ := r
    rw [hc] at h
    cases res with
    | PageNotExistError p => simp at h
    | RecordNotFoundError p s => simp at h
    | ok page =>
      refine ⟨page, fha, rfl, ?_⟩
      simp only [set_page_data_file_hdr, page_data_set_page_data, set_page_data_twice] at h
      split at h
      · cases h
      · split at h
        · cases h
        · split at h
          · cases h
          · rename_i hsearch hslot hbit
            simp only [Bool.not_eq_true, Bool.not_eq_false] at hslot hbit
            simp only [Except.ok.injEq, Prod.mk.injEq, RmResult.ok.injEq] at h
            obtain ⟨hrid, hfh1⟩ := h
            have hs : rid.slot_no = Bitmap.first_bit false (fha.page_data page).bitmap
                fha.file_hdr_.num_records_per_page := by rw [← hrid]
            rw [← hs] at hslot hbit hfh1 hrid
            refine ⟨hslot, hbit, hs, ?_, ?_, ?_, ?_⟩
            · rw [← hrid]
              split <;>
                simp [set_page_data, BufferPoolManager.write_data, BufferPoolManager.set_page]
            · rw [← hfh1]; split <;> rfl
            · rw [← hfh1]; split <;> rfl
            · rw [← hfh1]
              split
              · rename_i hfull; simp only [hfull, if_true]
              · rename_i hfull; simp only [hfull, if_false]; rfl

end RmFileHandle

namespace RmFileHandle

/-- C2: in a file state whose pool respects identities and whose next page
number at the disk manager does not exceed the page count, if
`insert_record(B)` succeeds for bytes `B` of the record size and returns `rid`,
then `get_record(rid)` called right afterwards succeeds and returns a record of
size `record_size` whose bytes are `B`. -/
theorem C2_insert_then_get (fh fh1 : RmFileHandle) (buf : List Nat) (rid : Rid)
    (hlen : buf.length = fh.file_hdr_.record_size.toNat)
    (hid : BufferPoolManager.TableIdentity fh.buffer_pool_manager_)
    (halloc : fh.buffer_pool_manager_.disk_manager_.fd2pageno fh.fd_ ≤ fh.file_hdr_.num_pages)
    (hins : insert_record fh buf = .ok (.ok rid, fh1)) :
    ∃ fh2, get_record fh1 rid
      = .ok (.ok { data := buf, size := fh.file_hdr_.record_size }, fh2) := by
  obtain ⟨page, fha, hc, hslot, hbit, _, hpage, hfd1, hpool, hhdr⟩ :=
    insert_record_ok fh fh1 buf rid hins
  obtain ⟨hfd, hrs, hidfd, hlt, hpt⟩ := create_page_handle_ok fh fha page hid halloc hc
  have hkey : (⟨fh1.fd_, rid.page_no⟩ : PageId) = (fha.buffer_pool_manager_.pages_ page).id_ := by
    rw [hfd1, hfd, hpage, ← hidfd]
  have hpt1 : fh1.buffer_pool_manager_.page_table_ ⟨fh1.fd_, rid.page_no⟩ = some page := by
    rw [hkey, hpool]; exact hpt
  have hnp : ¬ (rid.page_no ≥ fh1.file_hdr_.num_pages) := by
    rw [hhdr, hpage]; simp only; omega
  have hrs1 : fh1.file_hdr_.record_size = fh.file_hdr_.record_size := by rw [hhdr]; exact hrs
  have hslot1 : slot_in_range fh1.file_hdr_ rid.slot_no = true := by
    rw [hhdr]; exact hslot
  have hbit1 : bit_in_range fh1.file_hdr_ rid.slot_no = true := by
    rw [hhdr]; exact hbit
  have hdata : (fh1.buffer_pool_manager_.pages_ page).data_ =
      { num_records := (fha.page_data page).num_records + 1
        next_free_page_no := (fha.page_data page).next_free_page_no
        bitmap := Bitmap.set (fha.page_data page).bitmap rid.slot_no
        slots := write_slot (fha.page_data page).slots rid.slot_no buf
          fha.file_hdr_.record_size } := by
    rw [hpool]; simp [BufferPoolManager.write_data, BufferPoolManager.set_page]
  unfold get_record fetch_page_handle
  simp only [hnp, if_false, BufferPoolManager.fetch_page_resident _ _ _ hpt1]
  simp only [page_data, BufferPoolManager.set_page, if_true, hdata, hbit1, hslot1, hrs1,
    Bitmap.is_set, Bitmap.set, not_true_eq_false, if_false]
  rw [← hrs, read_write_slot _ _ _ _ (by rw [hrs]; exact hlen)]
  exact ⟨_, rfl⟩

end RmFileHandle

namespace RmFileHandle

theorem tableIdentity_init (n : Nat) (disk : DiskManager RmPageData) :
    BufferPoolManager.TableIdentity (BufferPoolManager.init n disk) := by
  intro pid f h
  simp [BufferPoolManager.init] at h

/-- Witness for C2: the bytes 1, 2 inserted into the empty file `demoFile` land
at Rid (1, 0) and are read back. -/
theorem C2_insert_then_get_witness :
    demoFile.insert_record [1, 2] = .ok (.ok ⟨1, 0⟩, demoFile1) ∧
      ∃ fh2, get_record demoFile1 ⟨1, 0⟩ = .ok (.ok { data := [1, 2], size := 2 }, fh2) :=
  ⟨rfl, C2_insert_then_get demoFile demoFile1 [1, 2] ⟨1, 0⟩ rfl (tableIdentity_init 2 demoRmDisk)
    (by decide) rfl⟩

end RmFileHandle

/-! ## Bitmap count and record count -/

namespace Bitmap

theorem popcount_congr (bm bm1 : Int → Bool) (n : Nat)
    (h : ∀ i : Nat, i < n → bm1 (i : Int) = bm (i : Int)) : popcount bm1 n = popcount bm n := by
  induction n with
  | zero => rfl
  | succ k ih =>
    simp only [popcount]
    rw [ih (fun i hi => h i (by omega)), h k (by omega)]

theorem popcount_set (bm : Int → Bool) (pos : Int) (n : Nat) (h0 : 0 ≤ pos)
    (hn : pos < (n : Int)) (hclear : bm pos = false) :
    popcount (set bm pos) n = popcount bm n + 1 := by
  induction n with
  | zero => omega
  | succ k ih =>
    simp only [popcount]
    by_cases hk : pos = (k : Int)
    · have h1 : popcount (set bm pos) k = popcount bm k := by
        apply popcount_congr
        intro i hi
        have : (i : Int) ≠ pos := by omega
        simp [set, this]
      rw [h1, ← hk, hclear]
      simp [set]
    · have hlt : pos < (k : Int) := by omega
      rw [ih hlt]
      have : ((k : Int) = pos) = False := by
        apply propext; constructor
        · intro h; exact hk h.symm
        · intro h; exact h.elim
      simp only [set, this, if_false]
      omega

theorem popcount_reset (bm : Int → Bool) (pos : Int) (n : Nat) (h0 : 0 ≤ pos)
    (hn : pos < (n : Int)) (hset : bm pos = true) :
    popcount (reset bm pos) n + 1 = popcount bm n := by
  induction n with
  | zero => omega
  | succ k ih =>
    simp only [popcount]
    by_cases hk : pos = (k : Int)
    · have h1 : popcount (reset bm pos) k = popcount bm k := by
        apply popcount_congr
        intro i hi
        have : (i : Int) ≠ pos := by omega
        simp [reset, this]
      rw [h1, ← hk, hset]
      simp [reset]
    · have hlt : pos < (k : Int) := by omega
      have := ih hlt
      have hne : ((k : Int) = pos) = False := by
        apply propext; constructor
        · intro h; exact hk h.symm
        · intro h; exact h.elim
      simp only [reset, hne, if_false]
      omega

theorem popcount_init (bm : Int → Bool) (size : Int) (n : Nat) (hn : (n : Int) ≤ 8 * size) :
    popcount (init bm size) n = 0 := by
  induction n with
  | zero => rfl
  | succ k ih =>
    simp only [popcount]
    rw [ih (by omega)]
    have : (0 : Int) ≤ (k : Int) ∧ (k : Int) < 8 * size := by constructor <;> omega
    simp [init, this]

theorem popcount_zero (n : Nat) : popcount (fun _ => false) n = 0 := by
  induction n with
  | zero => rfl
  | succ k ih => simp [popcount, ih]

/-- The result of `next_bit`, when it is below `max_n`, is a position after
`curr` that carries the bit searched for. -/
theorem next_bit_found (bit : Bool) (bm : Int → Bool) (max_n curr : Int)
    (h : next_bit bit bm max_n curr < max_n) :
    bm (next_bit bit bm max_n curr) = bit ∧ curr < next_bit bit bm max_n curr := by
  unfold next_bit at h ⊢
  cases hf : (List.range (max_n - (curr + 1)).toNat).find?
      (fun (k : Nat) => is_set bm (curr + 1 + (k : Int)) == bit) with
  | none => rw [hf] at h; simp at h
  | some k =>
    simp only
    have := List.find?_some hf
    simp only [is_set, beq_iff_eq] at this
    exact ⟨this, by omega⟩

end Bitmap

namespace BufferPoolManager

variable {D : Type}

theorem imagesGood_of_same (good : D → Prop) (sel : PageId → Prop) (s t : BufferPoolManager D)
    (hs : ImagesGood good sel s)
    (hid : ∀ g, (t.pages_ g).id_ = (s.pages_ g).id_)
    (hdata : ∀ g, (t.pages_ g).data_ = (s.pages_ g).data_)
    (hdisk : t.disk_manager_.pages = s.disk_manager_.pages) : ImagesGood good sel t where
  frames := by intro f hf; rw [hid] at hf; rw [hdata]; exact hs.frames f hf
  disk := by intro pid hp; rw [hdisk]; exact hs.disk pid hp

theorem imagesGood_find_victim_page (good : D → Prop) (sel : PageId → Prop)
    (s : BufferPoolManager D) (hs : ImagesGood good sel s) :
    ImagesGood good sel (find_victim_page s).2 := by
  unfold find_victim_page
  split
  · exact imagesGood_of_same good sel s _ hs (fun _ => rfl) (fun _ => rfl) rfl
  · exact imagesGood_of_same good sel s _ hs (fun _ => rfl) (fun _ => rfl) rfl

theorem imagesGood_update_page [Inhabited D] (good : D → Prop) (sel : PageId → Prop)
    (hsel : ∀ pid, sel pid → pid.page_no ≠ INVALID_FRAME_ID)
    (s : BufferPoolManager D) (hs : ImagesGood good sel s) (f : Nat) (q : PageId) :
    ImagesGood good sel (update_page s f q f) := by
  have hdisk : ∀ pid, sel pid →
      good ((if (s.pages_ f).is_dirty_ = true then
        s.disk_manager_.write_page (s.pages_ f).id_ (s.pages_ f).data_
        else s.disk_manager_).pages pid) := by
    intro pid hp
    split
    · simp only [DiskManager.write_page]
      split
      · rename_i _ he; rw [he] at hp; exact hs.frames f hp
      · exact hs.disk pid hp
    · exact hs.disk pid hp
  constructor
  · intro g hg
    simp only [update_page] at hg ⊢
    by_cases hgf : g = f
    · subst hgf
      simp only [if_true] at hg ⊢
      have hq : sel q := by split at hg <;> exact hg
      have hne := hsel q hq
      simp only [ne_eq, hne, not_false_eq_true, if_true]
      exact hdisk q hq
    · simp only [hgf, if_false] at hg ⊢
      exact hs.frames g hg
  · intro pid hp
    simp only [update_page]
    exact hdisk pid hp

theorem imagesGood_fetch_page [Inhabited D] (good : D → Prop) (sel : PageId → Prop)
    (hsel : ∀ pid, sel pid → pid.page_no ≠ INVALID_FRAME_ID)
    (s : BufferPoolManager D) (hs : ImagesGood good sel s) (q : PageId) :
    ImagesGood good sel (fetch_page s q).2 := by
  unfold fetch_page
  cases hpt : s.page_table_ q with
  | some f =>
    refine imagesGood_of_same good sel s _ hs ?_ ?_ rfl
    · intro g; simp only [set_page]; split <;> simp_all
    · intro g; simp only [set_page]; split <;> simp_all
  | none =>
    simp only
    cases hv : find_victim_page s with
    | mk r s1 =>
      cases r with
      | none => exact hs
      | some f =>
        have hs1 : ImagesGood good sel s1 := by
          have := imagesGood_find_victim_page good sel s hs; rwa [hv] at this
        have hu := imagesGood_update_page good sel hsel s1 hs1 f q
        refine imagesGood_of_same good sel _ _ hu ?_ ?_ rfl
        · intro g; simp only [set_page]; split <;> simp_all
        · intro g; simp only [set_page]; split <;> simp_all

theorem imagesGood_new_page [Inhabited D] (good : D → Prop) (sel : PageId → Prop)
    (hsel : ∀ pid, sel pid → pid.page_no ≠ INVALID_FRAME_ID)
    (s : BufferPoolManager D) (hs : ImagesGood good sel s) (pid : PageId) :
    ImagesGood good sel (new_page s pid).2.2 := by
  unfold new_page
  cases hv : find_victim_page s with
  | mk r s1 =>
    cases r with
    | none => exact hs
    | some f =>
      have hs1 : ImagesGood good sel s1 := by
        have := imagesGood_find_victim_page good sel s hs; rwa [hv] at this
      have hs2 : ImagesGood good sel
          { s1 with disk_manager_ := (s1.disk_manager_.allocate_page pid.fd).2 } :=
        imagesGood_of_same good sel s1 _ hs1 (fun _ => rfl) (fun _ => rfl) rfl
      have hu := imagesGood_update_page good sel hsel _ hs2 f
        ⟨pid.fd, (s1.disk_manager_.allocate_page pid.fd).1⟩
      refine imagesGood_of_same good sel _ _ hu ?_ ?_ rfl
      · intro g; simp only [set_page]; split <;> simp_all
      · intro g; simp only [set_page]; split <;> simp_all

theorem imagesGood_unpin_page (good : D → Prop) (sel : PageId → Prop)
    (s s1 : BufferPoolManager D) (hs : ImagesGood good sel s) (q : PageId) (dirty b : Bool)
    (h : unpin_page s q dirty = some (b, s1)) : ImagesGood good sel s1 := by
  unfold unpin_page at h
  cases hpt : s.page_table_ q with
  | none => rw [hpt] at h; simp only [Option.some.injEq, Prod.mk.injEq] at h; rw [← h.2]; exact hs
  | some f =>
    rw [hpt] at h
    simp only at h
    split at h
    · simp only [Option.some.injEq, Prod.mk.injEq] at h; rw [← h.2]; exact hs
    · split at h
      · cases h
      · simp only [Option.some.injEq, Prod.mk.injEq] at h
        rw [← h.2]
        refine imagesGood_of_same good sel s _ hs ?_ ?_ rfl
        · intro g; simp only [set_page]; split <;> simp_all
        · intro g; simp only [set_page]; split <;> simp_all

theorem imagesGood_write_data (good : D → Prop) (sel : PageId → Prop)
    (s : BufferPoolManager D) (hs : ImagesGood good sel s) (f : Nat) (d : D)
    (hd : sel (s.pages_ f).id_ → good d) : ImagesGood good sel (write_data s f d) where
  frames := by
    intro g hg
    simp only [write_data, set_page] at hg ⊢
    by_cases hgf : g = f
    · subst hgf; simp only [if_true] at hg ⊢; exact hd hg
    · simp only [hgf, if_false] at hg ⊢; exact hs.frames g hg
  disk := hs.disk

end BufferPoolManager

namespace RmFileHandle

theorem is_data_page_valid (fd : Int) (pid : PageId) (h : is_data_page fd pid) :
    pid.page_no ≠ INVALID_FRAME_ID := by
  intro he
  have := h.2
  rw [he] at this
  exact absurd this (by decide)

theorem page_good_fresh (h : RmFileHdr) (d : RmPageData) :
    page_good h { d with next_free_page_no := RM_NO_PAGE, num_records := 0,
                         bitmap := Bitmap.init d.bitmap h.bitmap_size } := by
  unfold page_good
  simp only
  rcases Int.le_total 0 (8 * h.bitmap_size) with hp | hn
  · rw [Bitmap.popcount_init _ _ _ (by rw [Int.toNat_of_nonneg hp])]; rfl
  · rw [Int.toNat_eq_zero.2 hn]; rfl

theorem page_good_default (h : RmFileHdr) : page_good h default := by
  unfold page_good
  show ((Bitmap.popcount (fun _ => false) (8 * h.bitmap_size).toNat : Nat) : Int) = 0
  rw [Bitmap.popcount_zero]; rfl

theorem page_good_congr (h h1 : RmFileHdr) (hb : h1.bitmap_size = h.bitmap_size)
    (d : RmPageData) : page_good h1 d ↔ page_good h d := by
  unfold page_good; rw [hb]

theorem page_good_set (h : RmFileHdr) (d d1 : RmPageData) (pos : Int)
    (hr : bit_in_range h pos = true) (hclear : d.bitmap pos = false) (hd : page_good h d)
    (hb : d1.bitmap = Bitmap.set d.bitmap pos) (hn : d1.num_records = d.num_records + 1) :
    page_good h d1 := by
  unfold page_good at hd ⊢
  simp only [bit_in_range, decide_eq_true_eq] at hr
  rw [hb, hn,
    Bitmap.popcount_set _ _ _ hr.1 (by rw [Int.toNat_of_nonneg (by omega)]; exact hr.2) hclear]
  push_cast
  omega

theorem page_good_reset (h : RmFileHdr) (d d1 : RmPageData) (pos : Int)
    (hr : bit_in_range h pos = true) (hset : d.bitmap pos = true) (hd : page_good h d)
    (hb : d1.bitmap = Bitmap.reset d.bitmap pos) (hn : d1.num_records = d.num_records - 1) :
    page_good h d1 := by
  unfold page_good at hd ⊢
  simp only [bit_in_range, decide_eq_true_eq] at hr
  rw [hb, hn]
  have := Bitmap.popcount_reset d.bitmap pos (8 * h.bitmap_size).toNat hr.1
    (by rw [Int.toNat_of_nonneg (by omega)]; exact hr.2) hset
  omega

theorem page_good_same (h : RmFileHdr) (d d1 : RmPageData) (hd : page_good h d)
    (hb : d1.bitmap = d.bitmap) (hn : d1.num_records = d.num_records) : page_good h d1 := by
  unfold page_good at hd ⊢
  rw [hb, hn]; exact hd

theorem good_fetch_page_handle (h : RmFileHdr) (fd : Int) (fh fh1 : RmFileHandle)
    (page_no : Int) (r : RmResult Nat) (hg : Good h fd fh.buffer_pool_manager_)
    (hf : fetch_page_handle fh page_no = .ok (r, fh1)) :
    Good h fd fh1.buffer_pool_manager_ ∧ fh1.file_hdr_ = fh.file_hdr_ ∧ fh1.fd_ = fh.fd_ := by
  unfold fetch_page_handle at hf
  split at hf
  · simp only [Except.ok.injEq, Prod.mk.injEq] at hf
    rw [← hf.2]; exact ⟨hg, rfl, rfl⟩
  · split at hf
    · cases hf
    · rename_i pg s hfp
      simp only [Except.ok.injEq, Prod.mk.injEq] at hf
      rw [← hf.2]
      have := BufferPoolManager.imagesGood_fetch_page (page_good h) (is_data_page fd)
        (is_data_page_valid fd) _ hg ⟨fh.fd_, page_no⟩
      rw [hfp] at this
      exact ⟨this, rfl, rfl⟩

theorem good_create_new_page_handle (h : RmFileHdr) (fd : Int) (fh fh1 : RmFileHandle)
    (page : Nat) (hg : Good h fd fh.buffer_pool_manager_)
    (hb : fh.file_hdr_.bitmap_size = h.bitmap_size)
    (hf : create_new_page_handle fh = .ok (page, fh1)) :
    Good h fd fh1.buffer_pool_manager_ ∧ fh1.file_hdr_.bitmap_size = fh.file_hdr_.bitmap_size ∧
      fh1.fd_ = fh.fd_ := by
  unfold create_new_page_handle at hf
  split at hf
  · cases hf
  · rename_i pg pageid s hn
    simp only [Except.ok.injEq, Prod.mk.injEq] at hf
    rw [← hf.2]
    refine ⟨?_, rfl, rfl⟩
    have h1 := BufferPoolManager.imagesGood_new_page (page_good h) (is_data_page fd)
      (is_data_page_valid fd) _ hg ⟨fh.fd_, INVALID_FRAME_ID⟩
    rw [hn] at h1
    refine BufferPoolManager.imagesGood_write_data _ _ _ h1 _ _ ?_
    intro _
    simp only [hb]
    exact page_good_fresh h _

theorem good_create_page_handle (h : RmFileHdr) (fd : Int) (fh fh1 : RmFileHandle)
    (r : RmResult Nat) (hg : Good h fd fh.buffer_pool_manager_)
    (hb : fh.file_hdr_.bitmap_size = h.bitmap_size)
    (hf : create_page_handle fh = .ok (r, fh1)) :
    Good h fd fh1.buffer_pool_manager_ ∧ fh1.file_hdr_.bitmap_size = fh.file_hdr_.bitmap_size ∧
      fh1.fd_ = fh.fd_ := by
  unfold create_page_handle at hf
  split at hf
  · split at hf
    · cases hf
    · rename_i pg fh2 hc
      simp only [Except.ok.injEq, Prod.mk.injEq] at hf
      rw [← hf.2]
      exact good_create_new_page_handle h fd fh fh2 pg hg hb hc
  · obtain ⟨h1, h2, h3⟩ := good_fetch_page_handle h fd fh fh1 _ r hg hf
    exact ⟨h1, by rw [h2], h3⟩

theorem good_set_page_data (h : RmFileHdr) (fd : Int) (fh : RmFileHandle) (page : Nat)
    (d : RmPageData) (hg : Good h fd fh.buffer_pool_manager_)
    (hd : is_data_page fd (fh.buffer_pool_manager_.pages_ page).id_ → page_good h d) :
    Good h fd (fh.set_page_data page d).buffer_pool_manager_ :=
  BufferPoolManager.imagesGood_write_data _ _ _ hg page d hd

theorem pagesGood_of_good (fh fh1 : RmFileHandle)
    (hg : Good fh.file_hdr_ fh.fd_ fh1.buffer_pool_manager_)
    (hb : fh1.file_hdr_.bitmap_size = fh.file_hdr_.bitmap_size) (hfd : fh1.fd_ = fh.fd_) :
    PagesGood fh1 := by
  unfold PagesGood
  rw [hfd]
  exact { frames := fun f hf => (page_good_congr _ _ hb _).2 (hg.frames f hf)
          disk := fun p hp => (page_good_congr _ _ hb _).2 (hg.disk p hp) }

end RmFileHandle

namespace RmFileHandle

theorem pagesGood_insert_record (fh fh1 : RmFileHandle) (buf : List Nat) (r : RmResult Rid)
    (hg : PagesGood fh) (h : insert_record fh buf = .ok (r, fh1)) : PagesGood fh1 := by
  cases r with
  | ok rid =>
    obtain ⟨page, fha, hc, hslot, hbit, hsl, _, hfd1, hpool, hhdr⟩ :=
      insert_record_ok fh fh1 buf rid h
    obtain ⟨g1, g2, g3⟩ := good_create_page_handle fh.file_hdr_ fh.fd_ fh fha _ hg rfl hc
    refine pagesGood_of_good fh fh1 ?_ (by rw [hhdr]; exact g2) (by rw [hfd1]; exact g3)
    rw [hpool]
    refine BufferPoolManager.imagesGood_write_data _ _ _ g1 _ _ ?_
    intro hdp
    have hold := g1.frames page hdp
    have hclear : (fha.page_data page).bitmap rid.slot_no = false := by
      simp only [slot_in_range, decide_eq_true_eq] at hslot
      have := Bitmap.next_bit_found false (fha.page_data page).bitmap
        fha.file_hdr_.num_records_per_page (-1) (by
          have h2 := hslot.2
          rw [hsl] at h2
          exact h2)
      rw [hsl]; exact this.1
    have hbit2 : bit_in_range fh.file_hdr_ rid.slot_no = true := by
      simp only [bit_in_range] at hbit ⊢
      rw [← g2]; exact hbit
    exact page_good_set fh.file_hdr_ (fha.page_data page) _ rid.slot_no hbit2 hclear hold rfl rfl
  | PageNotExistError p =>
    unfold insert_record at h
    cases hc : create_page_handle fh with
    | error e => rw [hc] at h; cases h
    | ok x =>
      obtain ⟨res, fha⟩ := x
      rw [hc] at h
      obtain ⟨g1, g2, g3⟩ := good_create_page_handle fh.file_hdr_ fh.fd_ fh fha _ hg rfl hc
      cases res with
      | PageNotExistError q =>
        simp only [Except.ok.injEq, Prod.mk.injEq] at h
        rw [← h.2]; exact pagesGood_of_good fh fha g1 g2 g3
      | RecordNotFoundError q s => simp at h
      | ok page =>
        simp only at h
        split at h
        · cases h
        · split at h
          · cases h
          · split at h
            · cases h
            · simp at h
  | RecordNotFoundError p s =>
    unfold insert_record at h
    cases hc : create_page_handle fh with
    | error e => rw [hc] at h; cases h
    | ok x =>
      obtain ⟨res, fha⟩ := x
      rw [hc] at h
      obtain ⟨g1, g2, g3⟩ := good_create_page_handle fh.file_hdr_ fh.fd_ fh fha _ hg rfl hc
      cases res with
      | PageNotExistError q => simp at h
      | RecordNotFoundError q s =>
        simp only [Except.ok.injEq, Prod.mk.injEq] at h
        rw [← h.2]; exact pagesGood_of_good fh fha g1 g2 g3
      | ok page =>
        simp only at h
        split at h
        · cases h
        · split at h
          · cases h
          · split at h
            · cases h
            · simp at h

theorem pagesGood_delete_record (fh fh1 : RmFileHandle) (rid : Rid) (r : RmResult Unit)
    (hg : PagesGood fh) (h : delete_record fh rid = .ok (r, fh1)) : PagesGood fh1 := by
  unfold delete_record at h
  cases hc : fetch_page_handle fh rid.page_no with
  | error e => rw [hc] at h; cases h
  | ok x =>
    obtain ⟨res, fha⟩ := x
    rw [hc] at h
    obtain ⟨g1, g2, g3⟩ := good_fetch_page_handle fh.file_hdr_ fh.fd_ fh fha _ _ hg hc
    cases res with
    | PageNotExistError q =>
      simp only [Except.ok.injEq, Prod.mk.injEq] at h
      rw [← h.2]; exact pagesGood_of_good fh fha g1 (by rw [g2]) g3
    | RecordNotFoundError q s =>
      simp only [Except.ok.injEq, Prod.mk.injEq] at h
      rw [← h.2]; exact pagesGood_of_good fh fha g1 (by rw [g2]) g3
    | ok page =>
      simp only [set_page_data_file_hdr, page_data_set_page_data, set_page_data_twice] at h
      split at h
      · cases h
      · rename_i hbit
        simp only [Bool.not_eq_true, Bool.not_eq_false] at hbit
        split at h
        · simp only [Except.ok.injEq, Prod.mk.injEq] at h
          rw [← h.2]; exact pagesGood_of_good fh fha g1 (by rw [g2]) g3
        · rename_i hset
          simp only [Bool.not_eq_true, Bool.not_eq_false, Bitmap.is_set] at hset
          have hgood : Good fh.file_hdr_ fh.fd_
              (fha.set_page_data page
                { num_records := (fha.page_data page).num_records - 1
                  next_free_page_no := (fha.page_data page).next_free_page_no
                  bitmap := Bitmap.reset (fha.page_data page).bitmap rid.slot_no
                  slots := (fha.page_data page).slots }).buffer_pool_manager_ := by
            refine good_set_page_data _ _ _ _ _ g1 ?_
            intro hdp
            exact page_good_reset fh.file_hdr_ (fha.page_data page) _ rid.slot_no
              (by rw [← g2]; exact hbit) hset (g1.frames page hdp) rfl rfl
          split at h
          · simp only [Except.ok.injEq, Prod.mk.injEq] at h
            rw [← h.2]
            refine pagesGood_of_good fh _ ?_ (by simp [release_page_handle, g2]) (by
              simp [release_page_handle, g3])
            simp only [release_page_handle, set_page_data_twice, page_data_set_page_data,
              set_page_data_file_hdr]
            refine good_set_page_data _ _ _ _ _ g1 ?_
            intro hdp
            exact page_good_reset fh.file_hdr_ (fha.page_data page) _ rid.slot_no
              (by rw [← g2]; exact hbit) hset (g1.frames page hdp) rfl rfl
          · simp only [Except.ok.injEq, Prod.mk.injEq] at h
            rw [← h.2]
            exact pagesGood_of_good fh _ hgood (by simp [g2]) (by simp [g3])

theorem pagesGood_update_record (fh fh1 : RmFileHandle) (rid : Rid) (buf : List Nat)
    (r : RmResult Unit) (hg : PagesGood fh) (h : update_record fh rid buf = .ok (r, fh1)) :
    PagesGood fh1 := by
  unfold update_record at h
  cases hc : fetch_page_handle fh rid.page_no with
  | error e => rw [hc] at h; cases h
  | ok x =>
    obtain ⟨res, fha⟩ := x
    rw [hc] at h
    obtain ⟨g1, g2, g3⟩ := good_fetch_page_handle fh.file_hdr_ fh.fd_ fh fha _ _ hg hc
    cases res with
    | PageNotExistError q =>
      simp only [Except.ok.injEq, Prod.mk.injEq] at h
      rw [← h.2]; exact pagesGood_of_good fh fha g1 (by rw [g2]) g3
    | RecordNotFoundError q s =>
      simp only [Except.ok.injEq, Prod.mk.injEq] at h
      rw [← h.2]; exact pagesGood_of_good fh fha g1 (by rw [g2]) g3
    | ok page =>
      simp only at h
      split at h
      · cases h
      · split at h
        · simp only [Except.ok.injEq, Prod.mk.injEq] at h
          rw [← h.2]; exact pagesGood_of_good fh fha g1 (by rw [g2]) g3
        · split at h
          · cases h
          · simp only [Except.ok.injEq, Prod.mk.injEq] at h
            rw [← h.2]
            refine pagesGood_of_good fh _ ?_ (by simp [g2]) (by simp [g3])
            refine good_set_page_data _ _ _ _ _ g1 ?_
            intro hdp
            exact page_good_same fh.file_hdr_ (fha.page_data page) _ (g1.frames page hdp) rfl rfl

end RmFileHandle

namespace RmFileHandle

theorem good_insert_record_rid_fetch (h : RmFileHdr) (fd : Int) (fh fh1 : RmFileHandle)
    (rid : Rid) (r : RmResult Nat) (hg : Good h fd fh.buffer_pool_manager_)
    (hb : fh.file_hdr_.bitmap_size = h.bitmap_size)
    (hf : insert_record_rid_fetch fh rid = .ok (r, fh1)) :
    Good h fd fh1.buffer_pool_manager_ ∧ fh1.file_hdr_.bitmap_size = fh.file_hdr_.bitmap_size ∧
      fh1.fd_ = fh.fd_ := by
  unfold insert_record_rid_fetch at hf
  simp only at hf
  split at hf
  · cases hf
  · rename_i fh2 hr
    obtain ⟨g1, g2, g3⟩ := good_fetch_page_handle h fd fh2 fh1 _ r (by
      split at hr
      · split at hr
        · cases hr
        · rename_i pg fh3 hc
          simp only [Except.ok.injEq] at hr
          rw [← hr]
          exact (good_create_new_page_handle h fd fh fh3 pg hg hb hc).1
      · simp only [Except.ok.injEq] at hr
        rw [← hr]; exact hg) hf
    refine ⟨g1, ?_, ?_⟩
    · rw [g2]
      split at hr
      · split at hr
        · cases hr
        · rename_i pg fh3 hc
          simp only [Except.ok.injEq] at hr
          rw [← hr]
          exact (good_create_new_page_handle h fd fh fh3 pg hg hb hc).2.1
      · simp only [Except.ok.injEq] at hr
        rw [← hr]
    · rw [g3]
      split at hr
      · split at hr
        · cases hr
        · rename_i pg fh3 hc
          simp only [Except.ok.injEq] at hr
          rw [← hr]
          exact (good_create_new_page_handle h fd fh fh3 pg hg hb hc).2.2
      · simp only [Except.ok.injEq] at hr
        rw [← hr]

theorem write_data_twice (s : BufferPoolManager RmPageData) (p : Nat) (d1 d2 : RmPageData) :
    (s.write_data p d1).write_data p d2 = s.write_data p d2 := by
  simp only [BufferPoolManager.write_data, BufferPoolManager.set_page, if_true]
  congr 1
  funext g
  by_cases hg : g = p <;> simp [hg]

theorem write_data_data (s : BufferPoolManager RmPageData) (p : Nat) (d : RmPageData) :
    ((s.write_data p d).pages_ p).data_ = d := by
  simp [BufferPoolManager.write_data, BufferPoolManager.set_page]

theorem write_data_id (s : BufferPoolManager RmPageData) (p g : Nat) (d : RmPageData) :
    ((s.write_data p d).pages_ g).id_ = (s.pages_ g).id_ := by
  simp only [BufferPoolManager.write_data, BufferPoolManager.set_page]
  split
  · rename_i h; rw [h]
  · rfl

theorem pagesGood_insert_record_rid (fh fh1 : RmFileHandle) (rid : Rid) (buf : List Nat)
    (r : RmResult Unit) (hg : PagesGood fh)
    (h : insert_record_rid fh rid buf = .ok (r, fh1))
    (hclear : ∀ page fha, insert_record_rid_fetch fh rid = .ok (.ok page, fha) →
      (fha.page_data page).bitmap rid.slot_no = false) : PagesGood fh1 := by
  unfold insert_record_rid at h
  cases hc : insert_record_rid_fetch fh rid with
  | error e => rw [hc] at h; cases h
  | ok x =>
    obtain ⟨res, fha⟩ := x
    rw [hc] at h
    obtain ⟨g1, g2, g3⟩ := good_insert_record_rid_fetch fh.file_hdr_ fh.fd_ fh fha _ _ hg rfl hc
    cases res with
    | PageNotExistError q =>
      simp only [Except.ok.injEq, Prod.mk.injEq] at h
      rw [← h.2]; exact pagesGood_of_good fh fha g1 g2 g3
    | RecordNotFoundError q s =>
      simp only [Except.ok.injEq, Prod.mk.injEq] at h
      rw [← h.2]; exact pagesGood_of_good fh fha g1 g2 g3
    | ok page =>
      have hcl := hclear page fha hc
      simp only [page_data] at hcl
      simp only [set_page_data, page_data, write_data_twice, write_data_data] at h
      split at h
      · cases h
      · rename_i hbit
        simp only [Bool.not_eq_true, Bool.not_eq_false] at hbit
        have hwr : Good fh.file_hdr_ fh.fd_
            (fha.buffer_pool_manager_.write_data page
              { num_records := (fha.buffer_pool_manager_.pages_ page).data_.num_records + 1
                next_free_page_no :=
                  (fha.buffer_pool_manager_.pages_ page).data_.next_free_page_no
                bitmap :=
                  Bitmap.set (fha.buffer_pool_manager_.pages_ page).data_.bitmap rid.slot_no
                slots := write_slot (fha.buffer_pool_manager_.pages_ page).data_.slots
                  rid.slot_no buf fha.file_hdr_.record_size }) := by
          refine BufferPoolManager.imagesGood_write_data _ _ _ g1 _ _ ?_
          intro hdp
          exact page_good_set fh.file_hdr_ (fha.buffer_pool_manager_.pages_ page).data_ _
            rid.slot_no (by simp only [bit_in_range] at hbit ⊢; rw [← g2]; exact hbit) hcl
            (g1.frames page hdp) rfl rfl
        split at h
        · simp only [write_data_twice, write_data_data, write_data_id] at h
          split at h
          · cases h
          · split at h
            · cases h
            · rename_i b s hun
              simp only [Except.ok.injEq, Prod.mk.injEq] at h
              rw [← h.2]
              refine pagesGood_of_good fh _ ?_ g2 g3
              exact BufferPoolManager.imagesGood_unpin_page _ _ _ _ hwr _ _ _ hun
        · simp only [write_data_twice, write_data_data, write_data_id] at h
          split at h
          · cases h
          · split at h
            · cases h
            · rename_i b s hun
              simp only [Except.ok.injEq, Prod.mk.injEq] at h
              rw [← h.2]
              refine pagesGood_of_good fh _ ?_ g2 g3
              exact BufferPoolManager.imagesGood_unpin_page _ _ _ _ hwr _ _ _ hun

end RmFileHandle

namespace RmFileHandle

theorem pagesGood_demoFile : PagesGood demoFile where
  frames := fun _ _ => page_good_default _
  disk := fun _ _ => page_good_default _

theorem pagesGood_demoFile1 : PagesGood demoFile1 :=
  pagesGood_insert_record demoFile demoFile1 [1, 2] (.ok ⟨1, 0⟩) pagesGood_demoFile rfl

/-- C4 (counterexample to the claim as stated): in the file `demoFile1`, whose
data page 1 holds one record in slot 0 and satisfies the equality, the placement
form `insert_record(rid, buf)` at the occupied Rid (1, 0) succeeds and leaves
page 1 with record count 2 and a single set bit. -/
theorem C4_placement_on_occupied_slot :
    PagesGood demoFile1 ∧
      demoFile1.insert_record_rid ⟨1, 0⟩ [9, 9] = .ok (.ok (), demoFile1Placed) ∧
      (demoFile1Placed.page_data 0).num_records = 2 ∧
      Bitmap.popcount (demoFile1Placed.page_data 0).bitmap 8 = 1 ∧
      ¬ PagesGood demoFile1Placed := by
  refine ⟨pagesGood_demoFile1, rfl, rfl, rfl, ?_⟩
  intro h
  have h1 := h.frames 0 ⟨rfl, by decide⟩
  have h2 : ¬ page_good demoFile1Placed.file_hdr_
      (demoFile1Placed.buffer_pool_manager_.pages_ 0).data_ := by
    unfold page_good
    decide
  exact h2 h1

end RmFileHandle

/-! ## Record scan -/

namespace RmScan

theorem positions_after_step (cap curr : Int) (h : curr + 1 < cap) :
    positions_after cap curr = (curr + 1) :: positions_after cap (curr + 1) := by
  unfold positions_after
  have h1 : (cap - (curr + 1)).toNat = (cap - (curr + 1 + 1)).toNat + 1 := by omega
  rw [h1, List.range_succ_eq_map]
  simp only [List.map_cons, List.map_map, Nat.cast_zero, Int.add_zero]
  congr 1
  apply List.map_congr_left
  intro k _
  simp only [Function.comp, Nat.cast_succ]
  omega

theorem positions_after_nil (cap curr : Int) (h : ¬ curr + 1 < cap) :
    positions_after cap curr = [] := by
  unfold positions_after
  have h1 : (cap - (curr + 1)).toNat = 0 := by omega
  rw [h1]; rfl

theorem next_bit_step (bit : Bool) (bm : Int → Bool) (cap curr : Int) (h : curr + 1 < cap) :
    Bitmap.next_bit bit bm cap curr =
      if bm (curr + 1) = bit then curr + 1 else Bitmap.next_bit bit bm cap (curr + 1) := by
  unfold Bitmap.next_bit
  have h1 : (cap - (curr + 1)).toNat = (cap - (curr + 1 + 1)).toNat + 1 := by omega
  rw [h1, List.range_succ_eq_map, List.find?_cons]
  by_cases hb : bm (curr + 1) = bit
  · simp [Bitmap.is_set, hb]
  · simp only [Bitmap.is_set, Nat.cast_zero, Int.add_zero, hb, beq_iff_eq, if_false]
    rw [List.find?_map]
    have hfun : ((fun (k : Nat) => bm (curr + 1 + (k : Int)) == bit) ∘ Nat.succ)
        = (fun (k : Nat) => bm (curr + 1 + 1 + (k : Int)) == bit) := by
      funext k
      simp only [Function.comp, Nat.cast_succ]
      congr 2
      omega
    have hb2 : (bm (curr + 1) == bit) = false := by simpa using hb
    simp only [hb2]
    rw [hfun]
    cases (List.range (cap - (curr + 1 + 1)).toNat).find?
        (fun (k : Nat) => bm (curr + 1 + 1 + (k : Int)) == bit) with
    | none => rfl
    | some k => simp only [Option.map_some', Nat.cast_succ]; omega

theorem next_bit_nil (bit : Bool) (bm : Int → Bool) (cap curr : Int) (h : ¬ curr + 1 < cap) :
    Bitmap.next_bit bit bm cap curr = cap := by
  unfold Bitmap.next_bit
  have h1 : (cap - (curr + 1)).toNat = 0 := by omega
  rw [h1]; rfl

/-- The result of `next_bit(true, ...)` is the first occupied slot after `curr`,
or `cap` when there is none. -/
theorem slots_after_next_bit (bm : Int → Bool) (cap : Int) (n : Nat) :
    ∀ curr : Int, (cap - (curr + 1)).toNat = n →
      (Bitmap.next_bit true bm cap curr < cap →
        slots_after bm cap curr = Bitmap.next_bit true bm cap curr ::
          slots_after bm cap (Bitmap.next_bit true bm cap curr)) ∧
      (¬ Bitmap.next_bit true bm cap curr < cap →
        Bitmap.next_bit true bm cap curr = cap ∧ slots_after bm cap curr = []) := by
  induction n with
  | zero =>
    intro curr hn
    have h : ¬ curr + 1 < cap := by omega
    rw [next_bit_nil true bm cap curr h]
    refine ⟨fun hlt => absurd hlt (by omega), fun _ => ⟨rfl, ?_⟩⟩
    unfold slots_after; rw [positions_after_nil cap curr h]; rfl
  | succ k ih =>
    intro curr hn
    have h : curr + 1 < cap := by omega
    rw [next_bit_step true bm cap curr h]
    have hs : slots_after bm cap curr =
        if bm (curr + 1) = true then (curr + 1) :: slots_after bm cap (curr + 1)
        else slots_after bm cap (curr + 1) := by
      unfold slots_after
      rw [positions_after_step cap curr h, List.filter_cons]
    by_cases hb : bm (curr + 1) = true
    · simp only [hb, if_true] at hs ⊢
      exact ⟨fun _ => hs, fun hlt => absurd h hlt⟩
    · simp only [hb, if_false] at hs ⊢
      rw [hs]
      exact ih (curr + 1) (by omega)

theorem mem_positions_after (cap curr x : Int) :
    x ∈ positions_after cap curr ↔ curr < x ∧ x < cap := by
  unfold positions_after
  simp only [List.mem_map, List.mem_range]
  constructor
  · rintro ⟨k, hk, rfl⟩; omega
  · intro h
    exact ⟨(x - (curr + 1)).toNat, by omega, by omega⟩

theorem mem_slots_after (bm : Int → Bool) (cap curr x : Int) :
    x ∈ slots_after bm cap curr ↔ curr < x ∧ x < cap ∧ bm x = true := by
  unfold slots_after
  rw [List.mem_filter, mem_positions_after]
  tauto

theorem positions_after_sorted (cap : Int) (n : Nat) :
    ∀ curr : Int, (cap - (curr + 1)).toNat = n →
      (positions_after cap curr).Pairwise (fun a b => a < b) := by
  induction n with
  | zero =>
    intro curr hn
    rw [positions_after_nil cap curr (by omega)]; exact List.Pairwise.nil
  | succ k ih =>
    intro curr hn
    rw [positions_after_step cap curr (by omega)]
    refine List.Pairwise.cons ?_ (ih (curr + 1) (by omega))
    intro b hb
    exact ((mem_positions_after cap (curr + 1) b).1 hb).1

theorem slots_after_sorted (bm : Int → Bool) (cap curr : Int) :
    (slots_after bm cap curr).Pairwise (fun a b => a < b) :=
  (positions_after_sorted cap _ curr rfl).filter _

end RmScan

namespace BufferPoolManager

variable {D : Type}

theorem cached_init [Inhabited D] (n : Nat) (disk : DiskManager D) (P : PageId)
    (hvalid : P.page_no ≠ INVALID_PAGE_ID) : Cached P (disk.pages P) (init n disk) where
  table_id := by intro pid f h; simp [init] at h
  single := by
    intro g h
    simp only [init] at h
    rw [← h] at hvalid
    exact absurd rfl hvalid
  resident := by intro g h; simp [init] at h
  on_disk := fun _ => rfl

theorem find_victim_page_pages (s : BufferPoolManager D) :
    (find_victim_page s).2.pages_ = s.pages_ := by
  unfold find_victim_page; split <;> rfl

theorem find_victim_page_evictable (s : BufferPoolManager D) (f : Nat)
    (h : (find_victim_page s).1 = some f) :
    f ∈ s.free_list_ ∨ f ∈ s.replacer_.LRUlist_ := by
  unfold find_victim_page at h
  split at h
  · rename_i g rest hg
    simp only [Option.some.injEq] at h
    subst h
    left; rw [hg]; exact List.mem_cons_self _ _
  · right; exact LRUReplacer.victim_some_mem _ _ h

theorem find_victim_page_lists (s : BufferPoolManager D) (g : Nat) :
    (g ∈ (find_victim_page s).2.free_list_ → g ∈ s.free_list_) ∧
      (g ∈ (find_victim_page s).2.replacer_.LRUlist_ → g ∈ s.replacer_.LRUlist_) := by
  unfold find_victim_page
  split
  · rename_i f rest hf
    exact ⟨fun h => by rw [hf]; exact List.mem_cons_of_mem _ h, fun h => h⟩
  · exact ⟨fun h => h, fun h => LRUReplacer.victim_mem _ g h⟩

/-- A fetch keeps the content of every page: a page that is evicted is written
back when dirty, and a frame that is not evictable is not chosen. -/
theorem cached_fetch_page [Inhabited D] (P : PageId) (d : D) (s : BufferPoolManager D)
    (hs : Cached P d s) (hvalid : P.page_no ≠ INVALID_PAGE_ID) (q : PageId) :
    Cached P d (fetch_page s q).2 := by
  have htid := tableIdentity_fetch_page s hs.table_id q
  unfold fetch_page at htid ⊢
  cases hpt : s.page_table_ q with
  | some f =>
    rw [hpt] at htid
    exact
      { table_id := htid
        single := by
          intro g hg
          simp only [set_page] at hg ⊢
          split at hg
          · rename_i hgf; subst hgf; exact hs.single g hg
          · exact hs.single g hg
        resident := by
          intro g hg
          simp only [set_page] at hg ⊢
          obtain ⟨h1, h2⟩ := hs.resident g hg
          refine ⟨by split <;> simp_all, ?_⟩
          rcases h2 with h2 | h2 | h2
          · left; split <;> simp_all
          · right; left; exact h2
          · right; right
            exact ⟨h2.1, fun h => h2.2 (LRUReplacer.pin_mem _ f g h)⟩
        on_disk := fun h => hs.on_disk h }
  | none =>
    rw [hpt] at htid
    simp only at htid ⊢
    cases hv : find_victim_page s with
    | mk r s1 =>
      rw [hv] at htid
      cases r with
      | none => exact hs
      | some f =>
        simp only at htid ⊢
        have hp1 : s1.pages_ = s.pages_ := by
          have := find_victim_page_pages s; rwa [hv] at this
        have ht1 : s1.page_table_ = s.page_table_ := by
          have := find_victim_page_table s; rwa [hv] at this
        have hd1 : s1.disk_manager_ = s.disk_manager_ := by
          have := find_victim_page_disk s; rwa [hv] at this
        have hev : f ∈ s.free_list_ ∨ f ∈ s.replacer_.LRUlist_ :=
          find_victim_page_evictable s f (by rw [hv])
        have hl1 : ∀ g, (g ∈ s1.free_list_ → g ∈ s.free_list_) ∧
            (g ∈ s1.replacer_.LRUlist_ → g ∈ s.replacer_.LRUlist_) := by
          intro g; have := find_victim_page_lists s g; rwa [hv] at this
        have hne : ¬ (P.page_no = INVALID_FRAME_ID) := hvalid
        exact
          { table_id := htid
            single := by
              intro g hg
              simp only [set_page, update_page, table_insert, table_erase, hp1, ht1] at hg ⊢
              by_cases hgf : g = f
              · subst hgf
                simp only [if_true] at hg
                have hqP : q = P := by split at hg <;> exact hg
                simp [hqP]
              · simp only [hgf, if_false] at hg
                have h1 := hs.single g hg
                by_cases hqP : q = P
                · rw [← hqP, hpt] at h1; cases h1
                · have hPq : ¬ P = q := fun h => hqP h.symm
                  simp only [hPq, if_false]
                  by_cases hold : P = (s.pages_ f).id_
                  · have h2 := hs.single f hold.symm
                    rw [h1] at h2
                    simp only [Option.some.injEq] at h2
                    exact absurd h2 hgf
                  · simp only [hold, if_false]; exact h1
            resident := by
              intro g hg
              simp only [set_page, update_page, table_insert, table_erase, hp1, ht1, hd1]
                at hg ⊢
              by_cases hPq : P = q
              · subst hPq
                simp only [if_true, Option.some.injEq] at hg
                subst hg
                have hdisk := hs.on_disk hpt
                have hold : (s.pages_ f).id_ ≠ P := by
                  intro h
                  have := hs.single f h
                  rw [hpt] at this; cases this
                simp only [if_true, ne_eq, hne, not_false_eq_true]
                have key : (if (s.pages_ f).is_dirty_ = true then
                      s.disk_manager_.write_page (s.pages_ f).id_ (s.pages_ f).data_
                    else s.disk_manager_).pages P = d := by
                  split
                  · simp only [DiskManager.write_page]
                    have : ¬ P = (s.pages_ f).id_ := fun h => hold h.symm
                    simp only [this, if_false]; exact hdisk
                  · exact hdisk
                exact ⟨key, Or.inr (Or.inl key)⟩
              · simp only [hPq, if_false] at hg
                split at hg
                · cases hg
                · rename_i hold
                  have hgf : g ≠ f := by
                    intro h; subst h
                    exact hold (hs.table_id P g hg).symm
                  simp only [hgf, if_false]
                  obtain ⟨h1, h2⟩ := hs.resident g hg
                  refine ⟨h1, ?_⟩
                  rcases h2 with h2 | h2 | h2
                  · exact Or.inl h2
                  · right; left
                    split
                    · simp only [DiskManager.write_page, hold, if_false]; exact h2
                    · exact h2
                  · right; right
                    exact ⟨fun h => h2.1 ((hl1 g).1 h),
                      fun h => h2.2 ((hl1 g).2 (LRUReplacer.pin_mem _ f g h))⟩
            on_disk := by
              intro hg
              simp only [set_page, update_page, table_insert, table_erase, hp1, ht1, hd1]
                at hg ⊢
              by_cases hPq : P = q
              · simp [hPq] at hg
              · simp only [hPq, if_false] at hg
                by_cases hold : P = (s.pages_ f).id_
                · have hpP := hs.single f hold.symm
                  obtain ⟨h1, h2⟩ := hs.resident f hpP
                  split
                  · simp only [DiskManager.write_page, hold, if_true]; exact h1
                  · rename_i hnd
                    rcases h2 with h2 | h2 | h2
                    · exact absurd h2 hnd
                    · exact h2
                    · rcases hev with hev | hev
                      · exact absurd hev h2.1
                      · exact absurd hev h2.2
                · simp only [hold, if_false] at hg
                  have := hs.on_disk hg
                  split
                  · simp only [DiskManager.write_page, hold, if_false]; exact this
                  · exact this }

theorem cached_fetch_page_data [Inhabited D] (P : PageId) (d : D) (s s1 : BufferPoolManager D)
    (hs : Cached P d s) (hvalid : P.page_no ≠ INVALID_PAGE_ID) (f : Nat)
    (h : fetch_page s P = (some f, s1)) : (s1.pages_ f).data_ = d := by
  have h1 := cached_fetch_page P d s hs hvalid P
  rw [h] at h1
  exact (h1.resident f (fetch_page_table s s1 P f h)).1

theorem cached_content (P : PageId) (d : D) (s : BufferPoolManager D) (hs : Cached P d s) :
    content s P = d := by
  unfold content
  cases h : s.page_table_ P with
  | none => exact hs.on_disk h
  | some f => exact (hs.resident f h).1

end BufferPoolManager

namespace RmScan

theorem rids_from_succ (fh : RmFileHandle) (k : Nat) (p : Int) :
    rids_from fh (k + 1) p = rest fh k p (-1) := rfl

theorem valid_of_data_page (fd p : Int) (hp : RM_FIRST_RECORD_PAGE ≤ p) :
    (⟨fd, p⟩ : PageId).page_no ≠ INVALID_PAGE_ID := by
  simp only [RM_FIRST_RECORD_PAGE, INVALID_PAGE_ID] at hp ⊢
  omega

theorem sound_fetch (fh0 fh : RmFileHandle) (hs : Sound fh0 fh) (q : PageId) :
    Sound fh0 { fh with buffer_pool_manager_ := (fh.buffer_pool_manager_.fetch_page q).2 } where
  hdr := hs.hdr
  fd := hs.fd
  cached := fun p hp1 hp2 =>
    BufferPoolManager.cached_fetch_page _ _ _ (hs.cached p hp1 hp2)
      (valid_of_data_page _ p hp1) q

/-- One call of the loop of `next()` from the position `(p, s)` on page `p`:
unless a fetch returns null, it lands on the first Rid that is left to scan, or
on the end-of-scan value when nothing is left. -/
theorem next_loop_spec (fh0 : RmFileHandle)
    (hlayout : fh0.file_hdr_.num_records_per_page ≤ 8 * fh0.file_hdr_.bitmap_size) (k : Nat) :
    ∀ (fh : RmFileHandle) (p s : Int) (fuel : Nat), Sound fh0 fh →
      RM_FIRST_RECORD_PAGE ≤ p → -1 ≤ s → p + (k : Int) + 1 = fh0.file_hdr_.num_pages →
      k + 1 ≤ fuel →
      next_loop fuel fh ⟨p, s⟩ = .error .null_page ∨
        ∃ fh1, Sound fh0 fh1 ∧
          next_loop fuel fh ⟨p, s⟩ = .ok (.ok (head_or_end (rest fh0 k p s)), fh1) := by
  induction k with
  | zero =>
    intro fh p s fuel hs hp hsl hk hfuel
    obtain ⟨fuel1, rfl⟩ : ∃ m, fuel = m + 1 := ⟨fuel - 1, by omega⟩
    have hlt : p < fh.file_hdr_.num_pages := by rw [hs.hdr]; omega
    have hnge : ¬ (p ≥ fh.file_hdr_.num_pages) := by omega
    unfold next_loop
    simp only [hlt, if_true, RmFileHandle.fetch_page_handle, hnge, if_false]
    cases hf : fh.buffer_pool_manager_.fetch_page ⟨fh.fd_, p⟩ with
    | mk r s1 =>
      cases r with
      | none => left; rfl
      | some f =>
        right
        have hsound : Sound fh0
            { file_hdr_ := fh0.file_hdr_, fd_ := fh.fd_, buffer_pool_manager_ := s1 } := by
          have := sound_fetch fh0 fh hs ⟨fh.fd_, p⟩
          rw [hf] at this
          exact { hdr := rfl, fd := hs.fd, cached := this.cached }
        have hdata : (s1.pages_ f).data_ = fh0.buffer_pool_manager_.content ⟨fh0.fd_, p⟩ := by
          have hc := hs.cached p hp (by omega)
          rw [← hs.fd] at hc ⊢
          exact BufferPoolManager.cached_fetch_page_data _ _ _ _ hc
            (valid_of_data_page _ p hp) f hf
        refine ⟨_, hsound, ?_⟩
        have hsr : RmFileHandle.search_in_range fh0.file_hdr_
            fh0.file_hdr_.num_records_per_page s = true := by
          simp only [RmFileHandle.search_in_range, decide_eq_true_eq]
          right; constructor <;> omega
        simp only [hs.hdr, hsr, not_true_eq_false, if_false, RmFileHandle.page_data, hdata]
        obtain ⟨h1, h2⟩ := slots_after_next_bit
          (fh0.buffer_pool_manager_.content ⟨fh0.fd_, p⟩).bitmap
          fh0.file_hdr_.num_records_per_page _ s rfl
        by_cases hnb : Bitmap.next_bit true (fh0.buffer_pool_manager_.content ⟨fh0.fd_, p⟩).bitmap
            fh0.file_hdr_.num_records_per_page s < fh0.file_hdr_.num_records_per_page
        · simp only [hnb, if_true, rest, h1 hnb, List.map_cons, List.cons_append, head_or_end]
        · have hge : p + 1 ≥ fh0.file_hdr_.num_pages := by omega
          simp only [hnb, if_false, hge, if_true, rest, (h2 hnb).2, List.map_nil, List.nil_append,
            rids_from, head_or_end]
  | succ k ih =>
    intro fh p s fuel hs hp hsl hk hfuel
    obtain ⟨fuel1, rfl⟩ : ∃ m, fuel = m + 1 := ⟨fuel - 1, by omega⟩
    have hlt : p < fh.file_hdr_.num_pages := by rw [hs.hdr]; omega
    have hnge : ¬ (p ≥ fh.file_hdr_.num_pages) := by omega
    unfold next_loop
    simp only [hlt, if_true, RmFileHandle.fetch_page_handle, hnge, if_false]
    cases hf : fh.buffer_pool_manager_.fetch_page ⟨fh.fd_, p⟩ with
    | mk r s1 =>
      cases r with
      | none => left; rfl
      | some f =>
        have hsound : Sound fh0
            { file_hdr_ := fh0.file_hdr_, fd_ := fh.fd_, buffer_pool_manager_ := s1 } := by
          have := sound_fetch fh0 fh hs ⟨fh.fd_, p⟩
          rw [hf] at this
          exact { hdr := rfl, fd := hs.fd, cached := this.cached }
        have hdata : (s1.pages_ f).data_ = fh0.buffer_pool_manager_.content ⟨fh0.fd_, p⟩ := by
          have hc := hs.cached p hp (by omega)
          rw [← hs.fd] at hc ⊢
          exact BufferPoolManager.cached_fetch_page_data _ _ _ _ hc
            (valid_of_data_page _ p hp) f hf
        have hsr : RmFileHandle.search_in_range fh0.file_hdr_
            fh0.file_hdr_.num_records_per_page s = true := by
          simp only [RmFileHandle.search_in_range, decide_eq_true_eq]
          right; constructor <;> omega
        simp only [hs.hdr, hsr, not_true_eq_false, if_false, RmFileHandle.page_data, hdata]
        obtain ⟨h1, h2⟩ := slots_after_next_bit
          (fh0.buffer_pool_manager_.content ⟨fh0.fd_, p⟩).bitmap
          fh0.file_hdr_.num_records_per_page _ s rfl
        by_cases hnb : Bitmap.next_bit true (fh0.buffer_pool_manager_.content ⟨fh0.fd_, p⟩).bitmap
            fh0.file_hdr_.num_records_per_page s < fh0.file_hdr_.num_records_per_page
        · right
          refine ⟨_, hsound, ?_⟩
          simp only [hnb, if_true, rest, h1 hnb, List.map_cons, List.cons_append, head_or_end]
        · have hge : ¬ (p + 1 ≥ fh0.file_hdr_.num_pages) := by
            push_cast at hk; omega
          simp only [hnb, if_false, hge]
          have hrest : rest fh0 (k + 1) p s = rest fh0 k (p + 1) (-1) := by
            simp only [rest, (h2 hnb).2, List.map_nil, List.nil_append, rids_from]
          rw [hrest]
          exact ih _ (p + 1) (-1) fuel1 hsound (by omega)
            (by omega) (by push_cast at hk; omega) (by omega)

/-- The list that is left to scan, when it is not empty, starts with a Rid on the
page `p` or on a later page, and what follows this Rid in the list is what is
left to scan after it. -/
theorem rest_cons (fh0 : RmFileHandle) (k : Nat) :
    ∀ (p s : Int) (r : Rid) (tl : List Rid), -1 ≤ s → rest fh0 k p s = r :: tl →
      ∃ k1 : Nat, p ≤ r.page_no ∧ r.page_no + (k1 : Int) = p + (k : Int) ∧ 0 ≤ r.slot_no ∧
        rest fh0 k1 r.page_no r.slot_no = tl := by
  induction k with
  | zero =>
    intro p s r tl hs h
    obtain ⟨h1, h2⟩ := slots_after_next_bit
      (fh0.buffer_pool_manager_.content ⟨fh0.fd_, p⟩).bitmap
      fh0.file_hdr_.num_records_per_page _ s rfl
    by_cases hnb : Bitmap.next_bit true (fh0.buffer_pool_manager_.content ⟨fh0.fd_, p⟩).bitmap
        fh0.file_hdr_.num_records_per_page s < fh0.file_hdr_.num_records_per_page
    · have hgt := (Bitmap.next_bit_found true _ _ s hnb).2
      simp only [rest, h1 hnb, List.map_cons, List.cons_append, List.cons.injEq] at h
      obtain ⟨hr, htl⟩ := h
      subst hr
      exact ⟨0, by simp, by simp, by simp only; omega, htl⟩
    · simp [rest, (h2 hnb).2, rids_from] at h
  | succ k ih =>
    intro p s r tl hs h
    obtain ⟨h1, h2⟩ := slots_after_next_bit
      (fh0.buffer_pool_manager_.content ⟨fh0.fd_, p⟩).bitmap
      fh0.file_hdr_.num_records_per_page _ s rfl
    by_cases hnb : Bitmap.next_bit true (fh0.buffer_pool_manager_.content ⟨fh0.fd_, p⟩).bitmap
        fh0.file_hdr_.num_records_per_page s < fh0.file_hdr_.num_records_per_page
    · have hgt := (Bitmap.next_bit_found true _ _ s hnb).2
      simp only [rest, h1 hnb, List.map_cons, List.cons_append, List.cons.injEq] at h
      obtain ⟨hr, htl⟩ := h
      subst hr
      exact ⟨k + 1, by simp, by simp, by simp only; omega, htl⟩
    · have hrest : rest fh0 (k + 1) p s = rest fh0 k (p + 1) (-1) := by
        simp only [rest, (h2 hnb).2, List.map_nil, List.nil_append, rids_from]
      rw [hrest] at h
      obtain ⟨k1, g1, g2, g3, g4⟩ := ih (p + 1) (-1) r tl (by omega) h
      exact ⟨k1, by omega, by push_cast; omega, g3, g4⟩

end RmScan

namespace RmScan

theorem next_spec (fh0 : RmFileHandle)
    (hlayout : fh0.file_hdr_.num_records_per_page ≤ 8 * fh0.file_hdr_.bitmap_size)
    (sc : RmScan) (k : Nat) (p s : Int) (hs : Sound fh0 sc.file_handle_)
    (hrid : sc.rid_ = ⟨p, s⟩) (hp : RM_FIRST_RECORD_PAGE ≤ p) (hsl : -1 ≤ s)
    (hk : p + (k : Int) + 1 = fh0.file_hdr_.num_pages) :
    next sc = .error .null_page ∨
      ∃ fh1, Sound fh0 fh1 ∧
        next sc = .ok (.ok (), { file_handle_ := fh1, rid_ := head_or_end (rest fh0 k p s) }) := by
  have hfuel : (sc.file_handle_.file_hdr_.num_pages - sc.rid_.page_no).toNat = k + 1 := by
    rw [hs.hdr, hrid]; simp only; omega
  unfold next
  rw [hfuel, hrid]
  rcases next_loop_spec fh0 hlayout k sc.file_handle_ p s (k + 1) hs hp hsl hk (Nat.le_refl _)
    with h | ⟨fh1, h1, h2⟩
  · left; rw [h]
  · right; exact ⟨fh1, h1, by rw [h2]⟩

/-- The caller's loop from a scan positioned on the Rid `(p, s)`: unless a fetch
returns null, it reads `(p, s)` and then what is left to scan. -/
theorem collect_spec (fh0 : RmFileHandle)
    (hlayout : fh0.file_hdr_.num_records_per_page ≤ 8 * fh0.file_hdr_.bitmap_size)
    (tl : List Rid) :
    ∀ (sc : RmScan) (k : Nat) (p s : Int) (fuel : Nat), Sound fh0 sc.file_handle_ →
      sc.rid_ = ⟨p, s⟩ → RM_FIRST_RECORD_PAGE ≤ p → -1 ≤ s →
      p + (k : Int) + 1 = fh0.file_hdr_.num_pages → rest fh0 k p s = tl →
      tl.length + 2 ≤ fuel →
      collect fuel sc = .error .null_page ∨ collect fuel sc = .ok (⟨p, s⟩ :: tl) := by
  induction tl with
  | nil =>
    intro sc k p s fuel hs hrid hp hsl hk hrest hfuel
    obtain ⟨fuel1, rfl⟩ : ∃ m, fuel = m + 1 := ⟨fuel - 1, by omega⟩
    obtain ⟨fuel2, rfl⟩ : ∃ m, fuel1 = m + 1 := ⟨fuel1 - 1, by simp at hfuel; omega⟩
    have hne : sc.is_end = false := by
      simp only [is_end, hrid, RM_NO_PAGE, beq_eq_false_iff_ne, ne_eq]
      simp only [RM_FIRST_RECORD_PAGE] at hp
      omega
    rcases next_spec fh0 hlayout sc k p s hs hrid hp hsl hk with h | ⟨fh1, h1, h2⟩
    · left; unfold collect; simp only [hne, h, Bool.false_eq_true, if_false]
    · right
      unfold collect
      simp only [hne, h2, hrest, Bool.false_eq_true, if_false, head_or_end]
      unfold collect
      simp [is_end, rid, hrid]
  | cons r tl1 ih =>
    intro sc k p s fuel hs hrid hp hsl hk hrest hfuel
    obtain ⟨fuel1, rfl⟩ : ∃ m, fuel = m + 1 := ⟨fuel - 1, by omega⟩
    have hne : sc.is_end = false := by
      simp only [is_end, hrid, RM_NO_PAGE, beq_eq_false_iff_ne, ne_eq]
      simp only [RM_FIRST_RECORD_PAGE] at hp
      omega
    obtain ⟨k1, g1, g2, g3, g4⟩ := rest_cons fh0 k p s r tl1 hsl hrest
    rcases next_spec fh0 hlayout sc k p s hs hrid hp hsl hk with h | ⟨fh1, h1, h2⟩
    · left; unfold collect; simp only [hne, h, Bool.false_eq_true, if_false]
    · have := ih { file_handle_ := fh1, rid_ := r } k1 r.page_no r.slot_no fuel1 h1 rfl
        (by omega) (by omega) (by omega) g4 (by simp only [List.length_cons] at hfuel; omega)
      unfold collect
      simp only [hne, h2, hrest, Bool.false_eq_true, if_false, head_or_end]
      rcases this with h3 | h3
      · left; rw [h3]
      · right; rw [h3]; simp [rid, hrid]

theorem scan_spec (fh : RmFileHandle)
    (hdata : RM_FIRST_RECORD_PAGE < fh.file_hdr_.num_pages)
    (hlayout : fh.file_hdr_.num_records_per_page ≤ 8 * fh.file_hdr_.bitmap_size)
    (hpool : ∀ p, RM_FIRST_RECORD_PAGE ≤ p → p < fh.file_hdr_.num_pages →
      BufferPoolManager.Cached ⟨fh.fd_, p⟩ (fh.buffer_pool_manager_.content ⟨fh.fd_, p⟩)
        fh.buffer_pool_manager_)
    (fuel : Nat) (hfuel : (all_rids fh).length + 2 ≤ fuel) :
    scan fuel fh = .ok (all_rids fh) ∨ scan fuel fh = .error .null_page := by
  have hs : Sound fh fh := ⟨rfl, rfl, hpool⟩
  obtain ⟨k, hk⟩ : ∃ k : Nat, RM_FIRST_RECORD_PAGE + (k : Int) + 1 = fh.file_hdr_.num_pages :=
    ⟨(fh.file_hdr_.num_pages - RM_FIRST_RECORD_PAGE - 1).toNat, by omega⟩
  have hall : all_rids fh = rest fh k RM_FIRST_RECORD_PAGE (-1) := by
    unfold all_rids
    have : (fh.file_hdr_.num_pages - RM_FIRST_RECORD_PAGE).toNat = k + 1 := by omega
    rw [this]; rfl
  unfold scan create
  rcases next_spec fh hlayout { file_handle_ := fh, rid_ := ⟨RM_FIRST_RECORD_PAGE, -1⟩ } k
    RM_FIRST_RECORD_PAGE (-1) hs rfl (Int.le_refl _) (Int.le_refl _) hk with h | ⟨fh1, h1, h2⟩
  · right; rw [h]
  · rw [h2]
    simp only
    cases hr : rest fh k RM_FIRST_RECORD_PAGE (-1) with
    | nil =>
      left
      obtain ⟨fuel1, rfl⟩ : ∃ m, fuel = m + 1 := ⟨fuel - 1, by omega⟩
      rw [hall, hr]
      unfold collect
      simp [head_or_end, is_end]
    | cons r tl =>
      obtain ⟨k1, g1, g2, g3, g4⟩ := rest_cons fh k RM_FIRST_RECORD_PAGE (-1) r tl
        (Int.le_refl _) hr
      have := collect_spec fh hlayout tl { file_handle_ := fh1, rid_ := r } k1 r.page_no
        r.slot_no fuel h1 rfl g1 (by omega) (by omega) g4 (by
          rw [hall, hr] at hfuel; simp only [List.length_cons] at hfuel; omega)
      simp only [head_or_end]
      rw [hall, hr]
      rcases this with h3 | h3
      · right; exact h3
      · left; exact h3

theorem mem_rids_from (fh : RmFileHandle) (k : Nat) :
    ∀ (p : Int) (x : Rid), x ∈ rids_from fh k p ↔
      p ≤ x.page_no ∧ x.page_no < p + (k : Int) ∧ 0 ≤ x.slot_no ∧
        x.slot_no < fh.file_hdr_.num_records_per_page ∧
        (fh.buffer_pool_manager_.content ⟨fh.fd_, x.page_no⟩).bitmap x.slot_no = true := by
  induction k with
  | zero => intro p x; simp only [rids_from, List.not_mem_nil, false_iff]; omega
  | succ k ih =>
    intro p x
    simp only [rids_from, List.mem_append, List.mem_map, mem_slots_after, ih]
    constructor
    · rintro (⟨sl, ⟨h1, h2, h3⟩, rfl⟩ | ⟨h1, h2, h3, h4, h5⟩)
      · exact ⟨Int.le_refl _, by simp only; omega, by simp only; omega, h2, h3⟩
      · exact ⟨by omega, by push_cast; omega, h3, h4, h5⟩
    · rintro ⟨h1, h2, h3, h4, h5⟩
      by_cases hp : x.page_no = p
      · left
        refine ⟨x.slot_no, ⟨by omega, h4, by rw [← hp]; exact h5⟩, ?_⟩
        cases x; simp only at hp; subst hp; rfl
      · right
        exact ⟨by omega, by push_cast at h2; omega, h3, h4, h5⟩

theorem rids_from_sorted (fh : RmFileHandle) (k : Nat) :
    ∀ p : Int, (rids_from fh k p).Pairwise rid_lt := by
  induction k with
  | zero => intro p; exact List.Pairwise.nil
  | succ k ih =>
    intro p
    simp only [rids_from]
    rw [List.pairwise_append]
    refine ⟨?_, ih (p + 1), ?_⟩
    · rw [List.pairwise_map]
      refine (slots_after_sorted _ _ _).imp ?_
      intro a b hab
      exact Or.inr ⟨rfl, hab⟩
    · intro a ha b hb
      simp only [List.mem_map] at ha
      obtain ⟨sl, _, rfl⟩ := ha
      have := ((mem_rids_from fh k (p + 1) b).1 hb).1
      left; simp only; omega

end RmScan

namespace RmScan

/-- C9 (the code evaluated at the failing input): the file `demoBigFile` has two
data pages and one occupied slot, (2, 0), and is opened over a pool of one
frame. The scan has to produce the list [(2, 0)]. Its first fetch pins page 1 in
the only frame, nothing unpins it, and the fetch of page 2 returns null: for no
round bound does the scan produce the list. Had page 1 been unpinned, the fetch
of page 2 would find its frame; and over a pool of two frames the scan of the
same file reads (2, 0) and ends. -/
theorem C9_scan_exhausts_small_pool :
    RM_FIRST_RECORD_PAGE < demoBigFile.file_hdr_.num_pages ∧
      all_rids demoBigFile = [⟨2, 0⟩] ∧
      (∀ fuel, scan fuel demoBigFile = .error .null_page) ∧
      (¬ ∃ fuel, scan fuel demoBigFile = .ok (all_rids demoBigFile)) ∧
      demoBigFile.fetch_page_handle 1 = .ok (.ok 0, demoBigFileFetched) ∧
      demoBigFileFetched.pin_count_of 1 = some 1 ∧
      demoBigFileFetched.buffer_pool_manager_.free_list_ = [] ∧
      demoBigFileFetched.buffer_pool_manager_.replacer_.LRUlist_ = [] ∧
      demoBigFileFetched.fetch_page_handle 2 = .error .null_page ∧
      demoBigFileReleased.pin_count_of 1 = some 0 ∧
      (demoBigFileReleased.fetch_page_handle 2).map Prod.fst = .ok (.ok 0) ∧
      all_rids demoBigFileTwoFrames = [⟨2, 0⟩] ∧
      scan 3 demoBigFileTwoFrames = .ok [⟨2, 0⟩] := by
  have h : ∀ fuel, scan fuel demoBigFile = .error .null_page := by
    intro fuel
    have hc : create demoBigFile = .error .null_page := by rfl
    unfold scan
    rw [hc]
  refine ⟨by decide, by rfl, h, ?_, by rfl, by rfl, by rfl, by rfl, by rfl, by rfl, by rfl,
    by rfl, by rfl⟩
  rintro ⟨fuel, hf⟩
  rw [h fuel] at hf
  cases hf

theorem create_without_data_pages (fh : RmFileHandle)
    (h : fh.file_hdr_.num_pages ≤ RM_FIRST_RECORD_PAGE) :
    create fh = .ok (.ok (), { file_handle_ := fh, rid_ := ⟨RM_FIRST_RECORD_PAGE, -1⟩ }) := by
  unfold create next next_loop
  have : ¬ (RM_FIRST_RECORD_PAGE < fh.file_hdr_.num_pages) := by omega
  simp only [this, if_false]

theorem next_without_data_pages (fh : RmFileHandle)
    (h : fh.file_hdr_.num_pages ≤ RM_FIRST_RECORD_PAGE) :
    next { file_handle_ := fh, rid_ := ⟨RM_FIRST_RECORD_PAGE, -1⟩ }
      = .ok (.ok (), { file_handle_ := fh, rid_ := ⟨RM_FIRST_RECORD_PAGE, -1⟩ }) :=
  create_without_data_pages fh h

theorem collect_without_data_pages (fh : RmFileHandle)
    (h : fh.file_hdr_.num_pages ≤ RM_FIRST_RECORD_PAGE) (fuel : Nat) :
    collect fuel { file_handle_ := fh, rid_ := ⟨RM_FIRST_RECORD_PAGE, -1⟩ }
      = .error .out_of_fuel := by
  induction fuel with
  | zero => rfl
  | succ k ih =>
    unfold collect
    have he : is_end { file_handle_ := fh, rid_ := ⟨RM_FIRST_RECORD_PAGE, -1⟩ } = false := by
      rfl
    simp only [he, Bool.false_eq_true, if_false, next_without_data_pages fh h, ih]

/-- C10 (the code evaluated at the failing input): for the file `demoFile`, which
has the header page only (`num_pages = 1`, no occupied slot), the constructor of
the scan leaves the cursor at `(RM_FIRST_RECORD_PAGE, -1)`, `is_end()` is false,
and the caller that calls `next()` until `is_end()` never stops, whatever the
bound on its rounds. -/
theorem C10_scan_of_file_without_data_pages :
    demoFile.file_hdr_.num_pages ≤ RM_FIRST_RECORD_PAGE ∧
      all_rids demoFile = [] ∧
      create demoFile
        = .ok (.ok (), { file_handle_ := demoFile, rid_ := ⟨RM_FIRST_RECORD_PAGE, -1⟩ }) ∧
      is_end { file_handle_ := demoFile, rid_ := ⟨RM_FIRST_RECORD_PAGE, -1⟩ } = false ∧
      ∀ fuel, scan fuel demoFile = .error .out_of_fuel := by
  refine ⟨by decide, by rfl, create_without_data_pages demoFile (by decide), by decide, ?_⟩
  intro fuel
  unfold scan
  rw [create_without_data_pages demoFile (by decide)]
  exact collect_without_data_pages demoFile (by decide) fuel

end RmScan

/-! ## `delete_page` -/

namespace BufferPoolManager

variable {D : Type}

theorem delete_page_not_resident [Inhabited D] (s : BufferPoolManager D) (page_id : PageId)
    (h : s.page_table_ page_id = none) : delete_page s page_id = (true, s) := by
  unfold delete_page
  rw [h]

theorem delete_page_pinned [Inhabited D] (s : BufferPoolManager D) (page_id : PageId) (f : Nat)
    (h : s.page_table_ page_id = some f) (hpin : 0 < (s.pages_ f).pin_count_) :
    delete_page s page_id = (false, s) := by
  unfold delete_page
  rw [h]
  simp only [gt_iff_lt, hpin, if_true]

theorem delete_page_unpinned [Inhabited D] (s : BufferPoolManager D) (page_id : PageId) (f : Nat)
    (h : s.page_table_ page_id = some f) (hpin : (s.pages_ f).pin_count_ ≤ 0) :
    (delete_page s page_id).1 = true ∧
      (delete_page s page_id).2.page_table_
        = table_insert (table_erase s.page_table_ (s.pages_ f).id_)
            ⟨page_id.fd, INVALID_PAGE_ID⟩ f ∧
      (delete_page s page_id).2.free_list_ = s.free_list_ ++ [f] ∧
      (delete_page s page_id).2.replacer_ = s.replacer_ ∧
      ((delete_page s page_id).2.pages_ f).id_ = ⟨page_id.fd, INVALID_PAGE_ID⟩ ∧
      ((delete_page s page_id).2.pages_ f).data_ = default ∧
      ((delete_page s page_id).2.pages_ f).is_dirty_ = false ∧
      ((delete_page s page_id).2.pages_ f).pin_count_ = (s.pages_ f).pin_count_ ∧
      (∀ g, g ≠ f → (delete_page s page_id).2.pages_ g = s.pages_ g) := by
  have hn : ¬ (s.pages_ f).pin_count_ > 0 := by omega
  unfold delete_page
  rw [h]
  simp only [hn, if_false]
  refine ⟨trivial, ?_, ?_, ?_, ?_, ?_, ?_, ?_, ?_⟩
  · simp [update_page, DiskManager.deallocate_page]
  · simp [update_page]
  · simp [update_page]
  · simp only [update_page, if_true]
    split <;> rfl
  · simp [update_page, INVALID_PAGE_ID, INVALID_FRAME_ID]
  · simp only [update_page, if_true]
    split
    · cases hd : (s.pages_ f).is_dirty_ <;> simp
    · cases hd : (s.pages_ f).is_dirty_ <;> simp
  · simp only [update_page, if_true]
    split <;> rfl
  · intro g hg
    simp [update_page, hg]

/-- Calling `delete_page` twice on a PageId with a valid page number, in a pool
whose page table respects identities: the second call finds the page absent,
returns true and changes nothing. -/
theorem delete_page_twice_valid [Inhabited D] (s : BufferPoolManager D) (hs : TableIdentity s)
    (page_id : PageId) (hvalid : page_id.page_no ≠ INVALID_PAGE_ID)
    (hpin : ∀ f, s.page_table_ page_id = some f → (s.pages_ f).pin_count_ ≤ 0) :
    (delete_page s page_id).1 = true ∧
      delete_page (delete_page s page_id).2 page_id = (true, (delete_page s page_id).2) := by
  cases h : s.page_table_ page_id with
  | none =>
    rw [delete_page_not_resident s page_id h]
    exact ⟨rfl, delete_page_not_resident s page_id h⟩
  | some f =>
    obtain ⟨h1, h2, -⟩ := delete_page_unpinned s page_id f h (hpin f h)
    refine ⟨h1, delete_page_not_resident _ page_id ?_⟩
    rw [h2, hs page_id f h]
    have hne : page_id ≠ ⟨page_id.fd, INVALID_PAGE_ID⟩ := by
      intro he
      apply hvalid
      rw [he]
    simp [table_insert, table_erase, hne]

theorem demoIdle_reachable : Reachable demoIdle :=
  reachable_run [.fetch_page ⟨3, 0⟩, .unpin_page ⟨3, 0⟩ false] (init 1 demoDisk7) demoIdle
    (Reachable.init 1 demoDisk7) (by rfl)

theorem demoDeleted_reachable : Reachable demoDeleted :=
  Reachable.step demoIdle demoDeleted (.delete_page ⟨3, 0⟩) demoIdle_reachable (by rfl)

/-- C11 (the code evaluated at the failing input): in a pool of one frame, page
(3, 0) is resident in frame 0 with pin count 0 and buffer 7. `delete_page` of it
returns true, removes the entry of (3, 0), zeroes the buffer, leaves pin count 0
and a clear dirty flag, sets the identity of the frame to (3, INVALID_PAGE_ID) and
appends frame 0 to the Free Frame List; but it also enters a page-table entry
that maps (3, INVALID_PAGE_ID) to the freed frame 0, and frame 0 is still tracked
by the replacer. -/
theorem C11_delete_page_leaves_entry_for_freed_frame :
    Reachable demoIdle ∧
      demoIdle.page_table_ ⟨3, 0⟩ = some 0 ∧
      (demoIdle.pages_ 0).pin_count_ = 0 ∧
      (demoIdle.pages_ 0).data_ = 7 ∧
      (delete_page demoIdle ⟨3, 0⟩).1 = true ∧
      demoDeleted.page_table_ ⟨3, 0⟩ = none ∧
      (demoDeleted.pages_ 0).data_ = 0 ∧
      (demoDeleted.pages_ 0).pin_count_ = 0 ∧
      (demoDeleted.pages_ 0).is_dirty_ = false ∧
      (demoDeleted.pages_ 0).id_ = ⟨3, INVALID_PAGE_ID⟩ ∧
      demoDeleted.free_list_ = [0] ∧
      demoDeleted.page_table_ ⟨3, INVALID_PAGE_ID⟩ = some 0 ∧
      demoDeleted.replacer_.LRUlist_ = [0] :=
  ⟨demoIdle_reachable, by rfl, by rfl, by rfl, by rfl, by rfl, by rfl, by rfl, by rfl, by rfl,
    by rfl, by rfl, by rfl⟩

/-- C12 (the code evaluated at the failing input): in the reachable state
`demoDeleted` the PageId (3, INVALID_PAGE_ID) has a page-table entry, left by an
earlier `delete_page`, for frame 0 with pin count 0. Two calls of `delete_page`
on this PageId in a row both return true, and each of them appends frame 0 to the
Free Frame List once more: the second call is not a no-op. -/
theorem C12_delete_page_twice_grows_free_list :
    Reachable demoDeleted ∧
      demoDeleted.page_table_ ⟨3, INVALID_PAGE_ID⟩ = some 0 ∧
      (demoDeleted.pages_ 0).pin_count_ = 0 ∧
      (delete_page demoDeleted ⟨3, INVALID_PAGE_ID⟩).1 = true ∧
      (delete_page (delete_page demoDeleted ⟨3, INVALID_PAGE_ID⟩).2 ⟨3, INVALID_PAGE_ID⟩).1
        = true ∧
      demoDeleted.free_list_ = [0] ∧
      (delete_page demoDeleted ⟨3, INVALID_PAGE_ID⟩).2.free_list_ = [0, 0] ∧
      (delete_page (delete_page demoDeleted ⟨3, INVALID_PAGE_ID⟩).2
        ⟨3, INVALID_PAGE_ID⟩).2.free_list_ = [0, 0, 0] :=
  ⟨demoDeleted_reachable, by rfl, by rfl, by rfl, by rfl, by rfl, by rfl, by rfl⟩

end BufferPoolManager

/-! ## The replacer at capacity -/

namespace LRUReplacer

/-- The loop of `unpin` on a list that has reached the capacity `m ≥ 2` removes
the front of the list, the frame unpinned last, and stops. -/
theorem unpin_loop_at_capacity (m : Nat) (hm : 2 ≤ m) (a : Nat) (l h : List Nat)
    (hlen : (a :: l).length = m) :
    unpin_loop m (a :: l) h = some (l, hash_erase h a) := by
  have h1 : (a :: l).length ≥ m := by omega
  rw [unpin_loop]
  simp only [h1, if_true]
  simp only [List.length_cons] at hlen
  cases l with
  | nil => simp only [List.length_nil] at hlen; omega
  | cons b t =>
    rw [unpin_loop]
    have h2 : ¬ ((b :: t).length ≥ m) := by
      simp only [List.length_cons] at hlen ⊢
      omega
    simp only [h2, if_false]

/-- C13 (the code evaluated at the failing input): a replacer of capacity 2
tracks the frames 4 and 7, unpinned in this order, so `victim()` would return
frame 4. `unpin(9)` removes frame 7, the most recently unpinned frame, and keeps
frame 4: afterwards the tracked list is 9, 4 (most recent first) and the next two
victims are 4 and 9. -/
theorem C13_unpin_at_capacity_drops_most_recent :
    demoFullReplacer.max_size_ = 2 ∧
      demoFullReplacer.LRUlist_ = [7, 4] ∧
      demoFullReplacer.Size = 2 ∧
      demoFullReplacer.victim.1 = some 4 ∧
      (demoFullReplacer.unpin 9).map (fun r => r.LRUlist_) = some [9, 4] ∧
      (demoFullReplacer.unpin 9).map (fun r => r.Size) = some 2 ∧
      (demoFullReplacer.run [.unpin 9, .victim, .victim]).map Prod.fst
        = some [some 4, some 9] :=
  ⟨by rfl, by rfl, by rfl, by rfl, by rfl, by rfl, by rfl⟩

end LRUReplacer

/-! ## `delete_record` and `update_record` -/

namespace RmFileHandle

/-- What `delete_record(rid)` does when the page is fetched and the bit of the
slot is set: it clears the bit, lowers the record count by one, and, when the
count before the call was the capacity, threads the page onto the free-page
list. -/
theorem delete_record_found (fh fh1 : RmFileHandle) (rid : Rid) (page : Nat)
    (hfetch : fetch_page_handle fh rid.page_no = .ok (.ok page, fh1))
    (hbit : bit_in_range fh.file_hdr_ rid.slot_no = true)
    (hset : (fh1.page_data page).bitmap rid.slot_no = true) :
    ∃ fh2, delete_record fh rid = .ok (.ok (), fh2) ∧
      fh2.fd_ = fh.fd_ ∧
      fh2.buffer_pool_manager_ = fh1.buffer_pool_manager_.write_data page
        { num_records := (fh1.page_data page).num_records - 1
          next_free_page_no :=
            if (fh1.page_data page).num_records = fh.file_hdr_.num_records_per_page then
              fh.file_hdr_.first_free_page_no
            else (fh1.page_data page).next_free_page_no
          bitmap := Bitmap.reset (fh1.page_data page).bitmap rid.slot_no
          slots := (fh1.page_data page).slots } ∧
      fh2.file_hdr_ = { fh.file_hdr_ with
        first_free_page_no :=
          if (fh1.page_data page).num_records = fh.file_hdr_.num_records_per_page then
            (fh1.buffer_pool_manager_.pages_ page).id_.page_no
          else fh.file_hdr_.first_free_page_no } := by
  obtain ⟨-, hhdr, hfd, -⟩ := fetch_page_handle_ok fh fh1 _ page hfetch
  have hbit1 : bit_in_range fh1.file_hdr_ rid.slot_no = true := by rw [hhdr]; exact hbit
  unfold delete_record
  rw [hfetch]
  simp only [hbit1, Bitmap.is_set, hset, not_true_eq_false, if_false, set_page_data_file_hdr,
    page_data_set_page_data, set_page_data_twice]
  by_cases hfull : (fh1.page_data page).num_records = fh1.file_hdr_.num_records_per_page
  · simp only [hfull, if_true]
    refine ⟨_, rfl, ?_, ?_, ?_⟩
    · simp [release_page_handle, hfd]
    · rw [← hhdr]
      simp only [release_page_handle, set_page_data_twice, page_data_set_page_data,
        set_page_data_file_hdr, set_page_data_pool, hfull, if_true]
    · rw [← hhdr]
      simp only [release_page_handle, set_page_data_pool, set_page_data_file_hdr, hfull, if_true,
        write_data_id]
  · simp only [hfull, if_false]
    refine ⟨_, rfl, ?_, ?_, ?_⟩
    · simp [hfd]
    · rw [← hhdr]
      simp only [set_page_data_pool, hfull, if_false]
    · rw [← hhdr]
      simp only [set_page_data_file_hdr, hfull, if_false]

end RmFileHandle

namespace BufferPoolManager

variable {D : Type}

/-- After a successful `fetch_page(q)` the returned frame carries the identity
`q`, provided the page-table entry of `q`, if there was one, pointed at a frame
with this identity. -/
theorem fetch_page_id_of_entry [Inhabited D] (s s1 : BufferPoolManager D) (q : PageId) (f : Nat)
    (hloc : ∀ g, s.page_table_ q = some g → (s.pages_ g).id_ = q)
    (h : fetch_page s q = (some f, s1)) : (s1.pages_ f).id_ = q := by
  unfold fetch_page at h
  cases hpt : s.page_table_ q with
  | some g =>
    rw [hpt] at h
    simp only [Prod.mk.injEq, Option.some.injEq] at h
    rw [← h.2, ← h.1]
    simp only [set_page, if_true]
    exact hloc g hpt
  | none =>
    rw [hpt] at h
    simp only at h
    cases hv : find_victim_page s with
    | mk r s2 =>
      rw [hv] at h
      cases r with
      | none => simp at h
      | some g =>
        simp only [Prod.mk.injEq, Option.some.injEq] at h
        rw [← h.2, ← h.1]
        simp only [set_page, update_page, if_true]
        split <;> rfl

end BufferPoolManager

namespace RmFileHandle

/-- After `fetch_page_handle` the page is resident in the returned frame, so a
following `fetch_page_handle` of the same page on a state that differs only in
the buffer of this frame and in the free-page pointer returns the same frame and
the same buffer. -/
theorem get_record_after (fh fh1 fh2 : RmFileHandle) (rid : Rid) (page : Nat)
    (hfetch : fetch_page_handle fh rid.page_no = .ok (.ok page, fh1))
    (hfd : fh2.fd_ = fh.fd_) (d : RmPageData)
    (hpool : fh2.buffer_pool_manager_ = fh1.buffer_pool_manager_.write_data page d)
    (hnp : fh2.file_hdr_.num_pages = fh.file_hdr_.num_pages) :
    ∃ fh3, fetch_page_handle fh2 rid.page_no = .ok (.ok page, fh3) ∧
      fh3.file_hdr_ = fh2.file_hdr_ ∧ fh3.page_data page = d := by
  obtain ⟨hlt, -, -, hf⟩ := fetch_page_handle_ok fh fh1 _ page hfetch
  have hpt := BufferPoolManager.fetch_page_table _ _ _ _ hf
  have hpt2 : fh2.buffer_pool_manager_.page_table_ ⟨fh2.fd_, rid.page_no⟩ = some page := by
    rw [hpool, hfd]; exact hpt
  have hlt2 : ¬ (rid.page_no ≥ fh2.file_hdr_.num_pages) := by rw [hnp]; omega
  unfold fetch_page_handle
  simp only [hlt2, if_false, BufferPoolManager.fetch_page_resident _ _ _ hpt2]
  refine ⟨_, rfl, rfl, ?_⟩
  simp only [page_data, BufferPoolManager.set_page, if_true, hpool, write_data_data]

/-- C14: when `fetch_page_handle` delivers the page of `rid` (the page exists and
the pool has a frame for it) and `rid.slot_no` addresses a bit of the bitmap,
`delete_record(rid)` ends with record-not-found exactly when the bit of the slot
is clear, and then it returns the state left by the fetch alone, with the file
header of before; when the bit is set it succeeds, the bit of the slot is clear
afterwards, every other bit and all slot bytes are as before, the record count is
one lower, no other frame is touched, and `get_record(rid)` called right
afterwards ends with record-not-found. In a pool with sound bookkeeping for the
page, the buffer the call works on is the content the page had before the call. -/
theorem C14_delete_record (fh fh1 : RmFileHandle) (rid : Rid) (page : Nat)
    (hfetch : fetch_page_handle fh rid.page_no = .ok (.ok page, fh1))
    (hbit : bit_in_range fh.file_hdr_ rid.slot_no = true) :
    ((∃ fh2, delete_record fh rid = .ok (.RecordNotFoundError rid.page_no rid.slot_no, fh2)) ↔
        (fh1.page_data page).bitmap rid.slot_no = false) ∧
    ((fh1.page_data page).bitmap rid.slot_no = false →
        delete_record fh rid = .ok (.RecordNotFoundError rid.page_no rid.slot_no, fh1) ∧
          fh1.file_hdr_ = fh.file_hdr_) ∧
    ((fh1.page_data page).bitmap rid.slot_no = true →
        ∃ fh2, delete_record fh rid = .ok (.ok (), fh2) ∧
          (fh2.page_data page).bitmap rid.slot_no = false ∧
          (∀ i, i ≠ rid.slot_no →
            (fh2.page_data page).bitmap i = (fh1.page_data page).bitmap i) ∧
          (fh2.page_data page).num_records = (fh1.page_data page).num_records - 1 ∧
          (fh2.page_data page).slots = (fh1.page_data page).slots ∧
          (∀ g, g ≠ page →
            fh2.buffer_pool_manager_.pages_ g = fh1.buffer_pool_manager_.pages_ g) ∧
          ∃ fh3, get_record fh2 rid
            = .ok (.RecordNotFoundError rid.page_no rid.slot_no, fh3)) ∧
    (BufferPoolManager.Cached ⟨fh.fd_, rid.page_no⟩
        (fh.buffer_pool_manager_.content ⟨fh.fd_, rid.page_no⟩) fh.buffer_pool_manager_ →
      rid.page_no ≠ INVALID_PAGE_ID →
      fh1.page_data page = fh.buffer_pool_manager_.content ⟨fh.fd_, rid.page_no⟩) := by
  obtain ⟨hlt, hhdr, hfd1, hf⟩ := fetch_page_handle_ok fh fh1 _ page hfetch
  have hbit1 : bit_in_range fh1.file_hdr_ rid.slot_no = true := by rw [hhdr]; exact hbit
  have hnot : (fh1.page_data page).bitmap rid.slot_no = false →
      delete_record fh rid = .ok (.RecordNotFoundError rid.page_no rid.slot_no, fh1) := by
    intro hclear
    unfold delete_record
    rw [hfetch]
    simp only [hbit1, Bitmap.is_set, hclear, not_true_eq_false, if_false, Bool.false_eq_true,
      not_false_eq_true, if_true]
  have hfound : (fh1.page_data page).bitmap rid.slot_no = true →
      ∃ fh2, delete_record fh rid = .ok (.ok (), fh2) ∧
          (fh2.page_data page).bitmap rid.slot_no = false ∧
          (∀ i, i ≠ rid.slot_no →
            (fh2.page_data page).bitmap i = (fh1.page_data page).bitmap i) ∧
          (fh2.page_data page).num_records = (fh1.page_data page).num_records - 1 ∧
          (fh2.page_data page).slots = (fh1.page_data page).slots ∧
          (∀ g, g ≠ page →
            fh2.buffer_pool_manager_.pages_ g = fh1.buffer_pool_manager_.pages_ g) ∧
          ∃ fh3, get_record fh2 rid
            = .ok (.RecordNotFoundError rid.page_no rid.slot_no, fh3) := by
    intro hset
    obtain ⟨fh2, hdel, hfd2, hpool, hhdr2⟩ := delete_record_found fh fh1 rid page hfetch hbit hset
    refine ⟨fh2, hdel, ?_, ?_, ?_, ?_, ?_, ?_⟩
    · simp only [page_data, hpool, write_data_data, Bitmap.reset, if_true]
    · intro i hi
      simp only [page_data, hpool, write_data_data, Bitmap.reset, hi, if_false]
    · simp only [page_data, hpool, write_data_data]
    · simp only [page_data, hpool, write_data_data]
    · intro g hg
      rw [hpool]
      simp [BufferPoolManager.write_data, BufferPoolManager.set_page, hg]
    · obtain ⟨fh3, hf3, hh3, hd3⟩ := get_record_after fh fh1 fh2 rid page hfetch hfd2 _ hpool
        (by rw [hhdr2])
      have hbit3 : bit_in_range fh3.file_hdr_ rid.slot_no = true := by
        rw [hh3, hhdr2]; exact hbit
      refine ⟨fh3, ?_⟩
      unfold get_record
      rw [hf3]
      simp only [hbit3, hd3, Bitmap.is_set, Bitmap.reset, not_true_eq_false, if_false, if_true,
        Bool.false_eq_true, not_false_eq_true]
  refine ⟨⟨?_, fun h => ⟨fh1, hnot h⟩⟩, fun h => ⟨hnot h, hhdr⟩, hfound, ?_⟩
  · rintro ⟨fh2, h2⟩
    cases hb : (fh1.page_data page).bitmap rid.slot_no with
    | false => rfl
    | true =>
      obtain ⟨fh2', h2', -⟩ := hfound hb
      rw [h2'] at h2
      cases h2
  · intro hc hvalid
    exact BufferPoolManager.cached_fetch_page_data _ _ _ _ hc hvalid page hf

/-- Witness for C14: the record at Rid (1, 0) of `demoFile1` is deleted, and
`get_record` no longer finds it. -/
theorem C14_delete_record_witness :
    (demoFile1Fetched.page_data 0).bitmap 0 = true ∧
      ∃ fh2, delete_record demoFile1 ⟨1, 0⟩ = .ok (.ok (), fh2) ∧
        (fh2.page_data 0).num_records = 0 ∧
        ∃ fh3, get_record fh2 ⟨1, 0⟩ = .ok (.RecordNotFoundError 1 0, fh3) := by
  obtain ⟨fh2, h1, -, -, h2, -, -, h3⟩ :=
    (C14_delete_record demoFile1 demoFile1Fetched ⟨1, 0⟩ 0 (by rfl) (by decide)).2.2.1 (by rfl)
  exact ⟨by rfl, fh2, h1, by rw [h2]; rfl, h3⟩

end RmFileHandle

namespace RmFileHandle

/-- C15: when `delete_record(rid)` succeeds (the page of `rid` is fetched and the
bit of the slot is set) and the page-table entry of the page, if any, names a
frame with the identity of the page: if the record count of the page before the
call equals `num_records_per_page`, afterwards the `next_free_page_no` of the
page is the `first_free_page_no` the file had before and the
`first_free_page_no` of the file is `rid.page_no`; if the record count before
the call is below `num_records_per_page`, both are unchanged. -/
theorem C15_delete_record_free_list (fh fh1 : RmFileHandle) (rid : Rid) (page : Nat)
    (hfetch : fetch_page_handle fh rid.page_no = .ok (.ok page, fh1))
    (hbit : bit_in_range fh.file_hdr_ rid.slot_no = true)
    (hset : (fh1.page_data page).bitmap rid.slot_no = true)
    (hentry : ∀ g, fh.buffer_pool_manager_.page_table_ ⟨fh.fd_, rid.page_no⟩ = some g →
      (fh.buffer_pool_manager_.pages_ g).id_ = ⟨fh.fd_, rid.page_no⟩) :
    ∃ fh2, delete_record fh rid = .ok (.ok (), fh2) ∧
      ((fh1.page_data page).num_records = fh.file_hdr_.num_records_per_page →
        (fh2.page_data page).next_free_page_no = fh.file_hdr_.first_free_page_no ∧
          fh2.file_hdr_.first_free_page_no = rid.page_no) ∧
      ((fh1.page_data page).num_records < fh.file_hdr_.num_records_per_page →
        fh2.file_hdr_.first_free_page_no = fh.file_hdr_.first_free_page_no ∧
          (fh2.page_data page).next_free_page_no = (fh1.page_data page).next_free_page_no) := by
  obtain ⟨-, -, -, hf⟩ := fetch_page_handle_ok fh fh1 _ page hfetch
  have hid := BufferPoolManager.fetch_page_id_of_entry _ _ _ _ hentry hf
  obtain ⟨fh2, hdel, -, hpool, hhdr2⟩ := delete_record_found fh fh1 rid page hfetch hbit hset
  refine ⟨fh2, hdel, ?_, ?_⟩
  · intro hfull
    constructor
    · simp only [page_data, hpool, write_data_data]
      simp only [page_data] at hfull
      simp only [hfull, if_true]
    · rw [hhdr2]
      simp only [hfull, if_true, hid]
  · intro hlow
    have hne : ¬ ((fh1.page_data page).num_records = fh.file_hdr_.num_records_per_page) := by
      omega
    constructor
    · rw [hhdr2]
      simp only [hne, if_false]
    · simp only [page_data, hpool, write_data_data]
      simp only [page_data] at hne
      simp only [hne, if_false]

/-- Witness for C15: the only record of the full page 1 of `demoTinyFile1` is
deleted; the free-page list, empty before, now starts at page 1. -/
theorem C15_delete_record_free_list_witness :
    (demoTinyFile1Fetched.page_data 0).num_records
        = demoTinyFile1.file_hdr_.num_records_per_page ∧
      demoTinyFile1.file_hdr_.first_free_page_no = RM_NO_PAGE ∧
      ∃ fh2, delete_record demoTinyFile1 ⟨1, 0⟩ = .ok (.ok (), fh2) ∧
        (fh2.page_data 0).next_free_page_no = RM_NO_PAGE ∧
        fh2.file_hdr_.first_free_page_no = 1 := by
  obtain ⟨fh2, h1, h2, -⟩ :=
    C15_delete_record_free_list demoTinyFile1 demoTinyFile1Fetched ⟨1, 0⟩ 0 (by rfl) (by decide)
      (by rfl)
      (fun g hg => by
        have h0 : demoTinyFile1.buffer_pool_manager_.page_table_ ⟨3, 1⟩ = some 0 := by rfl
        have hg0 : (0 : Nat) = g := Option.some.inj (h0.symm.trans hg)
        rw [← hg0]
        rfl)
  exact ⟨by rfl, by rfl, fh2, h1, h2 (by rfl)⟩

/-- C16: when `fetch_page_handle` delivers the page of `rid` and `rid.slot_no`
addresses a bit of the bitmap and a slot of the page, `update_record(rid, buf)`
ends with record-not-found exactly when the bit of the slot is clear, and then it
returns the state left by the fetch alone; when the bit is set it succeeds, the
first `record_size` bytes of the slot are the bytes of `buf`, every other byte of
the page's slots, the bitmap, the record count, `next_free_page_no`, every other
frame and the file header are as before, and `get_record(rid)` called right
afterwards returns `buf` (for `buf` of `record_size` bytes). -/
theorem C16_update_record (fh fh1 : RmFileHandle) (rid : Rid) (buf : List Nat) (page : Nat)
    (hfetch : fetch_page_handle fh rid.page_no = .ok (.ok page, fh1))
    (hbit : bit_in_range fh.file_hdr_ rid.slot_no = true)
    (hslot : slot_in_range fh.file_hdr_ rid.slot_no = true) :
    ((∃ fh2, update_record fh rid buf
          = .ok (.RecordNotFoundError rid.page_no rid.slot_no, fh2)) ↔
        (fh1.page_data page).bitmap rid.slot_no = false) ∧
    ((fh1.page_data page).bitmap rid.slot_no = false →
        update_record fh rid buf = .ok (.RecordNotFoundError rid.page_no rid.slot_no, fh1) ∧
          fh1.file_hdr_ = fh.file_hdr_) ∧
    ((fh1.page_data page).bitmap rid.slot_no = true →
        ∃ fh2, update_record fh rid buf = .ok (.ok (), fh2) ∧
          fh2.file_hdr_ = fh.file_hdr_ ∧
          (∀ j, j < fh.file_hdr_.record_size.toNat →
            (fh2.page_data page).slots rid.slot_no j = buf.getD j 0) ∧
          (∀ i j, (i ≠ rid.slot_no ∨ fh.file_hdr_.record_size.toNat ≤ j) →
            (fh2.page_data page).slots i j = (fh1.page_data page).slots i j) ∧
          (fh2.page_data page).bitmap = (fh1.page_data page).bitmap ∧
          (fh2.page_data page).num_records = (fh1.page_data page).num_records ∧
          (fh2.page_data page).next_free_page_no = (fh1.page_data page).next_free_page_no ∧
          (∀ g, g ≠ page →
            fh2.buffer_pool_manager_.pages_ g = fh1.buffer_pool_manager_.pages_ g) ∧
          (buf.length = fh.file_hdr_.record_size.toNat →
            ∃ fh3, get_record fh2 rid
              = .ok (.ok { data := buf, size := fh.file_hdr_.record_size }, fh3))) := by
  obtain ⟨hlt, hhdr, hfd1, hf⟩ := fetch_page_handle_ok fh fh1 _ page hfetch
  have hbit1 : bit_in_range fh1.file_hdr_ rid.slot_no = true := by rw [hhdr]; exact hbit
  have hslot1 : slot_in_range fh1.file_hdr_ rid.slot_no = true := by rw [hhdr]; exact hslot
  have hnot : (fh1.page_data page).bitmap rid.slot_no = false →
      update_record fh rid buf = .ok (.RecordNotFoundError rid.page_no rid.slot_no, fh1) := by
    intro hclear
    unfold update_record
    rw [hfetch]
    simp only [hbit1, Bitmap.is_set, hclear, not_true_eq_false, if_false, Bool.false_eq_true,
      not_false_eq_true, if_true]
  have hupd : (fh1.page_data page).bitmap rid.slot_no = true →
      update_record fh rid buf = .ok (.ok (), fh1.set_page_data page
        { fh1.page_data page with
          slots := write_slot (fh1.page_data page).slots rid.slot_no buf
            fh1.file_hdr_.record_size }) := by
    intro hset
    unfold update_record
    rw [hfetch]
    simp only [hbit1, hslot1, Bitmap.is_set, hset, not_true_eq_false, if_false]
  refine ⟨⟨?_, fun h => ⟨fh1, hnot h⟩⟩, fun h => ⟨hnot h, hhdr⟩, ?_⟩
  · rintro ⟨fh2, h2⟩
    cases hb : (fh1.page_data page).bitmap rid.slot_no with
    | false => rfl
    | true =>
      rw [hupd hb] at h2
      cases h2
  · intro hset
    refine ⟨_, hupd hset, ?_, ?_, ?_, ?_, ?_, ?_, ?_, ?_⟩
    · simp only [set_page_data_file_hdr, hhdr]
    · intro j hj
      simp only [page_data_set_page_data, write_slot, hhdr, hj, and_self, if_true]
    · intro i j hij
      simp only [page_data_set_page_data, write_slot, hhdr]
      have : ¬ (i = rid.slot_no ∧ j < fh.file_hdr_.record_size.toNat) := by
        rintro ⟨h1, h2⟩
        rcases hij with h | h
        · exact h h1
        · omega
      simp only [this, if_false]
    · simp only [page_data_set_page_data]
    · simp only [page_data_set_page_data]
    · simp only [page_data_set_page_data]
    · intro g hg
      simp [set_page_data, BufferPoolManager.write_data, BufferPoolManager.set_page, hg]
    · intro hlen
      obtain ⟨fh3, hf3, hh3, hd3⟩ := get_record_after fh fh1 _ rid page hfetch
        (by simp only [set_page_data_fd, hfd1]) _ (set_page_data_pool _ _ _)
        (by simp only [set_page_data_file_hdr, hhdr])
      have hh3' : fh3.file_hdr_ = fh.file_hdr_ := by
        rw [hh3, set_page_data_file_hdr, hhdr]
      refine ⟨fh3, ?_⟩
      unfold get_record
      rw [hf3]
      simp only [hh3', hbit, hslot, hd3, Bitmap.is_set, hset, not_true_eq_false, if_false, hhdr]
      rw [read_write_slot _ _ _ _ hlen]

/-- Witness for C16: the record at Rid (1, 0) of `demoFile1` is overwritten with
the bytes 8, 9 and read back. -/
theorem C16_update_record_witness :
    (demoFile1Fetched.page_data 0).bitmap 0 = true ∧
      ∃ fh2, update_record demoFile1 ⟨1, 0⟩ [8, 9] = .ok (.ok (), fh2) ∧
        ∃ fh3, get_record fh2 ⟨1, 0⟩ = .ok (.ok { data := [8, 9], size := 2 }, fh3) := by
  obtain ⟨fh2, h1, -, -, -, -, -, -, -, h3⟩ :=
    (C16_update_record demoFile1 demoFile1Fetched ⟨1, 0⟩ [8, 9] 0 (by rfl) (by decide)
      (by decide)).2.2 (by rfl)
  exact ⟨by rfl, fh2, h1, h3 (by rfl)⟩

end RmFileHandle

/-! ## The placement form of `insert_record` beyond the page count -/

namespace RmFileHandle

/-- C17 (the code evaluated at the failing input): the file `demoFile` has the
page count 1, so the Rid (1, 0) names a page at the page count, with a slot number
below `num_records_per_page`. The placement form `insert_record(rid, buf)`
allocates nothing and ends with the exception `PageNotExistError`, the file state
unchanged. The guard of the allocation is `rid.page_no < num_pages`: on
`demoFile1`, where page 1 exists, the call at Rid (1, 0) creates a page all the
same and the page count goes from 2 to 3. -/
theorem C17_placement_beyond_page_count :
    demoFile.file_hdr_.num_pages = 1 ∧
      slot_in_range demoFile.file_hdr_ 0 = true ∧
      insert_record_rid demoFile ⟨1, 0⟩ [1, 2] = .ok (.PageNotExistError 1, demoFile) ∧
      demoFile1.file_hdr_.num_pages = 2 ∧
      demoFile1Placed.file_hdr_.num_pages = 3 :=
  ⟨by rfl, by decide, by rfl, by rfl, by rfl⟩

/-- The placement form at or beyond the page count, in general: no page is
allocated, the call ends with `PageNotExistError` and the state is unchanged. -/
theorem insert_record_rid_beyond (fh : RmFileHandle) (rid : Rid) (buf : List Nat)
    (h : fh.file_hdr_.num_pages ≤ rid.page_no) :
    insert_record_rid fh rid buf = .ok (.PageNotExistError rid.page_no, fh) := by
  have h1 : ¬ (rid.page_no < fh.file_hdr_.num_pages) := by omega
  have h2 : rid.page_no ≥ fh.file_hdr_.num_pages := by omega
  unfold insert_record_rid insert_record_rid_fetch fetch_page_handle
  simp only [h1, h2, if_false, if_true]

end RmFileHandle

/-! ## `flush_page`, `flush_all_pages` and the pin count set by `fetch_page` -/

namespace BufferPoolManager

variable {D : Type}

/-- One round of the loop of `flush_all_pages` changes no page table, identity,
pin count, buffer, replacer or Free Frame List, and neither the dirty flag of a
frame nor the disk image of a page of another file. -/
theorem flush_all_pages_step_frame (fd : Int) (s : BufferPoolManager D) (i : Nat) :
    (flush_all_pages_step fd s i).page_table_ = s.page_table_ ∧
      (flush_all_pages_step fd s i).replacer_ = s.replacer_ ∧
      (flush_all_pages_step fd s i).free_list_ = s.free_list_ ∧
      (∀ g, ((flush_all_pages_step fd s i).pages_ g).id_ = (s.pages_ g).id_ ∧
        ((flush_all_pages_step fd s i).pages_ g).pin_count_ = (s.pages_ g).pin_count_ ∧
        ((flush_all_pages_step fd s i).pages_ g).data_ = (s.pages_ g).data_) ∧
      (∀ g, (s.pages_ g).id_.fd ≠ fd →
        ((flush_all_pages_step fd s i).pages_ g).is_dirty_ = (s.pages_ g).is_dirty_) ∧
      (∀ pid : PageId, pid.fd ≠ fd →
        (flush_all_pages_step fd s i).disk_manager_.pages pid = s.disk_manager_.pages pid) := by
  unfold flush_all_pages_step
  by_cases hc : (s.pages_ i).id_.fd = fd ∧ (s.pages_ i).id_.page_no ≠ INVALID_PAGE_ID
  · simp only [hc, ne_eq, not_false_eq_true, and_self, if_true]
    refine ⟨rfl, rfl, rfl, ?_, ?_, ?_⟩
    · intro g
      simp only [set_page]
      by_cases hg : g = i
      · subst hg; simp
      · simp [hg]
    · intro g hg
      have hgi : g ≠ i := by
        intro h; rw [h] at hg; exact hg hc.1
      simp [set_page, hgi]
    · intro pid hpid
      have hne : pid ≠ (s.pages_ i).id_ := by
        intro h; rw [h] at hpid; exact hpid hc.1
      simp [set_page, DiskManager.write_page, hne]
  · simp [hc]

theorem foldl_flush_frame (fd : Int) (l : List Nat) :
    ∀ s : BufferPoolManager D,
      (l.foldl (flush_all_pages_step fd) s).page_table_ = s.page_table_ ∧
      (l.foldl (flush_all_pages_step fd) s).replacer_ = s.replacer_ ∧
      (l.foldl (flush_all_pages_step fd) s).free_list_ = s.free_list_ ∧
      (∀ g, ((l.foldl (flush_all_pages_step fd) s).pages_ g).id_ = (s.pages_ g).id_ ∧
        ((l.foldl (flush_all_pages_step fd) s).pages_ g).pin_count_ = (s.pages_ g).pin_count_ ∧
        ((l.foldl (flush_all_pages_step fd) s).pages_ g).data_ = (s.pages_ g).data_) ∧
      (∀ g, (s.pages_ g).id_.fd ≠ fd →
        ((l.foldl (flush_all_pages_step fd) s).pages_ g).is_dirty_ = (s.pages_ g).is_dirty_) ∧
      (∀ pid : PageId, pid.fd ≠ fd →
        (l.foldl (flush_all_pages_step fd) s).disk_manager_.pages pid
          = s.disk_manager_.pages pid) := by
  induction l with
  | nil => intro s; exact ⟨rfl, rfl, rfl, fun _ => ⟨rfl, rfl, rfl⟩, fun _ _ => rfl, fun _ _ => rfl⟩
  | cons i rest ih =>
    intro s
    obtain ⟨a1, a2, a3, a4, a5, a6⟩ := flush_all_pages_step_frame fd s i
    obtain ⟨b1, b2, b3, b4, b5, b6⟩ := ih (flush_all_pages_step fd s i)
    simp only [List.foldl_cons]
    refine ⟨b1.trans a1, b2.trans a2, b3.trans a3, ?_, ?_, ?_⟩
    · intro g
      exact ⟨(b4 g).1.trans (a4 g).1, (b4 g).2.1.trans (a4 g).2.1, (b4 g).2.2.trans (a4 g).2.2⟩
    · intro g hg
      exact (b5 g (by rw [(a4 g).1]; exact hg)).trans (a5 g hg)
    · intro pid hpid
      exact (b6 pid hpid).trans (a6 pid hpid)

/-- C19: `flush_page(page_id)` returns false exactly when `page_id` has no
page-table entry, and then the state (pool and disk) is unchanged; when `page_id`
is resident in frame `f` it returns true, afterwards the disk holds the buffer of
`f` under `page_id`, the dirty flag of `f` is false, and no other disk image or
dirty flag has changed. Both `flush_page` and `flush_all_pages(fd)` leave the
page table, the identity, pin count and buffer of every frame, the replacer and
the Free Frame List unchanged, and `flush_all_pages(fd)` changes neither the
dirty flag of a frame that holds a page of another file nor the disk image of a
page of another file. -/
theorem C19_flush_frame_conditions (s : BufferPoolManager D) (page_id : PageId) (fd : Int) :
    ((flush_page s page_id).1 = false ↔ s.page_table_ page_id = none) ∧
    (s.page_table_ page_id = none → flush_page s page_id = (false, s)) ∧
    (∀ f, s.page_table_ page_id = some f →
      (flush_page s page_id).1 = true ∧
      (flush_page s page_id).2.disk_manager_.pages page_id = (s.pages_ f).data_ ∧
      ((flush_page s page_id).2.pages_ f).is_dirty_ = false ∧
      (∀ q, q ≠ page_id →
        (flush_page s page_id).2.disk_manager_.pages q = s.disk_manager_.pages q) ∧
      (∀ g, g ≠ f →
        ((flush_page s page_id).2.pages_ g).is_dirty_ = (s.pages_ g).is_dirty_)) ∧
    ((flush_page s page_id).2.page_table_ = s.page_table_ ∧
      (flush_page s page_id).2.replacer_ = s.replacer_ ∧
      (flush_page s page_id).2.free_list_ = s.free_list_ ∧
      (∀ g, ((flush_page s page_id).2.pages_ g).id_ = (s.pages_ g).id_ ∧
        ((flush_page s page_id).2.pages_ g).pin_count_ = (s.pages_ g).pin_count_ ∧
        ((flush_page s page_id).2.pages_ g).data_ = (s.pages_ g).data_)) ∧
    ((flush_all_pages s fd).page_table_ = s.page_table_ ∧
      (flush_all_pages s fd).replacer_ = s.replacer_ ∧
      (flush_all_pages s fd).free_list_ = s.free_list_ ∧
      (∀ g, ((flush_all_pages s fd).pages_ g).id_ = (s.pages_ g).id_ ∧
        ((flush_all_pages s fd).pages_ g).pin_count_ = (s.pages_ g).pin_count_ ∧
        ((flush_all_pages s fd).pages_ g).data_ = (s.pages_ g).data_)) ∧
    (∀ g, (s.pages_ g).id_.fd ≠ fd →
      ((flush_all_pages s fd).pages_ g).is_dirty_ = (s.pages_ g).is_dirty_) ∧
    (∀ pid : PageId, pid.fd ≠ fd →
      (flush_all_pages s fd).disk_manager_.pages pid = s.disk_manager_.pages pid) := by
  obtain ⟨b1, b2, b3, b4, b5, b6⟩ := foldl_flush_frame fd (List.range s.pool_size_) s
  refine ⟨?_, ?_, ?_, ?_, ⟨b1, b2, b3, b4⟩, b5, b6⟩
  · unfold flush_page
    cases h : s.page_table_ page_id <;> simp
  · intro h
    unfold flush_page
    rw [h]
  · intro f h
    unfold flush_page
    rw [h]
    refine ⟨rfl, ?_, ?_, ?_, ?_⟩
    · simp [set_page, DiskManager.write_page]
    · simp [set_page]
    · intro q hq
      simp [set_page, DiskManager.write_page, hq]
    · intro g hg
      simp [set_page, hg]
  · unfold flush_page
    cases h : s.page_table_ page_id with
    | none => simp
    | some f =>
      refine ⟨rfl, rfl, rfl, ?_⟩
      intro g
      simp only [set_page]
      by_cases hg : g = f
      · subst hg; simp
      · simp [hg]

/-- The pin count `fetch_page` leaves on a page that was not resident: the pin
count the victim frame had, plus one. -/
theorem fetch_page_victim_pin [Inhabited D] (s s1 : BufferPoolManager D) (q : PageId) (f : Nat)
    (hpt : s.page_table_ q = none) (hv : find_victim_page s = (some f, s1)) :
    (fetch_page s q).1 = some f ∧
      ((fetch_page s q).2.pages_ f).pin_count_ = (s.pages_ f).pin_count_ + 1 := by
  have hp : s1.pages_ = s.pages_ := by
    have := find_victim_page_pages s
    rw [hv] at this
    exact this
  unfold fetch_page
  rw [hpt]
  simp only [hv, true_and]
  simp only [set_page, update_page, if_true, hp]
  split <;> rfl

theorem demoTracked_reachable : Reachable demoTracked :=
  reachable_run [.fetch_page ⟨3, 0⟩, .fetch_page ⟨3, 0⟩, .unpin_page ⟨3, 0⟩ false]
    (init 1 demoDisk) demoTracked (Reachable.init 1 demoDisk) (by rfl)

/-- C20 (the code evaluated at the failing input): in the reachable state
`demoTracked` page (3, 1) is not resident and the frame 0 that `fetch_page`
chooses for it has pin count 1. The successful `fetch_page` of (3, 1) returns
frame 0 with the identity (3, 1), a clear dirty flag and the disk contents of the
page, but with pin count 2, not 1. -/
theorem C20_fetch_page_pin_count_after_eviction :
    Reachable demoTracked ∧
      demoTracked.page_table_ ⟨3, 1⟩ = none ∧
      (find_victim_page demoTracked).1 = some 0 ∧
      (demoTracked.pages_ 0).pin_count_ = 1 ∧
      (fetch_page demoTracked ⟨3, 1⟩).1 = some 0 ∧
      ((fetch_page demoTracked ⟨3, 1⟩).2.pages_ 0).id_ = ⟨3, 1⟩ ∧
      ((fetch_page demoTracked ⟨3, 1⟩).2.pages_ 0).is_dirty_ = false ∧
      ((fetch_page demoTracked ⟨3, 1⟩).2.pages_ 0).data_ = demoDisk.pages ⟨3, 1⟩ ∧
      ((fetch_page demoTracked ⟨3, 1⟩).2.pages_ 0).pin_count_ = 2 :=
  ⟨demoTracked_reachable, by rfl, by rfl, by rfl, by rfl, by rfl, by rfl, by rfl, by rfl⟩

end BufferPoolManager

/-! ## Sequences of `insert_record` on an empty free-page list -/

namespace Bitmap

/-- The search of `next_bit` passes over the positions that do not hold the bit
looked for and stops at the first one that does. -/
theorem next_bit_skip (bit : Bool) (bm : Int → Bool) (cap : Int) (k : Nat) :
    ∀ curr : Int, (∀ b, curr < b → b < curr + 1 + (k : Int) → bm b ≠ bit) →
      bm (curr + 1 + (k : Int)) = bit → curr + 1 + (k : Int) < cap →
      next_bit bit bm cap curr = curr + 1 + (k : Int) := by
  induction k with
  | zero =>
    intro curr _ hb hlt
    simp only [Nat.cast_zero, Int.add_zero] at hb hlt ⊢
    rw [RmScan.next_bit_step bit bm cap curr hlt]
    simp only [hb, if_true]
  | succ k ih =>
    intro curr hskip hb hlt
    have h1 : curr + 1 < cap := by push_cast at hlt; omega
    rw [RmScan.next_bit_step bit bm cap curr h1]
    have h2 : bm (curr + 1) ≠ bit := hskip (curr + 1) (by omega) (by push_cast; omega)
    simp only [h2, if_false]
    have h3 : curr + 1 + ((k + 1 : Nat) : Int) = curr + 1 + 1 + (k : Int) := by
      push_cast; omega
    rw [h3] at hb hlt ⊢
    exact ih (curr + 1) (fun b hb1 hb2 => hskip b (by omega) (by rw [h3]; exact hb2)) hb hlt

/-- On a bitmap whose bits `0 .. r - 1` are set and whose bit `r` is clear,
`first_bit(false, ...)` is `r`. -/
theorem first_bit_prefix (bm : Int → Bool) (cap : Int) (r : Nat)
    (hset : ∀ b : Int, 0 ≤ b → b < (r : Int) → bm b = true)
    (hclear : bm (r : Int) = false) (hlt : (r : Int) < cap) :
    first_bit false bm cap = (r : Int) := by
  unfold first_bit
  have h := next_bit_skip false bm cap r (-1)
    (fun b h1 h2 => by rw [hset b (by omega) (by omega)]; decide)
    (by simpa using hclear) (by omega)
  rw [h]; omega

end Bitmap

namespace RmFileHandle

/-- With a frame in the Free Frame List, `create_new_page_handle` succeeds, takes
the frame at the front of the list for the new page and advances the next page
number of the file at the disk manager. -/
theorem create_new_page_handle_free (fh : RmFileHandle) (f : Nat) (rest : List Nat)
    (hfree : fh.buffer_pool_manager_.free_list_ = f :: rest) :
    ∃ fh1, create_new_page_handle fh = .ok (f, fh1) ∧
      fh1.buffer_pool_manager_.free_list_ = rest ∧
      fh1.buffer_pool_manager_.disk_manager_.fd2pageno fh.fd_
        = fh.buffer_pool_manager_.disk_manager_.fd2pageno fh.fd_ + 1 := by
  have hv : fh.buffer_pool_manager_.find_victim_page
      = (some f, { fh.buffer_pool_manager_ with free_list_ := rest }) := by
    unfold BufferPoolManager.find_victim_page
    rw [hfree]
  unfold create_new_page_handle BufferPoolManager.new_page
  simp only [hv]
  refine ⟨_, rfl, ?_, ?_⟩
  · simp [set_page_data, BufferPoolManager.write_data, BufferPoolManager.set_page,
      BufferPoolManager.update_page]
  · simp only [set_page_data, BufferPoolManager.write_data, BufferPoolManager.set_page,
      BufferPoolManager.update_page, DiskManager.allocate_page]
    split <;> simp [DiskManager.write_page]

/-- On a page whose slots `0 .. r - 1` are occupied and whose slot `r` is free,
`insert_record(buf)` succeeds and returns the Rid of slot `r` of this page. -/
theorem insert_record_at (fh fha : RmFileHandle) (buf : List Nat) (page : Nat) (r : Nat)
    (hc : create_page_handle fh = .ok (.ok page, fha))
    (hlayout : fha.file_hdr_.num_records_per_page ≤ 8 * fha.file_hdr_.bitmap_size)
    (hset : ∀ b : Int, 0 ≤ b → b < (r : Int) → (fha.page_data page).bitmap b = true)
    (hclear : (fha.page_data page).bitmap (r : Int) = false)
    (hlt : (r : Int) < fha.file_hdr_.num_records_per_page) :
    ∃ fh1, insert_record fh buf
      = .ok (.ok ⟨(fha.buffer_pool_manager_.pages_ page).id_.page_no, (r : Int)⟩, fh1) := by
  have hfb := Bitmap.first_bit_prefix (fha.page_data page).bitmap
    fha.file_hdr_.num_records_per_page r hset hclear hlt
  have hsearch : search_in_range fha.file_hdr_ fha.file_hdr_.num_records_per_page (-1) = true := by
    simp only [search_in_range, decide_eq_true_eq]
    right
    exact ⟨by omega, hlayout⟩
  have hslot : slot_in_range fha.file_hdr_ (r : Int) = true := by
    simp only [slot_in_range, decide_eq_true_eq]
    omega
  have hbit : bit_in_range fha.file_hdr_ (r : Int) = true := by
    simp only [bit_in_range, decide_eq_true_eq]
    omega
  have hex : ∃ rid fh1, insert_record fh buf = .ok (.ok rid, fh1) := by
    unfold insert_record
    rw [hc]
    simp only [set_page_data_file_hdr, page_data_set_page_data, set_page_data_twice, hfb, hsearch,
      hslot, hbit, not_true_eq_false, if_false]
    exact ⟨_, _, rfl⟩
  obtain ⟨rid, fh1, hins⟩ := hex
  obtain ⟨page1, fhb, hc1, -, -, hs, hp, -⟩ := insert_record_ok fh fh1 buf rid hins
  rw [hc] at hc1
  simp only [Except.ok.injEq, Prod.mk.injEq, RmResult.ok.injEq] at hc1
  obtain ⟨hpg, hfh⟩ := hc1
  subst hpg hfh
  rw [hfb] at hs
  refine ⟨fh1, ?_⟩
  rw [hins, ← hs, ← hp]

end RmFileHandle

namespace RmFileHandle

/-- The file state before any insert is a `Filling` state with no page created. -/
theorem filling_start (fh0 : RmFileHandle) (c : Nat)
    (hfree : fh0.file_hdr_.first_free_page_no = RM_NO_PAGE)
    (hdisk : fh0.buffer_pool_manager_.disk_manager_.fd2pageno fh0.fd_
      = fh0.file_hdr_.num_pages) :
    Filling fh0 c 0 0 fh0 where
  fd := rfl
  record_size := rfl
  capacity := rfl
  bitmap_size := rfl
  num_pages := by simp
  first_free := by simp [hfree]
  disk := by simp [hdisk]
  free := by simp
  current := fun h => absurd rfl h
  full := fun _ h => absurd h (Nat.lt_irrefl 0)

/-- A fetch of a resident page through `fetch_page_handle`. -/
theorem fetch_page_handle_resident (fh : RmFileHandle) (page_no : Int) (f : Nat)
    (hlt : page_no < fh.file_hdr_.num_pages)
    (hpt : fh.buffer_pool_manager_.page_table_ ⟨fh.fd_, page_no⟩ = some f) :
    ∃ fh1, fetch_page_handle fh page_no = .ok (.ok f, fh1) ∧
      fh1.file_hdr_ = fh.file_hdr_ ∧ fh1.fd_ = fh.fd_ ∧
      fh1.page_data f = fh.page_data f ∧
      (fh1.buffer_pool_manager_.pages_ f).id_ = (fh.buffer_pool_manager_.pages_ f).id_ ∧
      fh1.buffer_pool_manager_.page_table_ = fh.buffer_pool_manager_.page_table_ ∧
      fh1.buffer_pool_manager_.free_list_ = fh.buffer_pool_manager_.free_list_ ∧
      fh1.buffer_pool_manager_.disk_manager_ = fh.buffer_pool_manager_.disk_manager_ := by
  have h1 : ¬ (page_no ≥ fh.file_hdr_.num_pages) := by omega
  unfold fetch_page_handle
  simp only [h1, if_false, BufferPoolManager.fetch_page_resident _ _ _ hpt]
  refine ⟨_, rfl, rfl, rfl, ?_, ?_, rfl, rfl, rfl⟩
  · simp [page_data, BufferPoolManager.set_page]
  · simp [BufferPoolManager.set_page]

/-- The call `insert_record(buf)` that opens a new page: the free-page list is
empty, a page is created in the next free frame, and the record goes to its
slot 0. -/
theorem filling_step_new (fh0 fh : RmFileHandle) (c q : Nat) (buf : List Nat)
    (hcap : fh0.file_hdr_.num_records_per_page = (c : Int))
    (hlayout : fh0.file_hdr_.num_records_per_page ≤ 8 * fh0.file_hdr_.bitmap_size)
    (hc : 0 < c)
    (hf : Filling fh0 c q 0 fh)
    (hframe : q < fh0.buffer_pool_manager_.free_list_.length) :
    ∃ fh1, insert_record fh buf
        = .ok (.ok ⟨fh0.file_hdr_.num_pages + (q : Int), ((0 : Nat) : Int)⟩, fh1) ∧
      (0 + 1 = c → Filling fh0 c (q + 1) 0 fh1) ∧ (0 + 1 ≠ c → Filling fh0 c q (0 + 1) fh1) := by
  have hfree : fh.buffer_pool_manager_.free_list_
      = fh0.buffer_pool_manager_.free_list_[q] ::
          fh0.buffer_pool_manager_.free_list_.drop (q + 1) := by
    rw [hf.free]
    simp only [if_true, Nat.add_zero]
    exact List.drop_eq_getElem_cons hframe
  obtain ⟨fha, hcn, hfr, hdk⟩ := create_new_page_handle_free fh _ _ hfree
  obtain ⟨a1, a2, a3, a4, a5, a6, a7⟩ := create_new_page_handle_ok fh fha _ hcn
  generalize fh0.buffer_pool_manager_.free_list_[q] = f at hcn a3 a4 a5 a6 a7 hfree
  have hff : fh.file_hdr_.first_free_page_no = RM_NO_PAGE := by rw [hf.first_free]; simp
  have hcp : create_page_handle fh = .ok (.ok f, fha) := by
    unfold create_page_handle
    simp only [hff, if_true, hcn]
  have hdisk : fh.buffer_pool_manager_.disk_manager_.fd2pageno fh.fd_
      = fh0.file_hdr_.num_pages + (q : Int) := by
    rw [hf.fd, hf.disk]; simp
  rw [hdisk] at a2 a3 a4 hdk
  have hcapa : fha.file_hdr_.num_records_per_page = (c : Int) := by
    rw [a2]; exact hf.capacity.trans hcap
  have hbsa : fha.file_hdr_.bitmap_size = fh0.file_hdr_.bitmap_size := by
    rw [a2]; exact hf.bitmap_size
  have hbs : fh.file_hdr_.bitmap_size = fh0.file_hdr_.bitmap_size := hf.bitmap_size
  have hzero : ∀ b : Int, 0 ≤ b → b < (c : Int) → (fha.page_data f).bitmap b = false := by
    intro b hb1 hb2
    exact a7 b hb1 (by rw [hbs]; omega)
  obtain ⟨fh1, hins⟩ := insert_record_at fh fha buf f 0 hcp (by rw [hcapa, hbsa]; omega)
    (fun b h1 h2 => by simp only [Nat.cast_zero] at h2; omega)
    (hzero _ (by simp) (by simp; omega)) (by rw [hcapa]; simp; omega)
  obtain ⟨page1, fhb, hc1, -, -, -, -, b1, b2, b3⟩ := insert_record_ok fh fh1 buf _ hins
  rw [hcp] at hc1
  simp only [Except.ok.injEq, Prod.mk.injEq, RmResult.ok.injEq] at hc1
  obtain ⟨hpg, hfh⟩ := hc1
  subst hpg hfh
  simp only [Nat.cast_zero] at b2 b3
  have hdata : fh1.page_data f = _ := congrArg (fun s => (s.pages_ f).data_) b2
  simp only [write_data_data] at hdata
  have htab : fh1.buffer_pool_manager_.page_table_ = fha.buffer_pool_manager_.page_table_ := by
    rw [b2]; rfl
  have hidf : (fh1.buffer_pool_manager_.pages_ f).id_
      = ⟨fh0.fd_, fh0.file_hdr_.num_pages + (q : Int)⟩ := by
    rw [b2, write_data_id, a3, hf.fd]
  refine ⟨fh1, ?_, ?_, ?_⟩
  · rw [hins, a3]
  · intro hc1
    exact
      { fd := b1.trans (a1.trans hf.fd)
        record_size := by rw [b3, a2]; exact hf.record_size
        capacity := by rw [b3, a2]; exact hf.capacity
        bitmap_size := by rw [b3, a2]; exact hf.bitmap_size
        num_pages := by
          rw [b3, a2]
          show fh.file_hdr_.num_pages + 1 = _
          rw [hf.num_pages]
          simp only [if_true, Nat.add_zero]
          push_cast; omega
        first_free := by
          rw [b3]
          simp only [a5, a6, hcapa, if_true]
          have : (0 : Int) + 1 = (c : Int) := by omega
          simp only [this, if_true]
        disk := by
          rw [b2]
          show fha.buffer_pool_manager_.disk_manager_.fd2pageno fh0.fd_ = _
          rw [← hf.fd, hdk]
          simp only [if_true, Nat.add_zero]
          push_cast; omega
        free := by
          rw [b2]
          show fha.buffer_pool_manager_.free_list_ = _
          rw [hfr]
          simp only [if_true, Nat.add_zero]
        current := fun h => absurd rfl h
        full := by
          intro _ _
          refine ⟨f, ?_, ?_⟩
          · rw [htab, ← hf.fd]
            have : fh0.file_hdr_.num_pages + ((q + 1 : Nat) : Int) - 1
                = fh0.file_hdr_.num_pages + (q : Int) := by push_cast; omega
            rw [this]; exact a4
          · rw [hdata]
            simp only [a5]
            omega }
  · intro hc1
    have hne : ¬ ((0 : Int) + 1 = (c : Int)) := by omega
    have e1 : (if (0 + 1 : Nat) = 0 then (0 : Nat) else 1) = 1 := by simp
    have e2 : ¬ ((0 + 1 : Nat) = 0) := by simp
    exact
      { fd := b1.trans (a1.trans hf.fd)
        record_size := by rw [b3, a2]; exact hf.record_size
        capacity := by rw [b3, a2]; exact hf.capacity
        bitmap_size := by rw [b3, a2]; exact hf.bitmap_size
        num_pages := by
          rw [b3, a2]
          show fh.file_hdr_.num_pages + 1 = _
          rw [hf.num_pages]
          simp only [e1, if_true, Nat.add_zero]
          push_cast; omega
        first_free := by
          rw [b3]
          simp only [a5, hcapa, hne, if_false]
          rw [a2]
          simp only [e2, if_false]
        disk := by
          rw [b2]
          show fha.buffer_pool_manager_.disk_manager_.fd2pageno fh0.fd_ = _
          rw [← hf.fd, hdk]
          simp only [e1]
          push_cast; omega
        free := by
          rw [b2]
          show fha.buffer_pool_manager_.free_list_ = _
          rw [hfr]
          simp only [e1]
        current := by
          intro _
          refine ⟨f, ?_, hidf, ?_, ?_, ?_, ?_⟩
          · rw [htab, ← hf.fd]; exact a4
          · rw [hdata]; simp only [a5]; simp
          · rw [hdata]; exact a6
          · intro b hb1 hb2
            have : b = 0 := by push_cast at hb2; omega
            rw [hdata, this]
            simp [Bitmap.set]
          · intro b hb1 hb2
            have hb0 : b ≠ 0 := by push_cast at hb1; omega
            rw [hdata]
            simp only [Bitmap.set, hb0, if_false]
            exact hzero b (by push_cast at hb1; omega) hb2
        full := fun h => absurd h (by simp) }

end RmFileHandle

namespace RmFileHandle

/-- The call `insert_record(buf)` on a page that the free-page pointer names and
that holds `r` records, `0 < r < c`: the record goes to slot `r` of this page,
and the free-page pointer leaves the page when it becomes full. -/
theorem filling_step_same (fh0 fh : RmFileHandle) (c q r : Nat) (buf : List Nat)
    (hcap : fh0.file_hdr_.num_records_per_page = (c : Int))
    (hlayout : fh0.file_hdr_.num_records_per_page ≤ 8 * fh0.file_hdr_.bitmap_size)
    (hn0 : 0 ≤ fh0.file_hdr_.num_pages)
    (hr0 : r ≠ 0) (hr : r < c)
    (hf : Filling fh0 c q r fh) :
    ∃ fh1, insert_record fh buf
        = .ok (.ok ⟨fh0.file_hdr_.num_pages + (q : Int), (r : Int)⟩, fh1) ∧
      (r + 1 = c → Filling fh0 c (q + 1) 0 fh1) ∧ (r + 1 ≠ c → Filling fh0 c q (r + 1) fh1) := by
  obtain ⟨f, c1, c2, c3, c4, c5, c6⟩ := hf.current hr0
  have e0 : (if r = 0 then (0 : Nat) else 1) = 1 := by simp [hr0]
  have hff : fh.file_hdr_.first_free_page_no = fh0.file_hdr_.num_pages + (q : Int) := by
    rw [hf.first_free]; simp only [hr0, if_false]
  have hnp : fh.file_hdr_.num_pages = fh0.file_hdr_.num_pages + (q : Int) + 1 := by
    rw [hf.num_pages, e0]; push_cast; omega
  obtain ⟨fha, hfetch, a1, a2, a3, a4, a5, a6, a7⟩ :=
    fetch_page_handle_resident fh (fh0.file_hdr_.num_pages + (q : Int)) f (by rw [hnp]; omega)
      (by rw [hf.fd]; exact c1)
  have hcp : create_page_handle fh = .ok (.ok f, fha) := by
    unfold create_page_handle
    have : ¬ (fh0.file_hdr_.num_pages + (q : Int) = RM_NO_PAGE) := by
      simp only [RM_NO_PAGE]; omega
    rw [hff]
    simp only [this, if_false, hfetch]
  have hcapa : fha.file_hdr_.num_records_per_page = (c : Int) := by
    rw [a1]; exact hf.capacity.trans hcap
  have hbsa : fha.file_hdr_.bitmap_size = fh0.file_hdr_.bitmap_size := by
    rw [a1]; exact hf.bitmap_size
  obtain ⟨fh1, hins⟩ := insert_record_at fh fha buf f r hcp (by rw [hcapa, hbsa]; omega)
    (fun b h1 h2 => by rw [a3]; exact c5 b h1 h2)
    (by rw [a3]; exact c6 _ (le_refl _) (by omega)) (by rw [hcapa]; omega)
  obtain ⟨page1, fhb, hc1, -, -, -, -, b1, b2, b3⟩ := insert_record_ok fh fh1 buf _ hins
  rw [hcp] at hc1
  simp only [Except.ok.injEq, Prod.mk.injEq, RmResult.ok.injEq] at hc1
  obtain ⟨hpg, hfh⟩ := hc1
  subst hpg hfh
  have hdata : fh1.page_data f = _ := congrArg (fun s => (s.pages_ f).data_) b2
  simp only [write_data_data] at hdata
  rw [a3] at hdata b3
  have htab : fh1.buffer_pool_manager_.page_table_ = fh.buffer_pool_manager_.page_table_ := by
    rw [b2]; exact a5
  have hidf : (fh1.buffer_pool_manager_.pages_ f).id_
      = ⟨fh0.fd_, fh0.file_hdr_.num_pages + (q : Int)⟩ := by
    rw [b2, write_data_id, a4, c2]
  have hdisk : fh1.buffer_pool_manager_.disk_manager_ = fh.buffer_pool_manager_.disk_manager_ := by
    rw [b2]; exact a7
  have hfl : fh1.buffer_pool_manager_.free_list_ = fh.buffer_pool_manager_.free_list_ := by
    rw [b2]; exact a6
  refine ⟨fh1, ?_, ?_, ?_⟩
  · rw [hins, a4, c2]
  · intro hfull
    have hfull' : (r : Int) + 1 = (c : Int) := by omega
    exact
      { fd := b1.trans (a2.trans hf.fd)
        record_size := by rw [b3, a1]; exact hf.record_size
        capacity := by rw [b3, a1]; exact hf.capacity
        bitmap_size := by rw [b3, a1]; exact hf.bitmap_size
        num_pages := by
          rw [b3, a1]
          show fh.file_hdr_.num_pages = _
          rw [hnp]
          simp only [if_true, Nat.add_zero]
          push_cast; omega
        first_free := by
          rw [b3]
          simp only [c3, c4, hcapa, hfull', if_true]
        disk := by
          rw [hdisk, hf.disk, e0]
          simp only [if_true, Nat.add_zero]
        free := by
          rw [hfl, hf.free, e0]
          simp only [if_true, Nat.add_zero]
        current := fun h => absurd rfl h
        full := by
          intro _ _
          refine ⟨f, ?_, ?_⟩
          · rw [htab]
            have : fh0.file_hdr_.num_pages + ((q + 1 : Nat) : Int) - 1
                = fh0.file_hdr_.num_pages + (q : Int) := by push_cast; omega
            rw [this]; exact c1
          · rw [hdata]
            simp only [c3]
            omega }
  · intro hnot
    have hnot' : ¬ ((r : Int) + 1 = (c : Int)) := by omega
    have e1 : (if r + 1 = 0 then (0 : Nat) else 1) = 1 := by simp
    have e2 : ¬ (r + 1 = 0) := by simp
    exact
      { fd := b1.trans (a2.trans hf.fd)
        record_size := by rw [b3, a1]; exact hf.record_size
        capacity := by rw [b3, a1]; exact hf.capacity
        bitmap_size := by rw [b3, a1]; exact hf.bitmap_size
        num_pages := by
          rw [b3, a1]
          show fh.file_hdr_.num_pages = _
          rw [hnp, e1]
          push_cast; omega
        first_free := by
          rw [b3]
          simp only [c3, hcapa, hnot', if_false, e2]
          rw [a1]; exact hff
        disk := by
          rw [hdisk, hf.disk, e0, e1]
        free := by
          rw [hfl, hf.free, e0, e1]
        current := by
          intro _
          refine ⟨f, ?_, hidf, ?_, ?_, ?_, ?_⟩
          · rw [htab]; exact c1
          · rw [hdata]; simp only [c3]; push_cast; rfl
          · rw [hdata]; exact c4
          · intro b hb1 hb2
            rw [hdata]
            simp only [Bitmap.set]
            by_cases hb : b = (r : Int)
            · simp only [hb, if_true]
            · simp only [hb, if_false]
              exact c5 b hb1 (by push_cast at hb2; omega)
          · intro b hb1 hb2
            have hb : b ≠ (r : Int) := by push_cast at hb1; omega
            rw [hdata]
            simp only [Bitmap.set, hb, if_false]
            exact c6 b (by push_cast at hb1; omega) hb2
        full := fun h => absurd h (by simp) }

end RmFileHandle

namespace RmFileHandle

/-- Quotient and remainder of `i + 1` by `c` from those of `i`. -/
theorem succ_div_mod (c i : Nat) (hc : 0 < c) :
    (i % c + 1 = c → (i + 1) / c = i / c + 1 ∧ (i + 1) % c = 0) ∧
      (i % c + 1 ≠ c → (i + 1) / c = i / c ∧ (i + 1) % c = i % c + 1) := by
  have h1 := Nat.div_add_mod i c
  have h2 := Nat.mod_lt i hc
  constructor
  · intro h
    apply (Nat.div_mod_unique hc).2
    rw [Nat.mul_add, Nat.mul_one]
    omega
  · intro h
    apply (Nat.div_mod_unique hc).2
    omega

/-- The number of pages needed for `n` records at `c` records per page,
`(n + c - 1) / c`, from the quotient and the remainder of `n` by `c`. -/
theorem pages_needed (c n : Nat) (hc : 0 < c) :
    (n + c - 1) / c = n / c + (if n % c = 0 then 0 else 1) := by
  have h1 := Nat.div_add_mod n c
  have h2 := Nat.mod_lt n hc
  by_cases h : n % c = 0
  · simp only [h, if_true, Nat.add_zero]
    have h3 : (n + c - 1) / c = n / c ∧ (n + c - 1) % c = c - 1 :=
      (Nat.div_mod_unique hc).2 ⟨by omega, by omega⟩
    exact h3.1
  · simp only [h, if_false]
    have h3 : (n + c - 1) / c = n / c + 1 ∧ (n + c - 1) % c = n % c - 1 :=
      (Nat.div_mod_unique hc).2 ⟨by rw [Nat.mul_add, Nat.mul_one]; omega, by omega⟩
    exact h3.1

/-- One call of `insert_record(buf)` in a `Filling` state. -/
theorem filling_step (fh0 fh : RmFileHandle) (c i : Nat) (buf : List Nat)
    (hcap : fh0.file_hdr_.num_records_per_page = (c : Int))
    (hlayout : fh0.file_hdr_.num_records_per_page ≤ 8 * fh0.file_hdr_.bitmap_size)
    (hn0 : 0 ≤ fh0.file_hdr_.num_pages) (hc : 0 < c)
    (hf : Filling fh0 c (i / c) (i % c) fh)
    (hframe : i / c < fh0.buffer_pool_manager_.free_list_.length) :
    ∃ fh1, insert_record fh buf
        = .ok (.ok ⟨fh0.file_hdr_.num_pages + ((i / c : Nat) : Int), ((i % c : Nat) : Int)⟩, fh1) ∧
      Filling fh0 c ((i + 1) / c) ((i + 1) % c) fh1 := by
  have hr := Nat.mod_lt i hc
  obtain ⟨s1, s2⟩ := succ_div_mod c i hc
  have key : ∃ fh1, insert_record fh buf
        = .ok (.ok ⟨fh0.file_hdr_.num_pages + ((i / c : Nat) : Int), ((i % c : Nat) : Int)⟩, fh1) ∧
      (i % c + 1 = c → Filling fh0 c (i / c + 1) 0 fh1) ∧
      (i % c + 1 ≠ c → Filling fh0 c (i / c) (i % c + 1) fh1) := by
    by_cases hr0 : i % c = 0
    · rw [hr0] at hf ⊢
      exact filling_step_new fh0 fh c (i / c) buf hcap hlayout hc hf hframe
    · exact filling_step_same fh0 fh c (i / c) (i % c) buf hcap hlayout hn0 hr0 hr hf
  obtain ⟨fh1, k1, k2, k3⟩ := key
  refine ⟨fh1, k1, ?_⟩
  by_cases h : i % c + 1 = c
  · rw [(s1 h).1, (s1 h).2]; exact k2 h
  · rw [(s2 h).1, (s2 h).2]; exact k3 h

/-- A sequence of `insert_record` calls from a `Filling` state, with enough
frames in the Free Frame List: the call number `i + j` returns the Rid
`(first + (i + j) / c, (i + j) % c)`. -/
theorem insert_all_filling (fh0 : RmFileHandle) (c : Nat)
    (hcap : fh0.file_hdr_.num_records_per_page = (c : Int))
    (hlayout : fh0.file_hdr_.num_records_per_page ≤ 8 * fh0.file_hdr_.bitmap_size)
    (hn0 : 0 ≤ fh0.file_hdr_.num_pages) (hc : 0 < c) :
    ∀ (bufs : List (List Nat)) (i : Nat) (fh : RmFileHandle),
      Filling fh0 c (i / c) (i % c) fh →
      (i + bufs.length + c - 1) / c ≤ fh0.buffer_pool_manager_.free_list_.length →
      ∃ fh1, insert_all fh bufs
          = .ok ((List.range bufs.length).map (fun j =>
              (⟨fh0.file_hdr_.num_pages + (((i + j) / c : Nat) : Int),
                (((i + j) % c : Nat) : Int)⟩ : Rid)), fh1) ∧
        Filling fh0 c ((i + bufs.length) / c) ((i + bufs.length) % c) fh1 := by
  intro bufs
  induction bufs with
  | nil =>
    intro i fh hf _
    exact ⟨fh, rfl, hf⟩
  | cons buf rest ih =>
    intro i fh hf hframes
    simp only [List.length_cons] at hframes ⊢
    have hframe : i / c < fh0.buffer_pool_manager_.free_list_.length := by
      have h1 : (i + c) / c ≤ (i + (rest.length + 1) + c - 1) / c :=
        Nat.div_le_div_right (by omega)
      rw [Nat.add_div_right i hc] at h1
      omega
    obtain ⟨fh1, hins, hf1⟩ := filling_step fh0 fh c i buf hcap hlayout hn0 hc hf hframe
    obtain ⟨fh2, hall, hf2⟩ := ih (i + 1) fh1 hf1
      (by rw [show i + 1 + rest.length + c - 1 = i + (rest.length + 1) + c - 1 by omega]
          exact hframes)
    refine ⟨fh2, ?_, ?_⟩
    · unfold insert_all
      rw [hins]
      simp only [hall]
      rw [List.range_succ_eq_map, List.map_cons, List.map_map]
      simp only [Nat.add_zero]
      have hfun : (fun j => (⟨fh0.file_hdr_.num_pages + (((i + 1 + j) / c : Nat) : Int),
            (((i + 1 + j) % c : Nat) : Int)⟩ : Rid))
          = (fun j => (⟨fh0.file_hdr_.num_pages + (((i + j) / c : Nat) : Int),
            (((i + j) % c : Nat) : Int)⟩ : Rid)) ∘ Nat.succ := by
        funext j
        simp only [Function.comp, Nat.succ_eq_add_one]
        rw [show i + 1 + j = i + (j + 1) by omega]
      rw [hfun]
    · rw [show i + (rest.length + 1) = i + 1 + rest.length by omega]
      exact hf2

end RmFileHandle

namespace RmFileHandle

/-- C18: a table file whose free-page list is empty (`first_free_page_no` is
`RM_NO_PAGE`), with capacity `c ≥ 1` inside the bitmap, whose page count `first`
(`RM_FIRST_RECORD_PAGE` for a file with its header page only) is the next page
number at the disk manager, over a pool with at least `(n + c - 1) / c` frames in
the Free Frame List, receives `n` calls `insert_record(buf)`. After the first `k`
of them, for every `k ≤ n`: the calls have succeeded and call `i` (from 0) has
returned the Rid `(first + i / c, i % c)`; the page count has grown by
`(k + c - 1) / c`, the pages created so far; the free-page pointer is `RM_NO_PAGE`
when `k` is a multiple of `c` and names the page `first + k / c` otherwise; and
when `k > 0` is a multiple of `c`, so that the next call creates a page, the page
`first + k / c - 1` filled last holds `c` records. -/
theorem C18_sequential_inserts (fh : RmFileHandle) (c : Nat) (bufs : List (List Nat))
    (hc : 1 ≤ c)
    (hcap : fh.file_hdr_.num_records_per_page = (c : Int))
    (hlayout : fh.file_hdr_.num_records_per_page ≤ 8 * fh.file_hdr_.bitmap_size)
    (hn0 : 0 ≤ fh.file_hdr_.num_pages)
    (hfree : fh.file_hdr_.first_free_page_no = RM_NO_PAGE)
    (hdisk : fh.buffer_pool_manager_.disk_manager_.fd2pageno fh.fd_ = fh.file_hdr_.num_pages)
    (hframes : (bufs.length + c - 1) / c ≤ fh.buffer_pool_manager_.free_list_.length) :
    ∀ k, k ≤ bufs.length →
      ∃ fhk, insert_all fh (bufs.take k)
          = .ok ((List.range k).map (fun i =>
              (⟨fh.file_hdr_.num_pages + ((i / c : Nat) : Int), ((i % c : Nat) : Int)⟩ : Rid)),
            fhk) ∧
        fhk.file_hdr_.num_pages = fh.file_hdr_.num_pages + (((k + c - 1) / c : Nat) : Int) ∧
        fhk.file_hdr_.first_free_page_no
          = (if k % c = 0 then RM_NO_PAGE else fh.file_hdr_.num_pages + ((k / c : Nat) : Int)) ∧
        (k % c = 0 → 0 < k → ∃ f,
          fhk.buffer_pool_manager_.page_table_
            ⟨fh.fd_, fh.file_hdr_.num_pages + ((k / c : Nat) : Int) - 1⟩ = some f ∧
          (fhk.page_data f).num_records = (c : Int)) := by
  intro k hk
  have hlen : (bufs.take k).length = k := by
    rw [List.length_take]; omega
  have hfr : (0 + (bufs.take k).length + c - 1) / c
      ≤ fh.buffer_pool_manager_.free_list_.length := by
    rw [hlen, Nat.zero_add]
    exact le_trans (Nat.div_le_div_right (by omega)) hframes
  have hstart : Filling fh c (0 / c) (0 % c) fh := by
    rw [Nat.zero_div, Nat.zero_mod]
    exact filling_start fh c hfree hdisk
  obtain ⟨fhk, hall, hfk⟩ :=
    insert_all_filling fh c hcap hlayout hn0 hc (bufs.take k) 0 fh hstart hfr
  rw [hlen] at hall hfk
  simp only [Nat.zero_add] at hall hfk
  refine ⟨fhk, hall, ?_, hfk.first_free, ?_⟩
  · rw [hfk.num_pages, pages_needed c k hc]
  · intro h1 h2
    have hq : 0 < k / c := by
      have := Nat.div_add_mod k c
      rw [h1] at this
      rcases Nat.eq_zero_or_pos (k / c) with h | h
      · rw [h] at this; simp at this; omega
      · exact h
    exact hfk.full h1 hq

/-- Witness for C18: three records inserted into `demoPairFile` (capacity 2,
page count 1, two free frames) land at the Rids (1, 0), (1, 1), (2, 0), and two
data pages are created. -/
theorem C18_sequential_inserts_witness :
    ∃ fh3, insert_all demoPairFile [[1, 2], [3, 4], [5, 6]]
        = .ok ([⟨1, 0⟩, ⟨1, 1⟩, ⟨2, 0⟩], fh3) ∧
      fh3.file_hdr_.num_pages = 1 + 2 := by
  obtain ⟨fh3, h1, h2, -⟩ :=
    C18_sequential_inserts demoPairFile 2 [[1, 2], [3, 4], [5, 6]] (by decide) (by rfl)
      (by decide) (by decide) (by rfl) (by rfl) (by decide) 3 (by decide)
  exact ⟨fh3, h1, h2⟩

end RmFileHandle

/-! ## The three states of a frame, and pins held by the record store -/

namespace BufferPoolManager

/-- C22 (the code evaluated at the failing inputs): in the reachable state
`demoTracked` frame 0 holds the resident page (3, 0) with pin count 1 and is
tracked by the replacer, so it is in none of the three states; in the reachable
state `demoDeleted` frame 0 is in the Free Frame List and tracked by the replacer
at the same time. -/
theorem C22_frame_pinned_and_tracked_or_free_and_tracked :
    Reachable demoTracked ∧
      demoTracked.page_table_ ⟨3, 0⟩ = some 0 ∧
      (demoTracked.pages_ 0).id_ = ⟨3, 0⟩ ∧
      (demoTracked.pages_ 0).pin_count_ = 1 ∧
      demoTracked.replacer_.LRUlist_ = [0] ∧
      demoTracked.free_list_ = [] ∧
      Reachable demoDeleted ∧
      demoDeleted.free_list_ = [0] ∧
      demoDeleted.replacer_.LRUlist_ = [0] :=
  ⟨demoTracked_reachable, by rfl, by rfl, by rfl, by rfl, by rfl, demoDeleted_reachable, by rfl,
    by rfl⟩

end BufferPoolManager

namespace RmFileHandle

/-- A fetch of a resident page through `fetch_page_handle` raises its pin count
by one. -/
theorem fetch_page_handle_pin (fh fh1 : RmFileHandle) (page_no : Int) (f page : Nat)
    (hpt : fh.buffer_pool_manager_.page_table_ ⟨fh.fd_, page_no⟩ = some f)
    (h : fetch_page_handle fh page_no = .ok (.ok page, fh1)) :
    fh1.pin_count_of page_no = (fh.pin_count_of page_no).map (fun n => n + 1) := by
  obtain ⟨-, -, hfd, hf⟩ := fetch_page_handle_ok fh fh1 _ page h
  rw [BufferPoolManager.fetch_page_resident _ _ _ hpt] at hf
  simp only [Prod.mk.injEq, Option.some.injEq] at hf
  obtain ⟨hp, hs⟩ := hf
  subst hp
  unfold pin_count_of
  rw [hfd, ← hs, hpt]
  simp [BufferPoolManager.set_page, hpt]

/-- The method `get_record` returns in the state left by `fetch_page_handle`:
nothing is unpinned. -/
theorem get_record_state (fh fh1 fh2 : RmFileHandle) (rid : Rid) (page : Nat)
    (r : RmResult RmRecord)
    (hfetch : fetch_page_handle fh rid.page_no = .ok (.ok page, fh1))
    (h : get_record fh rid = .ok (r, fh2)) : fh2 = fh1 := by
  unfold get_record at h
  rw [hfetch] at h
  simp only at h
  split at h
  · cases h
  · split at h
    · simp only [Except.ok.injEq, Prod.mk.injEq] at h; exact h.2.symm
    · split at h
      · cases h
      · simp only [Except.ok.injEq, Prod.mk.injEq] at h; exact h.2.symm

/-- C24 (the code evaluated at the failing inputs): page 1 of `demoFile1` is
resident with pin count 1. After `get_record` of the Rid (1, 0) (success) and of
the Rid (1, 1) (record-not-found), after `update_record` and after
`delete_record` of the Rid (1, 0) its pin count is 2; and each call of
`RmScan::next` on `demoScanFile` leaves the pin count of page 1 one higher: 1
after the constructor, 2 after the next call. -/
theorem C24_record_calls_keep_their_pin :
    demoFile1.pin_count_of 1 = some 1 ∧
      (∃ fh, get_record demoFile1 ⟨1, 0⟩ = .ok (.ok { data := [1, 2], size := 2 }, fh)) ∧
      pin_count_after (get_record demoFile1 ⟨1, 0⟩) 1 = some 2 ∧
      (∃ fh, get_record demoFile1 ⟨1, 1⟩ = .ok (.RecordNotFoundError 1 1, fh)) ∧
      pin_count_after (get_record demoFile1 ⟨1, 1⟩) 1 = some 2 ∧
      (∃ fh, update_record demoFile1 ⟨1, 0⟩ [8, 9] = .ok (.ok (), fh)) ∧
      pin_count_after (update_record demoFile1 ⟨1, 0⟩ [8, 9]) 1 = some 2 ∧
      (∃ fh, delete_record demoFile1 ⟨1, 0⟩ = .ok (.ok (), fh)) ∧
      pin_count_after (delete_record demoFile1 ⟨1, 0⟩) 1 = some 2 ∧
      demoScanFile.pin_count_of 1 = none ∧
      RmScan.pin_count_after (RmScan.create demoScanFile) 1 = some 1 ∧
      demoScan.rid_ = ⟨1, 0⟩ ∧
      (RmScan.next demoScan).map (fun r => r.2.rid_) = .ok ⟨1, 2⟩ ∧
      RmScan.pin_count_after (RmScan.next demoScan) 1 = some 2 :=
  ⟨by rfl, ⟨_, rfl⟩, by rfl, ⟨_, rfl⟩, by rfl, ⟨_, rfl⟩, by rfl, ⟨_, rfl⟩, by rfl, by rfl, by rfl,
    by rfl, by rfl, by rfl⟩

end RmFileHandle

/-! ## Invariants of the replacer -/

namespace LRUReplacerNodes

theorem nodes_mem_hash_erase {h : List (Nat × Nat)} {k : Nat} {e : Nat × Nat} :
    e ∈ hash_erase h k ↔ e ∈ h ∧ e.1 ≠ k := by
  simp [hash_erase]

theorem fst_unique {l : List (Nat × Nat)} (hn : (l.map Prod.fst).Nodup) {a x y : Nat}
    (hx : (a, x) ∈ l) (hy : (a, y) ∈ l) : x = y := by
  induction l with
  | nil => cases hx
  | cons e t ih =>
    simp only [List.map_cons, List.nodup_cons, List.mem_map, not_exists, not_and] at hn
    rcases List.mem_cons.1 hx with h1 | h1 <;> rcases List.mem_cons.1 hy with h2 | h2
    · rw [← h1] at h2; exact (Prod.mk.inj h2).2.symm
    · exact absurd (by rw [← h1]) (hn.1 (a, y) h2)
    · exact absurd (by rw [← h2]) (hn.1 (a, x) h1)
    · exact ih hn.2 h1 h2

theorem snd_unique {l : List (Nat × Nat)} (hn : (l.map Prod.snd).Nodup) {a b x : Nat}
    (ha : (a, x) ∈ l) (hb : (b, x) ∈ l) : a = b := by
  induction l with
  | nil => cases ha
  | cons e t ih =>
    simp only [List.map_cons, List.nodup_cons, List.mem_map, not_exists, not_and] at hn
    rcases List.mem_cons.1 ha with h1 | h1 <;> rcases List.mem_cons.1 hb with h2 | h2
    · rw [← h1] at h2; exact (Prod.mk.inj h2).1.symm
    · exact absurd (by rw [← h1]) (hn.1 (b, x) h2)
    · exact absurd (by rw [← h2]) (hn.1 (a, x) h1)
    · exact ih hn.2 h1 h2

theorem nodup_map_filter {α β : Type} (f : α → β) (p : α → Bool) (l : List α)
    (h : (l.map f).Nodup) : ((l.filter p).map f).Nodup :=
  List.Nodup.sublist (List.Sublist.map f (List.filter_sublist l)) h

theorem linked_nil : Linked [] [] where
  nodes_nodup := List.nodup_nil
  frames_nodup := List.nodup_nil
  keys_nodup := List.nodup_nil
  entries := by intro k it; simp

/-- Removing a node from the list together with the key of its frame keeps list
and map fitting together. -/
theorem linked_remove {l h : List (Nat × Nat)} (hl : Linked l h) (it k : Nat)
    (hmem : (it, k) ∈ l) :
    Linked (l.filter (fun e => e.1 != it)) (hash_erase h k) where
  nodes_nodup := nodup_map_filter _ _ _ hl.nodes_nodup
  frames_nodup := nodup_map_filter _ _ _ hl.frames_nodup
  keys_nodup := nodup_map_filter _ _ _ hl.keys_nodup
  entries := by
    intro k1 it1
    rw [nodes_mem_hash_erase, hl.entries]
    simp only [List.mem_filter, bne_iff_ne, ne_eq]
    constructor
    · rintro ⟨h1, h2⟩
      refine ⟨h1, fun h3 => h2 ?_⟩
      rw [h3] at h1
      exact fst_unique hl.nodes_nodup h1 hmem
    · rintro ⟨h1, h2⟩
      refine ⟨h1, fun h3 => h2 ?_⟩
      rw [h3] at h1
      exact snd_unique hl.frames_nodup h1 hmem

theorem filter_front (e : Nat × Nat) (rest : List (Nat × Nat))
    (hn : ((e :: rest).map Prod.fst).Nodup) :
    (e :: rest).filter (fun x => x.1 != e.1) = rest := by
  simp only [List.map_cons, List.nodup_cons, List.mem_map, not_exists, not_and] at hn
  rw [List.filter_cons]
  simp only [bne_self_eq_false, Bool.false_eq_true, if_false]
  rw [List.filter_eq_self]
  intro a ha
  simp only [bne_iff_ne, ne_eq]
  exact hn.1 a ha

theorem filter_last (e : Nat × Nat) (front : List (Nat × Nat))
    (hn : ((front ++ [e]).map Prod.fst).Nodup) :
    (front ++ [e]).filter (fun x => x.1 != e.1) = front := by
  rw [List.filter_append]
  simp only [List.filter_cons, bne_self_eq_false, Bool.false_eq_true, if_false,
    List.filter_nil, List.append_nil]
  rw [List.filter_eq_self]
  intro a ha
  simp only [bne_iff_ne, ne_eq]
  intro h
  rw [List.map_append, List.nodup_append] at hn
  exact hn.2.2 (List.mem_map_of_mem Prod.fst ha) (by simp [h])

theorem consistent_empty (m : Nat) : Consistent (mk_empty m) where
  linked := linked_nil
  fresh := by intro e he; cases he
  size_le := Nat.zero_le _

theorem consistent_victim (r : LRUReplacerNodes) (hr : Consistent r) :
    Consistent r.victim.2 := by
  unfold victim
  cases hl : r.LRUlist_.getLast? with
  | none => exact hr
  | some e =>
    obtain ⟨a, v⟩ := e
    have hsplit : r.LRUlist_.dropLast ++ [(a, v)] = r.LRUlist_ :=
      List.dropLast_append_getLast? (a, v) hl
    have hmem : (a, v) ∈ r.LRUlist_ := by rw [← hsplit]; simp
    have hdrop : r.LRUlist_.filter (fun x => x.1 != a) = r.LRUlist_.dropLast := by
      have := filter_last (a, v) r.LRUlist_.dropLast (by rw [hsplit]; exact hr.linked.nodes_nodup)
      rw [hsplit] at this
      exact this
    have hlk := linked_remove hr.linked a v hmem
    rw [hdrop] at hlk
    exact
      { linked := hlk
        fresh := fun e he => hr.fresh e (List.mem_of_mem_dropLast he)
        size_le := by
          have := hr.size_le
          simp only [List.length_dropLast]
          omega }

theorem hash_find_some {h : List (Nat × Nat)} {k it : Nat} (hf : hash_find h k = some it) :
    (k, it) ∈ h := by
  unfold hash_find at hf
  cases hx : h.find? (fun e => e.1 == k) with
  | none => rw [hx] at hf; cases hf
  | some e =>
    rw [hx] at hf
    simp only [Option.map_some', Option.some.injEq] at hf
    have h1 := List.find?_some hx
    have h2 := List.mem_of_find?_eq_some hx
    simp only [beq_iff_eq] at h1
    rw [← hf, ← h1]
    exact h2

theorem hash_find_none {h : List (Nat × Nat)} {k : Nat} (hf : hash_find h k = none) :
    ∀ it, (k, it) ∉ h := by
  unfold hash_find at hf
  intro it hm
  cases hx : h.find? (fun e => e.1 == k) with
  | none =>
    have := List.find?_eq_none.1 hx (k, it) hm
    simp at this
  | some e => rw [hx] at hf; cases hf

theorem consistent_pin (r : LRUReplacerNodes) (hr : Consistent r) (frame_id : Nat) :
    ∃ r1, r.pin frame_id = some r1 ∧ Consistent r1 := by
  unfold pin
  cases hf : hash_find r.LRUhash_ frame_id with
  | none => exact ⟨r, rfl, hr⟩
  | some it =>
    have hmem : (it, frame_id) ∈ r.LRUlist_ := (hr.linked.entries _ _).1 (hash_find_some hf)
    have hany : r.LRUlist_.any (fun e => e.1 == it) = true := by
      rw [List.any_eq_true]
      exact ⟨(it, frame_id), hmem, by simp⟩
    simp only [list_erase, hany, if_true]
    refine ⟨_, rfl, ?_⟩
    exact
      { linked := linked_remove hr.linked it frame_id hmem
        fresh := fun e he => hr.fresh e (List.mem_of_mem_filter he)
        size_le := le_trans (List.length_filter_le _ _) hr.size_le }

end LRUReplacerNodes

namespace LRUReplacerNodes

/-- With capacity at least 1 the loop of `unpin` ends, with fewer nodes than the
capacity; it removes nodes from the front together with their keys. -/
theorem unpin_loop_linked (m : Nat) (hm : 1 ≤ m) :
    ∀ (l h : List (Nat × Nat)), Linked l h →
      ∃ l1 h1, unpin_loop m l h = some (l1, h1) ∧ Linked l1 h1 ∧ l1.length < m ∧
        (∀ e ∈ l1, e ∈ l) ∧ (∀ e ∈ h1, e ∈ h) := by
  intro l
  induction l with
  | nil =>
    intro h hl
    have h0 : ¬ (0 ≥ m) := by omega
    exact ⟨[], h, by simp only [unpin_loop, h0, if_false], hl, by simp only [List.length_nil]; omega,
      fun e he => he, fun e he => he⟩
  | cons e rest ih =>
    intro h hl
    obtain ⟨node, need_del⟩ := e
    by_cases hlen : ((node, need_del) :: rest).length ≥ m
    · have hrest : Linked rest (hash_erase h need_del) := by
        have := linked_remove hl node need_del (List.mem_cons_self _ _)
        rw [filter_front (node, need_del) rest hl.nodes_nodup] at this
        exact this
      obtain ⟨l1, h1, e1, e2, e3, e4, e5⟩ := ih (hash_erase h need_del) hrest
      refine ⟨l1, h1, ?_, e2, e3, fun x hx => List.mem_cons_of_mem _ (e4 x hx),
        fun x hx => (nodes_mem_hash_erase.1 (e5 x hx)).1⟩
      rw [unpin_loop]
      simp only [hlen, if_true]
      exact e1
    · refine ⟨(node, need_del) :: rest, h, ?_, hl, by omega, fun x hx => hx, fun x hx => hx⟩
      rw [unpin_loop]
      simp only [hlen, if_false]

theorem consistent_unpin (r : LRUReplacerNodes) (hr : Consistent r) (hm : 1 ≤ r.max_size_)
    (frame_id : Nat) : ∃ r1, r.unpin frame_id = some r1 ∧ Consistent r1 := by
  unfold unpin
  cases hf : hash_find r.LRUhash_ frame_id with
  | some it => exact ⟨r, rfl, hr⟩
  | none =>
    obtain ⟨l1, h1, e1, e2, e3, e4, e5⟩ :=
      unpin_loop_linked r.max_size_ hm r.LRUlist_ r.LRUhash_ hr.linked
    simp only [e1]
    refine ⟨_, rfl, ?_⟩
    have hkey : ∀ it, (frame_id, it) ∉ h1 := fun it hm1 => hash_find_none hf it (e5 _ hm1)
    have hframe : ∀ it, (it, frame_id) ∉ l1 := fun it hm1 => hkey it ((e2.entries _ _).2 hm1)
    have hnode : ∀ k, (r.next_node, k) ∉ l1 := by
      intro k hm1
      have := hr.fresh _ (e4 _ hm1)
      simp only at this
      omega
    exact
      { linked :=
          { nodes_nodup := by
              simp only [List.map_cons, List.nodup_cons, List.mem_map, not_exists, not_and]
              refine ⟨?_, e2.nodes_nodup⟩
              rintro ⟨a, b⟩ hab hfst
              simp only at hfst
              rw [hfst] at hab
              exact hnode b hab
            frames_nodup := by
              simp only [List.map_cons, List.nodup_cons, List.mem_map, not_exists, not_and]
              refine ⟨?_, e2.frames_nodup⟩
              rintro ⟨a, b⟩ hab hsnd
              simp only at hsnd
              rw [hsnd] at hab
              exact hframe a hab
            keys_nodup := by
              simp only [hash_set, List.map_cons, List.nodup_cons, List.mem_map, not_exists,
                not_and]
              refine ⟨?_, nodup_map_filter _ _ _ e2.keys_nodup⟩
              rintro ⟨a, b⟩ hab hfst
              simp only at hfst
              exact (nodes_mem_hash_erase.1 hab).2 hfst
            entries := by
              intro k it
              simp only [hash_set, List.mem_cons, Prod.mk.injEq]
              rw [nodes_mem_hash_erase, e2.entries]
              constructor
              · rintro (⟨h1, h2⟩ | ⟨h1, -⟩)
                · exact Or.inl ⟨h2, h1⟩
                · exact Or.inr h1
              · rintro (⟨h1, h2⟩ | h1)
                · exact Or.inl ⟨h2, h1⟩
                · refine Or.inr ⟨h1, ?_⟩
                  intro hk
                  simp only at hk
                  rw [hk] at h1
                  exact hframe it h1 }
        fresh := by
          intro e he
          rcases List.mem_cons.1 he with h | h
          · rw [h]; simp
          · have := hr.fresh e (e4 e h)
            simp only
            omega
        size_le := by
          simp only [List.length_cons]
          omega }

theorem nodes_victim_max_size (r : LRUReplacerNodes) : r.victim.2.max_size_ = r.max_size_ := by
  unfold victim; split <;> rfl

theorem nodes_pin_max_size (r r1 : LRUReplacerNodes) (f : Nat) (h : r.pin f = some r1) :
    r1.max_size_ = r.max_size_ := by
  unfold pin at h
  split at h
  · simp only [Option.some.injEq] at h; rw [← h]
  · split at h
    · cases h
    · simp only [Option.some.injEq] at h; rw [← h]

theorem nodes_unpin_max_size (r r1 : LRUReplacerNodes) (f : Nat) (h : r.unpin f = some r1) :
    r1.max_size_ = r.max_size_ := by
  unfold unpin at h
  split at h
  · simp only [Option.some.injEq] at h; rw [← h]
  · split at h
    · cases h
    · simp only [Option.some.injEq] at h; rw [← h]

/-- Every call on a consistent replacer of capacity at least 1 is defined and
leads to a consistent replacer of the same capacity. -/
theorem consistent_call (r : LRUReplacerNodes) (hr : Consistent r) (hm : 1 ≤ r.max_size_)
    (op : ROp) :
    ∃ out r1, r.call op = some (out, r1) ∧ Consistent r1 ∧ r1.max_size_ = r.max_size_ := by
  cases op with
  | victim => exact ⟨_, _, rfl, consistent_victim r hr, nodes_victim_max_size r⟩
  | pin f =>
    obtain ⟨r1, h1, h2⟩ := consistent_pin r hr f
    exact ⟨none, r1, by simp only [call, h1, Option.map_some'], h2, nodes_pin_max_size r r1 f h1⟩
  | unpin f =>
    obtain ⟨r1, h1, h2⟩ := consistent_unpin r hr hm f
    exact ⟨none, r1, by simp only [call, h1, Option.map_some'], h2, nodes_unpin_max_size r r1 f h1⟩

theorem consistent_run (ops : List ROp) :
    ∀ r : LRUReplacerNodes, Consistent r → 1 ≤ r.max_size_ →
      ∃ outs r1, r.run ops = some (outs, r1) ∧ Consistent r1 ∧ r1.max_size_ = r.max_size_ := by
  induction ops with
  | nil => intro r hr _; exact ⟨[], r, rfl, hr, rfl⟩
  | cons op rest ih =>
    intro r hr hm
    obtain ⟨out, r1, h1, h2, h3⟩ := consistent_call r hr hm op
    obtain ⟨outs, r2, h4, h5, h6⟩ := ih r1 h2 (by rw [h3]; exact hm)
    refine ⟨out.toList ++ outs, r2, ?_, h5, h6.trans h3⟩
    simp only [run, h1, h4]

end LRUReplacerNodes

namespace LRUReplacerNodes

theorem forget_hash_erase (h : List (Nat × Nat)) (k : Nat) :
    (hash_erase h k).map Prod.fst = LRUReplacer.hash_erase (h.map Prod.fst) k := by
  unfold hash_erase LRUReplacer.hash_erase
  rw [List.filter_map]
  rfl

theorem mem_keys_iff {h : List (Nat × Nat)} {k : Nat} :
    k ∈ h.map Prod.fst ↔ ∃ it, hash_find h k = some it := by
  constructor
  · intro hk
    cases hf : hash_find h k with
    | some it => exact ⟨it, rfl⟩
    | none =>
      obtain ⟨⟨a, b⟩, hab, ha⟩ := List.mem_map.1 hk
      simp only at ha
      rw [ha] at hab
      exact absurd hab (hash_find_none hf b)
  · rintro ⟨it, hf⟩
    exact List.mem_map.2 ⟨(k, it), hash_find_some hf, rfl⟩

/-- Erasing the node behind an iterator removes the frame of that node from the
list of tracked frames. -/
theorem forget_filter (it k : Nat) :
    ∀ l : List (Nat × Nat), (l.map Prod.fst).Nodup → (l.map Prod.snd).Nodup → (it, k) ∈ l →
      (l.filter (fun e => e.1 != it)).map Prod.snd = (l.map Prod.snd).erase k := by
  intro l
  induction l with
  | nil => intro _ _ h; cases h
  | cons e t ih =>
    intro hn1 hn2 hmem
    by_cases he : e = (it, k)
    · rw [he] at hn1 ⊢
      rw [filter_front (it, k) t hn1]
      simp only [List.map_cons, List.erase_cons_head]
    · have hmem1 : (it, k) ∈ t := by
        rcases List.mem_cons.1 hmem with h | h
        · exact absurd h.symm he
        · exact h
      have h1 : e.1 ≠ it := by
        intro h
        have : e.2 = k := fst_unique hn1 (by rw [← h]; exact List.mem_cons_self _ _) hmem
        exact he (by rw [← h, ← this])
      have h2 : e.2 ≠ k := by
        intro h
        have : e.1 = it := snd_unique hn2 (by rw [← h]; exact List.mem_cons_self _ _) hmem
        exact he (by rw [← h, ← this])
      simp only [List.map_cons, List.nodup_cons] at hn1 hn2
      rw [List.filter_cons]
      simp only [bne_iff_ne, ne_eq, h1, not_false_eq_true, if_true, List.map_cons]
      rw [List.erase_cons_tail (by simpa using h2), ih hn1.2 hn2.2 hmem1]

theorem forget_unpin_loop (m : Nat) :
    ∀ (l h : List (Nat × Nat)),
      LRUReplacer.unpin_loop m (l.map Prod.snd) (h.map Prod.fst)
        = (unpin_loop m l h).map (fun x => (x.1.map Prod.snd, x.2.map Prod.fst)) := by
  intro l
  induction l with
  | nil =>
    intro h
    simp only [List.map_nil, LRUReplacer.unpin_loop, unpin_loop]
    split <;> rfl
  | cons e rest ih =>
    intro h
    obtain ⟨node, need_del⟩ := e
    simp only [List.map_cons, LRUReplacer.unpin_loop, unpin_loop, List.length_cons,
      List.length_map]
    split
    · rw [← forget_hash_erase, ih]
    · rfl

/-- Each call on the replacer with explicit nodes, forgetting the nodes, is the
same call on the replacer without them. -/
theorem forget_call (r r1 : LRUReplacerNodes) (hr : Consistent r) (op : ROp)
    (out : Option (Option Nat)) (h : r.call op = some (out, r1)) :
    r.forget.call op = some (out, r1.forget) := by
  cases op with
  | victim =>
    simp only [call, Option.some.injEq, Prod.mk.injEq] at h
    obtain ⟨h1, h2⟩ := h
    rw [← h1, ← h2]
    simp only [LRUReplacer.call, Option.some.injEq, Prod.mk.injEq]
    unfold LRUReplacer.victim victim forget
    simp only [List.getLast?_map]
    cases r.LRUlist_.getLast? with
    | none => simp
    | some e => simp [List.map_dropLast, forget_hash_erase]
  | pin f =>
    simp only [call, Option.map_eq_some', Prod.mk.injEq] at h
    obtain ⟨r2, h1, h2, h3⟩ := h
    subst h3
    rw [← h2]
    simp only [LRUReplacer.call, Option.some.injEq, Prod.mk.injEq, true_and]
    unfold pin at h1
    unfold LRUReplacer.pin
    cases hf : hash_find r.LRUhash_ f with
    | none =>
      rw [hf] at h1
      simp only [Option.some.injEq] at h1
      have : f ∉ r.forget.LRUhash_ := by
        intro hk
        obtain ⟨it, hit⟩ := mem_keys_iff.1 hk
        rw [hf] at hit; cases hit
      subst h1
      simp only [this, if_false]
    | some it =>
      rw [hf] at h1
      have hmem : (it, f) ∈ r.LRUlist_ := (hr.linked.entries _ _).1 (hash_find_some hf)
      have hk : f ∈ r.forget.LRUhash_ := mem_keys_iff.2 ⟨it, hf⟩
      have hany : r.LRUlist_.any (fun e => e.1 == it) = true := by
        rw [List.any_eq_true]
        exact ⟨(it, f), hmem, by simp⟩
      simp only [list_erase, hany, if_true, Option.some.injEq] at h1
      rw [← h1]
      simp only [hk, if_true]
      simp only [forget, forget_hash_erase,
        forget_filter it f r.LRUlist_ hr.linked.nodes_nodup hr.linked.frames_nodup hmem]
  | unpin f =>
    simp only [call, Option.map_eq_some', Prod.mk.injEq] at h
    obtain ⟨r2, h1, h2, h3⟩ := h
    subst h3
    rw [← h2]
    simp only [LRUReplacer.call, Option.map_eq_some', Prod.mk.injEq, true_and, exists_eq_right]
    unfold unpin at h1
    unfold LRUReplacer.unpin
    cases hf : hash_find r.LRUhash_ f with
    | some it =>
      rw [hf] at h1
      simp only [Option.some.injEq] at h1
      have hk : f ∈ r.forget.LRUhash_ := mem_keys_iff.2 ⟨it, hf⟩
      subst h1
      simp only [hk, if_true]
    | none =>
      rw [hf] at h1
      have hk : f ∉ r.forget.LRUhash_ := by
        intro hk
        obtain ⟨it, hit⟩ := mem_keys_iff.1 hk
        rw [hf] at hit; cases hit
      simp only [hk, if_false]
      have hloop := forget_unpin_loop r.max_size_ r.LRUlist_ r.LRUhash_
      cases hl : unpin_loop r.max_size_ r.LRUlist_ r.LRUhash_ with
      | none => rw [hl] at h1; cases h1
      | some x =>
        obtain ⟨l1, h1'⟩ := x
        rw [hl] at h1 hloop
        simp only [Option.some.injEq] at h1
        simp only [forget]
        rw [hloop]
        simp only [Option.map_some', Option.some.injEq]
        rw [← h1]
        have hsub : ∀ e ∈ h1', e ∈ r.LRUhash_ := by
          have hm : 1 ≤ r.max_size_ ∨ r.max_size_ = 0 := by omega
          rcases hm with hm | hm
          · obtain ⟨l2, h2', e1, -, -, -, e5⟩ :=
              unpin_loop_linked r.max_size_ hm r.LRUlist_ r.LRUhash_ hr.linked
            rw [hl] at e1
            simp only [Option.some.injEq, Prod.mk.injEq] at e1
            rw [e1.2]; exact e5
          · exfalso
            have : ∀ (l h : List (Nat × Nat)), unpin_loop 0 l h = none := by
              intro l
              induction l with
              | nil => intro h; simp [unpin_loop]
              | cons e t ih =>
                intro h
                obtain ⟨a, b⟩ := e
                rw [unpin_loop]
                simp only [ge_iff_le, Nat.zero_le, if_true]
                exact ih _
            rw [hm, this] at hl
            cases hl
        have hnot : f ∉ h1'.map Prod.fst := by
          intro hk1
          obtain ⟨⟨a, b⟩, hab, ha⟩ := List.mem_map.1 hk1
          simp only at ha
          rw [ha] at hab
          exact hash_find_none hf b (hsub _ hab)
        have hfil : hash_erase h1' f = h1' := by
          unfold hash_erase
          rw [List.filter_eq_self]
          intro e he
          simp only [bne_iff_ne, ne_eq]
          intro hef
          exact hnot (List.mem_map.2 ⟨e, he, hef⟩)
        simp only [LRUReplacer.hash_insert, hnot, if_false, hash_set, hfil, List.map_cons]

theorem forget_run (ops : List ROp) :
    ∀ (r r1 : LRUReplacerNodes) (outs : List (Option Nat)), Consistent r → 1 ≤ r.max_size_ →
      r.run ops = some (outs, r1) → r.forget.run ops = some (outs, r1.forget) := by
  induction ops with
  | nil =>
    intro r r1 outs _ _ h
    simp only [run, Option.some.injEq, Prod.mk.injEq] at h
    rw [← h.1, ← h.2]; rfl
  | cons op rest ih =>
    intro r r1 outs hr hm h
    obtain ⟨out, r2, h1, h2, h3⟩ := consistent_call r hr hm op
    simp only [run, h1] at h
    cases hrest : r2.run rest with
    | none => rw [hrest] at h; cases h
    | some x =>
      obtain ⟨outs2, r3⟩ := x
      rw [hrest] at h
      simp only [Option.some.injEq, Prod.mk.injEq] at h
      have := ih r2 r3 outs2 h2 (by rw [h3]; exact hm) hrest
      simp only [LRUReplacer.run, forget_call r r2 hr op out h1, this]
      rw [← h.1, ← h.2]

end LRUReplacerNodes

namespace LRUReplacerNodes

theorem hash_length_of_linked {l h : List (Nat × Nat)} (hl : Linked l h) :
    h.length = l.length := by
  have h1 : h.Nodup := List.Nodup.of_map Prod.fst hl.keys_nodup
  have h2 : (l.map Prod.swap).Nodup :=
    List.Nodup.map Prod.swap_injective (List.Nodup.of_map Prod.fst hl.nodes_nodup)
  have h3 : h.Perm (l.map Prod.swap) := by
    rw [List.perm_ext_iff_of_nodup h1 h2]
    rintro ⟨k, it⟩
    rw [hl.entries]
    simp only [List.mem_map, Prod.exists, Prod.swap_prod_mk, Prod.mk.injEq]
    constructor
    · intro hm; exact ⟨it, k, hm, rfl, rfl⟩
    · rintro ⟨a, b, hm, hb, ha⟩; rw [← ha, ← hb]; exact hm
  rw [h3.length_eq, List.length_map]

/-- C23: for a replacer of capacity `m ≥ 1`, every sequence of `victim`, `pin` and
`unpin` calls from the empty replacer is defined (every call returns; the loop of
`unpin` pops one node per round and stops), and in the state it reaches: no
frame id occurs twice in the tracked list; the keys of the map are exactly the
frames of the list, no key twice; the iterator stored under a key is the node of
the list that holds this frame, no node twice; `Size()` is the number of tracked
frames and the number of keys; and `Size()` is at most `m`. Forgetting the node
addresses, the run is the run of the replacer as the buffer pool uses it. -/
theorem C23_replacer_invariants (m : Nat) (hm : 1 ≤ m) (ops : List ROp) :
    ∃ outs r, (mk_empty m).run ops = some (outs, r) ∧
      (r.LRUlist_.map Prod.snd).Nodup ∧
      (∀ k, k ∈ r.LRUhash_.map Prod.fst ↔ k ∈ r.LRUlist_.map Prod.snd) ∧
      (r.LRUhash_.map Prod.fst).Nodup ∧
      (∀ k it, (k, it) ∈ r.LRUhash_ ↔ (it, k) ∈ r.LRUlist_) ∧
      (r.LRUlist_.map Prod.fst).Nodup ∧
      r.Size = (r.LRUlist_.map Prod.snd).length ∧
      r.LRUhash_.length = r.Size ∧
      r.Size ≤ m ∧
      (LRUReplacer.mk_empty m).run ops = some (outs, r.forget) := by
  obtain ⟨outs, r, h1, h2, h3⟩ := consistent_run ops (mk_empty m) (consistent_empty m) hm
  refine ⟨outs, r, h1, h2.linked.frames_nodup, ?_, h2.linked.keys_nodup, h2.linked.entries,
    h2.linked.nodes_nodup, by simp [Size], hash_length_of_linked h2.linked, ?_, ?_⟩
  · intro k
    simp only [List.mem_map, Prod.exists, exists_and_right, exists_eq_right]
    constructor
    · rintro ⟨it, h⟩; exact ⟨it, (h2.linked.entries _ _).1 h⟩
    · rintro ⟨it, h⟩; exact ⟨it, (h2.linked.entries _ _).2 h⟩
  · have := h2.size_le
    rw [h3] at this
    exact this
  · exact forget_run ops (mk_empty m) r outs (consistent_empty m) hm h1

/-- Witness for C23: a replacer of capacity 2 and the calls `unpin(4)`,
`unpin(7)`, `unpin(9)`, `pin(4)`, `victim()`. -/
theorem C23_replacer_invariants_witness :
    ((mk_empty 2).run [.unpin 4, .unpin 7, .unpin 9, .pin 4, .victim]).map Prod.fst
        = some [some 9] ∧
      ∃ outs r, (mk_empty 2).run [.unpin 4, .unpin 7, .unpin 9, .pin 4, .victim]
          = some (outs, r) ∧
        (r.LRUlist_.map Prod.snd).Nodup ∧ r.LRUhash_.length = r.Size ∧ r.Size ≤ 2 := by
  obtain ⟨outs, r, h1, h2, -, -, -, -, -, h3, h4, -⟩ :=
    C23_replacer_invariants 2 (by decide) [.unpin 4, .unpin 7, .unpin 9, .pin 4, .victim]
  exact ⟨by rfl, outs, r, h1, h2, h3, h4⟩

end LRUReplacerNodes


/-! ## The free-page list of a table file -/

namespace Bitmap

theorem popcount_le (bm : Int → Bool) (n : Nat) : popcount bm n ≤ n := by
  induction n with
  | zero => exact Nat.le_refl 0
  | succ k ih =>
    simp only [popcount]
    split <;> omega

/-- A bitmap with fewer set bits than positions has a clear position. -/
theorem exists_clear_of_popcount_lt (bm : Int → Bool) (n : Nat) (h : popcount bm n < n) :
    ∃ b : Nat, b < n ∧ bm (b : Int) = false := by
  induction n with
  | zero => omega
  | succ k ih =>
    simp only [popcount] at h
    cases hb : bm (k : Int) with
    | false => exact ⟨k, by omega, hb⟩
    | true =>
      rw [hb] at h
      simp only [if_true] at h
      obtain ⟨b, hb1, hb2⟩ := ih (by omega)
      exact ⟨b, by omega, hb2⟩

/-- When a position after `curr` and below `max_n` carries the bit, `next_bit`
finds one. -/
theorem next_bit_lt_of_exists (bit : Bool) (bm : Int → Bool) (max_n curr : Int) (b : Int)
    (h1 : curr < b) (h2 : b < max_n) (h3 : bm b = bit) :
    next_bit bit bm max_n curr < max_n := by
  unfold next_bit
  cases hf : (List.range (max_n - (curr + 1)).toNat).find?
      (fun (k : Nat) => is_set bm (curr + 1 + (k : Int)) == bit) with
  | none =>
    exfalso
    have := List.find?_eq_none.1 hf (b - (curr + 1)).toNat (by
      rw [List.mem_range]; omega)
    have hb : curr + 1 + (((b - (curr + 1)).toNat : Nat) : Int) = b := by omega
    simp only [is_set, hb, h3, beq_self_eq_true, not_true_eq_false] at this
  | some k =>
    have := List.mem_range.1 (List.mem_of_find?_eq_some hf)
    simp only
    omega

/-- On a bitmap with fewer than `c` set bits among the positions `0 .. c - 1`,
`first_bit(false, ...)` is a clear position below `c`. -/
theorem first_bit_of_popcount_lt (bm : Int → Bool) (c : Nat) (h : popcount bm c < c) :
    0 ≤ first_bit false bm (c : Int) ∧ first_bit false bm (c : Int) < (c : Int) ∧
      bm (first_bit false bm (c : Int)) = false := by
  obtain ⟨b, hb1, hb2⟩ := exists_clear_of_popcount_lt bm c h
  have hlt : first_bit false bm (c : Int) < (c : Int) :=
    next_bit_lt_of_exists false bm c (-1) b (by omega) (by omega) hb2
  have := next_bit_found false bm c (-1) hlt
  exact ⟨by unfold first_bit; omega, hlt, this.1⟩

end Bitmap

namespace RmFileHandle

theorem chain_congr (next next1 : Int → Int) :
    ∀ (l : List Int) (head : Int), (∀ p ∈ l, next1 p = next p) →
      Chain next head l → Chain next1 head l := by
  intro l
  induction l with
  | nil => intro head _ h; exact h
  | cons p t ih =>
    intro head hagree h
    simp only [Chain] at h ⊢
    refine ⟨h.1, ?_⟩
    rw [hagree p (List.mem_cons_self _ _)]
    exact ih _ (fun q hq => hagree q (List.mem_cons_of_mem _ hq)) h.2

/-- The walk along `next_free_page_no` returns the chained list when it may visit
as many pages as the list has. -/
theorem free_pages_of_chain (fh : RmFileHandle) :
    ∀ (l : List Int) (head : Int) (fuel : Nat),
      Chain (fun p => (fh.page_of p).next_free_page_no) head l →
      (∀ p ∈ l, p ≠ RM_NO_PAGE) → l.length ≤ fuel → free_pages fh fuel head = some l := by
  intro l
  induction l with
  | nil =>
    intro head fuel h _ _
    simp only [Chain] at h
    cases fuel <;> simp [free_pages, h]
  | cons p t ih =>
    intro head fuel h hne hlen
    simp only [Chain] at h
    have hp : ¬ (head = RM_NO_PAGE) := by
      rw [h.1]; exact hne p (List.mem_cons_self _ _)
    cases fuel with
    | zero => simp at hlen
    | succ k =>
      simp only [List.length_cons] at hlen
      simp only [free_pages, hp, if_false]
      rw [h.1, ih _ k h.2 (fun q hq => hne q (List.mem_cons_of_mem _ hq)) (by omega)]
      rfl

end RmFileHandle

namespace RmFileHandle

/-- The invariant of the data pages only reads, of each data page, the record
count, the pointer to the next free page and the bitmap. -/
theorem dataOK_congr (c : Nat) (hdr hdr1 : RmFileHdr) (pg pg1 : Int → RmPageData)
    (h : DataOK c hdr pg)
    (hcap : hdr1.num_records_per_page = hdr.num_records_per_page)
    (hbs : hdr1.bitmap_size = hdr.bitmap_size)
    (hnp : hdr1.num_pages = hdr.num_pages)
    (hff : hdr1.first_free_page_no = hdr.first_free_page_no)
    (hpg : ∀ p, RM_FIRST_RECORD_PAGE ≤ p → p < hdr.num_pages →
      (pg1 p).num_records = (pg p).num_records ∧
        (pg1 p).next_free_page_no = (pg p).next_free_page_no ∧
        (pg1 p).bitmap = (pg p).bitmap) :
    DataOK c hdr1 pg1 := by
  obtain ⟨l, hl1, hl2, hl3⟩ := h.chain
  exact
    { cap := hcap.trans h.cap
      cap_pos := h.cap_pos
      layout := by rw [hbs]; exact h.layout
      count := by
        intro p hp1 hp2
        rw [hnp] at hp2
        obtain ⟨e1, -, e3⟩ := hpg p hp1 hp2
        rw [e1, e3]; exact h.count p hp1 hp2
      padding := by
        intro p hp1 hp2 b hb1 hb2
        rw [hnp] at hp2
        rw [hbs] at hb2
        rw [(hpg p hp1 hp2).2.2]; exact h.padding p hp1 hp2 b hb1 hb2
      chain := by
        refine ⟨l, ?_, hl2, ?_⟩
        · rw [hff]
          refine chain_congr _ _ l _ ?_ hl1
          intro p hp
          obtain ⟨a1, a2, -⟩ := (hl3 p).1 hp
          exact (hpg p a1 a2).2.1
        · intro p
          rw [hl3 p, hnp]
          constructor
          · rintro ⟨a1, a2, a3⟩
            exact ⟨a1, a2, by rw [(hpg p a1 a2).1]; exact a3⟩
          · rintro ⟨a1, a2, a3⟩
            exact ⟨a1, a2, by rw [← (hpg p a1 a2).1]; exact a3⟩ }

/-- The data pages after a record was added in the clear slot `s` of the page at
the head of the free-page list. -/
theorem dataOK_insert (c : Nat) (hdr hdr1 : RmFileHdr) (pg pg1 : Int → RmPageData)
    (h : DataOK c hdr pg) (p s : Int)
    (hhead : hdr.first_free_page_no = p) (hp : p ≠ RM_NO_PAGE)
    (hs0 : 0 ≤ s) (hs1 : s < (c : Int)) (hclear : (pg p).bitmap s = false)
    (hcap : hdr1.num_records_per_page = hdr.num_records_per_page)
    (hbs : hdr1.bitmap_size = hdr.bitmap_size)
    (hnp : hdr1.num_pages = hdr.num_pages)
    (hff : hdr1.first_free_page_no
      = if (pg p).num_records + 1 = (c : Int) then (pg p).next_free_page_no
        else hdr.first_free_page_no)
    (hnew : (pg1 p).num_records = (pg p).num_records + 1 ∧
      (pg1 p).next_free_page_no = (pg p).next_free_page_no ∧
      (pg1 p).bitmap = Bitmap.set (pg p).bitmap s)
    (hpg : ∀ q, q ≠ p → RM_FIRST_RECORD_PAGE ≤ q → q < hdr.num_pages →
      (pg1 q).num_records = (pg q).num_records ∧
        (pg1 q).next_free_page_no = (pg q).next_free_page_no ∧
        (pg1 q).bitmap = (pg q).bitmap) :
    DataOK c hdr1 pg1 := by
  obtain ⟨l, hl1, hl2, hl3⟩ := h.chain
  rw [hhead] at hl1
  cases l with
  | nil => simp only [Chain] at hl1; exact absurd hl1 hp
  | cons p0 t =>
    simp only [Chain] at hl1
    obtain ⟨hp0, hl1⟩ := hl1
    subst hp0
    obtain ⟨d1, d2, d3⟩ := (hl3 p).1 (List.mem_cons_self _ _)
    have hpt : p ∉ t := (List.nodup_cons.1 hl2).1
    have htn : t.Nodup := (List.nodup_cons.1 hl2).2
    have hagree : ∀ q ∈ t, (pg1 q).next_free_page_no = (pg q).next_free_page_no := by
      intro q hq
      have hqp : q ≠ p := fun e => hpt (e ▸ hq)
      obtain ⟨a1, a2, -⟩ := (hl3 q).1 (List.mem_cons_of_mem _ hq)
      exact (hpg q hqp a1 a2).2.1
    have hcount : ∀ q, RM_FIRST_RECORD_PAGE ≤ q → q < hdr.num_pages →
        (Bitmap.popcount (pg1 q).bitmap c : Int) = (pg1 q).num_records := by
      intro q hq1 hq2
      by_cases hqp : q = p
      · rw [hqp, hnew.1, hnew.2.2, Bitmap.popcount_set _ s c hs0 hs1 hclear]
        have := h.count p d1 d2
        push_cast; omega
      · obtain ⟨e1, -, e3⟩ := hpg q hqp hq1 hq2
        rw [e1, e3]; exact h.count q hq1 hq2
    have hpad : ∀ q, RM_FIRST_RECORD_PAGE ≤ q → q < hdr.num_pages →
        ∀ b : Int, (c : Int) ≤ b → b < 8 * hdr.bitmap_size → (pg1 q).bitmap b = false := by
      intro q hq1 hq2 b hb1 hb2
      by_cases hqp : q = p
      · rw [hqp, hnew.2.2]
        have hbs' : b ≠ s := by omega
        simp only [Bitmap.set, hbs', if_false]
        exact h.padding p d1 d2 b hb1 hb2
      · rw [(hpg q hqp hq1 hq2).2.2]; exact h.padding q hq1 hq2 b hb1 hb2
    refine
      { cap := hcap.trans h.cap
        cap_pos := h.cap_pos
        layout := by rw [hbs]; exact h.layout
        count := by intro q hq1 hq2; rw [hnp] at hq2; exact hcount q hq1 hq2
        padding := by
          intro q hq1 hq2 b hb1 hb2
          rw [hnp] at hq2; rw [hbs] at hb2
          exact hpad q hq1 hq2 b hb1 hb2
        chain := ?_ }
    by_cases hfull : (pg p).num_records + 1 = (c : Int)
    · simp only [hfull, if_true] at hff
      refine ⟨t, ?_, htn, ?_⟩
      · rw [hff]
        exact chain_congr _ _ t _ hagree hl1
      · intro q
        rw [hnp]
        by_cases hqp : q = p
        · rw [hqp]
          constructor
          · intro hq; exact absurd hq hpt
          · rintro ⟨-, -, a3⟩
            rw [hnew.1] at a3; omega
        · have := hl3 q
          simp only [List.mem_cons, hqp, false_or] at this
          rw [this]
          constructor
          · rintro ⟨a1, a2, a3⟩
            exact ⟨a1, a2, by rw [(hpg q hqp a1 a2).1]; exact a3⟩
          · rintro ⟨a1, a2, a3⟩
            exact ⟨a1, a2, by rw [← (hpg q hqp a1 a2).1]; exact a3⟩
    · simp only [hfull, if_false] at hff
      refine ⟨p :: t, ?_, hl2, ?_⟩
      · rw [hff, hhead]
        simp only [Chain, true_and]
        rw [hnew.2.1]
        exact chain_congr _ _ t _ hagree hl1
      · intro q
        rw [hnp]
        by_cases hqp : q = p
        · rw [hqp]
          constructor
          · intro _
            exact ⟨d1, d2, by rw [hnew.1]; omega⟩
          · intro _; exact List.mem_cons_self _ _
        · rw [hl3 q]
          constructor
          · rintro ⟨a1, a2, a3⟩
            exact ⟨a1, a2, by rw [(hpg q hqp a1 a2).1]; exact a3⟩
          · rintro ⟨a1, a2, a3⟩
            exact ⟨a1, a2, by rw [← (hpg q hqp a1 a2).1]; exact a3⟩

end RmFileHandle

namespace RmFileHandle

/-- The data pages after the record in the occupied slot `s` of the data page `p`
was removed; a page that was full goes to the head of the free-page list. -/
theorem dataOK_delete (c : Nat) (hdr hdr1 : RmFileHdr) (pg pg1 : Int → RmPageData)
    (h : DataOK c hdr pg) (p s : Int)
    (hp1 : RM_FIRST_RECORD_PAGE ≤ p) (hp2 : p < hdr.num_pages)
    (hs0 : 0 ≤ s) (hs1 : s < 8 * hdr.bitmap_size) (hset : (pg p).bitmap s = true)
    (hcap : hdr1.num_records_per_page = hdr.num_records_per_page)
    (hbs : hdr1.bitmap_size = hdr.bitmap_size)
    (hnp : hdr1.num_pages = hdr.num_pages)
    (hff : hdr1.first_free_page_no
      = if (pg p).num_records = (c : Int) then p else hdr.first_free_page_no)
    (hnew : (pg1 p).num_records = (pg p).num_records - 1 ∧
      (pg1 p).next_free_page_no
        = (if (pg p).num_records = (c : Int) then hdr.first_free_page_no
           else (pg p).next_free_page_no) ∧
      (pg1 p).bitmap = Bitmap.reset (pg p).bitmap s)
    (hpg : ∀ q, q ≠ p → RM_FIRST_RECORD_PAGE ≤ q → q < hdr.num_pages →
      (pg1 q).num_records = (pg q).num_records ∧
        (pg1 q).next_free_page_no = (pg q).next_free_page_no ∧
        (pg1 q).bitmap = (pg q).bitmap) :
    DataOK c hdr1 pg1 := by
  obtain ⟨l, hl1, hl2, hl3⟩ := h.chain
  have hsc : s < (c : Int) := by
    by_contra hn
    have := h.padding p hp1 hp2 s (by omega) hs1
    rw [this] at hset
    cases hset
  have hcnt := h.count p hp1 hp2
  have hle := Bitmap.popcount_le (pg p).bitmap c
  have hcount : ∀ q, RM_FIRST_RECORD_PAGE ≤ q → q < hdr.num_pages →
      (Bitmap.popcount (pg1 q).bitmap c : Int) = (pg1 q).num_records := by
    intro q hq1 hq2
    by_cases hqp : q = p
    · rw [hqp, hnew.1, hnew.2.2]
      have := Bitmap.popcount_reset (pg p).bitmap s c hs0 hsc hset
      omega
    · obtain ⟨e1, -, e3⟩ := hpg q hqp hq1 hq2
      rw [e1, e3]; exact h.count q hq1 hq2
  have hpad : ∀ q, RM_FIRST_RECORD_PAGE ≤ q → q < hdr.num_pages →
      ∀ b : Int, (c : Int) ≤ b → b < 8 * hdr.bitmap_size → (pg1 q).bitmap b = false := by
    intro q hq1 hq2 b hb1 hb2
    by_cases hqp : q = p
    · rw [hqp, hnew.2.2]
      have hbs' : b ≠ s := by omega
      simp only [Bitmap.reset, hbs', if_false]
      exact h.padding p hp1 hp2 b hb1 hb2
    · rw [(hpg q hqp hq1 hq2).2.2]; exact h.padding q hq1 hq2 b hb1 hb2
  have hmem_other : ∀ q, q ≠ p →
      ((RM_FIRST_RECORD_PAGE ≤ q ∧ q < hdr.num_pages ∧ (pg q).num_records < (c : Int)) ↔
        (RM_FIRST_RECORD_PAGE ≤ q ∧ q < hdr.num_pages ∧ (pg1 q).num_records < (c : Int))) := by
    intro q hqp
    constructor
    · rintro ⟨a1, a2, a3⟩
      exact ⟨a1, a2, by rw [(hpg q hqp a1 a2).1]; exact a3⟩
    · rintro ⟨a1, a2, a3⟩
      exact ⟨a1, a2, by rw [← (hpg q hqp a1 a2).1]; exact a3⟩
  refine
    { cap := hcap.trans h.cap
      cap_pos := h.cap_pos
      layout := by rw [hbs]; exact h.layout
      count := by intro q hq1 hq2; rw [hnp] at hq2; exact hcount q hq1 hq2
      padding := by
        intro q hq1 hq2 b hb1 hb2
        rw [hnp] at hq2; rw [hbs] at hb2
        exact hpad q hq1 hq2 b hb1 hb2
      chain := ?_ }
  by_cases hfull : (pg p).num_records = (c : Int)
  · simp only [hfull, if_true] at hff hnew
    have hpl : p ∉ l := by
      intro hm
      have := ((hl3 p).1 hm).2.2
      omega
    have hagree : ∀ q ∈ l, (pg1 q).next_free_page_no = (pg q).next_free_page_no := by
      intro q hq
      have hqp : q ≠ p := fun e => hpl (e ▸ hq)
      obtain ⟨a1, a2, -⟩ := (hl3 q).1 hq
      exact (hpg q hqp a1 a2).2.1
    refine ⟨p :: l, ?_, List.nodup_cons.2 ⟨hpl, hl2⟩, ?_⟩
    · rw [hff]
      simp only [Chain, true_and]
      rw [hnew.2.1]
      exact chain_congr _ _ l _ hagree hl1
    · intro q
      rw [hnp]
      by_cases hqp : q = p
      · rw [hqp]
        constructor
        · intro _
          exact ⟨hp1, hp2, by rw [hnew.1]; omega⟩
        · intro _; exact List.mem_cons_self _ _
      · simp only [List.mem_cons, hqp, false_or]
        rw [hl3 q]
        exact hmem_other q hqp
  · simp only [hfull, if_false] at hff hnew
    have hpl : p ∈ l := (hl3 p).2 ⟨hp1, hp2, by omega⟩
    have hagree : ∀ q ∈ l, (pg1 q).next_free_page_no = (pg q).next_free_page_no := by
      intro q hq
      by_cases hqp : q = p
      · rw [hqp]; exact hnew.2.1
      · obtain ⟨a1, a2, -⟩ := (hl3 q).1 hq
        exact (hpg q hqp a1 a2).2.1
    refine ⟨l, ?_, hl2, ?_⟩
    · rw [hff]
      exact chain_congr _ _ l _ hagree hl1
    · intro q
      rw [hnp]
      by_cases hqp : q = p
      · rw [hqp]
        constructor
        · intro _
          exact ⟨hp1, hp2, by rw [hnew.1]; omega⟩
        · intro _; exact hpl
      · rw [hl3 q]
        exact hmem_other q hqp

/-- The data pages after a page was appended to a file whose free-page list was
empty: the new page is the only free page. -/
theorem dataOK_new_page (c : Nat) (hdr hdr1 : RmFileHdr) (pg pg1 : Int → RmPageData)
    (h : DataOK c hdr pg)
    (hfirst : RM_FIRST_RECORD_PAGE ≤ hdr.num_pages)
    (hhead : hdr.first_free_page_no = RM_NO_PAGE)
    (hcap : hdr1.num_records_per_page = hdr.num_records_per_page)
    (hbs : hdr1.bitmap_size = hdr.bitmap_size)
    (hnp : hdr1.num_pages = hdr.num_pages + 1)
    (hff : hdr1.first_free_page_no = hdr.num_pages)
    (hnew : (pg1 hdr.num_pages).num_records = 0 ∧
      (pg1 hdr.num_pages).next_free_page_no = RM_NO_PAGE ∧
      ∀ b : Int, 0 ≤ b → b < 8 * hdr.bitmap_size → (pg1 hdr.num_pages).bitmap b = false)
    (hpg : ∀ q, RM_FIRST_RECORD_PAGE ≤ q → q < hdr.num_pages →
      (pg1 q).num_records = (pg q).num_records ∧
        (pg1 q).next_free_page_no = (pg q).next_free_page_no ∧
        (pg1 q).bitmap = (pg q).bitmap) :
    DataOK c hdr1 pg1 := by
  obtain ⟨l, hl1, hl2, hl3⟩ := h.chain
  have hnil : l = [] := by
    cases l with
    | nil => rfl
    | cons p0 t =>
      simp only [Chain] at hl1
      have := (hl3 p0).1 (List.mem_cons_self _ _)
      rw [← hl1.1, hhead] at this
      simp only [RM_NO_PAGE, RM_FIRST_RECORD_PAGE] at this
      omega
  subst hnil
  have hlay := h.layout
  exact
    { cap := hcap.trans h.cap
      cap_pos := h.cap_pos
      layout := by rw [hbs]; exact h.layout
      count := by
        intro q hq1 hq2
        rw [hnp] at hq2
        by_cases hq : q = hdr.num_pages
        · rw [hq, hnew.1]
          have : Bitmap.popcount (pg1 hdr.num_pages).bitmap c
              = Bitmap.popcount (fun _ => false) c :=
            Bitmap.popcount_congr _ _ c (fun i hi => hnew.2.2 i (by omega) (by omega))
          rw [this, Bitmap.popcount_zero]
          rfl
        · obtain ⟨e1, -, e3⟩ := hpg q hq1 (by omega)
          rw [e1, e3]; exact h.count q hq1 (by omega)
      padding := by
        intro q hq1 hq2 b hb1 hb2
        rw [hnp] at hq2; rw [hbs] at hb2
        by_cases hq : q = hdr.num_pages
        · rw [hq]; exact hnew.2.2 b (by omega) hb2
        · rw [(hpg q hq1 (by omega)).2.2]; exact h.padding q hq1 (by omega) b hb1 hb2
      chain := by
        refine ⟨[hdr.num_pages], ?_, List.nodup_singleton _, ?_⟩
        · rw [hff]
          simp only [Chain, true_and]
          exact hnew.2.1
        · intro q
          rw [hnp, List.mem_singleton]
          constructor
          · intro hq
            rw [hq, hnew.1]
            have := h.cap_pos
            exact ⟨hfirst, by omega, by omega⟩
          · rintro ⟨a1, a2, a3⟩
            by_contra hq
            have hlt : q < hdr.num_pages := by omega
            have := (hl3 q).2 ⟨a1, hlt, by rw [← (hpg q a1 hlt).1]; exact a3⟩
            cases this }

end RmFileHandle

namespace RmFileHandle

theorem is_data_page_mk (fd p : Int) (hp : RM_FIRST_RECORD_PAGE ≤ p) :
    is_data_page fd ⟨fd, p⟩ := ⟨rfl, hp⟩

/-- Two data pages that are resident in the same frame are the same page. -/
theorem frame_of_data_page (fh : RmFileHandle) (hp : PoolOK fh) (p q : Int) (g : Nat)
    (hp1 : RM_FIRST_RECORD_PAGE ≤ p) (hp2 : p < fh.file_hdr_.num_pages)
    (hq1 : RM_FIRST_RECORD_PAGE ≤ q) (hq2 : q < fh.file_hdr_.num_pages)
    (htp : fh.buffer_pool_manager_.page_table_ ⟨fh.fd_, p⟩ = some g)
    (htq : fh.buffer_pool_manager_.page_table_ ⟨fh.fd_, q⟩ = some g) : q = p := by
  obtain ⟨g1, a1, a2⟩ := hp.resident p hp1 hp2
  obtain ⟨g2, b1, b2⟩ := hp.resident q hq1 hq2
  rw [htp] at a1
  rw [htq] at b1
  simp only [Option.some.injEq] at a1 b1
  rw [← a1] at a2
  rw [← b1, a2] at b2
  exact (PageId.mk.inj b2).2.symm

/-- The invariant of the pool reads the page count and the file descriptor of
the file, the next page number of the file, the list of the replacer, the Free
Frame List, the identities of the frames and the page table. -/
theorem poolOK_congr (fh fh1 : RmFileHandle) (h : PoolOK fh)
    (hnp : fh1.file_hdr_.num_pages = fh.file_hdr_.num_pages) (hfd : fh1.fd_ = fh.fd_)
    (hdisk : fh1.buffer_pool_manager_.disk_manager_.fd2pageno
      = fh.buffer_pool_manager_.disk_manager_.fd2pageno)
    (hrep : fh1.buffer_pool_manager_.replacer_.LRUlist_
      = fh.buffer_pool_manager_.replacer_.LRUlist_)
    (hfree : fh1.buffer_pool_manager_.free_list_ = fh.buffer_pool_manager_.free_list_)
    (hids : ∀ g, (fh1.buffer_pool_manager_.pages_ g).id_
      = (fh.buffer_pool_manager_.pages_ g).id_)
    (htab : fh1.buffer_pool_manager_.page_table_ = fh.buffer_pool_manager_.page_table_) :
    PoolOK fh1 where
  first := by rw [hnp]; exact h.first
  disk := by rw [hdisk, hfd, hnp]; exact h.disk
  rep := by rw [hrep]; exact h.rep
  free_nodup := by rw [hfree]; exact h.free_nodup
  free_ids := by
    intro f hf
    rw [hfree] at hf
    rw [hfd, hids]
    exact h.free_ids f hf
  resident := by
    intro p hp1 hp2
    rw [hnp] at hp2
    obtain ⟨g, a1, a2⟩ := h.resident p hp1 hp2
    exact ⟨g, by rw [htab, hfd]; exact a1, by rw [hids, hfd]; exact a2⟩

/-- The pages of the file seen through `page_of` after a write into the frame of
the data page `p`: the page `p` is what was written, every other data page is as
before. -/
theorem page_of_write (fh1 fh2 : RmFileHandle) (hp : PoolOK fh1) (p : Int) (g : Nat)
    (d : RmPageData)
    (hp1 : RM_FIRST_RECORD_PAGE ≤ p) (hp2 : p < fh1.file_hdr_.num_pages)
    (htp : fh1.buffer_pool_manager_.page_table_ ⟨fh1.fd_, p⟩ = some g)
    (hfd : fh2.fd_ = fh1.fd_)
    (hpool : fh2.buffer_pool_manager_ = fh1.buffer_pool_manager_.write_data g d) :
    fh2.page_of p = d ∧
      ∀ q, q ≠ p → RM_FIRST_RECORD_PAGE ≤ q → q < fh1.file_hdr_.num_pages →
        fh2.page_of q = fh1.page_of q := by
  constructor
  · unfold page_of BufferPoolManager.content
    rw [hpool, hfd]
    simp only [BufferPoolManager.write_data, BufferPoolManager.set_page, htp, if_true]
  · intro q hqp hq1 hq2
    obtain ⟨g1, a1, -⟩ := hp.resident q hq1 hq2
    have hne : g1 ≠ g := by
      intro e
      rw [e] at a1
      exact hqp (frame_of_data_page fh1 hp p q g hp1 hp2 hq1 hq2 htp a1)
    unfold page_of BufferPoolManager.content
    rw [hpool, hfd]
    simp only [BufferPoolManager.write_data, BufferPoolManager.set_page, a1, hne, if_false]

/-- A fetch of a data page of the file: the page is resident, so the fetch
returns its frame, raises the pin count, and changes nothing else that the
invariant or `page_of` reads. -/
theorem fetch_data_page (c : Nat) (fh : RmFileHandle) (hinv : FreeListInv c fh) (p : Int)
    (hp1 : RM_FIRST_RECORD_PAGE ≤ p) (hp2 : p < fh.file_hdr_.num_pages) :
    ∃ g fh1, fetch_page_handle fh p = .ok (.ok g, fh1) ∧
      fh1.buffer_pool_manager_.page_table_ ⟨fh1.fd_, p⟩ = some g ∧
      (fh1.buffer_pool_manager_.pages_ g).id_ = ⟨fh1.fd_, p⟩ ∧
      fh1.file_hdr_ = fh.file_hdr_ ∧ fh1.fd_ = fh.fd_ ∧
      fh1.page_data g = fh.page_of p ∧
      (∀ q, fh1.page_of q = fh.page_of q) ∧
      FreeListInv c fh1 := by
  obtain ⟨g, a1, a2⟩ := hinv.pool.resident p hp1 hp2
  have hlt : ¬ (p ≥ fh.file_hdr_.num_pages) := by omega
  have hrep : (fh.buffer_pool_manager_.replacer_.pin g).LRUlist_ = [] := by
    unfold LRUReplacer.pin
    split
    · simp only [hinv.pool.rep, List.erase_nil]
    · exact hinv.pool.rep
  have hex : ∃ fh1, fetch_page_handle fh p = .ok (.ok g, fh1) ∧
      fh1.file_hdr_ = fh.file_hdr_ ∧ fh1.fd_ = fh.fd_ ∧
      fh1.buffer_pool_manager_ = (fh.buffer_pool_manager_.fetch_page ⟨fh.fd_, p⟩).2 := by
    unfold fetch_page_handle
    simp only [hlt, if_false, BufferPoolManager.fetch_page_resident _ _ _ a1]
    exact ⟨_, rfl, rfl, rfl, rfl⟩
  obtain ⟨fh1, hfetch, hhdr, hfd, hpool⟩ := hex
  rw [BufferPoolManager.fetch_page_resident _ _ _ a1] at hpool
  simp only at hpool
  have htab : fh1.buffer_pool_manager_.page_table_ = fh.buffer_pool_manager_.page_table_ := by
    rw [hpool]; rfl
  have hdata : ∀ f, (fh1.buffer_pool_manager_.pages_ f).data_
      = (fh.buffer_pool_manager_.pages_ f).data_ := by
    intro f
    rw [hpool]
    simp only [BufferPoolManager.set_page]
    split
    · rename_i e; rw [e]
    · rfl
  have hids : ∀ f, (fh1.buffer_pool_manager_.pages_ f).id_
      = (fh.buffer_pool_manager_.pages_ f).id_ := by
    intro f
    rw [hpool]
    simp only [BufferPoolManager.set_page]
    split
    · rename_i e; rw [e]
    · rfl
  have hdisk : fh1.buffer_pool_manager_.disk_manager_ = fh.buffer_pool_manager_.disk_manager_ := by
    rw [hpool]; rfl
  have hpage : ∀ q, fh1.page_of q = fh.page_of q := by
    intro q
    unfold page_of BufferPoolManager.content
    rw [htab, hfd, hdisk]
    cases fh.buffer_pool_manager_.page_table_ ⟨fh.fd_, q⟩ with
    | none => rfl
    | some f => exact hdata f
  refine ⟨g, fh1, hfetch, by rw [htab, hfd]; exact a1, by rw [hids, hfd]; exact a2, hhdr, hfd,
    ?_, hpage, ?_⟩
  · simp only [page_data, hdata, page_of, BufferPoolManager.content, a1]
  · exact
      { pool := poolOK_congr fh fh1 hinv.pool (by rw [hhdr]) hfd (by rw [hdisk])
          (by rw [hpool, hinv.pool.rep]; exact hrep) (by rw [hpool]; rfl) hids htab
        data := dataOK_congr c fh.file_hdr_ _ fh.page_of _ hinv.data (by rw [hhdr])
          (by rw [hhdr]) (by rw [hhdr]) (by rw [hhdr])
          (fun q _ _ => by rw [hpage q]; exact ⟨rfl, rfl, rfl⟩) }

end RmFileHandle

namespace RmFileHandle

/-- What `create_new_page_handle` does to the pool when the replacer tracks
nothing: it takes the frame at the front of the Free Frame List, and touches no
other frame and no page-table entry other than that of the old identity of this
frame and that of the new page. -/
theorem create_new_page_handle_frame (fh fh1 : RmFileHandle) (page : Nat)
    (hrep : fh.buffer_pool_manager_.replacer_.LRUlist_ = [])
    (h : create_new_page_handle fh = .ok (page, fh1)) :
    ∃ rest, fh.buffer_pool_manager_.free_list_ = page :: rest ∧
      fh1.buffer_pool_manager_.free_list_ = rest ∧
      fh1.buffer_pool_manager_.replacer_.LRUlist_ = [] ∧
      fh1.buffer_pool_manager_.disk_manager_.fd2pageno fh.fd_
        = fh.buffer_pool_manager_.disk_manager_.fd2pageno fh.fd_ + 1 ∧
      (∀ g, g ≠ page →
        fh1.buffer_pool_manager_.pages_ g = fh.buffer_pool_manager_.pages_ g) ∧
      (∀ pid, pid ≠ (fh.buffer_pool_manager_.pages_ page).id_ →
        pid ≠ ⟨fh.fd_, fh.buffer_pool_manager_.disk_manager_.fd2pageno fh.fd_⟩ →
        fh1.buffer_pool_manager_.page_table_ pid = fh.buffer_pool_manager_.page_table_ pid) := by
  cases hfl : fh.buffer_pool_manager_.free_list_ with
  | nil =>
    exfalso
    have hv : fh.buffer_pool_manager_.find_victim_page.1 = none := by
      unfold BufferPoolManager.find_victim_page
      rw [hfl]
      simp only [LRUReplacer.victim, hrep, List.getLast?_nil]
    unfold create_new_page_handle BufferPoolManager.new_page at h
    cases hx : fh.buffer_pool_manager_.find_victim_page with
    | mk r s2 =>
      rw [hx] at h hv
      simp only at hv
      subst hv
      simp only at h
      cases h
  | cons f rest =>
    have hv : fh.buffer_pool_manager_.find_victim_page
        = (some f, { fh.buffer_pool_manager_ with free_list_ := rest }) := by
      unfold BufferPoolManager.find_victim_page
      rw [hfl]
    unfold create_new_page_handle BufferPoolManager.new_page at h
    simp only [hv, Except.ok.injEq, Prod.mk.injEq] at h
    obtain ⟨hp, hfh⟩ := h
    subst hp
    rw [← hfh]
    refine ⟨rest, rfl, ?_, ?_, ?_, ?_, ?_⟩
    · simp [set_page_data, BufferPoolManager.write_data, BufferPoolManager.set_page,
        BufferPoolManager.update_page]
    · simp only [set_page_data, BufferPoolManager.write_data, BufferPoolManager.set_page,
        BufferPoolManager.update_page]
      unfold LRUReplacer.pin
      split
      · simp only [hrep, List.erase_nil]
      · exact hrep
    · simp only [set_page_data, BufferPoolManager.write_data, BufferPoolManager.set_page,
        BufferPoolManager.update_page, DiskManager.allocate_page]
      split <;> simp [DiskManager.write_page]
    · intro g hg
      simp [set_page_data, BufferPoolManager.write_data, BufferPoolManager.set_page,
        BufferPoolManager.update_page, hg]
    · intro pid h1 h2
      simp only [set_page_data, BufferPoolManager.write_data, BufferPoolManager.set_page,
        BufferPoolManager.update_page, BufferPoolManager.table_insert,
        BufferPoolManager.table_erase, DiskManager.allocate_page, INVALID_FRAME_ID]
      simp only [h2, h1, if_false]

end RmFileHandle

namespace RmFileHandle

/-- The invariant after `create_new_page_handle` on a file whose free-page list
is empty: the new page, numbered with the old page count, is resident in the
returned frame and is the head of the free-page list. -/
theorem inv_create_new_page_handle (c : Nat) (fh fh1 : RmFileHandle) (page : Nat)
    (hinv : FreeListInv c fh) (hhead : fh.file_hdr_.first_free_page_no = RM_NO_PAGE)
    (h : create_new_page_handle fh = .ok (page, fh1)) :
    FreeListInv c fh1 ∧
      fh1.file_hdr_.first_free_page_no = fh.file_hdr_.num_pages ∧
      fh1.file_hdr_.num_pages = fh.file_hdr_.num_pages + 1 ∧
      fh1.buffer_pool_manager_.page_table_ ⟨fh1.fd_, fh.file_hdr_.num_pages⟩ = some page := by
  obtain ⟨rest, f1, f2, f3, f4, f5, f6⟩ :=
    create_new_page_handle_frame fh fh1 page hinv.pool.rep h
  obtain ⟨a1, a2, a3, a4, a5, a6, a7⟩ := create_new_page_handle_ok fh fh1 page h
  rw [hinv.pool.disk] at a2 a3 a4 f4 f6
  have hpage_free : page ∈ fh.buffer_pool_manager_.free_list_ := by
    rw [f1]; exact List.mem_cons_self _ _
  have hpage_id := hinv.pool.free_ids page hpage_free
  have hnd : (page :: rest).Nodup := by rw [← f1]; exact hinv.pool.free_nodup
  have hold : ∀ q, RM_FIRST_RECORD_PAGE ≤ q → q < fh.file_hdr_.num_pages →
      ∃ g, g ≠ page ∧ fh.buffer_pool_manager_.page_table_ ⟨fh.fd_, q⟩ = some g ∧
        (fh.buffer_pool_manager_.pages_ g).id_ = ⟨fh.fd_, q⟩ ∧
        fh1.buffer_pool_manager_.page_table_ ⟨fh.fd_, q⟩ = some g ∧
        fh1.buffer_pool_manager_.pages_ g = fh.buffer_pool_manager_.pages_ g := by
    intro q hq1 hq2
    obtain ⟨g, b1, b2⟩ := hinv.pool.resident q hq1 hq2
    have hg : g ≠ page := by
      intro e
      rw [e] at b2
      exact hpage_id (by rw [b2]; exact is_data_page_mk _ _ hq1)
    refine ⟨g, hg, b1, b2, ?_, f5 g hg⟩
    rw [f6 ⟨fh.fd_, q⟩ ?_ ?_]
    · exact b1
    · intro e
      exact hpage_id (by rw [← e]; exact is_data_page_mk _ _ hq1)
    · intro e
      have := (PageId.mk.inj e).2
      omega
  have hpg_old : ∀ q, RM_FIRST_RECORD_PAGE ≤ q → q < fh.file_hdr_.num_pages →
      fh1.page_of q = fh.page_of q := by
    intro q hq1 hq2
    obtain ⟨g, -, b1, -, b3, b4⟩ := hold q hq1 hq2
    unfold page_of BufferPoolManager.content
    simp only [a1, b3, b1, b4]
  have hpg_new : fh1.page_of fh.file_hdr_.num_pages = fh1.page_data page := by
    unfold page_of BufferPoolManager.content page_data
    simp only [a1, a4]
  refine ⟨?_, by rw [a2], by rw [a2], by rw [a1]; exact a4⟩
  exact
    { pool :=
        { first := by rw [a2]; have := hinv.pool.first; simp only; omega
          disk := by rw [a1, f4, a2]
          rep := f3
          free_nodup := by rw [f2]; exact (List.nodup_cons.1 hnd).2
          free_ids := by
            intro g hg
            rw [f2] at hg
            have hgp : g ≠ page := fun e => (List.nodup_cons.1 hnd).1 (e ▸ hg)
            rw [a1, f5 g hgp]
            exact hinv.pool.free_ids g (by rw [f1]; exact List.mem_cons_of_mem _ hg)
          resident := by
            intro p hp1 hp2
            rw [a2] at hp2
            simp only at hp2
            by_cases hpn : p = fh.file_hdr_.num_pages
            · rw [hpn, a1]
              exact ⟨page, a4, a3⟩
            · obtain ⟨g, -, -, b2, b3, b4⟩ := hold p hp1 (by omega)
              rw [a1]
              exact ⟨g, b3, by rw [b4]; exact b2⟩ }
      data := dataOK_new_page c fh.file_hdr_ fh1.file_hdr_ fh.page_of fh1.page_of hinv.data
        hinv.pool.first hhead (by rw [a2]) (by rw [a2]) (by rw [a2]) (by rw [a2])
        (by rw [hpg_new]; exact ⟨a5, a6, a7⟩)
        (fun q hq1 hq2 => by rw [hpg_old q hq1 hq2]; exact ⟨rfl, rfl, rfl⟩) }

/-- The page that `create_page_handle` delivers: the call returns a page handle
(or the pool has no frame), the invariant holds afterwards, and the page is the
head of the free-page list, a data page with a record count below the
capacity. -/
theorem inv_create_page_handle (c : Nat) (fh fha : RmFileHandle) (r : RmResult Nat)
    (hinv : FreeListInv c fh) (h : create_page_handle fh = .ok (r, fha)) :
    ∃ page, r = .ok page ∧ FreeListInv c fha ∧
      RM_FIRST_RECORD_PAGE ≤ fha.file_hdr_.first_free_page_no ∧
      fha.file_hdr_.first_free_page_no < fha.file_hdr_.num_pages ∧
      fha.buffer_pool_manager_.page_table_ ⟨fha.fd_, fha.file_hdr_.first_free_page_no⟩
        = some page ∧
      fha.page_data page = fha.page_of fha.file_hdr_.first_free_page_no ∧
      (fha.page_of fha.file_hdr_.first_free_page_no).num_records < (c : Int) := by
  unfold create_page_handle at h
  by_cases hhead : fh.file_hdr_.first_free_page_no = RM_NO_PAGE
  · simp only [hhead, if_true] at h
    cases hc : create_new_page_handle fh with
    | error e => rw [hc] at h; cases h
    | ok x =>
      obtain ⟨page, fh1⟩ := x
      rw [hc] at h
      simp only [Except.ok.injEq, Prod.mk.injEq] at h
      obtain ⟨hr, hfh⟩ := h
      subst hfh
      obtain ⟨i1, i2, i3, i4⟩ := inv_create_new_page_handle c fh fh1 page hinv hhead hc
      obtain ⟨l, hl1, hl2, hl3⟩ := i1.data.chain
      have hmem : fh1.file_hdr_.first_free_page_no ∈ l := by
        cases l with
        | nil =>
          simp only [Chain] at hl1
          rw [i2] at hl1
          have := hinv.pool.first
          simp only [RM_NO_PAGE, RM_FIRST_RECORD_PAGE] at hl1 this
          omega
        | cons p0 t =>
          simp only [Chain] at hl1
          rw [hl1.1]; exact List.mem_cons_self _ _
      obtain ⟨m1, m2, m3⟩ := (hl3 _).1 hmem
      refine ⟨page, hr.symm, i1, m1, m2, by rw [i2]; exact i4, ?_, m3⟩
      unfold page_of BufferPoolManager.content page_data
      simp only [i2, i4]
  · simp only [hhead, if_false] at h
    obtain ⟨l, hl1, hl2, hl3⟩ := hinv.data.chain
    have hmem : fh.file_hdr_.first_free_page_no ∈ l := by
      cases l with
      | nil => simp only [Chain] at hl1; exact absurd hl1 hhead
      | cons p0 t =>
        simp only [Chain] at hl1
        rw [hl1.1]; exact List.mem_cons_self _ _
    obtain ⟨m1, m2, m3⟩ := (hl3 _).1 hmem
    obtain ⟨g, fh1, e1, e2, e3, e4, e5, e6, e7, e8⟩ :=
      fetch_data_page c fh hinv fh.file_hdr_.first_free_page_no m1 m2
    rw [e1] at h
    simp only [Except.ok.injEq, Prod.mk.injEq] at h
    obtain ⟨hr, hfh⟩ := h
    subst hfh
    refine ⟨g, hr.symm, e8, by rw [e4]; exact m1, by rw [e4]; exact m2, by rw [e4]; exact e2, ?_,
      by rw [e4, e7]; exact m3⟩
    rw [e4, e7]; exact e6

end RmFileHandle

namespace RmFileHandle

/-- When the page delivered by `create_page_handle` has a clear slot below the
capacity, `insert_record(buf)` returns a Rid: no access leaves the bitmap or the
slot array. -/
theorem insert_record_progress (fh fha : RmFileHandle) (buf : List Nat) (page : Nat)
    (hc : create_page_handle fh = .ok (.ok page, fha))
    (hlayout : fha.file_hdr_.num_records_per_page ≤ 8 * fha.file_hdr_.bitmap_size)
    (h0 : 0 ≤ Bitmap.first_bit false (fha.page_data page).bitmap
      fha.file_hdr_.num_records_per_page)
    (h1 : Bitmap.first_bit false (fha.page_data page).bitmap
      fha.file_hdr_.num_records_per_page < fha.file_hdr_.num_records_per_page) :
    ∃ rid fh1, insert_record fh buf = .ok (.ok rid, fh1) := by
  have hsearch : search_in_range fha.file_hdr_ fha.file_hdr_.num_records_per_page (-1) = true := by
    simp only [search_in_range, decide_eq_true_eq]
    right
    exact ⟨by omega, hlayout⟩
  have hslot : slot_in_range fha.file_hdr_ (Bitmap.first_bit false (fha.page_data page).bitmap
      fha.file_hdr_.num_records_per_page) = true := by
    simp only [slot_in_range, decide_eq_true_eq]
    exact ⟨h0, h1⟩
  have hbit : bit_in_range fha.file_hdr_ (Bitmap.first_bit false (fha.page_data page).bitmap
      fha.file_hdr_.num_records_per_page) = true := by
    simp only [bit_in_range, decide_eq_true_eq]
    omega
  unfold insert_record
  rw [hc]
  simp only [set_page_data_file_hdr, page_data_set_page_data, set_page_data_twice, hsearch,
    hslot, hbit, not_true_eq_false, if_false]
  exact ⟨_, _, rfl⟩

/-- In a file state with the invariant, the page chosen by `insert_record(buf)`
has a clear bit: the slot found by `first_bit` is a clear slot below the
capacity. -/
theorem chosen_page_has_clear_bit (c : Nat) (fh fha : RmFileHandle) (page : Nat)
    (hinv : FreeListInv c fh) (hc : create_page_handle fh = .ok (.ok page, fha)) :
    0 ≤ Bitmap.first_bit false (fha.page_data page).bitmap fha.file_hdr_.num_records_per_page ∧
      Bitmap.first_bit false (fha.page_data page).bitmap fha.file_hdr_.num_records_per_page
        < fha.file_hdr_.num_records_per_page ∧
      (fha.page_data page).bitmap (Bitmap.first_bit false (fha.page_data page).bitmap
        fha.file_hdr_.num_records_per_page) = false := by
  obtain ⟨page1, hr, ia, m1, m2, -, md, m3⟩ := inv_create_page_handle c fh fha _ hinv hc
  have hcnt := ia.data.count _ m1 m2
  rw [← md] at hcnt m3
  rw [ia.data.cap]
  simp only [RmResult.ok.injEq] at hr
  subst hr
  exact Bitmap.first_bit_of_popcount_lt _ c (by omega)

theorem inv_insert_record (c : Nat) (fh fh1 : RmFileHandle) (buf : List Nat) (r : RmResult Rid)
    (hinv : FreeListInv c fh) (h : insert_record fh buf = .ok (r, fh1)) :
    FreeListInv c fh1 := by
  cases hc : create_page_handle fh with
  | error e =>
    unfold insert_record at h
    rw [hc] at h
    cases h
  | ok x =>
    obtain ⟨res, fha⟩ := x
    obtain ⟨page, hr, ia, m1, m2, mt, md, m3⟩ := inv_create_page_handle c fh fha res hinv hc
    subst hr
    obtain ⟨s0, s1, sclear⟩ := chosen_page_has_clear_bit c fh fha page hinv hc
    obtain ⟨rid, fh1', hins⟩ := insert_record_progress fh fha buf page hc
      (by rw [ia.data.cap]; exact ia.data.layout) s0 s1
    rw [hins] at h
    simp only [Except.ok.injEq, Prod.mk.injEq] at h
    obtain ⟨hr, hfh⟩ := h
    subst hfh
    obtain ⟨page1, fhb, hc1, -, -, hs, -, b1, b2, b3⟩ := insert_record_ok fh fh1' buf rid hins
    rw [hc] at hc1
    simp only [Except.ok.injEq, Prod.mk.injEq, RmResult.ok.injEq] at hc1
    obtain ⟨hpg, hfb⟩ := hc1
    subst hpg hfb
    rw [← hs] at s0 s1 sclear
    rw [md] at b2 b3 sclear
    rw [ia.data.cap] at s1 b3
    obtain ⟨w1, w2⟩ := page_of_write fha fh1' ia.pool fha.file_hdr_.first_free_page_no page _
      m1 m2 mt b1 b2
    exact
      { pool := poolOK_congr fha fh1' ia.pool (by rw [b3]) b1 (by rw [b2]; rfl) (by rw [b2]; rfl)
          (by rw [b2]; rfl) (fun g => by rw [b2]; exact write_data_id _ _ _ _) (by rw [b2]; rfl)
        data := dataOK_insert c fha.file_hdr_ fh1'.file_hdr_ fha.page_of fh1'.page_of ia.data
          fha.file_hdr_.first_free_page_no rid.slot_no rfl
          (by simp only [RM_NO_PAGE, RM_FIRST_RECORD_PAGE] at m1 ⊢; omega)
          s0 s1 sclear (by rw [b3]) (by rw [b3]) (by rw [b3]) (by rw [b3])
          (by rw [w1]; exact ⟨rfl, rfl, rfl⟩)
          (fun q hq hq1 hq2 => by rw [w2 q hq hq1 hq2]; exact ⟨rfl, rfl, rfl⟩) }

end RmFileHandle

namespace RmFileHandle

theorem inv_delete_record (c : Nat) (fh fh1 : RmFileHandle) (rid : Rid) (r : RmResult Unit)
    (hinv : FreeListInv c fh) (hdata : RM_FIRST_RECORD_PAGE ≤ rid.page_no)
    (h : delete_record fh rid = .ok (r, fh1)) : FreeListInv c fh1 := by
  by_cases hlt : rid.page_no < fh.file_hdr_.num_pages
  · obtain ⟨g, fha, e1, e2, e3, e4, e5, e6, e7, e8⟩ :=
      fetch_data_page c fh hinv rid.page_no hdata hlt
    by_cases hbit : bit_in_range fh.file_hdr_ rid.slot_no = true
    · cases hset : (fha.page_data g).bitmap rid.slot_no with
      | false =>
        unfold delete_record at h
        rw [e1] at h
        simp only [e4, hbit, Bitmap.is_set, hset, not_true_eq_false, if_false,
          Bool.false_eq_true, not_false_eq_true, if_true, Except.ok.injEq, Prod.mk.injEq] at h
        rw [← h.2]; exact e8
      | true =>
        obtain ⟨fh2, hdel, b1, b2, b3⟩ := delete_record_found fh fha rid g e1 hbit hset
        rw [hdel] at h
        simp only [Except.ok.injEq, Prod.mk.injEq] at h
        obtain ⟨-, hfh⟩ := h
        subst hfh
        have hcap : fh.file_hdr_.num_records_per_page = (c : Int) := hinv.data.cap
        rw [e6, ← e7, hcap, ← e4] at b2 b3
        rw [e3] at b3
        rw [e6, ← e7] at hset
        simp only [bit_in_range, decide_eq_true_eq] at hbit
        rw [← e4] at hbit hlt
        obtain ⟨w1, w2⟩ := page_of_write fha fh2 e8.pool rid.page_no g _ hdata hlt e2
          (b1.trans e5.symm) b2
        exact
          { pool := poolOK_congr fha fh2 e8.pool (by rw [b3]) (b1.trans e5.symm)
              (by rw [b2]; rfl) (by rw [b2]; rfl) (by rw [b2]; rfl)
              (fun f => by rw [b2]; exact write_data_id _ _ _ _) (by rw [b2]; rfl)
            data := dataOK_delete c fha.file_hdr_ fh2.file_hdr_ fha.page_of fh2.page_of e8.data
              rid.page_no rid.slot_no hdata hlt hbit.1 hbit.2 hset (by rw [b3]) (by rw [b3])
              (by rw [b3]) (by rw [b3]) (by rw [w1]; exact ⟨rfl, rfl, rfl⟩)
              (fun q hq hq1 hq2 => by rw [w2 q hq hq1 hq2]; exact ⟨rfl, rfl, rfl⟩) }
    · exfalso
      unfold delete_record at h
      rw [e1] at h
      simp only [e4, hbit, not_false_eq_true, if_true] at h
      cases h
  · have hge : rid.page_no ≥ fh.file_hdr_.num_pages := by omega
    unfold delete_record fetch_page_handle at h
    simp only [hge, if_true, Except.ok.injEq, Prod.mk.injEq] at h
    rw [← h.2]; exact hinv

theorem inv_update_record (c : Nat) (fh fh1 : RmFileHandle) (rid : Rid) (buf : List Nat)
    (r : RmResult Unit)
    (hinv : FreeListInv c fh) (hdata : RM_FIRST_RECORD_PAGE ≤ rid.page_no)
    (h : update_record fh rid buf = .ok (r, fh1)) : FreeListInv c fh1 := by
  by_cases hlt : rid.page_no < fh.file_hdr_.num_pages
  · obtain ⟨g, fha, e1, e2, e3, e4, e5, e6, e7, e8⟩ :=
      fetch_data_page c fh hinv rid.page_no hdata hlt
    unfold update_record at h
    rw [e1] at h
    simp only at h
    split at h
    · cases h
    · split at h
      · simp only [Except.ok.injEq, Prod.mk.injEq] at h
        rw [← h.2]; exact e8
      · split at h
        · cases h
        · simp only [Except.ok.injEq, Prod.mk.injEq] at h
          obtain ⟨-, hfh⟩ := h
          rw [← e4] at hlt
          obtain ⟨w1, w2⟩ := page_of_write fha fh1 e8.pool rid.page_no g _ hdata hlt e2
            (by rw [← hfh]; rfl) (by rw [← hfh]; rfl)
          have hhdr : fh1.file_hdr_ = fha.file_hdr_ := by rw [← hfh]; rfl
          exact
            { pool := poolOK_congr fha fh1 e8.pool (by rw [hhdr]) (by rw [← hfh]; rfl)
                (by rw [← hfh]; rfl) (by rw [← hfh]; rfl) (by rw [← hfh]; rfl)
                (fun f => by rw [← hfh]; exact write_data_id _ _ _ _) (by rw [← hfh]; rfl)
              data := dataOK_congr c fha.file_hdr_ fh1.file_hdr_ fha.page_of fh1.page_of e8.data
                (by rw [hhdr]) (by rw [hhdr]) (by rw [hhdr]) (by rw [hhdr])
                (fun q hq1 hq2 => by
                  by_cases hq : q = rid.page_no
                  · rw [hq, w1, e7, ← e6]; exact ⟨rfl, rfl, rfl⟩
                  · rw [w2 q hq hq1 hq2]; exact ⟨rfl, rfl, rfl⟩) }
  · have hge : rid.page_no ≥ fh.file_hdr_.num_pages := by omega
    unfold update_record fetch_page_handle at h
    simp only [hge, if_true, Except.ok.injEq, Prod.mk.injEq] at h
    rw [← h.2]; exact hinv

/-- Each call of `insert_record(buf)`, `delete_record(rid)` and
`update_record(rid, buf)` on a data page keeps the invariant. -/
theorem inv_rec_step (c : Nat) (fh fh1 : RmFileHandle) (op : RecOp)
    (hinv : FreeListInv c fh) (hop : op.in_range fh.file_hdr_) (h : rec_step fh op = .ok fh1) :
    FreeListInv c fh1 := by
  cases op with
  | insert_record buf =>
    simp only [rec_step] at h
    cases hr : fh.insert_record buf with
    | error e => rw [hr] at h; cases h
    | ok x =>
      obtain ⟨r, fh2⟩ := x
      rw [hr] at h
      simp only [Except.ok.injEq] at h
      rw [← h]; exact inv_insert_record c fh fh2 buf r hinv hr
  | delete_record rid =>
    simp only [rec_step] at h
    cases hr : fh.delete_record rid with
    | error e => rw [hr] at h; cases h
    | ok x =>
      obtain ⟨r, fh2⟩ := x
      rw [hr] at h
      simp only [Except.ok.injEq] at h
      rw [← h]; exact inv_delete_record c fh fh2 rid r hinv hop.1 hr
  | update_record rid buf =>
    simp only [rec_step] at h
    cases hr : fh.update_record rid buf with
    | error e => rw [hr] at h; cases h
    | ok x =>
      obtain ⟨r, fh2⟩ := x
      rw [hr] at h
      simp only [Except.ok.injEq] at h
      rw [← h]; exact inv_update_record c fh fh2 rid buf r hinv hop.1 hr

theorem inv_reachable (c : Nat) (fh0 fh : RmFileHandle) (h0 : FreeListInv c fh0)
    (h : RecReachable fh0 fh) : FreeListInv c fh := by
  induction h with
  | start => exact h0
  | step fh1 fh2 op _ hop hstep ih => exact inv_rec_step c fh1 fh2 op ih hop hstep

end RmFileHandle

namespace RmFileHandle

/-- A table file without data pages and with an empty free-page list has the
invariant, over a pool whose replacer tracks nothing and whose Free Frame List
holds distinct frames that carry no identity of a data page of the file. -/
theorem freeListInv_start (c : Nat) (fh0 : RmFileHandle) (hc : 1 ≤ c)
    (hcap : fh0.file_hdr_.num_records_per_page = (c : Int))
    (hlayout : fh0.file_hdr_.num_records_per_page ≤ 8 * fh0.file_hdr_.bitmap_size)
    (hnp : fh0.file_hdr_.num_pages = RM_FIRST_RECORD_PAGE)
    (hff : fh0.file_hdr_.first_free_page_no = RM_NO_PAGE)
    (hdisk : fh0.buffer_pool_manager_.disk_manager_.fd2pageno fh0.fd_ = fh0.file_hdr_.num_pages)
    (hrep : fh0.buffer_pool_manager_.replacer_.LRUlist_ = [])
    (hnodup : fh0.buffer_pool_manager_.free_list_.Nodup)
    (hids : ∀ f ∈ fh0.buffer_pool_manager_.free_list_,
      ¬ is_data_page fh0.fd_ (fh0.buffer_pool_manager_.pages_ f).id_) :
    FreeListInv c fh0 where
  pool :=
    { first := by rw [hnp]
      disk := hdisk
      rep := hrep
      free_nodup := hnodup
      free_ids := hids
      resident := by intro p hp1 hp2; rw [hnp] at hp2; omega }
  data :=
    { cap := hcap
      cap_pos := hc
      layout := by rw [← hcap]; exact hlayout
      count := by intro p hp1 hp2; rw [hnp] at hp2; omega
      padding := by intro p hp1 hp2; rw [hnp] at hp2; omega
      chain := by
        refine ⟨[], ?_, List.nodup_nil, ?_⟩
        · simp only [Chain]; exact hff
        · intro p
          rw [hnp]
          constructor
          · intro h; cases h
          · rintro ⟨a1, a2, -⟩; omega }

/-- A freshly constructed pool tracks nothing in its replacer, and its Free Frame
List holds distinct frames without a page. -/
theorem fresh_pool_ok (n : Nat) (disk : DiskManager RmPageData) (fd : Int) :
    (BufferPoolManager.init n disk).replacer_.LRUlist_ = [] ∧
      (BufferPoolManager.init n disk).free_list_.Nodup ∧
      ∀ f ∈ (BufferPoolManager.init n disk).free_list_,
        ¬ is_data_page fd ((BufferPoolManager.init n disk).pages_ f).id_ := by
  refine ⟨rfl, List.nodup_range n, ?_⟩
  intro f _ h
  have := h.2
  simp only [BufferPoolManager.init, INVALID_PAGE_ID, RM_FIRST_RECORD_PAGE] at this
  omega

/-- A list of distinct integers between `a` and `b` has at most `b - a`
entries. -/
theorem length_le_of_nodup_range (l : List Int) (a b : Int) (hn : l.Nodup)
    (h : ∀ p ∈ l, a ≤ p ∧ p < b) : l.length ≤ (b - a).toNat := by
  have hsub : l.toFinset ⊆ Finset.Ico a b := by
    intro p hp
    rw [List.mem_toFinset] at hp
    rw [Finset.mem_Ico]
    exact h p hp
  have h1 := Finset.card_le_card hsub
  rw [List.toFinset_card_of_nodup hn, Int.card_Ico] at h1
  exact h1

theorem create_page_handle_error (fh : RmFileHandle) (e : RmFault)
    (h : create_page_handle fh = .error e) : e = .null_page := by
  unfold create_page_handle at h
  split at h
  · cases hn : create_new_page_handle fh with
    | ok x => rw [hn] at h; cases h
    | error e1 =>
      rw [hn] at h
      simp only [Except.error.injEq] at h
      subst h
      unfold create_new_page_handle at hn
      cases hx : fh.buffer_pool_manager_.new_page ⟨fh.fd_, INVALID_FRAME_ID⟩ with
      | mk o rest =>
        obtain ⟨pid, s⟩ := rest
        rw [hx] at hn
        cases o with
        | none => simp only [Except.error.injEq] at hn; exact hn.symm
        | some page => cases hn
  · unfold fetch_page_handle at h
    split at h
    · cases h
    · cases hx : fh.buffer_pool_manager_.fetch_page ⟨fh.fd_, fh.file_hdr_.first_free_page_no⟩ with
      | mk o s =>
        rw [hx] at h
        cases o with
        | none => simp only [Except.error.injEq] at h; exact h.symm
        | some page => cases h

/-- In a state with the invariant, `delete_record` on a Rid that names a bit of
the bitmap of a data page ends by a return or by one of the two exceptions. -/
theorem delete_record_returns (c : Nat) (fh : RmFileHandle) (rid : Rid)
    (hinv : FreeListInv c fh) (hr : rid_in_range fh.file_hdr_ rid) :
    ∃ r fh1, delete_record fh rid = .ok (r, fh1) := by
  obtain ⟨hdata, hs0, hs1⟩ := hr
  have hbit : bit_in_range fh.file_hdr_ rid.slot_no = true := by
    simp only [bit_in_range, decide_eq_true_eq]; exact ⟨hs0, hs1⟩
  by_cases hlt : rid.page_no < fh.file_hdr_.num_pages
  · obtain ⟨g, fha, e1, -, -, e4, -⟩ := fetch_data_page c fh hinv rid.page_no hdata hlt
    cases hset : (fha.page_data g).bitmap rid.slot_no with
    | false =>
      unfold delete_record
      rw [e1]
      simp only [e4, hbit, Bitmap.is_set, hset, not_true_eq_false, if_false,
        Bool.false_eq_true, not_false_eq_true, if_true]
      exact ⟨_, _, rfl⟩
    | true =>
      obtain ⟨fh2, hdel, -⟩ := delete_record_found fh fha rid g e1 hbit hset
      exact ⟨_, _, hdel⟩
  · have hge : rid.page_no ≥ fh.file_hdr_.num_pages := by omega
    unfold delete_record fetch_page_handle
    simp only [hge, if_true]
    exact ⟨_, _, rfl⟩

/-- In a state with the invariant, `update_record` on a Rid that names a bit of
the bitmap of a data page ends by a return or by one of the two exceptions. -/
theorem update_record_returns (c : Nat) (fh : RmFileHandle) (rid : Rid) (buf : List Nat)
    (hinv : FreeListInv c fh) (hr : rid_in_range fh.file_hdr_ rid) :
    ∃ r fh1, update_record fh rid buf = .ok (r, fh1) := by
  obtain ⟨hdata, hs0, hs1⟩ := hr
  have hbit : bit_in_range fh.file_hdr_ rid.slot_no = true := by
    simp only [bit_in_range, decide_eq_true_eq]; exact ⟨hs0, hs1⟩
  by_cases hlt : rid.page_no < fh.file_hdr_.num_pages
  · obtain ⟨g, fha, e1, -, -, e4, -, e6, -⟩ := fetch_data_page c fh hinv rid.page_no hdata hlt
    cases hset : (fha.page_data g).bitmap rid.slot_no with
    | false =>
      unfold update_record
      rw [e1]
      simp only [e4, hbit, Bitmap.is_set, hset, not_true_eq_false, if_false,
        Bool.false_eq_true, not_false_eq_true, if_true]
      exact ⟨_, _, rfl⟩
    | true =>
      have hslot : slot_in_range fh.file_hdr_ rid.slot_no = true := by
        simp only [slot_in_range, decide_eq_true_eq]
        refine ⟨hs0, ?_⟩
        by_contra hge
        have hpad := hinv.data.padding rid.page_no hdata hlt rid.slot_no
          (by rw [← hinv.data.cap]; omega) hs1
        rw [e6, hpad] at hset
        cases hset
      unfold update_record
      rw [e1]
      simp only [e4, hbit, Bitmap.is_set, hset, hslot, not_true_eq_false, if_false]
      exact ⟨_, _, rfl⟩
  · have hge : rid.page_no ≥ fh.file_hdr_.num_pages := by omega
    unfold update_record fetch_page_handle
    simp only [hge, if_true]
    exact ⟨_, _, rfl⟩

/-- In a state with the invariant, `create_page_handle` returns a page when the
free-page list is not empty or the Free Frame List has a frame. -/
theorem create_page_handle_returns (c : Nat) (fh : RmFileHandle) (hinv : FreeListInv c fh)
    (h : fh.file_hdr_.first_free_page_no ≠ RM_NO_PAGE ∨
      fh.buffer_pool_manager_.free_list_ ≠ []) :
    ∃ res fha, create_page_handle fh = .ok (res, fha) := by
  by_cases hhead : fh.file_hdr_.first_free_page_no = RM_NO_PAGE
  · cases hfl : fh.buffer_pool_manager_.free_list_ with
    | nil => rcases h with h | h
             · exact absurd hhead h
             · exact absurd hfl h
    | cons f rest =>
      obtain ⟨fh1, hcn, -⟩ := create_new_page_handle_free fh f rest hfl
      unfold create_page_handle
      simp only [hhead, if_true, hcn]
      exact ⟨_, _, rfl⟩
  · obtain ⟨l, hchain, -, hmem⟩ := hinv.data.chain
    cases l with
    | nil => simp only [Chain] at hchain; exact absurd hchain hhead
    | cons p t =>
      simp only [Chain] at hchain
      have hp := (hmem p).1 (List.mem_cons_self _ _)
      rw [← hchain.1] at hp
      obtain ⟨g, fha, e1, -⟩ :=
        fetch_data_page c fh hinv fh.file_hdr_.first_free_page_no hp.1 hp.2.1
      unfold create_page_handle
      simp only [hhead, if_false]
      exact ⟨_, _, e1⟩

/-- In a state with the invariant, `insert_record(buf)` returns a Rid when the
free-page list is not empty or the Free Frame List has a frame. -/
theorem insert_record_returns (c : Nat) (fh : RmFileHandle) (buf : List Nat)
    (hinv : FreeListInv c fh)
    (h : fh.file_hdr_.first_free_page_no ≠ RM_NO_PAGE ∨
      fh.buffer_pool_manager_.free_list_ ≠ []) :
    ∃ rid fh1, insert_record fh buf = .ok (.ok rid, fh1) := by
  obtain ⟨res, fha, hcp⟩ := create_page_handle_returns c fh hinv h
  obtain ⟨page, hr, ia, -⟩ := inv_create_page_handle c fh fha res hinv hcp
  subst hr
  obtain ⟨s0, s1, -⟩ := chosen_page_has_clear_bit c fh fha page hinv hcp
  exact insert_record_progress fh fha buf page hcp
    (by rw [ia.data.cap]; exact ia.data.layout) s0 s1

/-- In a state with the invariant, `insert_record(buf)` dereferences a null page
when the free-page list is empty and the Free Frame List has no frame. -/
theorem insert_record_null_page (c : Nat) (fh : RmFileHandle) (buf : List Nat)
    (hinv : FreeListInv c fh) (h1 : fh.file_hdr_.first_free_page_no = RM_NO_PAGE)
    (h2 : fh.buffer_pool_manager_.free_list_ = []) :
    insert_record fh buf = .error .null_page := by
  have hv := BufferPoolManager.new_page_no_victim fh.buffer_pool_manager_
    ⟨fh.fd_, INVALID_FRAME_ID⟩ (BufferPoolManager.find_victim_page_none _ h2 hinv.pool.rep)
  unfold insert_record create_page_handle create_new_page_handle
  simp only [h1, if_true, hv]

/-- C21 (amended): in every file state reachable from a file with no data
pages (page count `RM_FIRST_RECORD_PAGE`, empty free-page list, capacity `c ≥ 1`
that fits the bitmap) through `insert_record(buf)`, and through `delete_record`
and `update_record` on Rids that name a bit of the bitmap of a data page
(`page_no ≥ RM_FIRST_RECORD_PAGE`, `0 ≤ slot_no < 8 * bitmap_size`), each call
ending by a return or by one of the two exceptions, over a pool that starts with
nothing tracked by the replacer and with a duplicate-free Free Frame List carrying
no data page of the file: the walk from `first_free_page_no` along
`next_free_page_no` ends within as many steps as there are data pages and yields
a duplicate-free list that holds exactly the data pages whose record count is
below the capacity; the page chosen by `create_page_handle` has a clear bit, at
an index found by `first_bit` that is at least 0 and below
`num_records_per_page`; `insert_record(buf)` never leaves the slot array or the
bitmap. In such a state `delete_record` and `update_record` on such Rids always
end by a return or an exception, `insert_record(buf)` returns a Rid when the
free-page list is not empty or the Free Frame List has a frame, and dereferences
a null page otherwise. -/
theorem C21_free_page_list_holds_pages_below_capacity (c : Nat) (fh0 fh : RmFileHandle)
    (hc : 1 ≤ c)
    (hcap : fh0.file_hdr_.num_records_per_page = (c : Int))
    (hlayout : fh0.file_hdr_.num_records_per_page ≤ 8 * fh0.file_hdr_.bitmap_size)
    (hnp : fh0.file_hdr_.num_pages = RM_FIRST_RECORD_PAGE)
    (hff : fh0.file_hdr_.first_free_page_no = RM_NO_PAGE)
    (hdisk : fh0.buffer_pool_manager_.disk_manager_.fd2pageno fh0.fd_ = fh0.file_hdr_.num_pages)
    (hrep : fh0.buffer_pool_manager_.replacer_.LRUlist_ = [])
    (hnodup : fh0.buffer_pool_manager_.free_list_.Nodup)
    (hids : ∀ f ∈ fh0.buffer_pool_manager_.free_list_,
      ¬ is_data_page fh0.fd_ (fh0.buffer_pool_manager_.pages_ f).id_)
    (hreach : RecReachable fh0 fh) :
    (∃ l, free_pages fh (fh.file_hdr_.num_pages - RM_FIRST_RECORD_PAGE).toNat
          fh.file_hdr_.first_free_page_no = some l ∧
        l.Nodup ∧
        ∀ p, p ∈ l ↔ (RM_FIRST_RECORD_PAGE ≤ p ∧ p < fh.file_hdr_.num_pages ∧
          (fh.page_of p).num_records < fh.file_hdr_.num_records_per_page)) ∧
      (∀ page fha, create_page_handle fh = .ok (.ok page, fha) →
        0 ≤ Bitmap.first_bit false (fha.page_data page).bitmap
            fha.file_hdr_.num_records_per_page ∧
          Bitmap.first_bit false (fha.page_data page).bitmap
            fha.file_hdr_.num_records_per_page < fha.file_hdr_.num_records_per_page ∧
          (fha.page_data page).bitmap (Bitmap.first_bit false (fha.page_data page).bitmap
            fha.file_hdr_.num_records_per_page) = false) ∧
      (∀ buf, insert_record fh buf ≠ .error .out_of_bounds) ∧
      (∀ rid, rid_in_range fh.file_hdr_ rid → ∃ r fh1, delete_record fh rid = .ok (r, fh1)) ∧
      (∀ rid buf, rid_in_range fh.file_hdr_ rid →
        ∃ r fh1, update_record fh rid buf = .ok (r, fh1)) ∧
      (∀ buf, (fh.file_hdr_.first_free_page_no ≠ RM_NO_PAGE ∨
          fh.buffer_pool_manager_.free_list_ ≠ []) →
        ∃ rid fh1, insert_record fh buf = .ok (.ok rid, fh1)) ∧
      (∀ buf, fh.file_hdr_.first_free_page_no = RM_NO_PAGE →
        fh.buffer_pool_manager_.free_list_ = [] →
        insert_record fh buf = .error .null_page) := by
  have hinv : FreeListInv c fh :=
    inv_reachable c fh0 fh
      (freeListInv_start c fh0 hc hcap hlayout hnp hff hdisk hrep hnodup hids) hreach
  refine ⟨?_, ?_, ?_, ?_, ?_, ?_, ?_⟩
  · obtain ⟨l, hchain, hnd, hmem⟩ := hinv.data.chain
    refine ⟨l, ?_, hnd, ?_⟩
    · apply free_pages_of_chain fh l _ _ hchain
      · intro p hp hp1
        have := ((hmem p).1 hp).1
        rw [hp1] at this
        simp only [RM_FIRST_RECORD_PAGE, RM_NO_PAGE] at this
        omega
      · apply length_le_of_nodup_range l _ _ hnd
        intro p hp
        exact ⟨((hmem p).1 hp).1, ((hmem p).1 hp).2.1⟩
    · intro p
      rw [hinv.data.cap]
      exact hmem p
  · intro page fha hcp
    exact chosen_page_has_clear_bit c fh fha page hinv hcp
  · intro buf hbad
    by_cases hfr : fh.file_hdr_.first_free_page_no ≠ RM_NO_PAGE ∨
        fh.buffer_pool_manager_.free_list_ ≠ []
    · obtain ⟨rid, fh1, hins⟩ := insert_record_returns c fh buf hinv hfr
      rw [hins] at hbad
      cases hbad
    · simp only [not_or, not_not] at hfr
      rw [insert_record_null_page c fh buf hinv hfr.1 hfr.2] at hbad
      cases hbad
  · intro rid hr
    exact delete_record_returns c fh rid hinv hr
  · intro rid buf hr
    exact update_record_returns c fh rid buf hinv hr
  · intro buf hfr
    exact insert_record_returns c fh buf hinv hfr
  · intro buf h1 h2
    exact insert_record_null_page c fh buf hinv h1 h2

/-- Witness for C21: `demoTinyFile` (capacity 1, no data pages, fresh pool of two
frames) after `insert_record` of the bytes 1, 2 and `delete_record` of the Rid
(1, 0). The walk of the free-page list yields the data page 1, which holds no
record, and an insertion stays inside the slot array. -/
theorem C21_free_page_list_holds_pages_below_capacity_witness :
    RecReachable demoTinyFile demoTinyFile1Deleted ∧
      free_pages demoTinyFile1Deleted 1 demoTinyFile1Deleted.file_hdr_.first_free_page_no
        = some [1] ∧
      (∃ l, free_pages demoTinyFile1Deleted
            (demoTinyFile1Deleted.file_hdr_.num_pages - RM_FIRST_RECORD_PAGE).toNat
            demoTinyFile1Deleted.file_hdr_.first_free_page_no = some l ∧
          l.Nodup ∧
          ∀ p, p ∈ l ↔ (RM_FIRST_RECORD_PAGE ≤ p ∧ p < demoTinyFile1Deleted.file_hdr_.num_pages ∧
            (demoTinyFile1Deleted.page_of p).num_records
              < demoTinyFile1Deleted.file_hdr_.num_records_per_page)) ∧
      (∀ buf, insert_record demoTinyFile1Deleted buf ≠ .error .out_of_bounds) ∧
      ∀ buf, ∃ rid fh1, insert_record demoTinyFile1Deleted buf = .ok (.ok rid, fh1) := by
  have hreach : RecReachable demoTinyFile demoTinyFile1Deleted :=
    RecReachable.step demoTinyFile1 demoTinyFile1Deleted (.delete_record ⟨1, 0⟩)
      (RecReachable.step demoTinyFile demoTinyFile1 (.insert_record [1, 2])
        RecReachable.start trivial (by rfl))
      (by simp only [RecOp.in_range, rid_in_range, RM_FIRST_RECORD_PAGE]; decide) (by rfl)
  obtain ⟨h1, -, h3, -, -, h6, -⟩ :=
    C21_free_page_list_holds_pages_below_capacity 1 demoTinyFile demoTinyFile1Deleted
      (by decide) (by rfl) (by decide) (by rfl) (by rfl) (by rfl) (by rfl)
      (List.nodup_range 2) (fresh_pool_ok 2 demoRmDisk 3).2.2 hreach
  exact ⟨hreach, by rfl, h1, h3, fun buf => h6 buf (Or.inl (by decide))⟩

/-- C21 (counterexample to the claim as stated): the file `demoHdrFile` has no
data pages and an empty free-page list. `delete_record` of the Rid (0, 0), which
names the header page, returns: `fetch_page_handle` only tests
`page_no >= num_pages`. Afterwards `first_free_page_no` is 0, so the chain from
`first_free_page_no` is the list [0] and holds the header page, which is not a
data page; the walk bounded by the number of data pages does not end; and the
next `insert_record(buf)` returns the Rid (0, 0), a slot of the header page. -/
theorem C21_header_page_enters_free_list :
    demoHdrFile.file_hdr_.num_pages = RM_FIRST_RECORD_PAGE ∧
      demoHdrFile.file_hdr_.first_free_page_no = RM_NO_PAGE ∧
      demoHdrFile.delete_record ⟨0, 0⟩ = .ok (.ok (), demoHdrFileDeleted) ∧
      demoHdrFileDeleted.file_hdr_.num_pages = RM_FIRST_RECORD_PAGE ∧
      demoHdrFileDeleted.file_hdr_.first_free_page_no = 0 ∧
      free_pages demoHdrFileDeleted 1 demoHdrFileDeleted.file_hdr_.first_free_page_no
        = some [0] ∧
      free_pages demoHdrFileDeleted
        (demoHdrFileDeleted.file_hdr_.num_pages - RM_FIRST_RECORD_PAGE).toNat
        demoHdrFileDeleted.file_hdr_.first_free_page_no = none ∧
      ¬ (RM_FIRST_RECORD_PAGE ≤ (0 : Int)) ∧
      (demoHdrFileDeleted.insert_record [1, 2]).map Prod.fst = .ok (.ok ⟨0, 0⟩) :=
  ⟨by rfl, by rfl, by rfl, by rfl, by rfl, by rfl, by rfl, by decide, by rfl⟩

end RmFileHandle

/-! ## Bitmap and record count: calls within the bitmap and the slot array -/

namespace BufferPoolManager

variable {D : Type}

theorem find_victim_page_max_size (s : BufferPoolManager D) :
    (find_victim_page s).2.replacer_.max_size_ = s.replacer_.max_size_ := by
  unfold find_victim_page
  split
  · rfl
  · exact LRUReplacer.victim_max_size _

theorem fetch_page_max_size [Inhabited D] (s : BufferPoolManager D) (pid : PageId) :
    (fetch_page s pid).2.replacer_.max_size_ = s.replacer_.max_size_ := by
  unfold fetch_page
  cases hpt : s.page_table_ pid with
  | some f => exact LRUReplacer.pin_max_size _ _
  | none =>
    have hv := find_victim_page_max_size s
    cases hx : find_victim_page s with
    | mk o s1 =>
      rw [hx] at hv
      cases o with
      | none => rfl
      | some f =>
        show ((update_page s1 f pid f).replacer_.pin f).max_size_ = s.replacer_.max_size_
        rw [LRUReplacer.pin_max_size]
        exact hv

theorem new_page_max_size [Inhabited D] (s : BufferPoolManager D) (pid : PageId) :
    (new_page s pid).2.2.replacer_.max_size_ = s.replacer_.max_size_ := by
  unfold new_page
  have hv := find_victim_page_max_size s
  cases hx : find_victim_page s with
  | mk o s1 =>
    rw [hx] at hv
    cases o with
    | none => rfl
    | some f =>
      show ((update_page { s1 with disk_manager_ := (s1.disk_manager_.allocate_page pid.fd).2 }
        f { pid with page_no := (s1.disk_manager_.allocate_page pid.fd).1 } f).replacer_.pin
          f).max_size_ = s.replacer_.max_size_
      rw [LRUReplacer.pin_max_size]
      exact hv

/-- With a replacer of capacity at least 1, `unpin_page` returns. -/
theorem unpin_page_isSome (s : BufferPoolManager D) (pid : PageId) (d : Bool)
    (hm : 0 < s.replacer_.max_size_) : ∃ b s1, unpin_page s pid d = some (b, s1) := by
  cases hpt : s.page_table_ pid with
  | none => exact ⟨_, _, unpin_page_not_resident s pid d hpt⟩
  | some f =>
    by_cases hp : (s.pages_ f).pin_count_ ≤ 0
    · exact ⟨_, _, unpin_page_pin_zero s pid d f hpt hp⟩
    · obtain ⟨rep, -, h2⟩ := unpin_page_pinned s pid d f hpt (by omega) hm
      exact ⟨_, _, h2⟩

theorem unpin_page_ne_none (s : BufferPoolManager D) (pid : PageId) (d : Bool)
    (hm : 0 < s.replacer_.max_size_) : unpin_page s pid d ≠ none := by
  obtain ⟨b, s1, h⟩ := unpin_page_isSome s pid d hm
  rw [h]
  exact Option.some_ne_none _

end BufferPoolManager

namespace Bitmap

theorem first_bit_nonneg_of_lt (bit : Bool) (bm : Int → Bool) (max_n : Int)
    (h : first_bit bit bm max_n < max_n) : 0 ≤ first_bit bit bm max_n := by
  unfold first_bit next_bit at h ⊢
  split
  · omega
  · rename_i hnone
    rw [hnone] at h
    simp only at h
    omega

end Bitmap

namespace RmFileHandle

/-- What `fetch_page_handle` keeps: the file header and the capacity of the
replacer. -/
theorem fetch_page_handle_keeps (fh fh1 : RmFileHandle) (page_no : Int) (res : RmResult Nat)
    (h : fetch_page_handle fh page_no = .ok (res, fh1)) :
    fh1.file_hdr_ = fh.file_hdr_ ∧
      fh1.buffer_pool_manager_.replacer_.max_size_
        = fh.buffer_pool_manager_.replacer_.max_size_ := by
  unfold fetch_page_handle at h
  split at h
  · simp only [Except.ok.injEq, Prod.mk.injEq] at h
    rw [← h.2]; exact ⟨rfl, rfl⟩
  · have hm := BufferPoolManager.fetch_page_max_size fh.buffer_pool_manager_ ⟨fh.fd_, page_no⟩
    cases hx : fh.buffer_pool_manager_.fetch_page ⟨fh.fd_, page_no⟩ with
    | mk o s =>
      rw [hx] at h hm
      cases o with
      | none => cases h
      | some page =>
        simp only [Except.ok.injEq, Prod.mk.injEq] at h
        rw [← h.2]; exact ⟨rfl, hm⟩

/-- What `create_new_page_handle` keeps: the capacity of a page, the size of the
bitmap and the capacity of the replacer. -/
theorem create_new_page_handle_keeps (fh fh1 : RmFileHandle) (page : Nat)
    (h : create_new_page_handle fh = .ok (page, fh1)) :
    fh1.file_hdr_.num_records_per_page = fh.file_hdr_.num_records_per_page ∧
      fh1.file_hdr_.bitmap_size = fh.file_hdr_.bitmap_size ∧
      fh1.buffer_pool_manager_.replacer_.max_size_
        = fh.buffer_pool_manager_.replacer_.max_size_ := by
  unfold create_new_page_handle at h
  have hm := BufferPoolManager.new_page_max_size fh.buffer_pool_manager_
    ⟨fh.fd_, INVALID_FRAME_ID⟩
  cases hx : fh.buffer_pool_manager_.new_page ⟨fh.fd_, INVALID_FRAME_ID⟩ with
  | mk o rest =>
    obtain ⟨pid, s⟩ := rest
    rw [hx] at h hm
    cases o with
    | none => cases h
    | some f =>
      simp only [Except.ok.injEq, Prod.mk.injEq] at h
      rw [← h.2]; exact ⟨rfl, rfl, hm⟩

theorem create_page_handle_keeps (fh fh1 : RmFileHandle) (res : RmResult Nat)
    (h : create_page_handle fh = .ok (res, fh1)) :
    fh1.file_hdr_.num_records_per_page = fh.file_hdr_.num_records_per_page ∧
      fh1.file_hdr_.bitmap_size = fh.file_hdr_.bitmap_size ∧
      fh1.buffer_pool_manager_.replacer_.max_size_
        = fh.buffer_pool_manager_.replacer_.max_size_ := by
  unfold create_page_handle at h
  split at h
  · cases hc : create_new_page_handle fh with
    | error e => rw [hc] at h; cases h
    | ok x =>
      obtain ⟨page, fh2⟩ := x
      rw [hc] at h
      simp only [Except.ok.injEq, Prod.mk.injEq] at h
      rw [← h.2]; exact create_new_page_handle_keeps fh fh2 page hc
  · obtain ⟨a, b⟩ := fetch_page_handle_keeps fh fh1 _ res h
    exact ⟨by rw [a], by rw [a], b⟩

theorem insert_record_rid_fetch_keeps (fh fh1 : RmFileHandle) (rid : Rid) (res : RmResult Nat)
    (h : insert_record_rid_fetch fh rid = .ok (res, fh1)) :
    fh1.file_hdr_.num_records_per_page = fh.file_hdr_.num_records_per_page ∧
      fh1.file_hdr_.bitmap_size = fh.file_hdr_.bitmap_size ∧
      fh1.buffer_pool_manager_.replacer_.max_size_
        = fh.buffer_pool_manager_.replacer_.max_size_ := by
  unfold insert_record_rid_fetch at h
  simp only at h
  by_cases hlt : rid.page_no < fh.file_hdr_.num_pages
  · simp only [hlt, if_true] at h
    cases hc : create_new_page_handle fh with
    | error e => rw [hc] at h; cases h
    | ok x =>
      obtain ⟨page, fh2⟩ := x
      rw [hc] at h
      simp only at h
      obtain ⟨a, b⟩ := fetch_page_handle_keeps fh2 fh1 _ res h
      obtain ⟨c1, c2, c3⟩ := create_new_page_handle_keeps fh fh2 page hc
      exact ⟨by rw [a, c1], by rw [a, c2], by rw [b, c3]⟩
  · simp only [hlt, if_false] at h
    obtain ⟨a, b⟩ := fetch_page_handle_keeps fh fh1 _ res h
    exact ⟨by rw [a], by rw [a], b⟩

/-- Once `create_page_handle` has delivered a page with a clear bit below the
capacity, `insert_record(buf)` returns. -/
theorem insert_record_returns_of_free_slot (fh fha : RmFileHandle) (buf : List Nat)
    (res : RmResult Nat) (hc : create_page_handle fh = .ok (res, fha))
    (hlayout : fh.file_hdr_.num_records_per_page ≤ 8 * fh.file_hdr_.bitmap_size)
    (hfree : ∀ page, res = .ok page →
      Bitmap.first_bit false (fha.page_data page).bitmap fha.file_hdr_.num_records_per_page
        < fha.file_hdr_.num_records_per_page) :
    ∃ r fh1, insert_record fh buf = .ok (r, fh1) := by
  obtain ⟨k1, k2, -⟩ := create_page_handle_keeps fh fha res hc
  cases res with
  | ok page =>
    obtain ⟨rid, fh1, h⟩ := insert_record_progress fh fha buf page hc (by rw [k1, k2]; exact hlayout)
      (Bitmap.first_bit_nonneg_of_lt _ _ _ (hfree page rfl)) (hfree page rfl)
    exact ⟨_, _, h⟩
  | PageNotExistError p => unfold insert_record; rw [hc]; exact ⟨_, _, rfl⟩
  | RecordNotFoundError p s => unfold insert_record; rw [hc]; exact ⟨_, _, rfl⟩

/-- Once `fetch_page_handle` has delivered the page, `delete_record` on a slot
number within the bitmap returns or throws one of the two exceptions. -/
theorem delete_record_returns_of_fetch (fh fha : RmFileHandle) (rid : Rid) (res : RmResult Nat)
    (hf : fetch_page_handle fh rid.page_no = .ok (res, fha))
    (hs0 : 0 ≤ rid.slot_no) (hs1 : rid.slot_no < 8 * fh.file_hdr_.bitmap_size) :
    ∃ r fh1, delete_record fh rid = .ok (r, fh1) := by
  have hbit : bit_in_range fh.file_hdr_ rid.slot_no = true := by
    simp only [bit_in_range, decide_eq_true_eq]; exact ⟨hs0, hs1⟩
  obtain ⟨k1, -⟩ := fetch_page_handle_keeps fh fha _ res hf
  cases res with
  | ok page =>
    cases hset : (fha.page_data page).bitmap rid.slot_no with
    | false =>
      unfold delete_record
      rw [hf]
      simp only [k1, hbit, Bitmap.is_set, hset, not_true_eq_false, if_false,
        Bool.false_eq_true, not_false_eq_true, if_true]
      exact ⟨_, _, rfl⟩
    | true =>
      obtain ⟨fh2, hdel, -⟩ := delete_record_found fh fha rid page hf hbit hset
      exact ⟨_, _, hdel⟩
  | PageNotExistError p => unfold delete_record; rw [hf]; exact ⟨_, _, rfl⟩
  | RecordNotFoundError p s => unfold delete_record; rw [hf]; exact ⟨_, _, rfl⟩

/-- Once `fetch_page_handle` has delivered the page, `update_record` on a slot
number below the capacity returns or throws one of the two exceptions. -/
theorem update_record_returns_of_fetch (fh fha : RmFileHandle) (rid : Rid) (buf : List Nat)
    (res : RmResult Nat)
    (hf : fetch_page_handle fh rid.page_no = .ok (res, fha))
    (hlayout : fh.file_hdr_.num_records_per_page ≤ 8 * fh.file_hdr_.bitmap_size)
    (hs0 : 0 ≤ rid.slot_no) (hs1 : rid.slot_no < fh.file_hdr_.num_records_per_page) :
    ∃ r fh1, update_record fh rid buf = .ok (r, fh1) := by
  have hbit : bit_in_range fh.file_hdr_ rid.slot_no = true := by
    simp only [bit_in_range, decide_eq_true_eq]; exact ⟨hs0, by omega⟩
  have hslot : slot_in_range fh.file_hdr_ rid.slot_no = true := by
    simp only [slot_in_range, decide_eq_true_eq]; exact ⟨hs0, hs1⟩
  obtain ⟨k1, -⟩ := fetch_page_handle_keeps fh fha _ res hf
  cases res with
  | ok page =>
    unfold update_record
    rw [hf]
    simp only [k1, hbit, hslot, not_true_eq_false, if_false]
    split
    · exact ⟨_, _, rfl⟩
    · exact ⟨_, _, rfl⟩
  | PageNotExistError p => unfold update_record; rw [hf]; exact ⟨_, _, rfl⟩
  | RecordNotFoundError p s => unfold update_record; rw [hf]; exact ⟨_, _, rfl⟩

/-- Once the page of `rid` has been delivered, the placement form of
`insert_record` on a slot number below the capacity returns or throws
`PageNotExistError`, when the replacer has a capacity of at least 1. -/
theorem insert_record_rid_returns_of_fetch (fh fha : RmFileHandle) (rid : Rid) (buf : List Nat)
    (res : RmResult Nat)
    (hf : insert_record_rid_fetch fh rid = .ok (res, fha))
    (hlayout : fh.file_hdr_.num_records_per_page ≤ 8 * fh.file_hdr_.bitmap_size)
    (hm : 0 < fh.buffer_pool_manager_.replacer_.max_size_)
    (hs0 : 0 ≤ rid.slot_no) (hs1 : rid.slot_no < fh.file_hdr_.num_records_per_page) :
    ∃ r fh1, insert_record_rid fh rid buf = .ok (r, fh1) := by
  obtain ⟨k1, k2, k3⟩ := insert_record_rid_fetch_keeps fh fha rid res hf
  have hbit : bit_in_range fha.file_hdr_ rid.slot_no = true := by
    simp only [bit_in_range, decide_eq_true_eq]; rw [k2]; exact ⟨hs0, by omega⟩
  have hslot : decide (0 ≤ rid.slot_no ∧ rid.slot_no < fha.file_hdr_.num_records_per_page)
      = true := by
    simp only [decide_eq_true_eq]; rw [k1]; exact ⟨hs0, hs1⟩
  cases res with
  | ok page =>
    unfold insert_record_rid
    rw [hf]
    simp only [hbit, not_true_eq_false, if_false, set_page_data, page_data, slot_in_range]
    split
    · simp only [hslot, not_true_eq_false, if_false]
      split
      · rename_i hnone
        refine absurd hnone (BufferPoolManager.unpin_page_ne_none _ _ _ ?_)
        show 0 < fha.buffer_pool_manager_.replacer_.max_size_
        rw [k3]; exact hm
      · exact ⟨_, _, rfl⟩
    · simp only [hslot, not_true_eq_false, if_false]
      split
      · rename_i hnone
        refine absurd hnone (BufferPoolManager.unpin_page_ne_none _ _ _ ?_)
        show 0 < fha.buffer_pool_manager_.replacer_.max_size_
        rw [k3]; exact hm
      · exact ⟨_, _, rfl⟩
  | PageNotExistError p => unfold insert_record_rid; rw [hf]; exact ⟨_, _, rfl⟩
  | RecordNotFoundError p s => unfold insert_record_rid; rw [hf]; exact ⟨_, _, rfl⟩

theorem fetch_page_handle_error (fh : RmFileHandle) (page_no : Int) (e : RmFault)
    (h : fetch_page_handle fh page_no = .error e) : e = .null_page := by
  unfold fetch_page_handle at h
  split at h
  · cases h
  · cases hx : fh.buffer_pool_manager_.fetch_page ⟨fh.fd_, page_no⟩ with
    | mk o s =>
      rw [hx] at h
      cases o with
      | none => simp only [Except.error.injEq] at h; exact h.symm
      | some page => cases h

theorem create_new_page_handle_error (fh : RmFileHandle) (e : RmFault)
    (h : create_new_page_handle fh = .error e) : e = .null_page := by
  unfold create_new_page_handle at h
  cases hx : fh.buffer_pool_manager_.new_page ⟨fh.fd_, INVALID_FRAME_ID⟩ with
  | mk o rest =>
    obtain ⟨pid, s⟩ := rest
    rw [hx] at h
    cases o with
    | none => simp only [Except.error.injEq] at h; exact h.symm
    | some page => cases h

theorem insert_record_rid_fetch_error (fh : RmFileHandle) (rid : Rid) (e : RmFault)
    (h : insert_record_rid_fetch fh rid = .error e) : e = .null_page := by
  unfold insert_record_rid_fetch at h
  simp only at h
  by_cases hlt : rid.page_no < fh.file_hdr_.num_pages
  · simp only [hlt, if_true] at h
    cases hc : create_new_page_handle fh with
    | error e1 =>
      rw [hc] at h
      simp only [Except.error.injEq] at h
      rw [← h]; exact create_new_page_handle_error fh e1 hc
    | ok x =>
      obtain ⟨page, fh2⟩ := x
      rw [hc] at h
      exact fetch_page_handle_error fh2 _ e h
  · simp only [hlt, if_false] at h
    exact fetch_page_handle_error fh _ e h

/-- C4 (amended): let every data page of the file, as buffered or as stored on
disk, have as many set bits in its slot bitmap as its header counts records, and
let the capacity of a page fit the bitmap. Whenever the pool delivers the page
that the call asks for, the call returns (or throws `PageNotExistError` or
`RecordNotFoundError`) and the equality holds afterwards: for
`insert_record(buf)` when the page it obtains has a clear bit below
`num_records_per_page`; for `delete_record` when
`0 ≤ rid.slot_no < 8 * bitmap_size`; for `update_record` when
`0 ≤ rid.slot_no < num_records_per_page`; for the placement form
`insert_record(rid, buf)` when `0 ≤ rid.slot_no < num_records_per_page`, the bit
of `rid.slot_no` is clear in the page the call has fetched and the replacer has
a capacity of at least 1. A page made by `create_new_page_handle` has record
count 0 and a zero bitmap. The page is not delivered only when the pool returns
a null page. -/
theorem C4_bitmap_count_preserved (fh : RmFileHandle) (hg : PagesGood fh)
    (hlayout : fh.file_hdr_.num_records_per_page ≤ 8 * fh.file_hdr_.bitmap_size) :
    (∀ buf res fha, create_page_handle fh = .ok (res, fha) →
      (∀ page, res = .ok page →
        Bitmap.first_bit false (fha.page_data page).bitmap fha.file_hdr_.num_records_per_page
          < fha.file_hdr_.num_records_per_page) →
      ∃ r fh1, insert_record fh buf = .ok (r, fh1) ∧ PagesGood fh1) ∧
    (∀ rid res fha, fetch_page_handle fh rid.page_no = .ok (res, fha) →
      0 ≤ rid.slot_no → rid.slot_no < 8 * fh.file_hdr_.bitmap_size →
      ∃ r fh1, delete_record fh rid = .ok (r, fh1) ∧ PagesGood fh1) ∧
    (∀ rid buf res fha, fetch_page_handle fh rid.page_no = .ok (res, fha) →
      0 ≤ rid.slot_no → rid.slot_no < fh.file_hdr_.num_records_per_page →
      ∃ r fh1, update_record fh rid buf = .ok (r, fh1) ∧ PagesGood fh1) ∧
    (∀ rid buf res fha, insert_record_rid_fetch fh rid = .ok (res, fha) →
      0 < fh.buffer_pool_manager_.replacer_.max_size_ →
      0 ≤ rid.slot_no → rid.slot_no < fh.file_hdr_.num_records_per_page →
      (∀ page, res = .ok page → (fha.page_data page).bitmap rid.slot_no = false) →
      ∃ r fh1, insert_record_rid fh rid buf = .ok (r, fh1) ∧ PagesGood fh1) ∧
    (∀ page fh1, create_new_page_handle fh = .ok (page, fh1) →
      (fh1.page_data page).num_records = 0 ∧
      (∀ i, 0 ≤ i → i < 8 * fh.file_hdr_.bitmap_size → (fh1.page_data page).bitmap i = false) ∧
      PagesGood fh1) ∧
    (∀ e, create_new_page_handle fh = .error e → e = .null_page) ∧
    (∀ e, create_page_handle fh = .error e → e = .null_page) ∧
    (∀ page_no e, fetch_page_handle fh page_no = .error e → e = .null_page) ∧
    (∀ rid e, insert_record_rid_fetch fh rid = .error e → e = .null_page) := by
  refine ⟨?_, ?_, ?_, ?_, ?_, ?_, ?_, ?_, ?_⟩
  · intro buf res fha hc hfree
    obtain ⟨r, fh1, h⟩ := insert_record_returns_of_free_slot fh fha buf res hc hlayout hfree
    exact ⟨r, fh1, h, pagesGood_insert_record fh fh1 buf r hg h⟩
  · intro rid res fha hf hs0 hs1
    obtain ⟨r, fh1, h⟩ := delete_record_returns_of_fetch fh fha rid res hf hs0 hs1
    exact ⟨r, fh1, h, pagesGood_delete_record fh fh1 rid r hg h⟩
  · intro rid buf res fha hf hs0 hs1
    obtain ⟨r, fh1, h⟩ := update_record_returns_of_fetch fh fha rid buf res hf hlayout hs0 hs1
    exact ⟨r, fh1, h, pagesGood_update_record fh fh1 rid buf r hg h⟩
  · intro rid buf res fha hf hm hs0 hs1 hclear
    obtain ⟨r, fh1, h⟩ :=
      insert_record_rid_returns_of_fetch fh fha rid buf res hf hlayout hm hs0 hs1
    refine ⟨r, fh1, h, pagesGood_insert_record_rid fh fh1 rid buf r hg h ?_⟩
    intro page fhb hfb
    rw [hf] at hfb
    simp only [Except.ok.injEq, Prod.mk.injEq] at hfb
    rw [← hfb.2]
    exact hclear page hfb.1
  · intro page fh1 h
    obtain ⟨_, _, _, _, h5, _, h7⟩ := create_new_page_handle_ok fh fh1 page h
    obtain ⟨g1, g2, g3⟩ := good_create_new_page_handle fh.file_hdr_ fh.fd_ fh fh1 page hg rfl h
    exact ⟨h5, h7, pagesGood_of_good fh fh1 g1 g2 g3⟩
  · intro e h
    exact create_new_page_handle_error fh e h
  · intro e h
    exact create_page_handle_error fh e h
  · intro page_no e h
    exact fetch_page_handle_error fh page_no e h
  · intro rid e h
    exact insert_record_rid_fetch_error fh rid e h

/-- Witness for C4: in the file `demoFile1`, whose data page 1 holds one record in
slot 0 and satisfies the equality, `insert_record` of the bytes 3, 4 and
`delete_record` of the Rid (1, 0) return and leave the equality in place. -/
theorem C4_bitmap_count_preserved_witness :
    PagesGood demoFile1 ∧
      (∃ r fh1, insert_record demoFile1 [3, 4] = .ok (r, fh1) ∧ PagesGood fh1) ∧
      (∃ r fh1, delete_record demoFile1 ⟨1, 0⟩ = .ok (r, fh1) ∧ PagesGood fh1) := by
  have h := C4_bitmap_count_preserved demoFile1 pagesGood_demoFile1 (by decide)
  refine ⟨pagesGood_demoFile1, ?_, ?_⟩
  · exact h.1 [3, 4] (.ok 0) demoFile1Fetched (by rfl) (by
      intro page hp
      simp only [RmResult.ok.injEq] at hp
      subst hp
      decide)
  · exact h.2.1 ⟨1, 0⟩ (.ok 0) demoFile1Fetched (by rfl) (by decide) (by decide)

end RmFileHandle

/-! ## A scan over a pool with a frame for every data page -/

namespace BufferPoolManager

variable {D : Type}

/-- A fetch finds a frame when the page is resident or the Free Frame List is not
empty, and takes at most one frame from the list, none for a resident page. -/
theorem fetch_page_free [Inhabited D] (s : BufferPoolManager D) (q : PageId) (n : Int)
    (hn : 0 ≤ n)
    (h : n + 1 ≤ (s.free_list_.length : Int) ∨
      ((s.page_table_ q).isSome = true ∧ n ≤ (s.free_list_.length : Int))) :
    ∃ f s1, fetch_page s q = (some f, s1) ∧ n ≤ (s1.free_list_.length : Int) := by
  cases hpt : s.page_table_ q with
  | some g =>
    refine ⟨_, _, fetch_page_resident s q g hpt, ?_⟩
    simp only [set_page]
    rcases h with h | h
    · omega
    · exact h.2
  | none =>
    rw [hpt] at h
    simp only [Option.isSome_none, Bool.false_eq_true, false_and, or_false] at h
    cases hfl : s.free_list_ with
    | nil => rw [hfl] at h; simp only [List.length_nil, Nat.cast_zero] at h; omega
    | cons f rest =>
      rw [hfl] at h
      simp only [List.length_cons, Nat.cast_add, Nat.cast_one] at h
      unfold fetch_page
      simp only [hpt, find_victim_page, hfl]
      refine ⟨_, _, rfl, ?_⟩
      simp only [set_page, update_page]
      omega

end BufferPoolManager

namespace RmScan

/-- With a frame for every page still to fetch, the loop of `next()` never meets
a null page, and it leaves a frame for every page still to fetch from the Rid it
lands on. -/
theorem next_loop_frames (k : Nat) :
    ∀ (fh : RmFileHandle) (p s : Int) (fuel : Nat), Frames fh p →
      p + (k : Int) + 1 = fh.file_hdr_.num_pages → k + 1 ≤ fuel →
      next_loop fuel fh ⟨p, s⟩ ≠ .error .null_page ∧
        ∀ r fh1, next_loop fuel fh ⟨p, s⟩ = .ok (.ok r, fh1) →
          r.page_no = RM_NO_PAGE ∨ Frames fh1 r.page_no := by
  induction k with
  | zero =>
    intro fh p s fuel hfr hk hfuel
    obtain ⟨fuel1, rfl⟩ : ∃ m, fuel = m + 1 := ⟨fuel - 1, by omega⟩
    have hlt : p < fh.file_hdr_.num_pages := by omega
    have hnge : ¬ (p ≥ fh.file_hdr_.num_pages) := by omega
    obtain ⟨f, s1, hf, hlen⟩ := BufferPoolManager.fetch_page_free fh.buffer_pool_manager_
      ⟨fh.fd_, p⟩ 0 (Int.le_refl _) (by
        unfold Frames at hfr
        rcases hfr with h | h
        · left; omega
        · right; exact ⟨h.1, by omega⟩)
    have htab := BufferPoolManager.fetch_page_table _ _ _ _ hf
    unfold next_loop
    simp only [hlt, if_true, RmFileHandle.fetch_page_handle, hnge, if_false, hf]
    split
    · exact ⟨by simp, by intro r fh1 h; cases h⟩
    · split
      · refine ⟨by simp, ?_⟩
        intro r fh1 h
        simp only [Except.ok.injEq, Prod.mk.injEq, RmResult.ok.injEq] at h
        obtain ⟨h1, h2⟩ := h
        subst h1 h2
        right; right
        simp only [htab, Option.isSome_some, true_and]
        omega
      · have hge : p + 1 ≥ fh.file_hdr_.num_pages := by omega
        simp only [hge, if_true]
        refine ⟨by simp, ?_⟩
        intro r fh1 h
        simp only [Except.ok.injEq, Prod.mk.injEq, RmResult.ok.injEq] at h
        left; rw [← h.1]
  | succ k ih =>
    intro fh p s fuel hfr hk hfuel
    obtain ⟨fuel1, rfl⟩ : ∃ m, fuel = m + 1 := ⟨fuel - 1, by omega⟩
    have hlt : p < fh.file_hdr_.num_pages := by omega
    have hnge : ¬ (p ≥ fh.file_hdr_.num_pages) := by omega
    obtain ⟨f, s1, hf, hlen⟩ := BufferPoolManager.fetch_page_free fh.buffer_pool_manager_
      ⟨fh.fd_, p⟩ ((k : Int) + 1) (by omega) (by
        unfold Frames at hfr
        push_cast at hk
        rcases hfr with h | h
        · left; omega
        · right; exact ⟨h.1, by omega⟩)
    have htab := BufferPoolManager.fetch_page_table _ _ _ _ hf
    unfold next_loop
    simp only [hlt, if_true, RmFileHandle.fetch_page_handle, hnge, if_false, hf]
    split
    · exact ⟨by simp, by intro r fh1 h; cases h⟩
    · split
      · refine ⟨by simp, ?_⟩
        intro r fh1 h
        simp only [Except.ok.injEq, Prod.mk.injEq, RmResult.ok.injEq] at h
        obtain ⟨h1, h2⟩ := h
        subst h1 h2
        right; right
        simp only [htab, Option.isSome_some, true_and]
        push_cast at hk
        omega
      · have hge : ¬ (p + 1 ≥ fh.file_hdr_.num_pages) := by push_cast at hk; omega
        simp only [hge, if_false]
        exact ih _ (p + 1) (-1) fuel1 (by
          left
          show fh.file_hdr_.num_pages - (p + 1) ≤ (s1.free_list_.length : Int)
          push_cast at hk; omega) (by push_cast at hk; simp only; omega) (by omega)

/-- The same for a call of `next()`. -/
theorem next_frames (sc : RmScan) (k : Nat) (p s : Int) (hrid : sc.rid_ = ⟨p, s⟩)
    (hfr : Frames sc.file_handle_ p)
    (hk : p + (k : Int) + 1 = sc.file_handle_.file_hdr_.num_pages) :
    next sc ≠ .error .null_page ∧
      ∀ sc1, next sc = .ok (.ok (), sc1) →
        sc1.rid_.page_no = RM_NO_PAGE ∨ Frames sc1.file_handle_ sc1.rid_.page_no := by
  have hfuel : (sc.file_handle_.file_hdr_.num_pages - sc.rid_.page_no).toNat = k + 1 := by
    rw [hrid]; simp only; omega
  obtain ⟨h1, h2⟩ := next_loop_frames k sc.file_handle_ p s (k + 1) hfr hk (Nat.le_refl _)
  unfold next
  rw [hfuel, hrid]
  cases hx : next_loop (k + 1) sc.file_handle_ ⟨p, s⟩ with
  | error e =>
    refine ⟨?_, by intro sc1 h; cases h⟩
    intro h
    simp only [Except.error.injEq] at h
    rw [hx, h] at h1
    exact h1 rfl
  | ok x =>
    obtain ⟨res, fh1⟩ := x
    cases res with
    | ok r =>
      refine ⟨by simp, ?_⟩
      intro sc1 h
      simp only [Except.ok.injEq, Prod.mk.injEq, true_and] at h
      rw [← h]
      exact h2 r fh1 hx
    | PageNotExistError q => exact ⟨by simp, by intro sc1 h; simp at h⟩
    | RecordNotFoundError q t => exact ⟨by simp, by intro sc1 h; simp at h⟩

/-- The caller's loop from a scan positioned on the Rid `(p, s)`, over a pool with
a frame for every page still to fetch: it reads `(p, s)` and then what is left to
scan. -/
theorem collect_frames (fh0 : RmFileHandle)
    (hlayout : fh0.file_hdr_.num_records_per_page ≤ 8 * fh0.file_hdr_.bitmap_size)
    (tl : List Rid) :
    ∀ (sc : RmScan) (k : Nat) (p s : Int) (fuel : Nat), Sound fh0 sc.file_handle_ →
      Frames sc.file_handle_ p →
      sc.rid_ = ⟨p, s⟩ → RM_FIRST_RECORD_PAGE ≤ p → -1 ≤ s →
      p + (k : Int) + 1 = fh0.file_hdr_.num_pages → rest fh0 k p s = tl →
      tl.length + 2 ≤ fuel →
      collect fuel sc = .ok (⟨p, s⟩ :: tl) := by
  induction tl with
  | nil =>
    intro sc k p s fuel hs hfr hrid hp hsl hk hrest hfuel
    obtain ⟨fuel1, rfl⟩ : ∃ m, fuel = m + 1 := ⟨fuel - 1, by omega⟩
    obtain ⟨fuel2, rfl⟩ : ∃ m, fuel1 = m + 1 := ⟨fuel1 - 1, by simp at hfuel; omega⟩
    have hne : sc.is_end = false := by
      simp only [is_end, hrid, RM_NO_PAGE, beq_eq_false_iff_ne, ne_eq]
      simp only [RM_FIRST_RECORD_PAGE] at hp
      omega
    obtain ⟨n1, -⟩ := next_frames sc k p s hrid hfr (by rw [hs.hdr]; exact hk)
    rcases next_spec fh0 hlayout sc k p s hs hrid hp hsl hk with h | ⟨fh1, h1, h2⟩
    · exact absurd h n1
    · unfold collect
      simp only [hne, h2, hrest, Bool.false_eq_true, if_false, head_or_end]
      unfold collect
      simp [is_end, rid, hrid]
  | cons r tl1 ih =>
    intro sc k p s fuel hs hfr hrid hp hsl hk hrest hfuel
    obtain ⟨fuel1, rfl⟩ : ∃ m, fuel = m + 1 := ⟨fuel - 1, by omega⟩
    have hne : sc.is_end = false := by
      simp only [is_end, hrid, RM_NO_PAGE, beq_eq_false_iff_ne, ne_eq]
      simp only [RM_FIRST_RECORD_PAGE] at hp
      omega
    obtain ⟨k1, g1, g2, g3, g4⟩ := rest_cons fh0 k p s r tl1 hsl hrest
    obtain ⟨n1, n2⟩ := next_frames sc k p s hrid hfr (by rw [hs.hdr]; exact hk)
    rcases next_spec fh0 hlayout sc k p s hs hrid hp hsl hk with h | ⟨fh1, h1, h2⟩
    · exact absurd h n1
    · have hfr1 : Frames fh1 r.page_no := by
        rcases n2 _ h2 with h3 | h3
        · simp only [hrest, head_or_end, RM_NO_PAGE] at h3
          simp only [RM_FIRST_RECORD_PAGE] at hp
          omega
        · simp only [hrest, head_or_end] at h3
          exact h3
      have := ih { file_handle_ := fh1, rid_ := r } k1 r.page_no r.slot_no fuel1 h1 hfr1 rfl
        (by omega) (by omega) (by omega) g4 (by simp only [List.length_cons] at hfuel; omega)
      unfold collect
      simp only [hne, h2, hrest, Bool.false_eq_true, if_false, head_or_end]
      rw [this]; simp [rid, hrid]

/-- A scan over a pool with a frame for every data page. For a table file with at
least one data page whose bitmap lies within its `bitmap_size` bytes, held in a
pool with sound bookkeeping for its data pages and with at least as many frames
in the Free Frame List as the file has data pages, the caller that reads `rid()`
and calls `next()` until `is_end()` stops within `length + 2` rounds, and the
Rids it has read are exactly `all_rids`: the pairs (page_no, slot_no) with
`RM_FIRST_RECORD_PAGE ≤ page_no < num_pages`,
`0 ≤ slot_no < num_records_per_page` and the bitmap bit set, each once, in
strictly ascending (page number, slot number) order. -/
theorem scan_yields_occupied_slots (fh : RmFileHandle)
    (hdata : RM_FIRST_RECORD_PAGE < fh.file_hdr_.num_pages)
    (hlayout : fh.file_hdr_.num_records_per_page ≤ 8 * fh.file_hdr_.bitmap_size)
    (hpool : ∀ p, RM_FIRST_RECORD_PAGE ≤ p → p < fh.file_hdr_.num_pages →
      BufferPoolManager.Cached ⟨fh.fd_, p⟩ (fh.buffer_pool_manager_.content ⟨fh.fd_, p⟩)
        fh.buffer_pool_manager_)
    (hframes : fh.file_hdr_.num_pages - RM_FIRST_RECORD_PAGE
      ≤ (fh.buffer_pool_manager_.free_list_.length : Int)) :
    (∀ fuel, (all_rids fh).length + 2 ≤ fuel → scan fuel fh = .ok (all_rids fh)) ∧
    (∀ rid, rid ∈ all_rids fh ↔
      RM_FIRST_RECORD_PAGE ≤ rid.page_no ∧ rid.page_no < fh.file_hdr_.num_pages ∧
        0 ≤ rid.slot_no ∧ rid.slot_no < fh.file_hdr_.num_records_per_page ∧
        (fh.buffer_pool_manager_.content ⟨fh.fd_, rid.page_no⟩).bitmap rid.slot_no = true) ∧
    (all_rids fh).Pairwise rid_lt := by
  refine ⟨?_, ?_, rids_from_sorted fh _ _⟩
  · intro fuel hfuel
    have hs : Sound fh fh := ⟨rfl, rfl, hpool⟩
    have hfr : Frames fh RM_FIRST_RECORD_PAGE := Or.inl hframes
    obtain ⟨k, hk⟩ : ∃ k : Nat, RM_FIRST_RECORD_PAGE + (k : Int) + 1 = fh.file_hdr_.num_pages :=
      ⟨(fh.file_hdr_.num_pages - RM_FIRST_RECORD_PAGE - 1).toNat, by omega⟩
    have hall : all_rids fh = rest fh k RM_FIRST_RECORD_PAGE (-1) := by
      unfold all_rids
      have : (fh.file_hdr_.num_pages - RM_FIRST_RECORD_PAGE).toNat = k + 1 := by omega
      rw [this]; rfl
    obtain ⟨n1, n2⟩ := next_frames { file_handle_ := fh, rid_ := ⟨RM_FIRST_RECORD_PAGE, -1⟩ } k
      RM_FIRST_RECORD_PAGE (-1) rfl hfr hk
    unfold scan create
    rcases next_spec fh hlayout { file_handle_ := fh, rid_ := ⟨RM_FIRST_RECORD_PAGE, -1⟩ } k
      RM_FIRST_RECORD_PAGE (-1) hs rfl (Int.le_refl _) (Int.le_refl _) hk with h | ⟨fh1, h1, h2⟩
    · exact absurd h n1
    · rw [h2]
      simp only
      cases hr : rest fh k RM_FIRST_RECORD_PAGE (-1) with
      | nil =>
        obtain ⟨fuel1, rfl⟩ : ∃ m, fuel = m + 1 := ⟨fuel - 1, by omega⟩
        rw [hall, hr]
        unfold collect
        simp [head_or_end, is_end]
      | cons r tl =>
        obtain ⟨k1, g1, g2, g3, g4⟩ := rest_cons fh k RM_FIRST_RECORD_PAGE (-1) r tl
          (Int.le_refl _) hr
        have hfr1 : Frames fh1 r.page_no := by
          rcases n2 _ h2 with h3 | h3
          · simp only [hr, head_or_end, RM_NO_PAGE] at h3
            simp only [RM_FIRST_RECORD_PAGE] at g1
            omega
          · simp only [hr, head_or_end] at h3
            exact h3
        have := collect_frames fh hlayout tl { file_handle_ := fh1, rid_ := r } k1 r.page_no
          r.slot_no fuel h1 hfr1 rfl g1 (by omega) (by omega) g4 (by
            rw [hall, hr] at hfuel; simp only [List.length_cons] at hfuel; omega)
        simp only [head_or_end]
        rw [hall, hr]
        exact this
  · intro rid
    unfold all_rids
    rw [mem_rids_from]
    have : RM_FIRST_RECORD_PAGE +
        (((fh.file_hdr_.num_pages - RM_FIRST_RECORD_PAGE).toNat : Nat) : Int)
        = fh.file_hdr_.num_pages := by omega
    rw [this]

/-- The scan of `demoScanFile`, one data page of capacity 4 with the slots 0 and 2
occupied, over a fresh pool of two frames yields the Rids (1, 0), (1, 2) and then
the end of the scan; the scan of `demoBigFileTwoFrames`, two data pages with the
slot (2, 0) occupied, over a fresh pool of two frames yields (2, 0). -/
theorem scan_yields_occupied_slots_examples :
    (all_rids demoScanFile = [⟨1, 0⟩, ⟨1, 2⟩] ∧
        ∀ fuel, 4 ≤ fuel → scan fuel demoScanFile = .ok [⟨1, 0⟩, ⟨1, 2⟩]) ∧
      (all_rids demoBigFileTwoFrames = [⟨2, 0⟩] ∧
        ∀ fuel, 3 ≤ fuel → scan fuel demoBigFileTwoFrames = .ok [⟨2, 0⟩]) := by
  have e1 : all_rids demoScanFile = [⟨1, 0⟩, ⟨1, 2⟩] := by rfl
  have e2 : all_rids demoBigFileTwoFrames = [⟨2, 0⟩] := by rfl
  have h1 := (scan_yields_occupied_slots demoScanFile (by decide) (by decide)
    (fun p hp _ => BufferPoolManager.cached_init 2 demoScanDisk ⟨3, p⟩
      (valid_of_data_page 3 p hp)) (by decide)).1
  have h2 := (scan_yields_occupied_slots demoBigFileTwoFrames (by decide) (by decide)
    (fun p hp _ => BufferPoolManager.cached_init 2 demoBigDisk ⟨3, p⟩
      (valid_of_data_page 3 p hp)) (by decide)).1
  rw [e1] at h1
  rw [e2] at h2
  exact ⟨⟨e1, fun fuel hf => h1 fuel hf⟩, ⟨e2, fun fuel hf => h2 fuel hf⟩⟩

end RmScan

end Rucbase
